import Mathlib

/-!
Verification of warpgate: derived-extent byte views and the vertex-stream transcoder.

A shallow embedding of

* `lib/internal/mrn_loader/src/nsa_file.cpp` (animation clip and its static, dynamic and
  root segments), and
* `src/utils/gltf.cpp` (`utils::gltf::dme::expand_vertex_stream`),

followed by theorems about the embedded functions.

Conventions.  A buffer is a list of byte values.  Unsigned machine integers are natural
numbers with the wrap-around written out (`% 2 ^ 32`, `% 2 ^ 64`).  A C++ function that can
throw, exit or run into undefined behaviour returns `Except Failure _`.
-/

namespace warpgate

/-! ## Failures and byte buffers -/

/-- The ways in which an embedded function can fail to return. -/
inductive Failure where
  /-- a bounds-checked accessor (or a container `at`) threw -/
  | out_of_range
  /-- undefined behaviour: a violated `std::span` precondition or a division by zero -/
  | undefined
  /-- the process was terminated by `std::exit(code)` -/
  | exit (code : Nat)
  /-- not a behaviour of the program: the iteration bound given to the model was too small -/
  | out_of_fuel
  deriving DecidableEq, Repr

deriving instance DecidableEq for Except

/-- A buffer of bytes; an element stands for the byte value `b % 256`. -/
abbrev Bytes := List Nat

/-- Wrap to `uint32_t`. -/
def u32 (n : Nat) : Nat := n % 2 ^ 32

/-- Wrap to `uint64_t`. -/
def u64 (n : Nat) : Nat := n % 2 ^ 64

/-- Unsigned 64-bit subtraction `a - b` (both operands are `uint64_t`). -/
def sub64 (a b : Nat) : Nat := (a % 2 ^ 64 + (2 ^ 64 - b % 2 ^ 64)) % 2 ^ 64

/-- Unsigned 32-bit subtraction `a - b` (both operands are `uint32_t`). -/
def sub32 (a b : Nat) : Nat := (a % 2 ^ 32 + (2 ^ 32 - b % 2 ^ 32)) % 2 ^ 32

/-- The statement `x += 16 - x % 16;` on a `uint64_t` (lines 206 and 319). -/
def pad16 (x : Nat) : Nat := u64 (x + (16 - x % 16))

/-- The value of a little-endian byte sequence. -/
def le_value : Bytes → Nat
  | [] => 0
  | b :: bs => b % 256 + 256 * le_value bs

/-- Modelled from the spec: the accessor `get<T>(offset)` of the view classes, whose
template lives in the headers (`nsa_file.h`, `parameter.h`) that are not part of the
sources.  It "reads a typed value at a given byte offset and fails if the offset plus the
value's width exceeds the view's extent".  This is the raw `width` bytes of the value. -/
def get_bytes (buf : Bytes) (offset width : Nat) : Except Failure Bytes :=
  if offset + width ≤ buf.length then .ok ((buf.drop offset).take width)
  else .error .out_of_range

/-- Modelled from the spec: `get<uint32_t>(offset)`, the value being stored little-endian
(the one big-endian field, the CRC, is byte-swapped explicitly by `NSAFile::crc32hash`). -/
def get_u32 (buf : Bytes) (offset : Nat) : Except Failure Nat :=
  (get_bytes buf offset 4).map le_value

/-- Modelled from the spec: `get<uint64_t>(offset)`, little-endian. -/
def get_u64 (buf : Bytes) (offset : Nat) : Except Failure Nat :=
  (get_bytes buf offset 8).map le_value

/-- The call `buf.first(count)` of `std::span`: its precondition is `count <= size()`,
and violating it is undefined behaviour. -/
def first (buf : Bytes) (count : Nat) : Except Failure Bytes :=
  if count ≤ buf.length then .ok (buf.take count) else .error .undefined

/-- The call `buf.subspan(offset)` of `std::span`: its precondition is `offset <= size()`. -/
def subspan (buf : Bytes) (offset : Nat) : Except Failure Bytes :=
  if offset ≤ buf.length then .ok (buf.drop offset) else .error .undefined

/-- A `std::span<T>` handed out by an accessor: where it starts, relative to the start of
the view it was taken from, how many elements it has and the size of one element.  No
byte is read when such a span is formed. -/
structure Span where
  offset : Nat
  size : Nat
  elem : Nat
  deriving DecidableEq, Repr

/-- The member `size_bytes()` of `std::span`. -/
def Span.size_bytes (s : Span) : Nat := s.size * s.elem

/-- The value-initialised span `{}`. -/
def Span.empty (elem : Nat) : Span := ⟨0, 0, elem⟩

/-- The bytes a span covers lie inside a view of `len` bytes. -/
def Span.inside (s : Span) (len : Nat) : Prop := s.offset + s.size_bytes ≤ len

instance (s : Span) (len : Nat) : Decidable (s.inside len) := by
  unfold Span.inside; infer_instance

/-- The value of `sizeof(Vector3Short)`: three 16-bit signed integers. -/
def sizeof_Vector3Short : Nat := 6

/-- The value of `sizeof(uint32_t)`. -/
def sizeof_uint32 : Nat := 4

/-- The value of `sizeof(DequantizationFactors)`: two vectors of three 32-bit floats. -/
def sizeof_DequantizationFactors : Nat := 24

/-- The value of `sizeof(Quaternion)`: four 32-bit floats. -/
def sizeof_Quaternion : Nat := 16

/-! ## `NSAStaticSegment` -/

/-- The static segment: a view (`buf_`) over the clip buffer. -/
structure NSAStaticSegment where
  buf_ : Bytes
  deriving DecidableEq, Repr

namespace NSAStaticSegment

def translation_bone_count (s : NSAStaticSegment) : Except Failure Nat := get_u32 s.buf_ 0

def rotation_bone_count (s : NSAStaticSegment) : Except Failure Nat := get_u32 s.buf_ 4

/-- The two warnings this accessor logs for a non-zero count are not modelled. -/
def scale_bone_count (s : NSAStaticSegment) : Except Failure Nat := get_u32 s.buf_ 8

def translation_data_ptr (s : NSAStaticSegment) : Except Failure Nat := get_u64 s.buf_ 72

def rotation_data_ptr (s : NSAStaticSegment) : Except Failure Nat := get_u64 s.buf_ 80

def scale_data_ptr (s : NSAStaticSegment) : Except Failure Nat := get_u64 s.buf_ 88

/-- The local `count` of the constructor, before it is padded (lines 192-205), as a
function of the six header fields. -/
def channel_bytes (tp rp sp tc rc sc : Nat) : Nat :=
  if sp ≠ 0 ∧ tp ≠ 0 then u64 (sub64 sp tp + sc * sizeof_Vector3Short)
  else if rp ≠ 0 ∧ tp ≠ 0 then u64 (sub64 rp tp + rc * sizeof_Vector3Short)
  else if sp ≠ 0 ∧ rp ≠ 0 then u64 (sub64 sp rp + sc * sizeof_Vector3Short)
  else if tp ≠ 0 then tc * sizeof_Vector3Short
  else if rp ≠ 0 then rc * sizeof_Vector3Short
  else if sp ≠ 0 then sc * sizeof_Vector3Short
  else 0

/-- The argument of `buf_.first(...)` in the constructor: `96 + count`.  The constructor
reads the fields as it needs them, the scale offset (the last field of the header)
first; a buffer that holds that field holds them all, so reading the six fields before
the case distinction fails in exactly the same cases. -/
def extent (s : NSAStaticSegment) : Except Failure Nat := do
  let sp ← s.scale_data_ptr
  let tp ← s.translation_data_ptr
  let rp ← s.rotation_data_ptr
  let tc ← s.translation_bone_count
  let rc ← s.rotation_bone_count
  let sc ← s.scale_bone_count
  pure (u64 (96 + pad16 (channel_bytes tp rp sp tc rc sc)))

/-- The constructor `NSAStaticSegment::NSAStaticSegment(std::span<uint8_t> subspan)`. -/
def new (subspan : Bytes) : Except Failure NSAStaticSegment := do
  let n ← extent ⟨subspan⟩
  let b ← first subspan n
  pure ⟨b⟩

/-- The accessor `translation_data()`. -/
def translation_data (s : NSAStaticSegment) : Except Failure Span := do
  let p ← s.translation_data_ptr
  let c ← s.translation_bone_count
  pure ⟨p, c, sizeof_Vector3Short⟩

/-- The accessor `rotation_data()`. -/
def rotation_data (s : NSAStaticSegment) : Except Failure Span := do
  let p ← s.rotation_data_ptr
  let c ← s.rotation_bone_count
  pure ⟨p, c, sizeof_Vector3Short⟩

/-- The accessor `scale_data()`. -/
def scale_data (s : NSAStaticSegment) : Except Failure Span := do
  let p ← s.scale_data_ptr
  let c ← s.scale_bone_count
  pure ⟨p, c, sizeof_Vector3Short⟩

end NSAStaticSegment

/-! ## `NSADynamicSegment` -/

/-- The power of two that separates neighbouring `float` values around `v`: `1` below
`2 ^ 24`, doubling with every further binary digit of `v`. -/
def float_ulp : Nat → Nat → Nat
  | 0, _ => 1
  | k + 1, v => if v < 2 ^ 24 then 1 else 2 * float_ulp k (v / 2)

/-- The conversion `(float)value` of a `uint32_t`: the nearest number with a 24-bit
significand, ties going to the even significand.  The result is a whole number (it can
be `2 ^ 32`), which is why it is represented by a `Nat`. -/
def float_of_u32 (value : Nat) : Nat :=
  let u := float_ulp 32 value
  let q := value / u
  let r := value % u
  if u < 2 * r ∨ (2 * r = u ∧ q % 2 = 1) then (q + 1) * u else q * u

/-- The function `next_multiple_of_4`: `((uint32_t)std::ceil(((float)value) / 4)) * 4`.
Dividing a `float` by 4 and taking the ceiling are exact, the cast back fits, and the
final product is a `uint32_t` product. -/
def next_multiple_of_4 (value : Nat) : Nat :=
  u32 ((float_of_u32 value + 3) / 4 * 4)

/-- The dynamic segment: its view and the three vectors of per-sample spans that the
constructor fills. -/
structure NSADynamicSegment where
  buf_ : Bytes
  m_translation_data : List Span
  m_rotation_data : List Span
  m_scale_data : List Span
  deriving DecidableEq, Repr

namespace NSADynamicSegment

def sample_count (buf : Bytes) : Except Failure Nat := get_u32 buf 0

def translation_bone_count (buf : Bytes) : Except Failure Nat := get_u32 buf 4

def rotation_bone_count (buf : Bytes) : Except Failure Nat := get_u32 buf 8

def scale_bone_count (buf : Bytes) : Except Failure Nat := get_u32 buf 12

def translation_data_ptr (buf : Bytes) : Except Failure Nat := get_u64 buf 16

def translation_dequantization_info_ptr (buf : Bytes) : Except Failure Nat := get_u64 buf 24

def rotation_data_ptr (buf : Bytes) : Except Failure Nat := get_u64 buf 32

def rotation_dequantization_info_ptr (buf : Bytes) : Except Failure Nat := get_u64 buf 40

def scale_data_ptr (buf : Bytes) : Except Failure Nat := get_u64 buf 48

def scale_dequantization_info_ptr (buf : Bytes) : Except Failure Nat := get_u64 buf 56

/-- The initialiser of `sample_padding` (line 275) for sample count `S`, rotation bone
count `R` and the two rotation offsets.  The modulus `S * R * 2` is a `uint32_t`
product; a zero modulus or a zero divisor is a division by zero. -/
def sample_padding (S R rinfo rdata : Nat) : Except Failure Nat :=
  if R > 0 then
    if u32 (S * R * 2) = 0 then .error .undefined
    else if S = 0 then .error .undefined
    else .ok (u32 (sub64 rinfo rdata % u32 (S * R * 2) / S))
  else .ok 0

/-- The spans pushed by the loop of lines 282-310 onto one of the three vectors: one per
sample, `step` bytes apart, and none at all when the channel has no bone. -/
def sample_spans (S ptr step bones elem : Nat) : List Span :=
  ((List.range S).map fun i => (⟨ptr + u64 (i * step), bones, elem⟩ : Span)).filter
    fun sp => sp.size > 0

/-- The local `length` of the constructor before it is padded (lines 311-318); `sizeofDI`
is `sizeof(DequantizationInfo)`, a type declared in the header. -/
def data_length (sizeofDI S T R C pad : Nat) : Nat :=
  u64 ((sizeof_uint32 * T + sizeof_Vector3Short * R + pad + sizeof_uint32 * C) * S
    + u32 (next_multiple_of_4 T + next_multiple_of_4 R + next_multiple_of_4 C) * sizeofDI)

/-- The constructor `NSADynamicSegment::NSADynamicSegment(std::span<uint8_t> subspan)`. -/
def new (sizeofDI : Nat) (subspan : Bytes) : Except Failure NSADynamicSegment := do
  let S ← sample_count subspan
  let R0 ← rotation_bone_count subspan
  let pad ← (if R0 > 0 then do
      let rinfo ← rotation_dequantization_info_ptr subspan
      let rdata ← rotation_data_ptr subspan
      sample_padding S R0 rinfo rdata
    else pure 0)
  let T ← translation_bone_count subspan
  let R ← rotation_bone_count subspan
  let C ← scale_bone_count subspan
  let tp ← translation_data_ptr subspan
  let rp ← rotation_data_ptr subspan
  let sp ← scale_data_ptr subspan
  let length := pad16 (data_length sizeofDI S T R C pad)
  let b ← first subspan (u64 (64 + length))
  pure {
    buf_ := b
    m_translation_data := sample_spans S tp (sizeof_uint32 * T) T sizeof_uint32
    m_rotation_data := sample_spans S rp (sizeof_Vector3Short * R + pad) R sizeof_Vector3Short
    m_scale_data := sample_spans S sp (sizeof_uint32 * C) C sizeof_uint32 }

end NSADynamicSegment

/-! ## `NSARootSegment` -/

/-- The root-motion segment: a view over the clip buffer. -/
structure NSARootSegment where
  buf_ : Bytes
  deriving DecidableEq, Repr

namespace NSARootSegment

def sample_count (s : NSARootSegment) : Except Failure Nat := get_u32 s.buf_ 28

def translation_data_ptr (s : NSARootSegment) : Except Failure Nat := get_u64 s.buf_ 80

def rotation_data_ptr (s : NSARootSegment) : Except Failure Nat := get_u64 s.buf_ 88

/-- The accessor `rotation_factors()`: an optional reference to the 24 bytes at offset 56. -/
def rotation_factors (s : NSARootSegment) : Except Failure (Option Bytes) := do
  let p ← s.rotation_data_ptr
  if p = 0 then pure none
  else do
    let v ← get_bytes s.buf_ 56 sizeof_DequantizationFactors
    pure (some v)

/-- The accessor `constant_rotation()`: an optional reference to the 16 bytes at offset 56. -/
def constant_rotation (s : NSARootSegment) : Except Failure (Option Bytes) := do
  let p ← s.rotation_data_ptr
  if p ≠ 0 then pure none
  else do
    let v ← get_bytes s.buf_ 56 sizeof_Quaternion
    pure (some v)

/-- The accessor `translation_data()`. -/
def translation_data (s : NSARootSegment) : Except Failure Span := do
  let p ← s.translation_data_ptr
  if p = 0 then pure (Span.empty sizeof_uint32)
  else do
    let n ← s.sample_count
    pure ⟨p, n, sizeof_uint32⟩

/-- The accessor `rotation_data()`. -/
def rotation_data (s : NSARootSegment) : Except Failure Span := do
  let p ← s.rotation_data_ptr
  if p = 0 then pure (Span.empty sizeof_Vector3Short)
  else do
    let n ← s.sample_count
    pure ⟨p, n, sizeof_Vector3Short⟩

/-- The constructor `NSARootSegment::NSARootSegment(std::span<uint8_t> subspan)`. -/
def new (subspan : Bytes) : Except Failure NSARootSegment := do
  let t ← translation_data ⟨subspan⟩
  let r ← rotation_data ⟨subspan⟩
  let b ← first subspan (u64 (96 + t.size_bytes + r.size_bytes))
  pure ⟨b⟩

end NSARootSegment

/-! ## `NSAFile` -/

/-- The animation clip: its buffer and the three optional child segments (a null
`shared_ptr` is `none`). -/
structure NSAFile where
  buf_ : Bytes
  m_static_segment : Option NSAStaticSegment
  m_dynamic_segment : Option NSADynamicSegment
  m_root_segment : Option NSARootSegment
  deriving DecidableEq, Repr

namespace NSAFile

def static_segment_ptr (buf : Bytes) : Except Failure Nat := get_u64 buf 160

def dynamic_segment_ptr (buf : Bytes) : Except Failure Nat := get_u64 buf 168

def root_segment_ptr (buf : Bytes) : Except Failure Nat := get_u64 buf 176

/-- One `if(ptr != 0x00) { m_segment = std::make_shared<Segment>(buf_.subspan(ptr)); }` of
the constructor, for the segment constructor `build`. -/
def child {σ : Type} (buf : Bytes) (ptr : Nat) (build : Bytes → Except Failure σ) :
    Except Failure (Option σ) :=
  if ptr ≠ 0 then do
    let b ← subspan buf ptr
    let seg ← build b
    pure (some seg)
  else pure none

/-- The constructor `NSAFile::NSAFile(std::span<uint8_t> subspan)`; `sizeofDI` is
`sizeof(DequantizationInfo)`. -/
def new (sizeofDI : Nat) (subspan : Bytes) : Except Failure NSAFile := do
  let sptr ← static_segment_ptr subspan
  let st ← child subspan sptr NSAStaticSegment.new
  let dptr ← dynamic_segment_ptr subspan
  let dy ← child subspan dptr (NSADynamicSegment.new sizeofDI)
  let rptr ← root_segment_ptr subspan
  let ro ← child subspan rptr NSARootSegment.new
  pure { buf_ := subspan, m_static_segment := st, m_dynamic_segment := dy, m_root_segment := ro }

end NSAFile

/-! ## Buffers for concrete evaluations -/

/-- The `width` low bytes of `n`, least significant first. -/
def le_bytes : Nat → Nat → Bytes
  | 0, _ => []
  | w + 1, n => n % 256 :: le_bytes w (n / 256)

/-- A 96-byte static-segment header with the given bone counts (translation, rotation,
scale) and data offsets, every other byte zero. -/
def static_header (tc rc sc tp rp sp : Nat) : Bytes :=
  le_bytes 4 tc ++ le_bytes 4 rc ++ le_bytes 4 sc ++ List.replicate 60 0
    ++ le_bytes 8 tp ++ le_bytes 8 rp ++ le_bytes 8 sp

/-- A 64-byte dynamic-segment header: sample count, three bone counts, and the six
offsets (data, dequantization info) of translation, rotation and scale. -/
def dynamic_header (S T R C tp ti rp ri sp si : Nat) : Bytes :=
  le_bytes 4 S ++ le_bytes 4 T ++ le_bytes 4 R ++ le_bytes 4 C
    ++ le_bytes 8 tp ++ le_bytes 8 ti ++ le_bytes 8 rp ++ le_bytes 8 ri
    ++ le_bytes 8 sp ++ le_bytes 8 si

/-- A 96-byte root-segment header with the given sample count and data offsets. -/
def root_header (n tp rp : Nat) : Bytes :=
  List.replicate 28 0 ++ le_bytes 4 n ++ List.replicate 48 0 ++ le_bytes 8 tp ++ le_bytes 8 rp

/-- A 184-byte clip header with the given segment offsets. -/
def file_header (sptr dptr rptr : Nat) : Bytes :=
  List.replicate 160 0 ++ le_bytes 8 sptr ++ le_bytes 8 dptr ++ le_bytes 8 rptr

/-- A clip of 412 bytes: header, a static segment with no channel at offset 184, no
dynamic segment, a root segment with three translation samples at offset 296. -/
def example_clip : Bytes :=
  file_header 184 0 296 ++ static_header 0 0 0 0 0 0 ++ List.replicate 16 0
    ++ root_header 3 96 0 ++ List.replicate 20 0

/-- The clip object built from `example_clip`. -/
def example_file : NSAFile :=
  { buf_ := example_clip
    m_static_segment := some ⟨static_header 0 0 0 0 0 0 ++ List.replicate 16 0⟩
    m_dynamic_segment := none
    m_root_segment := some ⟨root_header 3 96 0 ++ List.replicate 12 0⟩ }

/-! ## Reference definitions taken from the specification -/

/-- The rounding of the specification, "rounded up to 16 bytes": the smallest multiple of
16 that is greater than or equal to `n`. -/
def spec_round_up_16 (n : Nat) : Nat := (n + 15) / 16 * 16

/-! ## `utils::gltf::dme::expand_vertex_stream`

`float` values are modelled by the rational numbers they stand for.  The conversions whose
results are exactly representable (a `half` to a `float`, `b / 128.0f - 1` of a byte `b`)
are exact; the quotient `b / 255.0f` of a weight byte is rounded to single precision by
`f32_div`; the arithmetic of the normal calculation (lines 856-878) is taken exact.  The
output vector is a list of cells, a cell being either one raw byte or one 32-bit `float`
(four bytes of output).
-/

/-- Three `float` components. -/
abbrev Vec3 := ℚ × ℚ × ℚ

/-- One unit of the output vector. -/
inductive Cell where
  /-- one byte copied or synthesised as an integer -/
  | byte (b : Nat)
  /-- the four bytes of one `float` -/
  | f32 (x : ℚ)
  deriving DecidableEq, Repr

/-- The number of output bytes a cell stands for. -/
def Cell.width : Cell → Nat
  | .byte _ => 1
  | .f32 _ => 4

/-- The number of bytes of an output vector. -/
def output_size (out : List Cell) : Nat := (out.map Cell.width).sum

/-- One element of `layout["entries"]`. -/
structure Entry where
  stream : Nat
  type : String
  usage : String
  usageIndex : Nat
  deriving DecidableEq, Repr

/-- The JSON value `layout`: `sizes` maps a stream (the key is its decimal rendering) to its
declared stride, `entries` is the ordered entry list. -/
structure Layout where
  sizes : List (Nat × Nat)
  entries : List Entry
  deriving DecidableEq, Repr

/-- The read `layout.at("sizes").at(std::to_string(stream)).get<uint32_t>()`. -/
def Layout.size_at (l : Layout) (stream : Nat) : Except Failure Nat :=
  match l.sizes.lookup stream with
  | some v => .ok (u32 v)
  | none => .error .out_of_range

/-- The assignment `layout.at("sizes").at(std::to_string(stream)) = v`. -/
def Layout.set_size (l : Layout) (stream v : Nat) : Layout :=
  { l with sizes := l.sizes.map fun p => if p.1 = stream then (p.1, v) else p }

/-- The entry list with the type of entry `i` replaced. -/
def set_entry_type : List Entry → Nat → String → List Entry
  | [], _, _ => []
  | e :: es, 0, t => { e with type := t } :: es
  | e :: es, i + 1, t => e :: set_entry_type es i t

/-- The assignment `layout.at("entries").at(i).at("type") = t`. -/
def Layout.set_type (l : Layout) (i : Nat) (t : String) : Layout :=
  { l with entries := set_entry_type l.entries i t }

/-- The statement `layout.at("sizes").at(s) = layout.at("sizes").at(s).get<uint32_t>() + d`. -/
def Layout.grow (l : Layout) (stream d : Nat) : Except Failure Layout := do
  let cur ← l.size_at stream
  pure (l.set_size stream (u32 (cur + d)))

/-- What `expand_vertex_stream` calls but the sources do not contain: the table
`utils::materials3::sizes` (bytes per encoded type), `DME::map_bone`, and the helpers
`utils::load_vector(type, vertex_offset, entry_offset, vertices, out)` and
`utils::normalize(v)`, both of which work on a `float[3]` in place. -/
structure Externals where
  sizes : String → Option Nat
  map_bone : Nat → Nat
  load_vector : String → Nat → Nat → Bytes → Vec3 → Except Failure Vec3
  normalize : Vec3 → Vec3

/-- The lookup `utils::materials3::sizes.at(type)`, stored in a `uint32_t`. -/
def size_of_type (sizes : String → Option Nat) (type : String) : Except Failure Nat :=
  match sizes type with
  | some s => .ok (u32 s)
  | none => .error .out_of_range

/-- Lines 704-711: the declared stride against `mesh->bytes_per_vertex(stream)`. -/
def effective_stride (declared bpv : Nat) : Except Failure Nat :=
  if bpv > declared then .error (.exit 32)
  else if bpv < declared then .ok bpv
  else .ok declared

/-- The locals of `expand_vertex_stream` that the loop over the layout entries (lines
724-774) updates, together with the layout it rewrites. -/
structure Scan where
  layout : Layout
  offsets : List (Nat × Bool)
  conversion_required : Bool
  tangent_index : Int
  binormal_index : Int
  normal_index : Int
  blend_indices_index : Int
  blend_weights_index : Int
  vert_index_offset : Int
  has_normals : Bool
  bone_remapping : Bool
  weight_conversion : Bool
  expand_normals : Bool
  byte_stride : Nat
  deriving DecidableEq, Repr

/-- The locals as initialised on lines 712-722. -/
def Scan.init (layout : Layout) : Scan :=
  { layout := layout, offsets := [], conversion_required := false, tangent_index := -1,
    binormal_index := -1, normal_index := -1, blend_indices_index := -1,
    blend_weights_index := -1, vert_index_offset := 0, has_normals := false,
    bone_remapping := false, weight_conversion := false, expand_normals := false,
    byte_stride := 0 }

/-- The test `type == "Float16_2" || type == "float16_2"`. -/
def needs_conversion (type : String) : Bool :=
  decide (type = "Float16_2" ∨ type = "float16_2")

/-- The part of the loop body after `offsets.push_back` (lines 747-773): the rewriting of
the entry and the flags, for entry `i` with the type and usage it had on entry. -/
def scan_usage (stream : Nat) (entry : Entry) (i : Nat) (st : Scan) : Except Failure Scan := do
  let st ← (if needs_conversion entry.type then do
      let l ← (st.layout.set_type i "Float2").grow stream 4
      pure { st with conversion_required := true, layout := l }
    else pure st)
  if entry.usage = "Normal" then do
    let st := { st with has_normals := true }
    let st ← (if entry.type = "ubyte4n" then do
        let l ← (st.layout.set_type i "Float3").grow stream 8
        pure { st with layout := l, expand_normals := true }
      else pure st)
    pure { st with normal_index := i }
  else if entry.usage = "Binormal" then
    pure { st with binormal_index := i }
  else if entry.usage = "Tangent" then
    pure { st with tangent_index := i }
  else if entry.usage = "BlendIndices" then
    pure { st with bone_remapping := true, blend_indices_index := i }
  else if entry.usage = "BlendWeight" ∧ entry.type = "ubyte4n" then do
    let l ← (st.layout.set_type i "Float4").grow stream 12
    pure { st with weight_conversion := true, blend_weights_index := i, layout := l }
  else pure st

/-- One iteration of the loop over the layout entries (lines 725-773), for entry `i`.  The
subtraction of line 735 is stored as a `uint32_t`, the type every later read of the
value converts to. -/
def scan_entry (sizes : String → Option Nat) (stream bpv : Nat) (entry : Entry) (i : Nat)
    (st : Scan) : Except Failure Scan :=
  if entry.stream ≠ stream then
    .ok (if entry.stream < stream then { st with vert_index_offset := st.vert_index_offset + 1 }
      else st)
  else if st.byte_stride ≥ bpv then do
    let size ← size_of_type sizes entry.type
    let cur ← st.layout.size_at stream
    pure { st with layout := st.layout.set_size stream (sub32 cur size) }
  else do
    let size ← size_of_type sizes entry.type
    let st := { st with byte_stride := u32 (st.byte_stride + size),
                        offsets := st.offsets ++ [(size, needs_conversion entry.type)] }
    scan_usage stream entry i st

/-- The loop over the layout entries, from entry `i` on.  Iteration `i` reads entry `i` of
the layout, which no earlier iteration has rewritten, so the entries are taken from the
list the loop started with. -/
def scan_loop (sizes : String → Option Nat) (stream bpv : Nat) :
    List Entry → Nat → Scan → Except Failure Scan
  | [], _, st => .ok st
  | entry :: rest, i, st => do
    let st ← scan_entry sizes stream bpv entry i st
    scan_loop sizes stream bpv rest (i + 1) st

/-- Lines 712-774: the locals after the loop over the layout entries. -/
def scan (sizes : String → Option Nat) (layout : Layout) (stream bpv : Nat) :
    Except Failure Scan :=
  scan_loop sizes stream bpv layout.entries 0 (Scan.init layout)

/-- The type of the entry a recorded index points to, `""` for the index `-1` (lines
776-780). -/
def type_at (layout : Layout) (index : Int) : Except Failure String :=
  if index ≠ -1 then
    match layout.entries.get? index.toNat with
    | some e => .ok e.type
    | none => .error .out_of_range
  else .ok ""

/-- The value of `entry_offset` at the top of each iteration of the per-vertex loop over
`offsets` (lines 807 and 863), in `uint32_t` arithmetic. -/
def entry_offsets : Nat → List (Nat × Bool) → List Nat
  | _, [] => []
  | eo, p :: ps => eo :: entry_offsets (u32 (eo + p.1)) ps

/-- The value of a 16-bit `half`: sign, five exponent bits, ten fraction bits.  The
infinities and NaNs (exponent 31) have no rational value and are given the value 0, and
the negative zero is the value 0: for these bit patterns the model does not tell which
`float` is written. -/
def half_value (bits : Nat) : ℚ :=
  let s := bits / 32768 % 2
  let e := bits / 1024 % 32
  let m := bits % 1024
  let mag : ℚ :=
    if e = 0 then (m : ℚ) / 2 ^ 24
    else if e = 31 then 0
    else ((1024 + m : Nat) : ℚ) * 2 ^ e / 2 ^ 25
  if s = 1 then -mag else mag

/-- The whole number nearest to `n / d`, ties going to the even one. -/
def round_half_even (n d : Nat) : Nat :=
  let q := n / d
  let r := n % d
  if d < 2 * r ∨ (2 * r = d ∧ q % 2 = 1) then q + 1 else q

/-- The least `j ≥ k` with `2 ^ 23 * b ≤ a * 2 ^ j`, looked for in `fuel` steps. -/
def f32_shift (a b : Nat) : Nat → Nat → Nat
  | 0, k => k
  | fuel + 1, k => if 2 ^ 23 * b ≤ a * 2 ^ k then k else f32_shift a b fuel (k + 1)

/-- The quotient `(float)a / (float)b` of IEEE single precision, for whole numbers
`0 ≤ a < 2 ^ 24` and `0 < b < 2 ^ 24`: both operands are exactly representable and the
quotient is zero or lies in the normal range, so the result is the exact quotient scaled
by `2 ^ k` into `[2 ^ 23, 2 ^ 24)`, rounded to the nearest whole number (ties to even)
and scaled back.  The result is given as the pair of the significand and `k`. -/
def f32_div_parts (a b : Nat) : Nat × Nat :=
  if a = 0 then (0, 0)
  else
    let k := f32_shift a b 48 0
    (round_half_even (a * 2 ^ k) b, k)

/-- The value of the `float` quotient `(float)a / (float)b`. -/
def f32_div (a b : Nat) : ℚ := ((f32_div_parts a b).1 : ℚ) / 2 ^ (f32_div_parts a b).2

/-- Modelled from the spec: `vertices.get<uint8_t>(offset)` of `VertexStream`, a view
class of a header that is not in the sources. -/
def get_u8 (buf : Bytes) (offset : Nat) : Except Failure Nat :=
  (get_bytes buf offset 1).map le_value

/-- Modelled from the spec: `vertices.get<half>(offset)`, as the 16-bit pattern. -/
def get_u16 (buf : Bytes) (offset : Nat) : Except Failure Nat :=
  (get_bytes buf offset 2).map le_value

/-- The call `buf.subspan(offset, count)` of `std::span`: its precondition is
`offset <= size() && count <= size() - offset`. -/
def subspan_n (buf : Bytes) (offset count : Nat) : Except Failure Bytes :=
  if offset + count ≤ buf.length then .ok ((buf.drop offset).take count)
  else .error .undefined

/-- The buffer with the bytes `[offset, offset + bs.length)` overwritten by `bs`. -/
def write_bytes (buf : Bytes) (offset : Nat) (bs : Bytes) : Bytes :=
  buf.take offset ++ bs ++ buf.drop (offset + bs.length)

/-- Lines 866-878: the normal from the binormal, the tangent and the sign, `normalize`
being `utils::normalize`. -/
def calculate_normal (normalize : Vec3 → Vec3) (binormal tangent : Vec3) (sign : ℚ) : Vec3 :=
  let sign := sign / |sign|
  let b := normalize binormal
  let t := normalize tangent
  let n : Vec3 := (b.2.1 * t.2.2 - b.2.2 * t.2.1, b.2.2 * t.1 - b.1 * t.2.2,
    b.1 * t.2.1 - b.2.1 * t.1)
  let n := normalize n
  (n.1 * sign, n.2.1 * sign, n.2.2 * sign)

/-- The three components as output cells. -/
def Vec3.cells (v : Vec3) : List Cell := [.f32 v.1, .f32 v.2.1, .f32 v.2.2]

/-- The flags and types fixed before the per-vertex loop starts. -/
structure Plan where
  scan : Scan
  binormal_type : String
  tangent_type : String
  calculate_normals : Bool
  add_rigid_bones : Bool
  is_rigid : Bool
  stride : Nat
  deriving DecidableEq, Repr

/-- The locals of one iteration of the per-vertex loop (lines 807-814), the output
vector and the vertex buffer, which the loop writes to. -/
structure Vertex where
  entry_offset : Nat
  binormal : Vec3
  tangent : Vec3
  sign : ℚ
  normal : Vec3
  rigid_joint_index : Nat
  output : List Cell
  data : Bytes
  deriving DecidableEq, Repr

/-- The locals at the start of the iteration for one vertex. -/
def Vertex.init (output : List Cell) (data : Bytes) : Vertex :=
  { entry_offset := 0, binormal := (0, 0, 0), tangent := (0, 0, 0), sign := 0,
    normal := (0, 0, 0), rigid_joint_index := 0, output := output, data := data }

/-- Lines 817-843: what one element of `offsets` appends to the output.  `pos` is
`vertex_offset + entry_offset`.  The weights fill a `float[4]`, so a weight entry that is
not four bytes long leaves part of the array unset or writes past it. -/
def emit_entry (ext : Externals) (p : Plan) (pos : Nat) (index : Nat) (e : Nat × Bool)
    (v : Vertex) : Except Failure Vertex :=
  if e.2 then do
    let c0 ← get_u16 v.data pos
    let c1 ← get_u16 v.data (u32 (pos + 2))
    pure { v with output := v.output ++ [.f32 (half_value c0), .f32 (half_value c1)] }
  else if p.scan.expand_normals ∧ (index : Int) = p.scan.normal_index - p.scan.vert_index_offset
  then do
    let b0 ← get_u8 v.data pos
    let b1 ← get_u8 v.data (u32 (pos + 1))
    let b2 ← get_u8 v.data (u32 (pos + 2))
    let n : Vec3 := ((b0 : ℚ) / 128 - 1, (b1 : ℚ) / 128 - 1, (b2 : ℚ) / 128 - 1)
    pure { v with normal := n, output := v.output ++ n.cells }
  else do
    let raw ← subspan_n v.data pos e.1
    let remap := decide ((index : Int) = p.scan.blend_indices_index - p.scan.vert_index_offset)
    let to_add := if remap then raw.map fun b => ext.map_bone (b % 256) % 256 else raw
    let data := if remap then write_bytes v.data pos to_add else v.data
    if (index : Int) = p.scan.blend_weights_index - p.scan.vert_index_offset then
      if to_add.length = 4 then
        pure { v with data := data,
                      output := v.output ++ to_add.map fun b => .f32 (f32_div (b % 256) 255) }
      else .error .undefined
    else pure { v with data := data, output := v.output ++ to_add.map fun b => .byte (b % 256) }

/-- Lines 845-861: what the binormal and the tangent entry leave in the locals. -/
def load_entry (ext : Externals) (p : Plan) (vertex_offset pos : Nat) (index : Nat)
    (v : Vertex) : Except Failure Vertex := do
  let v ← (if (index : Int) = p.scan.binormal_index - p.scan.vert_index_offset then do
      let v ← (if p.calculate_normals then do
          let b ← ext.load_vector p.binormal_type vertex_offset v.entry_offset v.data v.binormal
          pure { v with binormal := b }
        else pure v)
      if p.is_rigid ∧ p.binormal_type = "ubyte4n" then do
        let j ← get_u8 v.data (u32 (pos + 3))
        pure { v with rigid_joint_index := ext.map_bone j % 2 ^ 16 }
      else pure v
    else pure v)
  if p.calculate_normals ∧ (index : Int) = p.scan.tangent_index - p.scan.vert_index_offset
  then do
    let t ← ext.load_vector p.tangent_type vertex_offset v.entry_offset v.data v.tangent
    let v := { v with tangent := t }
    if p.tangent_type = "ubyte4n" then do
      let s ← get_u8 v.data (u32 (pos + 3))
      pure { v with sign := (s : ℚ) / 255 * 2 - 1 }
    else pure { v with sign := -1 }
  else pure v

/-- The loop over `offsets` for one vertex (lines 815-864), from element `index` on. -/
def entry_loop (ext : Externals) (p : Plan) (vertex_offset : Nat) :
    List (Nat × Bool) → Nat → Vertex → Except Failure Vertex
  | [], _, v => .ok v
  | e :: es, index, v => do
    let pos := u32 (vertex_offset + v.entry_offset)
    let v ← emit_entry ext p pos index e v
    let v ← load_entry ext p vertex_offset pos index v
    entry_loop ext p vertex_offset es (index + 1)
      { v with entry_offset := u32 (v.entry_offset + e.1) }

/-- The body of the per-vertex loop (lines 807-889) for the vertex at `vertex_offset`. -/
def expand_vertex (ext : Externals) (p : Plan) (vertex_offset : Nat) (output : List Cell)
    (data : Bytes) : Except Failure (List Cell × Bytes) := do
  let v ← entry_loop ext p vertex_offset p.scan.offsets 0 (Vertex.init output data)
  let out := if p.calculate_normals then
      v.output ++ (calculate_normal ext.normalize v.binormal v.tangent v.sign).cells
    else v.output
  let out := if p.add_rigid_bones then
      out ++ [.byte (v.rigid_joint_index % 256), .byte 0, .byte 0, .byte 0,
        .f32 1, .f32 0, .f32 0, .f32 0]
    else out
  pure (out, v.data)

/-- The per-vertex loop (line 806), `vertex_offset` being a `uint32_t`.  `fuel` bounds the
number of iterations the model runs; `Failure.out_of_fuel` reports that it did not
suffice. -/
def vertex_loop (ext : Externals) (p : Plan) :
    Nat → Nat → List Cell → Bytes → Except Failure (List Cell × Bytes)
  | 0, vertex_offset, output, data =>
    if vertex_offset < data.length then .error .out_of_fuel else .ok (output, data)
  | fuel + 1, vertex_offset, output, data =>
    if vertex_offset < data.length then do
      let r ← expand_vertex ext p vertex_offset output data
      vertex_loop ext p fuel (u32 (vertex_offset + p.stride)) r.1 r.2
    else .ok (output, data)

/-- What a call of `expand_vertex_stream` leaves behind: the returned vector, the layout
(passed by reference) and the vertex buffer (a span over the caller's bytes). -/
structure Expanded where
  output : List Cell
  layout : Layout
  data : Bytes
  deriving DecidableEq, Repr

/-- An entry appended to `layout["entries"]` by lines 794, 800 and 801. -/
def appended_entry (stream : Nat) (type usage : String) : Entry :=
  { stream := stream, type := type, usage := usage, usageIndex := 0 }

/-- Lines 712-892 of `expand_vertex_stream`: everything after the stride check, `stride`
being the local `stride` the check leaves. -/
def transcode (ext : Externals) (fuel : Nat) (layout : Layout) (data : Bytes)
    (stream : Nat) (is_rigid : Bool) (bpv stride : Nat) : Except Failure Expanded := do
  let st ← scan ext.sizes layout stream bpv
  let binormal_type ← type_at st.layout st.binormal_index
  let tangent_type ← type_at st.layout st.tangent_index
  let calculate_normals :=
    !st.has_normals && decide (st.binormal_index ≠ -1) && decide (st.tangent_index ≠ -1)
  let add_rigid_bones := is_rigid && decide (binormal_type = "ubyte4n")
  if !st.conversion_required && !calculate_normals && !add_rigid_bones && !st.bone_remapping
      && !st.weight_conversion && !st.expand_normals then
    pure { output := data.map fun b => .byte (b % 256), layout := st.layout, data := data }
  else do
    let l ← (if calculate_normals then do
        let l ← st.layout.grow stream 12
        pure { l with entries := l.entries ++ [appended_entry stream "Float3" "Normal"] }
      else pure st.layout)
    let l ← (if add_rigid_bones then do
        let l ← l.grow stream 20
        pure { l with entries := l.entries ++ [appended_entry stream "D3dcolor" "BlendIndices",
          appended_entry stream "Float4" "BlendWeight"] }
      else pure l)
    let p : Plan :=
      { scan := st, binormal_type := binormal_type, tangent_type := tangent_type,
        calculate_normals := calculate_normals, add_rigid_bones := add_rigid_bones,
        is_rigid := is_rigid, stride := stride }
    let r ← vertex_loop ext p fuel 0 [] data
    pure { output := r.1, layout := l, data := r.2 }

/-- The function `utils::gltf::dme::expand_vertex_stream(layout, data, stream, is_rigid,
dme, mesh)`; `bpv` is `mesh->bytes_per_vertex(stream)`. -/
def expand_vertex_stream (ext : Externals) (fuel : Nat) (layout : Layout) (data : Bytes)
    (stream : Nat) (is_rigid : Bool) (bpv : Nat) : Except Failure Expanded := do
  let declared ← layout.size_at stream
  let stride ← effective_stride declared bpv
  transcode ext fuel layout data stream is_rigid bpv stride

/-- A table of encoded-type sizes for concrete evaluations: the byte widths of the
Direct3D vertex declaration types the function names, which are the widths its own size
corrections assume (`Float16_2` + 4 = `Float2`, `ubyte4n` + 8 = `Float3`,
`ubyte4n` + 12 = `Float4`). -/
def d3d_sizes : String → Option Nat
  | "Float1" => some 4
  | "Float2" => some 8
  | "Float3" => some 12
  | "Float4" => some 16
  | "D3dcolor" => some 4
  | "ubyte4n" => some 4
  | "ubyte4" => some 4
  | "Float16_2" => some 4
  | "float16_2" => some 4
  | "Short2" => some 4
  | _ => none

/-- The entries of `stream` that the loop over the layout entries decodes, that is, does
not skip: those it reaches while `byte_stride`, here starting from `bs`, is below `bpv`. -/
def decoded_entries (sizes : String → Option Nat) (stream bpv : Nat) :
    Nat → List Entry → List Entry
  | _, [] => []
  | bs, e :: es =>
    if e.stream ≠ stream then decoded_entries sizes stream bpv bs es
    else if bs ≥ bpv then decoded_entries sizes stream bpv bs es
    else e :: decoded_entries sizes stream bpv (u32 (bs + u32 ((sizes e.type).getD 0))) es

/-- The squared Euclidean length of a vector. -/
def Vec3.norm_sq (v : Vec3) : ℚ := v.1 * v.1 + v.2.1 * v.2.1 + v.2.2 * v.2.2

/-- The square root of a rational number, when it is rational. -/
def rat_sqrt (q : ℚ) : Option ℚ :=
  let r : ℚ := (Nat.sqrt q.num.toNat : ℚ) / (Nat.sqrt q.den : ℚ)
  if r * r = q then some r else none

/-- Modelled from the spec: `utils::normalize` ("normalize"), a helper that is not in the
sources: the vector divided by its Euclidean length.  This rational model knows the
length only when it is a rational number; the zero vector and the vectors of irrational
length are outside the model and are returned unchanged. -/
def rat_normalize (v : Vec3) : Vec3 :=
  match rat_sqrt v.norm_sq with
  | some r => if r = 0 then v else (v.1 / r, v.2.1 / r, v.2.2 / r)
  | none => v

/-- The computation does not end in `std::exit`. -/
def NoExit {α : Type} (x : Except Failure α) : Prop := ∀ c, x ≠ .error (.exit c)

/-- The value `entry_offset` has after the per-vertex loop has gone through `ps`, starting
from `eo` (line 863, `uint32_t` arithmetic). -/
def end_offset (eo : Nat) (ps : List (Nat × Bool)) : Nat :=
  ps.foldl (fun eo p => u32 (eo + p.1)) eo

/-- An instance of the external functions for concrete evaluations: the size table
`d3d_sizes`, a bone map that adds one to the index, a `load_vector` that leaves the
`float[3]` as it is, and `rat_normalize`. -/
def example_externals : Externals :=
  { sizes := d3d_sizes
    map_bone := fun b => b + 1
    load_vector := fun _ _ _ _ out => .ok out
    normalize := rat_normalize }

/-- A layout with declared stride 32 on stream 0: position, blend indices, and a
four-float texture coordinate. -/
def straddling_layout : Layout :=
  { sizes := [(0, 32)]
    entries := [⟨0, "Float3", "Position", 0⟩, ⟨0, "ubyte4", "BlendIndices", 0⟩,
      ⟨0, "Float4", "Texcoord", 0⟩] }

/-- A layout with declared stride 32 on stream 0 and no entry that needs a conversion:
position, colour, two texture coordinates. -/
def plain_layout : Layout :=
  { sizes := [(0, 32)]
    entries := [⟨0, "Float3", "Position", 0⟩, ⟨0, "D3dcolor", "Color", 0⟩,
      ⟨0, "Float2", "Texcoord", 0⟩, ⟨0, "Float2", "Texcoord", 1⟩] }

/-- The entry calls for no conversion (the negation of the first four rules). -/
def Entry.plain (e : Entry) : Prop :=
  needs_conversion e.type = false ∧ ¬ (e.usage = "Normal" ∧ e.type = "ubyte4n")
    ∧ e.usage ≠ "BlendIndices" ∧ ¬ (e.usage = "BlendWeight" ∧ e.type = "ubyte4n")

/-- The source sizes of the entries of `stream`, in layout order (an unknown type counts
as 0; the loop over the layout entries fails on it). -/
def stream_sizes (sizes : String → Option Nat) (stream : Nat) (entries : List Entry) :
    List Nat :=
  (entries.filter fun e => e.stream = stream).map fun e => u32 ((sizes e.type).getD 0)

/-- The locals after the loop over the entries of `plain_layout` for a measured stride of
24 bytes: the last entry is skipped and its 8 bytes are taken off the declared size. -/
def truncated_scan : Scan :=
  { layout := { plain_layout with sizes := [(0, 24)] },
    offsets := [(12, false), (4, false), (8, false)],
    conversion_required := false, tangent_index := -1, binormal_index := -1,
    normal_index := -1, blend_indices_index := -1, blend_weights_index := -1,
    vert_index_offset := 0, has_normals := false, bone_remapping := false,
    weight_conversion := false, expand_normals := false, byte_stride := 24 }

/-! ## Material parameter records (`lib/internal/dme_loader/src/parameter.cpp`) -/

/-- The class `Parameter`: a view `buf_` of one material parameter record. -/
structure Parameter where
  /-- the bytes of the view -/
  buf_ : Bytes
  deriving DecidableEq, Repr

namespace Parameter

/-- Lines 22-24: `length()` is `get<uint32_t>(12)`. -/
def length (p : Parameter) : Except Failure Nat := get_u32 p.buf_ 12

/-- Lines 6-8: the constructor stores the given span and then keeps
`buf_.first(16 + length())`; `length()` is a `uint32_t`, so the sum is formed in 32-bit
unsigned arithmetic. -/
def new (subspan : Bytes) : Except Failure Parameter := do
  let l ← length ⟨subspan⟩
  let b ← first subspan (u32 (16 + l))
  pure ⟨b⟩

/-- Lines 26-28: `data()` is `buf_.subspan(16, length())`. -/
def data (p : Parameter) : Except Failure Bytes := do
  let l ← p.length
  subspan_n p.buf_ 16 l

/-- Lines 30-32: `data_offset()`. -/
def data_offset (_p : Parameter) : Nat := 16

end Parameter

/-- The enumerators of `Parameter::Semantic` that the switches of `parameter.cpp` name. -/
inductive Semantic where
  | Diffuse | BaseDiffuse | baseDiffuse | diffuseTexture | DiffuseB
  | HoloTexture
  | Bump | BumpMap
  | BlendMask
  | Spec | SpecMap | SpecGlow | SpecB
  | detailBump | DetailBump
  | DetailMask
  | Overlay | Overlay1 | Overlay2 | Overlay3 | Overlay4 | TilingOverlay
  | DecalTint
  | TilingTint
  | Color | Color1 | Color2
  deriving DecidableEq, Repr

/-- The `case` labels of `Parameter::semantic_texture_type` (lines 35-71) with the string
each one returns. -/
def texture_type_cases : List (Semantic × String) :=
  [(.Diffuse, "Diffuse"), (.BaseDiffuse, "Diffuse"), (.baseDiffuse, "Diffuse"),
   (.diffuseTexture, "Diffuse"), (.DiffuseB, "Diffuse"),
   (.HoloTexture, "Emissive"),
   (.Bump, "Normal"), (.BumpMap, "Normal"),
   (.BlendMask, "Blend Mask"),
   (.Spec, "Specular"), (.SpecMap, "Specular"), (.SpecGlow, "Specular"), (.SpecB, "Specular"),
   (.detailBump, "Detail Cube"), (.DetailBump, "Detail Cube"),
   (.DetailMask, "Detail Select"),
   (.Overlay, "Overlay"), (.Overlay1, "Overlay"), (.Overlay2, "Overlay"),
   (.Overlay3, "Overlay"), (.Overlay4, "Overlay"), (.TilingOverlay, "Overlay"),
   (.DecalTint, "Decal"),
   (.TilingTint, "Tiling Tint")]

/-- Lines 34-73: `Parameter::semantic_texture_type(int32_t semantic)`.  The numeric values
of the enumerators are in `parameter.h`, which is not part of the sources, so they are the
parameter `value` (the enumerator converted to `int32_t`).  `std::to_string` of an
`int32_t` is its signed decimal rendering. -/
def semantic_texture_type (value : Semantic → Int) (semantic : Int) : String :=
  match texture_type_cases.find? fun c => value c.1 = semantic with
  | some c => c.2
  | none => "Unknown (" ++ toString semantic ++ ")"

/-- The enumerators of `Parameter::WarpgateSemantic` that `texture_common_semantic`
returns. -/
inductive WarpgateSemantic where
  | DIFFUSE | EMISSIVE | NORMAL | BLENDMASK | SPECULAR | DETAILCUBE | DETAILMASK | OVERLAY
  | DECAL | TILINGTINT | UNKNOWN
  deriving DecidableEq, Repr

/-- The `case` labels of `Parameter::texture_common_semantic` (lines 80-116) with the
bucket each one returns. -/
def common_semantic_cases : List (Semantic × WarpgateSemantic) :=
  [(.Color, .DIFFUSE), (.Color1, .DIFFUSE), (.Color2, .DIFFUSE),
   (.Diffuse, .DIFFUSE), (.BaseDiffuse, .DIFFUSE), (.baseDiffuse, .DIFFUSE),
   (.diffuseTexture, .DIFFUSE), (.DiffuseB, .DIFFUSE),
   (.HoloTexture, .EMISSIVE),
   (.Bump, .NORMAL), (.BumpMap, .NORMAL),
   (.BlendMask, .BLENDMASK),
   (.Spec, .SPECULAR), (.SpecMap, .SPECULAR), (.SpecGlow, .SPECULAR), (.SpecB, .SPECULAR),
   (.detailBump, .DETAILCUBE), (.DetailBump, .DETAILCUBE),
   (.DetailMask, .DETAILMASK),
   (.Overlay, .OVERLAY), (.Overlay1, .OVERLAY), (.Overlay2, .OVERLAY),
   (.Overlay3, .OVERLAY), (.Overlay4, .OVERLAY), (.TilingOverlay, .OVERLAY),
   (.DecalTint, .DECAL),
   (.TilingTint, .TILINGTINT)]

/-- Lines 79-119: `Parameter::texture_common_semantic(int32_t semantic)`, with the values
of the enumerators as the parameter `value`, as for `semantic_texture_type`. -/
def texture_common_semantic (value : Semantic → Int) (semantic : Int) : WarpgateSemantic :=
  match common_semantic_cases.find? fun c => value c.1 = semantic with
  | some c => c.2
  | none => .UNKNOWN

/-- The label that the `default` branch of `semantic_texture_type` returns for the value
`semantic`. -/
def unknown_label (semantic : Int) : String := "Unknown (" ++ toString semantic ++ ")"

/-- The enumerators that only `texture_common_semantic` names. -/
def color_semantics : List Semantic := [.Color, .Color1, .Color2]

/-- The label that `semantic_texture_type` returns for the enumerators of a bucket (no
label for `UNKNOWN`). -/
def label_of_bucket : WarpgateSemantic → String
  | .DIFFUSE => "Diffuse" | .EMISSIVE => "Emissive" | .NORMAL => "Normal"
  | .BLENDMASK => "Blend Mask" | .SPECULAR => "Specular" | .DETAILCUBE => "Detail Cube"
  | .DETAILMASK => "Detail Select" | .OVERLAY => "Overlay" | .DECAL => "Decal"
  | .TILINGTINT => "Tiling Tint" | .UNKNOWN => ""

/-- Some distinct values for the enumerators, for the examples. -/
def example_semantic_value (s : Semantic) : Int := (s.toCtorIdx : Int) + 1

/-- A parameter record whose length field is `0xFFFFFFF0`, followed by `n` payload
bytes. -/
def long_record (n : Nat) : Bytes :=
  [0, 0, 0, 0, 0, 0, 0, 0, 0, 0, 0, 0, 0xF0, 0xFF, 0xFF, 0xFF] ++ List.replicate n 0

/-- A parameter record with a payload of three bytes, followed by the next record. -/
def short_record : Bytes :=
  [1, 0, 0, 0, 2, 0, 0, 0, 3, 0, 0, 0, 3, 0, 0, 0, 7, 8, 9, 1, 0, 0, 0]

/-! ## Skeleton hierarchy (`utils::gltf::dme::add_skeleton_to_gltf`, `src/utils/gltf.cpp`) -/

namespace dme

/-- The part of the glTF model that lines 251-323 of `add_skeleton_to_gltf` write. -/
structure SkinModel where
  /-- the member `children` of every element of `gltf.nodes` -/
  children : List (List Nat)
  /-- the member `skin.skeleton` of the local `tinygltf::Skin` -/
  skeleton : Int
  /-- the member `nodes` of `gltf.scenes.at(gltf.defaultScene)`; `none` when
  `gltf.defaultScene` is not the index of a scene, so that `at` throws -/
  scene : Option (List Nat)
  deriving DecidableEq, Repr

/-- The children of node `y`; no children for an index that is not a node. -/
def SkinModel.children_of (g : SkinModel) (y : Nat) : List Nat := g.children.getD y []

/-- The statement `m[k] = v;` on a `std::unordered_map`, kept as the list of its entries. -/
def map_assign (m : List (Nat × Nat)) (k v : Nat) : List (Nat × Nat) :=
  if (m.lookup k).isSome then m.map fun p => if p.1 = k then (k, v) else p
  else m ++ [(k, v)]

/-- Lines 252-300, the part that concerns the hierarchy: for every bone, in order,
`skeleton_map[bone.namehash] = gltf.nodes.size()` (line 297) and a node without children
is pushed (line 299).  The state is `skeleton_map` and the children lists of
`gltf.nodes`. -/
def add_bone_nodes : List Nat → List (Nat × Nat) × List (List Nat) →
    List (Nat × Nat) × List (List Nat)
  | [], acc => acc
  | namehash :: rest, (skeleton_map, nodes) =>
    add_bone_nodes rest (map_assign skeleton_map namehash nodes.length, nodes ++ [[]])

/-- Lines 311-313: `while(parent != 0 && skeleton_map.find(parent) == skeleton_map.end())
parent = utils::bone_hierarchy.at(parent);`.  The result is `none` when the loop ends with
`parent == 0` and the found `parent_index->second` otherwise.  The table
`utils::bone_hierarchy` is not part of the sources: it is the parameter `hierarchy`, and
`at` throws `std::out_of_range` for a key that the table lacks. -/
def parent_walk (hierarchy : Nat → Option Nat) (skeleton_map : List (Nat × Nat)) :
    Nat → Nat → Except Failure (Option Nat)
  | 0, parent =>
    if parent = 0 then .ok none
    else
      match skeleton_map.lookup parent with
      | some index => .ok (some index)
      | none => .error .out_of_fuel
  | fuel + 1, parent =>
    if parent = 0 then .ok none
    else
      match skeleton_map.lookup parent with
      | some index => .ok (some index)
      | none =>
        match hierarchy parent with
        | none => .error .out_of_range
        | some next => parent_walk hierarchy skeleton_map fuel next

/-- Lines 303-322: the body of the second loop for the entry `curr` of `skeleton_map`
(`curr.1` is `curr_hash`, `curr.2` is `curr_index`). -/
def link_bone (hierarchy : Nat → Option Nat) (skeleton_map : List (Nat × Nat)) (fuel : Nat)
    (g : SkinModel) (curr : Nat × Nat) : Except Failure SkinModel := do
  let parent := (hierarchy curr.1).getD 0
  let found ← parent_walk hierarchy skeleton_map fuel parent
  match found with
  | some parent_index =>
    if parent_index < g.children.length then
      pure { g with children := g.children.set parent_index (g.children_of parent_index ++ [curr.2]) }
    else .error .out_of_range
  | none =>
    match g.scene with
    | some nodes => pure { g with skeleton := (curr.2 : Int), scene := some (nodes ++ [curr.2]) }
    | none => .error .out_of_range

/-- Lines 302-323: the second loop, over the entries of `skeleton_map` in the order
`entries` in which the iterator yields them. -/
def link_bones (hierarchy : Nat → Option Nat) (skeleton_map : List (Nat × Nat)) (fuel : Nat) :
    List (Nat × Nat) → SkinModel → Except Failure SkinModel
  | [], g => .ok g
  | curr :: rest, g => do
    let g1 ← link_bone hierarchy skeleton_map fuel g curr
    link_bones hierarchy skeleton_map fuel rest g1

/-- The entries of `skeleton_map` after the first loop, for the bones with the name
hashes `namehashes` added to a model that has `base` nodes. -/
def skeleton_map (namehashes : List Nat) (base : Nat) : List (Nat × Nat) :=
  (add_bone_nodes namehashes ([], List.replicate base [])).1

/-- Lines 251-323 of `add_skeleton_to_gltf`: the nodes of the bones with the name hashes
`namehashes` are added and linked.  `order` is the order in which a
`std::unordered_map` yields its entries, which the language leaves open; `fuel` bounds
the number of steps of one parent walk; `g.skeleton` is the value that `tinygltf` gives
to the member `skeleton` of a new `Skin`. -/
def add_skeleton_to_gltf (hierarchy : Nat → Option Nat)
    (order : List (Nat × Nat) → List (Nat × Nat)) (fuel : Nat) (namehashes : List Nat)
    (g : SkinModel) : Except Failure SkinModel :=
  let built := add_bone_nodes namehashes ([], g.children)
  link_bones hierarchy built.1 fuel (order built.1) { g with children := built.2 }

/-- The hash reached from `hash` by `n` applications of the parent table, in the words of
the specification ("walk the parent chain via repeated external lookups"). -/
def ancestor (hierarchy : Nat → Option Nat) : Nat → Nat → Option Nat
  | hash, 0 => some hash
  | hash, n + 1 => (hierarchy hash).bind fun p => ancestor hierarchy p n

/-- The parent chain of `hash` reaches `target`, which is zero or the name hash of a bone,
at its step `n`, all earlier hashes on the chain being non-zero and not a bone's. -/
def first_reaches (hierarchy : Nat → Option Nat) (namehashes : List Nat) (hash n target : Nat) :
    Prop :=
  ancestor hierarchy hash (n + 1) = some target ∧ (target = 0 ∨ target ∈ namehashes) ∧
    ∀ m < n, ∃ c ∈ ancestor hierarchy hash (m + 1), c ≠ 0 ∧ c ∉ namehashes

instance (hierarchy : Nat → Option Nat) (namehashes : List Nat) (hash n target : Nat) :
    Decidable (first_reaches hierarchy namehashes hash n target) := by
  unfold first_reaches
  infer_instance

/-- The bone with the name hash `hash` has no ancestor among the bones: it has no entry in
the parent table, or its parent chain reaches zero first. -/
def is_root (hierarchy : Nat → Option Nat) (namehashes : List Nat) (hash : Nat) : Prop :=
  hierarchy hash = none ∨ ∃ n, first_reaches hierarchy namehashes hash n 0

/-- The entries `(name hash, node index)` of bones whose nodes are pushed from the index
`base` on. -/
def bone_entries : List Nat → Nat → List (Nat × Nat)
  | [], _ => []
  | namehash :: rest, base => (namehash, base) :: bone_entries rest (base + 1)

/-- The outcome of the parent walk of lines 305-313 for the bone with the name hash
`hash`. -/
def found_parent (hierarchy : Nat → Option Nat) (skeleton_map : List (Nat × Nat)) (fuel : Nat)
    (hash : Nat) : Except Failure (Option Nat) :=
  parent_walk hierarchy skeleton_map fuel ((hierarchy hash).getD 0)

/-- A model with one mesh node and an empty default scene. -/
def example_model : SkinModel := { children := [[]], skeleton := -1, scene := some [] }

/-- A parent table: 10 is the parent of 20 and of 30, 77 (not a bone) is the parent of 40
and a child of 20, and 50 has the parent 88, which the table lacks. -/
def example_hierarchy : Nat → Option Nat
  | 10 => some 0
  | 20 => some 10
  | 30 => some 10
  | 40 => some 77
  | 77 => some 20
  | 50 => some 88
  | _ => none

end dme

/-! ## Skeleton remap (`add_skeleton_to_gltf`, `src/mrn_converter.cpp`) -/

namespace mrn_converter

/-- The members of `mrn::Bone` that the converter reads and writes. -/
structure Bone where
  name : String
  index : Nat
  position : Vec3
  rotation : ℚ × ℚ × ℚ × ℚ
  children : List Nat
  deriving DecidableEq, Repr

/-- Lines 92-106: the remap step of `add_skeleton_to_gltf`, from `skeleton->bones` to its
value after the step.  `bone_map` is the JSON object, given by its entries (a bone name
and the `end` index stored under it).  `blank` is a value-initialised `mrn::Bone`, which
is what `remapped.resize(skeleton->bones.size())` fills the new vector with; the struct is
declared in a header that is not part of the sources.  Lines 96-104 only define the
function object `remap_chain`; nothing calls it, so line 105 assigns `remapped` as
`resize` left it. -/
def remap_step (blank : Bone) (bone_map : List (String × Nat)) (bones : List Bone) :
    List Bone :=
  if bone_map.length ≠ 0 then List.replicate bones.length blank else bones

/-- Two bones: `A` with the child `B`. -/
def example_bones : List Bone :=
  [{ name := "A", index := 0, position := (1, 2, 3), rotation := (0, 0, 0, 1), children := [1] },
   { name := "B", index := 1, position := (4, 5, 6), rotation := (0, 1, 0, 0), children := [] }]

/-- A remap table that swaps the two bones of `example_bones`. -/
def example_bone_map : List (String × Nat) := [("A", 1), ("B", 0)]

end mrn_converter

/-! ## Dequantization-info accessors of `NSADynamicSegment` (`nsa_file.cpp`, lines 343-364) -/

namespace NSADynamicSegment

/-- Lines 343-346: `translation_dequantization_info()` returns
`std::span<DequantizationInfo>((DequantizationInfo*)buf_.data() + translation_dequantization_info_ptr(), count)`
with `count = next_multiple_of_4(translation_bone_count())`.  The cast applies to
`buf_.data()` alone, so the offset is added to a `DequantizationInfo*`: the span starts
`ptr * sizeof(DequantizationInfo)` bytes after the start of the view.  `sizeofDI` is
`sizeof(DequantizationInfo)`. -/
def translation_dequantization_info (sizeofDI : Nat) (s : NSADynamicSegment) :
    Except Failure Span := do
  let c ← translation_bone_count s.buf_
  let p ← translation_dequantization_info_ptr s.buf_
  pure ⟨p * sizeofDI, next_multiple_of_4 c, sizeofDI⟩

/-- Lines 352-355: `rotation_dequantization_info()`, of the same form. -/
def rotation_dequantization_info (sizeofDI : Nat) (s : NSADynamicSegment) :
    Except Failure Span := do
  let c ← rotation_bone_count s.buf_
  let p ← rotation_dequantization_info_ptr s.buf_
  pure ⟨p * sizeofDI, next_multiple_of_4 c, sizeofDI⟩

/-- Lines 361-364: `scale_dequantization_info()`, of the same form. -/
def scale_dequantization_info (sizeofDI : Nat) (s : NSADynamicSegment) :
    Except Failure Span := do
  let c ← scale_bone_count s.buf_
  let p ← scale_dequantization_info_ptr s.buf_
  pure ⟨p * sizeofDI, next_multiple_of_4 c, sizeofDI⟩

end NSADynamicSegment

/-- A dynamic segment of 240 bytes for a dequantization-info record of 6 bytes: one
sample, 16 translation bones with their samples at offset 64 and their dequantization
info at offset 128, and no rotation or scale bones. -/
def example_dynamic_segment : Bytes :=
  dynamic_header 1 16 0 0 64 128 0 0 0 0 ++ List.replicate 176 0

/-- The segment object that the constructor builds from `example_dynamic_segment`. -/
def example_dynamic : NSADynamicSegment :=
  { buf_ := example_dynamic_segment
    m_translation_data := [⟨64, 16, 4⟩]
    m_rotation_data := []
    m_scale_data := [] }

/-! ## Animation export (`add_animation_to_gltf`, `src/mrn_converter.cpp`) -/

namespace mrn_converter

/-- The members of the time accessor that lines 173-180 set from `sample_times`. -/
structure TimeAccessor where
  count : Nat
  minValue : ℚ
  maxValue : ℚ
  deriving DecidableEq, Repr

/-- The expression `animation->root_segment()->sample_count()` of line 159:
`root_segment()` returns the member `m_root_segment`, and `->` on a null `shared_ptr` is
undefined behaviour. -/
def root_sample_count (animation : NSAFile) : Except Failure Nat :=
  match animation.m_root_segment with
  | none => .error .undefined
  | some root => root.sample_count

/-- The vector `sample_times` after the loop of lines 159-161 for a sample count `n`:
`((float)i) / animation->sample_rate()` for every `i < n`. -/
def sample_times (sample_rate : ℚ) (n : Nat) : List ℚ :=
  (List.range n).map fun i => (i : ℚ) / sample_rate

/-- The expression `v[i]` on a `std::vector`: an index that is not below the size is
undefined behaviour. -/
def vector_index (v : List ℚ) (i : Nat) : Except Failure ℚ :=
  match v[i]? with
  | some x => .ok x
  | none => .error .undefined

/-- Lines 152-182 of `add_animation_to_gltf`: the sample times are built from the root
segment's sample count, the clip is dequantized, and the time accessor gets its count and
its bounds `sample_times[0]` and `sample_times[sample_times.size() - 1]` (a `size_t`
difference).  `NSAFile::dequantize` is not part of the sources and is the parameter
`dequantize`; `sample_rate` is the `float` that `animation->sample_rate()` reads. -/
def add_animation_to_gltf (dequantize : NSAFile → Except Failure Unit) (sample_rate : ℚ)
    (animation : NSAFile) : Except Failure TimeAccessor := do
  let n ← root_sample_count animation
  let times := sample_times sample_rate n
  dequantize animation
  let lo ← vector_index times 0
  let hi ← vector_index times (sub64 times.length 1)
  pure ⟨times.length, lo, hi⟩

/-- A clip of 184 bytes without any segment: the three segment offsets are zero. -/
def clip_without_root : Bytes := file_header 0 0 0

/-- A clip of 280 bytes whose only segment is a root segment with no samples. -/
def clip_with_empty_root : Bytes := file_header 0 0 184 ++ root_header 0 0 0

end mrn_converter

/-! ## Texture requests (`utils::gltf::dmat`, `src/utils/gltf.cpp`, lines 510-686) -/

namespace dmat

/-- The functions that the texture code calls and that are not part of the sources. -/
structure TextureExternals where
  /-- the hash `jenkins::oaat` of a texture name -/
  oaat : String → Nat
  /-- the function `utils::textures::relabel_texture` -/
  relabel_texture : String → String → String
  /-- the function `add_texture_to_gltf` of `utils/gltf/common.h`, which sees neither
  `texture_indices` nor `image_queue`: for the size of `gltf.textures` before the call,
  the index it returns and the size of `gltf.textures` after the call -/
  add_texture_to_gltf : Nat → Nat × Nat
  /-- the number of elements of `utils::materials3::detailcube_faces` -/
  detailcube_faces : Nat

/-- What `load_texture_info`, `load_specular_info` and `build_material` share: the table
`texture_indices`, the requests enqueued on `image_queue` so far (texture name and
semantic) and the size of `gltf.textures`. -/
structure TextureState where
  texture_indices : List (Nat × Nat)
  image_queue : List (String × Int)
  textures : Nat
  deriving DecidableEq, Repr

/-- The calls `add_texture_to_gltf` repeated `n` times: the size of `gltf.textures`
afterwards. -/
def add_textures (E : TextureExternals) : Nat → Nat → Nat
  | 0, textures => textures
  | n + 1, textures => add_textures E n (E.add_texture_to_gltf textures).2

/-- Lines 610-641: `load_texture_info`, for the result `texture_name` of
`dmat.material(i)->texture(semantic)`.  The result is the new state and the member `index`
of the returned `TextureInfo`, if one is returned. -/
def load_texture_info (E : TextureExternals) (st : TextureState) (texture_name : Option String)
    (semantic : Int) : TextureState × Option Nat :=
  match texture_name with
  | none => (st, none)
  | some name =>
    let hash := E.oaat name
    match st.texture_indices.lookup hash with
    | none =>
      let queue := st.image_queue ++ [(name, semantic)]
      let indices := dme.map_assign st.texture_indices hash st.textures
      let added := E.add_texture_to_gltf st.textures
      ({ texture_indices := indices, image_queue := queue, textures := added.2 }, some added.1)
    | some index => (st, some index)

/-- Lines 643-686: `load_specular_info`.  The result is the new state and the members
`index` of the two returned `TextureInfo` objects (`none` for an index that is left at its
default). -/
def load_specular_info (E : TextureExternals) (st : TextureState)
    (texture_name : Option String) (semantic : Int) :
    TextureState × Option (Option Nat × Option Nat) :=
  match texture_name with
  | none => (st, none)
  | some name =>
    let hash := E.oaat name
    match st.texture_indices.lookup hash with
    | none =>
      let queue := st.image_queue ++ [(name, semantic)]
      let indices := dme.map_assign st.texture_indices hash st.textures
      let metallic := E.add_texture_to_gltf st.textures
      let emissive_name := E.relabel_texture name "E"
      let indices2 := dme.map_assign indices (E.oaat emissive_name) metallic.2
      let emissive := E.add_texture_to_gltf metallic.2
      ({ texture_indices := indices2, image_queue := queue, textures := emissive.2 },
        some (some metallic.1, some emissive.1))
    | some index =>
      let emissive_name := E.relabel_texture name "E"
      (st, some (some index, st.texture_indices.lookup (E.oaat emissive_name)))

/-- Lines 579-605: the `default` branch of the switch of `build_material`, for the result
`texture_name` of `dmat.material(i)->texture(semantic)`; `value` gives the values of the
enumerators. -/
def build_material_default (E : TextureExternals) (value : Semantic → Int)
    (st : TextureState) (texture_name : Option String) (semantic : Int) : TextureState :=
  match texture_name with
  | none => st
  | some name =>
    let hash := E.oaat name
    if (st.texture_indices.lookup hash).isSome then st
    else
      let indices := dme.map_assign st.texture_indices hash st.textures
      let queue := st.image_queue ++ [(name, semantic)]
      if ¬ (semantic = value .detailBump ∨ semantic = value .DetailBump) then
        { texture_indices := indices, image_queue := queue,
          textures := (E.add_texture_to_gltf st.textures).2 }
      else
        { texture_indices := indices, image_queue := queue,
          textures := add_textures E E.detailcube_faces st.textures }

/-- One call of the three functions that share `texture_indices`. -/
inductive TextureCall where
  | texture_info (texture_name : Option String) (semantic : Int)
  | specular_info (texture_name : Option String) (semantic : Int)
  | default_branch (texture_name : Option String) (semantic : Int)
  deriving DecidableEq, Repr

/-- The texture name that the call looks up. -/
def TextureCall.texture_name : TextureCall → Option String
  | .texture_info n _ => n
  | .specular_info n _ => n
  | .default_branch n _ => n

/-- The state after one call. -/
def run_call (E : TextureExternals) (value : Semantic → Int) (st : TextureState) :
    TextureCall → TextureState
  | .texture_info n s => (load_texture_info E st n s).1
  | .specular_info n s => (load_specular_info E st n s).1
  | .default_branch n s => build_material_default E value st n s

/-- The state after a sequence of calls. -/
def run_calls (E : TextureExternals) (value : Semantic → Int) :
    List TextureCall → TextureState → TextureState
  | [], st => st
  | c :: rest, st => run_calls E value rest (run_call E value st c)

/-- The state at the start: `texture_indices` and `image_queue` are empty. -/
def initial_state (textures : Nat) : TextureState :=
  { texture_indices := [], image_queue := [], textures := textures }

/-- The table holds the hash of every enqueued name, and the enqueued names are
distinct. -/
def queue_invariant (E : TextureExternals) (st : TextureState) : Prop :=
  (∀ p ∈ st.image_queue, (st.texture_indices.lookup (E.oaat p.1)).isSome) ∧
    (st.image_queue.map Prod.fst).Nodup

end dmat

/-! ## Vertex attributes (`utils::gltf::dme::add_mesh_to_gltf`, `src/utils/gltf.cpp`, lines 107-195) -/

namespace dme

/-- The tables of `utils/materials_3.h`, which is not part of the sources, that the loop
over the layout entries of `add_mesh_to_gltf` reads with `at`, besides
`utils::materials3::sizes`. -/
structure MeshTables where
  /-- the table `utils::materials3::usages`: the glTF attribute name of a usage -/
  usages : String → Option String
  /-- the table `utils::materials3::component_types` -/
  component_types : String → Option Nat
  /-- the table `utils::materials3::types` -/
  types : String → Option Nat

/-- The members of an accessor and its buffer view that depend on the layout entry. -/
structure AttributeView where
  /-- the key of `primitive.attributes` under which the accessor is stored -/
  name : String
  /-- the vertex stream: `bufferview.buffer - gltf.buffers.size()` -/
  stream : Nat
  /-- the member `bufferview.byteOffset` -/
  byteOffset : Nat
  /-- the member `bufferview.byteStride` -/
  byteStride : Nat
  /-- the member `bufferview.byteLength` -/
  byteLength : Nat
  deriving DecidableEq, Repr

/-- The locals that the loop of lines 135-195 updates: the running offset of every vertex
stream, the counter `texcoord`, the keys of `primitive.attributes` and the accessors with
their buffer views pushed so far. -/
structure MeshState where
  offsets : List Nat
  texcoord : Nat
  attributes : List String
  views : List AttributeView
  deriving DecidableEq, Repr

/-- The locals before the loop, for a mesh with `streams` vertex streams. -/
def MeshState.init (streams : Nat) : MeshState :=
  { offsets := List.replicate streams 0, texcoord := 0, attributes := [], views := [] }

/-- The call `v.at(i)` on a `std::vector`. -/
def vector_at (v : List Nat) (i : Nat) : Except Failure Nat :=
  match v[i]? with
  | some x => .ok x
  | none => .error .out_of_range

/-- The call `table.at(key)` on one of the tables. -/
def table_at {α : Type} (table : String → Option α) (key : String) : Except Failure α :=
  match table key with
  | some x => .ok x
  | none => .error .out_of_range

/-- The statement `offsets.at(stream) += utils::materials3::sizes.at(type);` on the vector
of `uint32_t` offsets. -/
def advance (sizes : String → Option Nat) (st : MeshState) (stream : Nat) (type : String) :
    Except Failure MeshState := do
  let off ← vector_at st.offsets stream
  let size ← size_of_type sizes type
  pure { st with offsets := st.offsets.set stream (u32 (off + size)) }

/-- One iteration of the loop of lines 135-195, for the layout entry `entry`.  `layout` is
the input layout after the vertex streams have been expanded, `buffer_sizes` the sizes of
the expanded streams, `bytes_per_vertex` the function `mesh->bytes_per_vertex`. -/
def add_accessor (sizes : String → Option Nat) (T : MeshTables) (include_skeleton : Bool)
    (bytes_per_vertex : Nat → Nat) (layout : Layout) (buffer_sizes : List Nat)
    (st : MeshState) (entry : Entry) : Except Failure MeshState := do
  let off ← vector_at st.offsets entry.stream
  if bytes_per_vertex entry.stream = off then pure st
  else if entry.usage = "Binormal" then advance sizes st entry.stream entry.type
  else do
    let _ ← table_at T.component_types entry.type
    let _ ← table_at T.types entry.type
    let buffer_size ← vector_at buffer_sizes entry.stream
    let stride ← layout.size_at entry.stream
    let view : AttributeView :=
      { name := "", stream := entry.stream, byteOffset := off, byteStride := stride,
        byteLength := sub64 buffer_size off }
    let attr ← table_at T.usages entry.usage
    if entry.usage = "Texcoord" then
      let view := { view with name := attr ++ toString st.texcoord }
      let st := { st with texcoord := st.texcoord + 1 }
      let st := if view.name ∈ st.attributes then st
        else { st with attributes := st.attributes ++ [view.name],
                       views := st.views ++ [view] }
      advance sizes st entry.stream entry.type
    else if entry.usage = "Color" then advance sizes st entry.stream entry.type
    else if entry.usage = "Tangent" then advance sizes st entry.stream entry.type
    else if !include_skeleton ∧ (entry.usage = "BlendWeight" ∨ entry.usage = "BlendIndices") then
      advance sizes st entry.stream entry.type
    else
      let view := { view with name := attr }
      let st := if view.name ∈ st.attributes then st
        else { st with attributes := st.attributes ++ [view.name],
                       views := st.views ++ [view] }
      advance sizes st entry.stream entry.type

/-- The loop of lines 135-195 over the entries of the layout. -/
def accessor_loop (sizes : String → Option Nat) (T : MeshTables) (include_skeleton : Bool)
    (bytes_per_vertex : Nat → Nat) (layout : Layout) (buffer_sizes : List Nat) :
    List Entry → MeshState → Except Failure MeshState
  | [], st => .ok st
  | entry :: rest, st => do
    let st ← add_accessor sizes T include_skeleton bytes_per_vertex layout buffer_sizes st entry
    accessor_loop sizes T include_skeleton bytes_per_vertex layout buffer_sizes rest st

/-- The loop of lines 124-131: every vertex stream is expanded in turn, the layout being
passed on from one call to the next.  The result is the layout and the expanded
streams. -/
def expand_streams (ext : Externals) (fuel : Nat) (is_rigid : Bool)
    (bytes_per_vertex : Nat → Nat) :
    List Bytes → Nat → Layout → Except Failure (Layout × List (List Cell))
  | [], _, layout => .ok (layout, [])
  | data :: rest, j, layout => do
    let r ← expand_vertex_stream ext fuel layout data j is_rigid (bytes_per_vertex j)
    let rs ← expand_streams ext fuel is_rigid bytes_per_vertex rest (j + 1) r.layout
    pure (rs.1, r.output :: rs.2)

/-- Lines 123-195 of `add_mesh_to_gltf`: the vertex streams `streams` of the mesh are
expanded and the accessors of the layout entries are created.  `is_rigid` is the local
`rigid`, computed from the name of the layout. -/
def add_mesh_to_gltf (ext : Externals) (T : MeshTables) (fuel : Nat) (is_rigid : Bool)
    (include_skeleton : Bool) (bytes_per_vertex : Nat → Nat) (layout : Layout)
    (streams : List Bytes) : Except Failure (Layout × MeshState) := do
  let r ← expand_streams ext fuel is_rigid bytes_per_vertex streams 0 layout
  let st ← accessor_loop ext.sizes T include_skeleton bytes_per_vertex r.1
    (r.2.map output_size) r.1.entries (MeshState.init streams.length)
  pure (r.1, st)

/-- Tables for concrete evaluations: the glTF attribute names of the usages, and a
component type and an accessor type for every type of `d3d_sizes`. -/
def example_tables : MeshTables :=
  { usages := fun u =>
      match u with
      | "Position" => some "POSITION"
      | "Normal" => some "NORMAL"
      | "Binormal" => some "BINORMAL"
      | "Tangent" => some "TANGENT"
      | "BlendWeight" => some "WEIGHTS_0"
      | "BlendIndices" => some "JOINTS_0"
      | "Texcoord" => some "TEXCOORD_"
      | "Color" => some "COLOR_"
      | _ => none
    component_types := fun t => (d3d_sizes t).map fun _ => 5126
    types := fun t => (d3d_sizes t).map fun _ => 3 }

/-- The layout Position(Float3), Normal(ubyte4n), BlendIndices(ubyte4),
BlendWeight(ubyte4n) on stream 0, with the declared stride 24. -/
def skinned_layout : Layout :=
  { sizes := [(0, 24)]
    entries := [⟨0, "Float3", "Position", 0⟩, ⟨0, "ubyte4n", "Normal", 0⟩,
      ⟨0, "ubyte4", "BlendIndices", 0⟩, ⟨0, "ubyte4n", "BlendWeight", 0⟩] }

/-- One vertex of 24 bytes for `skinned_layout`: a position, the normal bytes
(128, 128, 255, 0), the joint indices (1, 2, 3, 4) and the weights (255, 0, 0, 0). -/
def skinned_vertex : Bytes :=
  [0, 0, 0, 0, 0, 0, 0, 0, 0, 0, 0, 0, 128, 128, 255, 0, 1, 2, 3, 4, 255, 0, 0, 0]

end dme

/-! ## The conversion path of `expand_vertex_stream` -/

/-- The computation does not stop because the iteration bound of the model was too
small. -/
def InFuel {α : Type} (x : Except Failure α) : Prop := x ≠ .error .out_of_fuel

/-- The conversion path is reached: the loop over the layout entries and the reads of
lines 776-780 succeed, and the test of line 783 fails. -/
def takes_conversion_path (sizes : String → Option Nat) (layout : Layout) (stream : Nat)
    (is_rigid : Bool) (bpv : Nat) : Bool :=
  match scan sizes layout stream bpv with
  | .error _ => false
  | .ok st =>
    match type_at st.layout st.binormal_index, type_at st.layout st.tangent_index with
    | .ok binormal_type, .ok _ =>
      !(!st.conversion_required
        && !(!st.has_normals && decide (st.binormal_index ≠ -1) && decide (st.tangent_index ≠ -1))
        && !(is_rigid && decide (binormal_type = "ubyte4n"))
        && !st.bone_remapping && !st.weight_conversion && !st.expand_normals)
    | _, _ => false

/-- A layout with the declared stride `2 ^ 31` on stream 0 and one entry of two half
floats. -/
def wide_layout : Layout :=
  { sizes := [(0, 2147483648)], entries := [⟨0, "Float16_2", "Texcoord", 0⟩] }

/-- The locals after the loop over the entries of `wide_layout` for a measured stride of
`2 ^ 31`. -/
def wide_scan : Scan :=
  { layout := { sizes := [(0, 2147483652)], entries := [⟨0, "Float2", "Texcoord", 0⟩] },
    offsets := [(4, true)],
    conversion_required := true, tangent_index := -1, binormal_index := -1,
    normal_index := -1, blend_indices_index := -1, blend_weights_index := -1,
    vert_index_offset := 0, has_normals := false, bone_remapping := false,
    weight_conversion := false, expand_normals := false, byte_stride := 4 }

/-- The plan of the per-vertex loop for `wide_layout`. -/
def wide_plan : Plan :=
  { scan := wide_scan, binormal_type := "", tangent_type := "", calculate_normals := false,
    add_rigid_bones := false, is_rigid := false, stride := 2147483648 }

/-! ## The transcoding of a stream, entry by entry

Reference definitions for the behaviour of `expand_vertex_stream` on a layout whose entries
are ordered by stream: what the loop over the layout entries records, and what the
per-vertex loop emits for every decoded entry. -/

/-- The source size of an entry: `utils::materials3::sizes.at(type)` as a `uint32_t`. -/
def Entry.size (sizes : String → Option Nat) (e : Entry) : Nat := u32 ((sizes e.type).getD 0)

/-- The sum of the source sizes of the entries. -/
def entries_size (sizes : String → Option Nat) (es : List Entry) : Nat :=
  (es.map (Entry.size sizes)).sum

/-- The position of the last entry that satisfies `P`. -/
def last_index (P : Entry → Bool) : List Entry → Option Nat
  | [] => none
  | e :: es =>
    match last_index P es with
    | some k => some (k + 1)
    | none => if P e then some 0 else none

/-- The entry has the usage `u`. -/
def has_usage (u : String) (e : Entry) : Bool := decide (e.usage = u)

/-- The entry has the usage `u` and the type `ubyte4n`. -/
def is_packed (u : String) (e : Entry) : Bool := decide (e.usage = u ∧ e.type = "ubyte4n")

/-- The type that the loop over the layout entries leaves in a decoded entry (lines
747-773). -/
def rewritten_type (e : Entry) : String :=
  if needs_conversion e.type then "Float2"
  else if e.usage = "Normal" ∧ e.type = "ubyte4n" then "Float3"
  else if e.usage = "BlendWeight" ∧ e.type = "ubyte4n" then "Float4"
  else e.type

/-- A decoded entry as the loop over the layout entries leaves it. -/
def Entry.rewritten (e : Entry) : Entry := { e with type := rewritten_type e }

/-- What the loop over the layout entries adds to the size of the stream for a decoded
entry (lines 750, 757 and 772). -/
def size_adjustment (e : Entry) : Nat :=
  (if needs_conversion e.type then 4 else 0)
    + (if e.usage = "Normal" ∧ e.type = "ubyte4n" then 8 else 0)
    + (if e.usage = "BlendWeight" ∧ e.type = "ubyte4n" then 12 else 0)

/-- The sum of the size adjustments of the entries. -/
def entries_adjustment (es : List Entry) : Nat := (es.map size_adjustment).sum

/-- The index that one of the `int` locals holds: `-1`, or the layout index of the entry
number `k` of the stream when `base` entries of lower streams precede. -/
def recorded (base : Nat) (old : Int) : Option Nat → Int
  | some k => ((base + k : Nat) : Int)
  | none => old

/-- The locals after the loop over the layout entries has decoded the entries `dec`,
starting at the layout index `i` with the locals `st`; `l` is the layout it leaves. -/
def Scan.decoded (sizes : String → Option Nat) (dec : List Entry) (i : Nat) (st : Scan)
    (l : Layout) : Scan :=
  { layout := l
    offsets := st.offsets ++ dec.map fun e => (e.size sizes, needs_conversion e.type)
    conversion_required := st.conversion_required || dec.any fun e => needs_conversion e.type
    tangent_index := recorded i st.tangent_index (last_index (has_usage "Tangent") dec)
    binormal_index := recorded i st.binormal_index (last_index (has_usage "Binormal") dec)
    normal_index := recorded i st.normal_index (last_index (has_usage "Normal") dec)
    blend_indices_index :=
      recorded i st.blend_indices_index (last_index (has_usage "BlendIndices") dec)
    blend_weights_index :=
      recorded i st.blend_weights_index (last_index (is_packed "BlendWeight") dec)
    vert_index_offset := st.vert_index_offset
    has_normals := st.has_normals || dec.any (has_usage "Normal")
    bone_remapping := st.bone_remapping || dec.any (has_usage "BlendIndices")
    weight_conversion := st.weight_conversion || dec.any (is_packed "BlendWeight")
    expand_normals := st.expand_normals || dec.any (is_packed "Normal")
    byte_stride := st.byte_stride + entries_size sizes dec }

/-- The entries of the layout are ordered by stream: the entries `lower` of lower streams
come first, then the entries of `stream`, of which `dec` start within the measured stride
`bpv` and `skipped` lie behind it, then the entries `higher` of higher streams.  The types
of the entries of the stream are in the size table, and the sizes of the decoded entries
add up without overflow. -/
structure Ordered (sizes : String → Option Nat) (layout : Layout) (stream bpv : Nat)
    (lower dec skipped higher : List Entry) : Prop where
  entries : layout.entries = lower ++ dec ++ skipped ++ higher
  lower_lt : ∀ e ∈ lower, e.stream < stream
  higher_gt : ∀ e ∈ higher, stream < e.stream
  dec_eq : ∀ e ∈ dec, e.stream = stream
  skipped_eq : ∀ e ∈ skipped, e.stream = stream
  dec_known : ∀ e ∈ dec, (sizes e.type).isSome
  skipped_known : ∀ e ∈ skipped, (sizes e.type).isSome
  starts_below : ∀ k, k < dec.length → entries_size sizes (dec.take k) < bpv
  filled : skipped = [] ∨ bpv ≤ entries_size sizes dec
  no_wrap : entries_size sizes dec < 2 ^ 32

/-- The locals after the loop over the entries of a layout ordered by stream, `base`
entries of lower streams preceding the decoded entries `dec`; `l` is the layout the loop
leaves. -/
def scan_result (sizes : String → Option Nat) (layout : Layout) (dec : List Entry)
    (base : Nat) (l : Layout) : Scan :=
  Scan.decoded sizes dec base { Scan.init layout with vert_index_offset := (base : Int) } l

/-- The cells that the per-vertex loop emits for the decoded entry number `k`, the entry
`e`, whose source bytes are `bytes`: two half floats become two floats; the last `Normal`
entry becomes three floats `b / 128 - 1` when the stream has a `Normal` entry of type
`ubyte4n`; otherwise the bytes are copied, after the bone map if the entry is the last
`BlendIndices` entry, and as the floats `b / 255.0f` if it is the last `BlendWeight` entry of
type `ubyte4n`. -/
def entry_cells (ext : Externals) (dec : List Entry) (k : Nat) (e : Entry) (bytes : Bytes) :
    List Cell :=
  if needs_conversion e.type then
    [.f32 (half_value (le_value (bytes.take 2))),
     .f32 (half_value (le_value ((bytes.drop 2).take 2)))]
  else if dec.any (is_packed "Normal") = true ∧ last_index (has_usage "Normal") dec = some k then
    [.f32 ((le_value (bytes.take 1) : ℚ) / 128 - 1),
     .f32 ((le_value ((bytes.drop 1).take 1) : ℚ) / 128 - 1),
     .f32 ((le_value ((bytes.drop 2).take 1) : ℚ) / 128 - 1)]
  else
    let to_add :=
      if last_index (has_usage "BlendIndices") dec = some k then
        bytes.map fun b => ext.map_bone (b % 256) % 256
      else bytes
    if last_index (is_packed "BlendWeight") dec = some k then
      to_add.map fun b => .f32 (f32_div (b % 256) 255)
    else to_add.map fun b => .byte (b % 256)

/-- The cells emitted for the entries `rest`, the first of which is the decoded entry
number `k`, from the bytes `bytes` of the vertex that start at that entry. -/
def cells_from (ext : Externals) (dec : List Entry) :
    Nat → List Entry → Bytes → List Cell
  | _, [], _ => []
  | k, e :: es, bytes =>
    entry_cells ext dec k e (bytes.take (e.size ext.sizes))
      ++ cells_from ext dec (k + 1) es (bytes.drop (e.size ext.sizes))

/-- The vertex buffer after the per-vertex loop has gone through the entries `rest` of one
vertex, whose bytes start at `pos`: the bytes of the last `BlendIndices` entry are replaced
by their images under the bone map, unless that entry is emitted as floats. -/
def remap_from (ext : Externals) (dec : List Entry) :
    Nat → List Entry → Nat → Bytes → Bytes
  | _, [], _, data => data
  | k, e :: es, pos, data =>
    let data1 :=
      if needs_conversion e.type = false
          ∧ ¬ (dec.any (is_packed "Normal") = true ∧ last_index (has_usage "Normal") dec = some k)
          ∧ last_index (has_usage "BlendIndices") dec = some k then
        write_bytes data pos
          (((data.drop pos).take (e.size ext.sizes)).map fun b => ext.map_bone (b % 256) % 256)
      else data
    remap_from ext dec (k + 1) es (pos + e.size ext.sizes) data1

/-- The type of the last decoded `Binormal` entry after the loop over the layout entries,
`""` when there is none (lines 776-778). -/
def binormal_type_of (dec : List Entry) : String :=
  match last_index (has_usage "Binormal") dec with
  | some k => ((dec.get? k).map rewritten_type).getD ""
  | none => ""

/-- The type of the last decoded `Tangent` entry after the loop over the layout entries
(lines 779-780). -/
def tangent_type_of (dec : List Entry) : String :=
  match last_index (has_usage "Tangent") dec with
  | some k => ((dec.get? k).map rewritten_type).getD ""
  | none => ""

/-- The flag `calculate_normals` (line 782) for the decoded entries `dec`. -/
def calculates_normals (dec : List Entry) : Bool :=
  !dec.any (has_usage "Normal") && (last_index (has_usage "Binormal") dec).isSome
    && (last_index (has_usage "Tangent") dec).isSome

/-- The flag `add_rigid_bones` (line 783). -/
def adds_rigid_bones (dec : List Entry) (is_rigid : Bool) : Bool :=
  is_rigid && decide (binormal_type_of dec = "ubyte4n")

/-- The value of `rigid_joint_index` after the entries of one vertex, whose bytes are
`bytes`: the image under the bone map of the fourth byte of the last `Binormal` entry, as a
`uint16_t`, when the mesh is rigid and that entry has the type `ubyte4n`; zero
otherwise. -/
def rigid_joint (ext : Externals) (dec : List Entry) (is_rigid : Bool) (bytes : Bytes) : Nat :=
  match last_index (has_usage "Binormal") dec with
  | some k =>
    if adds_rigid_bones dec is_rigid then
      ext.map_bone (le_value ((bytes.drop (entries_size ext.sizes (dec.take k) + 3)).take 1))
        % 2 ^ 16
    else 0
  | none => 0

/-- The cells that lines 884-889 append for a vertex. -/
def rigid_cells (j : Nat) : List Cell :=
  [.byte (j % 256), .byte 0, .byte 0, .byte 0, .f32 1, .f32 0, .f32 0, .f32 0]

/-- The plan of the per-vertex loop for a layout ordered by stream. -/
def plan_of (sizes : String → Option Nat) (layout : Layout) (dec : List Entry) (base : Nat)
    (l : Layout) (is_rigid : Bool) (stride : Nat) : Plan :=
  { scan := scan_result sizes layout dec base l
    binormal_type := binormal_type_of dec
    tangent_type := tangent_type_of dec
    calculate_normals := calculates_normals dec
    add_rigid_bones := adds_rigid_bones dec is_rigid
    is_rigid := is_rigid
    stride := stride }

/-- The value of `rigid_joint_index` after the per-vertex loop has gone through the entries
`rest`, the first of which is the decoded entry number `k`, from the bytes `bytes` of the
vertex that start at that entry; `j` is the value before (lines 845-852). -/
def rigid_from (ext : Externals) (dec : List Entry) (is_rigid : Bool) :
    Nat → List Entry → Bytes → Nat → Nat
  | _, [], _, j => j
  | k, e :: es, bytes, j =>
    rigid_from ext dec is_rigid (k + 1) es (bytes.drop (e.size ext.sizes))
      (if last_index (has_usage "Binormal") dec = some k
          ∧ adds_rigid_bones dec is_rigid = true then
        ext.map_bone (le_value ((bytes.drop 3).take 1)) % 2 ^ 16
      else j)

/-- The cells that the per-vertex loop emits for one vertex, whose bytes start `bytes`:
the cells of the decoded entries, then the calculated normal `nrm` when normals are
calculated, then the synthesised bone entries when the mesh is rigid and the binormal has
the type `ubyte4n`. -/
def vertex_cells (ext : Externals) (dec : List Entry) (is_rigid : Bool) (nrm : Vec3)
    (bytes : Bytes) : List Cell :=
  cells_from ext dec 0 dec bytes
    ++ (if calculates_normals dec then nrm.cells else [])
    ++ (if adds_rigid_bones dec is_rigid then rigid_cells (rigid_joint ext dec is_rigid bytes)
        else [])

/-- The cells emitted for the vertices of a stream, one vertex for every element of
`normals` (the normal calculated for it); `bytes` starts at the first of them, the next
vertex starts `bpv` bytes further. -/
def stream_cells (ext : Externals) (dec : List Entry) (is_rigid : Bool) (bpv : Nat) :
    List Vec3 → Bytes → List Cell
  | [], _ => []
  | nrm :: rest, bytes =>
    vertex_cells ext dec is_rigid nrm bytes
      ++ stream_cells ext dec is_rigid bpv rest (bytes.drop bpv)

/-- The vertex buffer after the per-vertex loop has gone through `count` vertices, the
first of which starts at `pos`. -/
def remap_stream (ext : Externals) (dec : List Entry) (bpv : Nat) : Nat → Nat → Bytes → Bytes
  | 0, _, data => data
  | count + 1, pos, data =>
    remap_stream ext dec bpv count (pos + bpv) (remap_from ext dec 0 dec pos data)

/-- Some rule of the conversion path applies to the decoded entries: the test of line 783
fails. -/
def converts (dec : List Entry) (is_rigid : Bool) : Bool :=
  dec.any (fun e => needs_conversion e.type) || calculates_normals dec
    || adds_rigid_bones dec is_rigid || dec.any (has_usage "BlendIndices")
    || dec.any (is_packed "BlendWeight") || dec.any (is_packed "Normal")

/-- The entries that lines 791-802 append to the layout. -/
def appended_entries (dec : List Entry) (stream : Nat) (is_rigid : Bool) : List Entry :=
  (if calculates_normals dec then [appended_entry stream "Float3" "Normal"] else [])
    ++ (if adds_rigid_bones dec is_rigid then
        [appended_entry stream "D3dcolor" "BlendIndices",
          appended_entry stream "Float4" "BlendWeight"]
      else [])

/-- The bytes that lines 791-802 add to the size of the stream. -/
def appended_size (dec : List Entry) (is_rigid : Bool) : Nat :=
  (if calculates_normals dec then 12 else 0) + (if adds_rigid_bones dec is_rigid then 20 else 0)

/-- The conditions under which the conversion path of `expand_vertex_stream` is described
entry by entry: the layout is ordered by stream, with the decoded entries `dec` of the
stream; the stride check passes; the decoded entries lie within the measured stride `bpv`,
so that no read leaves the vertex; the buffer holds `n` whole vertices; no 32-bit value
wraps; some rule of the conversion path applies.  The absent size table is assumed to
give every decoded entry at least four bytes and the types `Float16_2`, `float16_2` and
`ubyte4n` exactly four, and the absent helper `utils::load_vector` is assumed to return. -/
structure Transcodes (ext : Externals) (layout : Layout) (data : Bytes) (stream : Nat)
    (is_rigid : Bool) (bpv declared n : Nat) (lower dec skipped higher : List Entry) :
    Prop where
  load_ok : ∀ t a b d w, ∃ r, ext.load_vector t a b d w = .ok r
  ordered : Ordered ext.sizes layout stream bpv lower dec skipped higher
  declared_size : layout.size_at stream = .ok declared
  stride_le : bpv ≤ declared
  size_fits : declared + entries_adjustment dec + 32 < 2 ^ 32
  skipped_le : entries_size ext.sizes skipped ≤ declared + entries_adjustment dec
  min_size : ∀ e ∈ dec, 4 ≤ e.size ext.sizes
  half_size : ∀ e ∈ dec, needs_conversion e.type = true → e.size ext.sizes = 4
  packed_size : ∀ e ∈ dec, e.type = "ubyte4n" → e.size ext.sizes = 4
  within_stride : entries_size ext.sizes dec ≤ bpv
  conversion : converts dec is_rigid = true
  vertices : data.length = n * bpv
  no_wrap : data.length + bpv ≤ 2 ^ 32

/-! ## Layouts for concrete evaluations of `expand_vertex_stream` -/

/-- One vertex of 20 bytes: twelve position bytes, then the bytes 1 to 8. -/
def twin_vertex : Bytes := [0, 0, 0, 0, 0, 0, 0, 0, 0, 0, 0, 0, 1, 2, 3, 4, 5, 6, 7, 8]

/-- One vertex of 16 bytes: twelve position bytes, then the bytes 1 to 4. -/
def short_vertex : Bytes := [0, 0, 0, 0, 0, 0, 0, 0, 0, 0, 0, 0, 1, 2, 3, 4]

/-- A layout of a rigid mesh: Position(Float3), Tangent(ubyte4n), Binormal(ubyte4n);
declared stride 20. -/
def rigid_layout : Layout :=
  { sizes := [(0, 20)]
    entries := [⟨0, "Float3", "Position", 0⟩, ⟨0, "ubyte4n", "Tangent", 0⟩,
      ⟨0, "ubyte4n", "Binormal", 0⟩] }

/-- A layout of a rigid mesh that is not ordered by stream: an entry of stream 1 precedes
the entries Position(Float3), Binormal(ubyte4n) of stream 0, whose declared stride is 16. -/
def unordered_rigid_layout : Layout :=
  { sizes := [(0, 16), (1, 8)]
    entries := [⟨1, "Float2", "Texcoord", 0⟩, ⟨0, "Float3", "Position", 0⟩,
      ⟨0, "ubyte4n", "Binormal", 0⟩] }

/-- A layout of a rigid mesh with the declared stride 16: Position(Float3),
Binormal(ubyte4n). -/
def short_rigid_layout : Layout :=
  { sizes := [(0, 16)]
    entries := [⟨0, "Float3", "Position", 0⟩, ⟨0, "ubyte4n", "Binormal", 0⟩] }

/-- One vertex of 12 bytes. -/
def position_vertex : Bytes := [0, 0, 0, 0, 0, 0, 0, 0, 0, 0, 0, 0]

/-- A layout with two `BlendWeight` entries of type `ubyte4n` on stream 0:
Position(Float3), BlendWeight(ubyte4n) with the usage index 0, BlendWeight(ubyte4n) with
the usage index 1; declared stride 20. -/
def twin_weights_layout : Layout :=
  { sizes := [(0, 20)]
    entries := [⟨0, "Float3", "Position", 0⟩, ⟨0, "ubyte4n", "BlendWeight", 0⟩,
      ⟨0, "ubyte4n", "BlendWeight", 1⟩] }

/-- One vertex of 20 bytes: twelve position bytes, then the weights (255, 0, 0, 0)
twice. -/
def twin_weights_vertex : Bytes :=
  [0, 0, 0, 0, 0, 0, 0, 0, 0, 0, 0, 0, 255, 0, 0, 0, 255, 0, 0, 0]

/-- A layout that is not ordered by stream: an entry of stream 1 precedes the entries
Position(Float3), BlendWeight(ubyte4n) of stream 0, whose declared stride is 16. -/
def unordered_weights_layout : Layout :=
  { sizes := [(0, 16), (1, 8)]
    entries := [⟨1, "Float2", "Texcoord", 0⟩, ⟨0, "Float3", "Position", 0⟩,
      ⟨0, "ubyte4n", "BlendWeight", 0⟩] }

/-- One vertex of 16 bytes: twelve position bytes, then the weights (255, 0, 0, 0). -/
def weights_vertex : Bytes := [0, 0, 0, 0, 0, 0, 0, 0, 0, 0, 0, 0, 255, 0, 0, 0]

/-- One vertex of 24 bytes for `skinned_layout` with the weights (1, 254, 0, 0), which sum
to 255. -/
def uneven_weights_vertex : Bytes :=
  [0, 0, 0, 0, 0, 0, 0, 0, 0, 0, 0, 0, 128, 128, 255, 0, 1, 2, 3, 4, 1, 254, 0, 0]

/-! ## Lemmas on the `Except` monad and on byte reads -/

theorem bind_ok_iff {α β : Type} (x : Except Failure α) (f : α → Except Failure β) (b : β) :
    (x >>= f) = .ok b ↔ ∃ a, x = .ok a ∧ f a = .ok b := by
  cases x <;> simp [bind, Except.bind]

theorem pure_ok_iff {α : Type} (a b : α) : (pure a : Except Failure α) = .ok b ↔ a = b := by
  constructor
  · intro h; cases h; rfl
  · intro h; rw [h]; rfl

theorem le_value_lt (bs : Bytes) : le_value bs < 256 ^ bs.length := by
  induction bs with
  | nil => simp [le_value]
  | cons b bs ih =>
    simp only [le_value, List.length_cons, pow_succ]
    have := Nat.mod_lt b (show 0 < 256 by norm_num)
    omega

theorem get_bytes_length {buf : Bytes} {off w : Nat} {bs : Bytes}
    (h : get_bytes buf off w = .ok bs) : bs.length = w ∧ off + w ≤ buf.length := by
  unfold get_bytes at h
  split at h
  · cases h
    refine ⟨?_, by assumption⟩
    simp only [List.length_take, List.length_drop]
    omega
  · cases h

theorem get_u32_lt {buf : Bytes} {off v : Nat} (h : get_u32 buf off = .ok v) :
    v < 2 ^ 32 ∧ off + 4 ≤ buf.length := by
  unfold get_u32 at h
  cases hb : get_bytes buf off 4 with
  | error e => rw [hb] at h; cases h
  | ok bs =>
    rw [hb] at h
    cases h
    obtain ⟨h1, h2⟩ := get_bytes_length hb
    have := le_value_lt bs
    rw [h1] at this
    exact ⟨by norm_num at this ⊢; exact this, h2⟩

theorem get_u64_lt {buf : Bytes} {off v : Nat} (h : get_u64 buf off = .ok v) :
    v < 2 ^ 64 ∧ off + 8 ≤ buf.length := by
  unfold get_u64 at h
  cases hb : get_bytes buf off 8 with
  | error e => rw [hb] at h; cases h
  | ok bs =>
    rw [hb] at h
    cases h
    obtain ⟨h1, h2⟩ := get_bytes_length hb
    have := le_value_lt bs
    rw [h1] at this
    exact ⟨by norm_num at this ⊢; exact this, h2⟩

theorem get_bytes_take (buf : Bytes) (n off w : Nat) (h1 : off + w ≤ n) (h2 : n ≤ buf.length) :
    get_bytes (buf.take n) off w = get_bytes buf off w := by
  unfold get_bytes
  have hl : (buf.take n).length = n := by simp [List.length_take]; omega
  rw [hl, if_pos h1, if_pos (by omega)]
  congr 1
  rw [List.drop_take, List.take_take]
  congr 1
  omega

theorem get_bytes_append (a b : Bytes) (off w : Nat) (h : off + w ≤ a.length) :
    get_bytes (a ++ b) off w = get_bytes a off w := by
  unfold get_bytes
  rw [if_pos h, if_pos (by simp only [List.length_append]; omega)]
  congr 1
  rw [List.drop_append_of_le_length (by omega), List.take_append_of_le_length]
  simp only [List.length_drop]
  omega

theorem get_u32_append (a b : Bytes) (off : Nat) (h : off + 4 ≤ a.length) :
    get_u32 (a ++ b) off = get_u32 a off := by
  unfold get_u32; rw [get_bytes_append a b off 4 h]

theorem get_u64_append (a b : Bytes) (off : Nat) (h : off + 8 ≤ a.length) :
    get_u64 (a ++ b) off = get_u64 a off := by
  unfold get_u64; rw [get_bytes_append a b off 8 h]

theorem first_ok_iff (buf : Bytes) (n : Nat) (b : Bytes) :
    first buf n = .ok b ↔ n ≤ buf.length ∧ b = buf.take n := by
  unfold first
  split
  · constructor
    · intro h; cases h; exact ⟨by assumption, rfl⟩
    · rintro ⟨_, rfl⟩; rfl
  · constructor
    · intro h; cases h
    · rintro ⟨h, _⟩; omega

theorem sub64_eq (a b : Nat) (hb : b ≤ a) (ha : a < 2 ^ 64) : sub64 a b = a - b := by
  have e : (2 : Nat) ^ 64 = 18446744073709551616 := by norm_num
  unfold sub64
  rw [e] at ha ⊢
  omega

/-- What the padding statement computes: the next multiple of 16 strictly above `x`. -/
theorem pad16_eq (x : Nat) (h : x + 16 < 2 ^ 64) :
    pad16 x = x / 16 * 16 + 16 := by
  unfold pad16 u64
  rw [Nat.mod_eq_of_lt (by omega)]
  omega

theorem spec_round_up_16_spec (n : Nat) :
    16 ∣ spec_round_up_16 n ∧ n ≤ spec_round_up_16 n
      ∧ ∀ m, 16 ∣ m → n ≤ m → spec_round_up_16 n ≤ m := by
  unfold spec_round_up_16
  refine ⟨Nat.dvd_mul_left _ _, by omega, ?_⟩
  rintro m ⟨c, rfl⟩ h
  omega

/-- The padding statement against the rounding of the specification: they agree on a
count that is not a multiple of 16, and differ by a full 16 on one that is. -/
theorem pad16_round_up (x : Nat) (h : x + 16 < 2 ^ 64) :
    (x % 16 ≠ 0 → pad16 x = spec_round_up_16 x)
    ∧ (x % 16 = 0 → pad16 x = spec_round_up_16 x + 16) := by
  rw [pad16_eq x h]
  unfold spec_round_up_16
  constructor <;> intro h16 <;> omega

/-! ## The constructors in terms of the header fields -/

/-- The static-segment constructor in terms of the six header fields. -/
theorem static_new_eq (buf : Bytes) (tp rp sp tc rc sc : Nat)
    (htc : get_u32 buf 0 = .ok tc) (hrc : get_u32 buf 4 = .ok rc) (hsc : get_u32 buf 8 = .ok sc)
    (htp : get_u64 buf 72 = .ok tp) (hrp : get_u64 buf 80 = .ok rp)
    (hsp : get_u64 buf 88 = .ok sp) :
    NSAStaticSegment.new buf
      = (first buf (u64 (96 + pad16 (NSAStaticSegment.channel_bytes tp rp sp tc rc sc)))).map
          fun b => ⟨b⟩ := by
  unfold NSAStaticSegment.new NSAStaticSegment.extent NSAStaticSegment.translation_data_ptr
    NSAStaticSegment.rotation_data_ptr NSAStaticSegment.scale_data_ptr
    NSAStaticSegment.translation_bone_count NSAStaticSegment.rotation_bone_count
    NSAStaticSegment.scale_bone_count
  simp only [htc, hrc, hsc, htp, hrp, hsp, bind, Except.bind, pure, Except.pure]
  cases first buf (u64 (96 + pad16 (NSAStaticSegment.channel_bytes tp rp sp tc rc sc))) <;> rfl

/-- The dynamic-segment constructor in terms of the header fields. -/
theorem dynamic_new_eq (sizeofDI : Nat) (buf : Bytes) (S T R C tp rp ri sp : Nat)
    (hS : get_u32 buf 0 = .ok S) (hT : get_u32 buf 4 = .ok T) (hR : get_u32 buf 8 = .ok R)
    (hC : get_u32 buf 12 = .ok C) (htp : get_u64 buf 16 = .ok tp)
    (hrp : get_u64 buf 32 = .ok rp) (hri : get_u64 buf 40 = .ok ri)
    (hsp : get_u64 buf 48 = .ok sp) :
    NSADynamicSegment.new sizeofDI buf
      = (if R > 0 then NSADynamicSegment.sample_padding S R ri rp else .ok 0).bind fun pad =>
        (first buf (u64 (64 + pad16 (NSADynamicSegment.data_length sizeofDI S T R C pad)))).map
          fun b =>
            { buf_ := b
              m_translation_data :=
                NSADynamicSegment.sample_spans S tp (sizeof_uint32 * T) T sizeof_uint32
              m_rotation_data :=
                NSADynamicSegment.sample_spans S rp (sizeof_Vector3Short * R + pad) R
                  sizeof_Vector3Short
              m_scale_data :=
                NSADynamicSegment.sample_spans S sp (sizeof_uint32 * C) C sizeof_uint32 } := by
  unfold NSADynamicSegment.new NSADynamicSegment.sample_count
    NSADynamicSegment.translation_bone_count NSADynamicSegment.rotation_bone_count
    NSADynamicSegment.scale_bone_count NSADynamicSegment.translation_data_ptr
    NSADynamicSegment.rotation_data_ptr NSADynamicSegment.rotation_dequantization_info_ptr
    NSADynamicSegment.scale_data_ptr
  simp only [hS, hT, hR, hC, htp, hrp, hri, hsp, bind, Except.bind, pure, Except.pure]
  by_cases h : R > 0
  · simp only [h, if_true]
    cases NSADynamicSegment.sample_padding S R ri rp with
    | error e => rfl
    | ok pad =>
      simp only []
      cases first buf (u64 (64 + pad16 (NSADynamicSegment.data_length sizeofDI S T R C pad))) <;> rfl
  · simp only [h, if_false]
    cases first buf (u64 (64 + pad16 (NSADynamicSegment.data_length sizeofDI S T R C 0))) <;> rfl

theorem root_new_eq (buf : Bytes) (n tp rp : Nat)
    (hn : get_u32 buf 28 = .ok n) (ht : get_u64 buf 80 = .ok tp) (hr : get_u64 buf 88 = .ok rp) :
    NSARootSegment.new buf
      = (first buf (96 + (if tp ≠ 0 then 4 * n else 0) + (if rp ≠ 0 then 6 * n else 0))).map
          fun b => ⟨b⟩ := by
  have hn4 := (get_u32_lt hn).1
  have e : u64 (96 + (if tp = 0 then 0 else n * 4) + (if rp = 0 then 0 else n * 6))
      = 96 + (if tp ≠ 0 then 4 * n else 0) + (if rp ≠ 0 then 6 * n else 0) := by
    unfold u64
    split <;> split <;> simp_all <;> omega
  unfold NSARootSegment.new NSARootSegment.translation_data NSARootSegment.rotation_data
    NSARootSegment.translation_data_ptr NSARootSegment.rotation_data_ptr
    NSARootSegment.sample_count
  simp only [ht, hr, hn, bind, Except.bind, pure, Except.pure]
  by_cases h1 : tp = 0 <;> by_cases h2 : rp = 0 <;>
    simp [h1, h2, Span.empty, Span.size_bytes, sizeof_uint32, sizeof_Vector3Short, Except.map,
      bind, Except.bind, pure, Except.pure] at e ⊢ <;> rw [e]

theorem root_new_ok {buf : Bytes} {v : NSARootSegment}
    (h : NSARootSegment.new buf = .ok v) :
    ∃ n tp rp, get_u32 buf 28 = .ok n ∧ get_u64 buf 80 = .ok tp ∧ get_u64 buf 88 = .ok rp
      ∧ 96 ≤ v.buf_.length ∧ v.buf_.length ≤ buf.length
      ∧ v.buf_ = buf.take v.buf_.length := by
  have h0 := h
  unfold NSARootSegment.new NSARootSegment.translation_data NSARootSegment.rotation_data
    NSARootSegment.translation_data_ptr NSARootSegment.rotation_data_ptr
    NSARootSegment.sample_count at h
  cases ht : get_u64 buf 80 with
  | error e => simp [ht, bind, Except.bind] at h
  | ok tp =>
    cases hr : get_u64 buf 88 with
    | error e =>
      by_cases h1 : tp = 0
      · simp [ht, hr, h1, bind, Except.bind, pure, Except.pure] at h
      · cases hn : get_u32 buf 28 <;>
          simp [ht, hr, hn, h1, bind, Except.bind, pure, Except.pure] at h
    | ok rp =>
      have h88 := (get_u64_lt hr).2
      have hn : ∃ n, get_u32 buf 28 = .ok n := by
        unfold get_u32 get_bytes
        rw [if_pos (by omega)]
        exact ⟨_, rfl⟩
      obtain ⟨n, hn⟩ := hn
      refine ⟨n, tp, rp, hn, rfl, rfl, ?_⟩
      rw [root_new_eq buf n tp rp hn ht hr] at h0
      cases hf : first buf (96 + (if tp ≠ 0 then 4 * n else 0) + (if rp ≠ 0 then 6 * n else 0)) with
      | error e => rw [hf] at h0; cases h0
      | ok b =>
        rw [hf] at h0
        cases h0
        obtain ⟨h1, h2⟩ := (first_ok_iff _ _ _).1 hf
        subst h2
        simp only [List.length_take]
        refine ⟨by omega, by omega, ?_⟩
        rw [min_eq_left h1]

theorem file_child_ok {σ : Type} {buf : Bytes} {ptr : Nat}
    {build : Bytes → Except Failure σ} {o : Option σ} (h : NSAFile.child buf ptr build = .ok o) :
    (ptr = 0 → o = none)
    ∧ (ptr ≠ 0 → ptr ≤ buf.length ∧ ∃ s, build (buf.drop ptr) = .ok s ∧ o = some s) := by
  unfold NSAFile.child at h
  by_cases hp : ptr = 0
  · simp only [hp, ne_eq, not_true_eq_false, if_false, pure, Except.pure] at h
    cases h
    exact ⟨fun _ => rfl, fun hne => absurd hp hne⟩
  · refine ⟨fun h0 => absurd h0 hp, fun _ => ?_⟩
    simp only [ne_eq, hp, not_false_eq_true, if_true, subspan] at h
    by_cases hl : ptr ≤ buf.length
    · refine ⟨hl, ?_⟩
      simp only [hl, if_true, bind, Except.bind, pure, Except.pure] at h
      cases hb : build (buf.drop ptr) with
      | error e => rw [hb] at h; cases h
      | ok s => rw [hb] at h; cases h; exact ⟨s, rfl, rfl⟩
    · simp only [hl, if_false, bind, Except.bind] at h
      cases h

/-! ## Static segment: the length of the view (C1) -/

set_option maxRecDepth 100000 in
/-- Claim C1 (length of the static-segment view), evaluated where the code departs from
it.  The header has 8 translation bones with their data at offset 96 and no rotation or
scale channel, so the channel byte count is `6 * 8 = 48`, a multiple of 16.  The claim
gives the view `96 + 48 = 144` bytes.  The constructor gives it 160 bytes: the statement
`count += 16 - count % 16` adds a full 16 to a count that is already aligned. -/
theorem static_view_pads_aligned_count :
    NSAStaticSegment.channel_bytes 96 0 0 8 0 0 = 48
    ∧ (NSAStaticSegment.new (static_header 8 0 0 96 0 0 ++ List.replicate 64 0)).map
        (fun v => v.buf_.length) = .ok 160
    ∧ 96 + spec_round_up_16 48 = 144 := by
  refine ⟨by decide, ?_, by decide⟩
  decide

/-! ## Dynamic segment: the length of the view (C2) -/

/-- Claim C2 (length of the dynamic-segment view), evaluated where the code departs from
it.  The header has one sample, 16 translation bones and no rotation or scale bones, so
for every record size `sizeofDI` the length `L = 4 * 16 * 1 + 16 * sizeofDI` is a
multiple of 16.  The claim gives the view `64 + L` bytes.  The constructor gives it
`64 + L + 16` bytes: the statement `length += 16 - length % 16`, commented "align to 16
bytes", adds a full 16 to a length that is already aligned. -/
theorem dynamic_view_pads_aligned_length (sizeofDI : Nat) (h : sizeofDI < 2 ^ 32) :
    NSADynamicSegment.data_length sizeofDI 1 16 0 0 0 = 64 + 16 * sizeofDI
    ∧ (NSADynamicSegment.new sizeofDI
          (dynamic_header 1 16 0 0 64 128 0 0 0 0 ++ List.replicate (80 + 16 * sizeofDI) 0)).map
        (fun v => v.buf_.length) = .ok (64 + (64 + 16 * sizeofDI) + 16)
    ∧ 64 + spec_round_up_16 (64 + 16 * sizeofDI) = 64 + (64 + 16 * sizeofDI) := by
  have hd : NSADynamicSegment.data_length sizeofDI 1 16 0 0 0 = 64 + 16 * sizeofDI := by
    have e : next_multiple_of_4 16 = 16 := by decide
    have e0 : next_multiple_of_4 0 = 0 := by decide
    unfold NSADynamicSegment.data_length
    rw [e, e0]
    simp only [sizeof_uint32, sizeof_Vector3Short, u32, u64]
    norm_num
    omega
  refine ⟨hd, ?_, by unfold spec_round_up_16; omega⟩
  have hlen : (dynamic_header 1 16 0 0 64 128 0 0 0 0).length = 64 := by decide
  rw [dynamic_new_eq sizeofDI _ 1 16 0 0 64 0 0 0
    (by rw [get_u32_append _ _ _ (by rw [hlen]; norm_num)]; decide)
    (by rw [get_u32_append _ _ _ (by rw [hlen]; norm_num)]; decide)
    (by rw [get_u32_append _ _ _ (by rw [hlen]; norm_num)]; decide)
    (by rw [get_u32_append _ _ _ (by rw [hlen]; norm_num)]; decide)
    (by rw [get_u64_append _ _ _ (by rw [hlen]; norm_num)]; decide)
    (by rw [get_u64_append _ _ _ (by rw [hlen]; norm_num)]; decide)
    (by rw [get_u64_append _ _ _ (by rw [hlen]; norm_num)]; decide)
    (by rw [get_u64_append _ _ _ (by rw [hlen]; norm_num)]; decide)]
  have hp : pad16 (64 + 16 * sizeofDI) = 64 + 16 * sizeofDI + 16 := by
    rw [pad16_eq _ (by omega)]; omega
  have hu : u64 (64 + (64 + 16 * sizeofDI + 16)) = 64 + (64 + 16 * sizeofDI) + 16 := by
    unfold u64; omega
  simp only [gt_iff_lt, lt_self_iff_false, if_false, Except.bind, hd, hp, hu]
  rw [(first_ok_iff _ _ _).2 ⟨by simp only [List.length_append, hlen, List.length_replicate]; omega, rfl⟩]
  simp only [Except.map, List.length_take, List.length_append, hlen, List.length_replicate]
  congr 1
  omega

/-- The evaluation of C2 for a dequantization-info record of 6 bytes. -/
theorem dynamic_view_pads_aligned_length_witness :
    (6 : Nat) < 2 ^ 32
    ∧ NSADynamicSegment.data_length 6 1 16 0 0 0 = 64 + 16 * 6
    ∧ (NSADynamicSegment.new 6
          (dynamic_header 1 16 0 0 64 128 0 0 0 0 ++ List.replicate (80 + 16 * 6) 0)).map
        (fun v => v.buf_.length) = .ok (64 + (64 + 16 * 6) + 16)
    ∧ 64 + spec_round_up_16 (64 + 16 * 6) = 64 + (64 + 16 * 6) :=
  ⟨by decide, dynamic_view_pads_aligned_length 6 (by decide)⟩

/-! ## Root segment: the length of the view (C3) -/

/-- Claim C3: for every root-segment header with sample count `n` (u32 at byte 28),
translation-data offset `tp` (u64 at byte 80) and rotation-data offset `rp` (u64 at byte
88), every view the constructor returns has length `96 + t + r`, where `t = 4 * n` if
`tp` is non-zero and 0 otherwise, and `r = 6 * n` if `rp` is non-zero and 0 otherwise;
and the constructor does return a view whenever the buffer holds that many bytes. -/
theorem root_segment_view_length (buf : Bytes) (n tp rp : Nat)
    (hn : get_u32 buf 28 = .ok n) (ht : get_u64 buf 80 = .ok tp) (hr : get_u64 buf 88 = .ok rp) :
    (∀ v, NSARootSegment.new buf = .ok v →
        v.buf_.length = 96 + (if tp ≠ 0 then 4 * n else 0) + (if rp ≠ 0 then 6 * n else 0))
    ∧ (96 + (if tp ≠ 0 then 4 * n else 0) + (if rp ≠ 0 then 6 * n else 0) ≤ buf.length →
        ∃ v, NSARootSegment.new buf = .ok v) := by
  rw [root_new_eq buf n tp rp hn ht hr]
  constructor
  · intro v hv
    cases hf : first buf (96 + (if tp ≠ 0 then 4 * n else 0) + (if rp ≠ 0 then 6 * n else 0)) with
    | error e => rw [hf] at hv; cases hv
    | ok b =>
      rw [hf] at hv
      cases hv
      obtain ⟨h1, h2⟩ := (first_ok_iff _ _ _).1 hf
      subst h2
      simp only [List.length_take]
      omega
  · intro hlen
    rw [(first_ok_iff buf _ _).2 ⟨hlen, rfl⟩]
    exact ⟨_, rfl⟩

set_option maxRecDepth 100000 in
/-- An instance of C3: three samples, translation at 96, rotation at 108, 126 bytes. -/
theorem root_segment_view_length_witness :
    get_u32 (root_header 3 96 108 ++ List.replicate 30 0) 28 = .ok 3
    ∧ get_u64 (root_header 3 96 108 ++ List.replicate 30 0) 80 = .ok 96
    ∧ get_u64 (root_header 3 96 108 ++ List.replicate 30 0) 88 = .ok 108
    ∧ (∀ v, NSARootSegment.new (root_header 3 96 108 ++ List.replicate 30 0) = .ok v →
        v.buf_.length = 126)
    ∧ (126 ≤ (root_header 3 96 108 ++ List.replicate 30 0).length →
        ∃ v, NSARootSegment.new (root_header 3 96 108 ++ List.replicate 30 0) = .ok v) :=
  ⟨by decide, by decide, by decide,
    root_segment_view_length (root_header 3 96 108 ++ List.replicate 30 0) 3 96 108
      (by decide) (by decide) (by decide)⟩

/-! ## Static segment: the view covers the channel data (C4) -/

/-- Claim C4, amended.  Take a static-segment header whose present channels (data offset
non-zero) have offsets increasing in the order translation < rotation < scale, whose
lowest present offset is 96, in which the data of each present channel ends no later
than the data of the next present channel begins, and in which every present channel
ends at least 16 bytes below `2 ^ 64`.  Then on the view the constructor returns,
`translation_data()`, `rotation_data()` and `scale_data()` are the spans the header
declares, and every present channel satisfies `data_offset + 6 * bone_count <= view
length`. -/
theorem static_view_covers_separated_channels (buf : Bytes) (v : NSAStaticSegment)
    (tp rp sp tc rc sc : Nat)
    (htc : get_u32 buf 0 = .ok tc) (hrc : get_u32 buf 4 = .ok rc) (hsc : get_u32 buf 8 = .ok sc)
    (htp : get_u64 buf 72 = .ok tp) (hrp : get_u64 buf 80 = .ok rp)
    (hsp : get_u64 buf 88 = .ok sp)
    (hnew : NSAStaticSegment.new buf = .ok v)
    (hinc : (tp ≠ 0 → rp ≠ 0 → tp < rp) ∧ (rp ≠ 0 → sp ≠ 0 → rp < sp)
      ∧ (tp ≠ 0 → sp ≠ 0 → tp < sp))
    (hlow : (tp ≠ 0 → tp = 96) ∧ (tp = 0 → rp ≠ 0 → rp = 96)
      ∧ (tp = 0 → rp = 0 → sp ≠ 0 → sp = 96))
    (hsep : (tp ≠ 0 → rp ≠ 0 → tp + 6 * tc ≤ rp) ∧ (rp ≠ 0 → sp ≠ 0 → rp + 6 * rc ≤ sp)
      ∧ (tp ≠ 0 → sp ≠ 0 → tp + 6 * tc ≤ sp))
    (hfit : (tp ≠ 0 → tp + 6 * tc + 16 < 2 ^ 64) ∧ (rp ≠ 0 → rp + 6 * rc + 16 < 2 ^ 64)
      ∧ (sp ≠ 0 → sp + 6 * sc + 16 < 2 ^ 64)) :
    v.translation_data = .ok ⟨tp, tc, 6⟩ ∧ v.rotation_data = .ok ⟨rp, rc, 6⟩
    ∧ v.scale_data = .ok ⟨sp, sc, 6⟩
    ∧ (tp ≠ 0 → Span.inside ⟨tp, tc, 6⟩ v.buf_.length)
    ∧ (rp ≠ 0 → Span.inside ⟨rp, rc, 6⟩ v.buf_.length)
    ∧ (sp ≠ 0 → Span.inside ⟨sp, sc, 6⟩ v.buf_.length) := by
  have htp64 := (get_u64_lt htp).1
  have hrp64 := (get_u64_lt hrp).1
  have hsp64 := (get_u64_lt hsp).1
  have htc32 := (get_u32_lt htc).1
  have hrc32 := (get_u32_lt hrc).1
  have hsc32 := (get_u32_lt hsc).1
  have h96 := (get_u64_lt hsp).2
  obtain ⟨i1, i2, i3⟩ := hinc
  obtain ⟨l1, l2, l3⟩ := hlow
  obtain ⟨s1, s2, s3⟩ := hsep
  obtain ⟨f1, f2, f3⟩ := hfit
  -- the padded count, without wrap-around
  have hext : ∃ c, NSAStaticSegment.channel_bytes tp rp sp tc rc sc = c ∧ c + 96 + 16 < 2 ^ 64
      ∧ (tp ≠ 0 → tp + 6 * tc ≤ 96 + c) ∧ (rp ≠ 0 → rp + 6 * rc ≤ 96 + c)
      ∧ (sp ≠ 0 → sp + 6 * sc ≤ 96 + c) := by
    unfold NSAStaticSegment.channel_bytes sizeof_Vector3Short
    by_cases a : tp = 0 <;> by_cases b : rp = 0 <;> by_cases c : sp = 0
    all_goals simp only [a, b, c, ne_eq, not_true_eq_false, not_false_eq_true, and_self,
      and_true, and_false, false_and, true_and, if_true, if_false]
    all_goals simp only [a, b, c, ne_eq, not_true_eq_false, not_false_eq_true, true_implies,
      false_implies, forall_const] at i1 i2 i3 l1 l2 l3 s1 s2 s3 f1 f2 f3
    · exact ⟨_, rfl, by norm_num, by simp, by simp, by simp⟩
    · exact ⟨_, rfl, by omega, by simp, by simp, by intro; omega⟩
    · exact ⟨_, rfl, by omega, by simp, by intro; omega, by simp⟩
    · rw [sub64_eq sp rp (by omega) hsp64]
      unfold u64
      rw [Nat.mod_eq_of_lt (by omega)]
      exact ⟨_, rfl, by omega, by simp, by intro; omega, by intro; omega⟩
    · exact ⟨_, rfl, by omega, by intro; omega, by simp, by simp⟩
    · rw [sub64_eq sp tp (by omega) hsp64]
      unfold u64
      rw [Nat.mod_eq_of_lt (by omega)]
      exact ⟨_, rfl, by omega, by intro; omega, by simp, by intro; omega⟩
    · rw [sub64_eq rp tp (by omega) hrp64]
      unfold u64
      rw [Nat.mod_eq_of_lt (by omega)]
      exact ⟨_, rfl, by omega, by intro; omega, by intro; omega, by simp⟩
    · rw [sub64_eq sp tp (by omega) hsp64]
      unfold u64
      rw [Nat.mod_eq_of_lt (by omega)]
      exact ⟨_, rfl, by omega, by intro; omega, by intro; omega, by intro; omega⟩
  obtain ⟨c, hc, hcfit, ct, cr, cs⟩ := hext
  rw [static_new_eq buf tp rp sp tc rc sc htc hrc hsc htp hrp hsp, hc] at hnew
  have hpad : pad16 c = c / 16 * 16 + 16 := pad16_eq c (by omega)
  have hu : u64 (96 + pad16 c) = 96 + (c / 16 * 16 + 16) := by
    rw [hpad]; unfold u64; rw [Nat.mod_eq_of_lt (by omega)]
  rw [hu] at hnew
  cases hf : first buf (96 + (c / 16 * 16 + 16)) with
  | error e => rw [hf] at hnew; cases hnew
  | ok b =>
    rw [hf] at hnew
    cases hnew
    obtain ⟨h1, h2⟩ := (first_ok_iff _ _ _).1 hf
    subst h2
    have hlen : (buf.take (96 + (c / 16 * 16 + 16))).length = 96 + (c / 16 * 16 + 16) := by
      rw [List.length_take]; omega
    have rd : ∀ off w, off + w ≤ 96 →
        get_bytes (buf.take (96 + (c / 16 * 16 + 16))) off w = get_bytes buf off w :=
      fun off w hw => get_bytes_take buf _ off w (by omega) h1
    refine ⟨?_, ?_, ?_, ?_, ?_, ?_⟩
    · unfold NSAStaticSegment.translation_data NSAStaticSegment.translation_data_ptr
        NSAStaticSegment.translation_bone_count get_u64 get_u32
      simp only [rd 72 8 (by norm_num), rd 0 4 (by norm_num)]
      unfold get_u64 at htp; unfold get_u32 at htc
      rw [htp, htc]; rfl
    · unfold NSAStaticSegment.rotation_data NSAStaticSegment.rotation_data_ptr
        NSAStaticSegment.rotation_bone_count get_u64 get_u32
      simp only [rd 80 8 (by norm_num), rd 4 4 (by norm_num)]
      unfold get_u64 at hrp; unfold get_u32 at hrc
      rw [hrp, hrc]; rfl
    · unfold NSAStaticSegment.scale_data NSAStaticSegment.scale_data_ptr
        NSAStaticSegment.scale_bone_count get_u64 get_u32
      simp only [rd 88 8 (by norm_num), rd 8 4 (by norm_num)]
      unfold get_u64 at hsp; unfold get_u32 at hsc
      rw [hsp, hsc]; rfl
    · intro h; have := ct h
      simp only [Span.inside, Span.size_bytes, hlen]; omega
    · intro h; have := cr h
      simp only [Span.inside, Span.size_bytes, hlen]; omega
    · intro h; have := cs h
      simp only [Span.inside, Span.size_bytes, hlen]; omega

set_option maxRecDepth 100000 in
/-- An instance of the amended C4: two translation bones at 96, three rotation bones at
108, no scale channel; the view is 128 bytes long. -/
theorem static_view_covers_separated_channels_witness :
    get_u32 (static_header 2 3 0 96 108 0 ++ List.replicate 48 0) 0 = .ok 2
    ∧ get_u64 (static_header 2 3 0 96 108 0 ++ List.replicate 48 0) 72 = .ok 96
    ∧ get_u64 (static_header 2 3 0 96 108 0 ++ List.replicate 48 0) 80 = .ok 108
    ∧ NSAStaticSegment.new (static_header 2 3 0 96 108 0 ++ List.replicate 48 0)
        = .ok ⟨static_header 2 3 0 96 108 0 ++ List.replicate 32 0⟩
    ∧ NSAStaticSegment.translation_data ⟨static_header 2 3 0 96 108 0 ++ List.replicate 32 0⟩
        = .ok ⟨96, 2, 6⟩
    ∧ NSAStaticSegment.rotation_data ⟨static_header 2 3 0 96 108 0 ++ List.replicate 32 0⟩
        = .ok ⟨108, 3, 6⟩
    ∧ NSAStaticSegment.scale_data ⟨static_header 2 3 0 96 108 0 ++ List.replicate 32 0⟩
        = .ok ⟨0, 0, 6⟩
    ∧ ((96 : Nat) ≠ 0 → Span.inside ⟨96, 2, 6⟩
        (static_header 2 3 0 96 108 0 ++ List.replicate 32 0).length)
    ∧ ((108 : Nat) ≠ 0 → Span.inside ⟨108, 3, 6⟩
        (static_header 2 3 0 96 108 0 ++ List.replicate 32 0).length)
    ∧ ((0 : Nat) ≠ 0 → Span.inside ⟨0, 0, 6⟩
        (static_header 2 3 0 96 108 0 ++ List.replicate 32 0).length) :=
  ⟨by decide, by decide, by decide, by decide,
    static_view_covers_separated_channels
      (static_header 2 3 0 96 108 0 ++ List.replicate 48 0)
      ⟨static_header 2 3 0 96 108 0 ++ List.replicate 32 0⟩ 96 108 0 2 3 0
      (by decide) (by decide) (by decide) (by decide) (by decide) (by decide) (by decide)
      (by decide) (by decide) (by decide) (by decide)⟩

set_option maxRecDepth 100000 in
/-- Claim C4 fails as stated, on two headers that meet its hypotheses (translation and
scale present, offsets increasing, lowest offset 96).  In the first, the 10 translation
bones at offset 96 occupy bytes 96 to 156 and run over the scale data at offset 112; the
view is 128 bytes long and `translation_data()` does not fit in it.  In the second the
scale offset is `2 ^ 64 - 16`, the `uint64_t` arithmetic wraps, and the view is 16 bytes
long, shorter than the header itself. -/
theorem static_view_misses_overlapping_channel :
    (get_u64 (static_header 10 0 1 96 0 112 ++ List.replicate 64 0) 72 = .ok 96
      ∧ get_u64 (static_header 10 0 1 96 0 112 ++ List.replicate 64 0) 80 = .ok 0
      ∧ get_u64 (static_header 10 0 1 96 0 112 ++ List.replicate 64 0) 88 = .ok 112
      ∧ ∃ v, NSAStaticSegment.new (static_header 10 0 1 96 0 112 ++ List.replicate 64 0) = .ok v
        ∧ v.buf_.length = 128 ∧ v.translation_data = .ok ⟨96, 10, 6⟩
        ∧ ¬ Span.inside ⟨96, 10, 6⟩ v.buf_.length)
    ∧ (get_u64 (static_header 0 0 3 96 0 (2 ^ 64 - 16) ++ List.replicate 32 0) 72 = .ok 96
      ∧ get_u64 (static_header 0 0 3 96 0 (2 ^ 64 - 16) ++ List.replicate 32 0) 80 = .ok 0
      ∧ get_u64 (static_header 0 0 3 96 0 (2 ^ 64 - 16) ++ List.replicate 32 0) 88
          = .ok (2 ^ 64 - 16)
      ∧ ∃ v, NSAStaticSegment.new (static_header 0 0 3 96 0 (2 ^ 64 - 16) ++ List.replicate 32 0)
          = .ok v
        ∧ v.buf_.length = 16 ∧ ¬ Span.inside ⟨96, 0, 6⟩ v.buf_.length) := by
  refine ⟨⟨by decide, by decide, by decide,
      ⟨static_header 10 0 1 96 0 112 ++ List.replicate 32 0⟩, by decide, by decide, by decide,
      by decide⟩,
    by decide, by decide, by decide,
      ⟨(static_header 0 0 3 96 0 (2 ^ 64 - 16)).take 16⟩, by decide, by decide, by decide⟩

/-! ## The clip and its three child segments (C5) -/

/-- The clip constructor returns whenever the header holds the three offsets and every
segment with a non-zero offset can be built. -/
theorem nsa_file_new_returns (sizeofDI : Nat) (buf : Bytes) (sptr dptr rptr : Nat)
    (st : Option NSAStaticSegment) (dy : Option NSADynamicSegment) (ro : Option NSARootSegment)
    (hs : get_u64 buf 160 = .ok sptr) (hd : get_u64 buf 168 = .ok dptr)
    (hr : get_u64 buf 176 = .ok rptr)
    (h1 : NSAFile.child buf sptr NSAStaticSegment.new = .ok st)
    (h2 : NSAFile.child buf dptr (NSADynamicSegment.new sizeofDI) = .ok dy)
    (h3 : NSAFile.child buf rptr NSARootSegment.new = .ok ro) :
    NSAFile.new sizeofDI buf
      = .ok { buf_ := buf, m_static_segment := st, m_dynamic_segment := dy,
              m_root_segment := ro } := by
  unfold NSAFile.new NSAFile.static_segment_ptr NSAFile.dynamic_segment_ptr
    NSAFile.root_segment_ptr
  simp only [hs, hd, hr, h1, h2, h3, bind, Except.bind]
  rfl

/-- Claim C5: in every clip the constructor `NSAFile::NSAFile` returns, each of the static,
dynamic and root segment is present iff its own offset field (u64 at byte 160, 168, 176)
is non-zero, and a present segment is the one its constructor builds over the clip
buffer starting at exactly that offset; a zero offset leaves the segment null. -/
theorem nsa_file_children_follow_offsets (sizeofDI : Nat) (buf : Bytes) (f : NSAFile)
    (h : NSAFile.new sizeofDI buf = .ok f) :
    ∃ sptr dptr rptr,
      get_u64 buf 160 = .ok sptr ∧ get_u64 buf 168 = .ok dptr ∧ get_u64 buf 176 = .ok rptr
      ∧ (f.m_static_segment.isSome ↔ sptr ≠ 0)
      ∧ (f.m_dynamic_segment.isSome ↔ dptr ≠ 0)
      ∧ (f.m_root_segment.isSome ↔ rptr ≠ 0)
      ∧ (∀ s, f.m_static_segment = some s → NSAStaticSegment.new (buf.drop sptr) = .ok s)
      ∧ (∀ s, f.m_dynamic_segment = some s →
          NSADynamicSegment.new sizeofDI (buf.drop dptr) = .ok s)
      ∧ (∀ s, f.m_root_segment = some s → NSARootSegment.new (buf.drop rptr) = .ok s) := by
  unfold NSAFile.new NSAFile.static_segment_ptr NSAFile.dynamic_segment_ptr
    NSAFile.root_segment_ptr at h
  obtain ⟨sptr, hs, h⟩ := (bind_ok_iff _ _ _).1 h
  obtain ⟨st, hst, h⟩ := (bind_ok_iff _ _ _).1 h
  obtain ⟨dptr, hd, h⟩ := (bind_ok_iff _ _ _).1 h
  obtain ⟨dy, hdy, h⟩ := (bind_ok_iff _ _ _).1 h
  obtain ⟨rptr, hr, h⟩ := (bind_ok_iff _ _ _).1 h
  obtain ⟨ro, hro, h⟩ := (bind_ok_iff _ _ _).1 h
  cases h
  obtain ⟨s0, s1⟩ := file_child_ok hst
  obtain ⟨d0, d1⟩ := file_child_ok hdy
  obtain ⟨r0, r1⟩ := file_child_ok hro
  refine ⟨sptr, dptr, rptr, hs, hd, hr, ?_, ?_, ?_, ?_, ?_, ?_⟩
  · by_cases hp : sptr = 0
    · simp [hp, s0 hp]
    · obtain ⟨_, s, _, hs2⟩ := s1 hp
      simp [hp, hs2]
  · by_cases hp : dptr = 0
    · simp [hp, d0 hp]
    · obtain ⟨_, s, _, hs2⟩ := d1 hp
      simp [hp, hs2]
  · by_cases hp : rptr = 0
    · simp [hp, r0 hp]
    · obtain ⟨_, s, _, hs2⟩ := r1 hp
      simp [hp, hs2]
  · intro s hs2
    by_cases hp : sptr = 0
    · simp [s0 hp] at hs2
    · obtain ⟨_, s', hb, hs3⟩ := s1 hp
      simp only [hs3, Option.some.injEq] at hs2
      rw [← hs2]; exact hb
  · intro s hs2
    by_cases hp : dptr = 0
    · simp [d0 hp] at hs2
    · obtain ⟨_, s', hb, hs3⟩ := d1 hp
      simp only [hs3, Option.some.injEq] at hs2
      rw [← hs2]; exact hb
  · intro s hs2
    by_cases hp : rptr = 0
    · simp [r0 hp] at hs2
    · obtain ⟨_, s', hb, hs3⟩ := r1 hp
      simp only [hs3, Option.some.injEq] at hs2
      rw [← hs2]; exact hb

set_option maxRecDepth 1000000 in
/-- An instance of C5: a clip with a static and a root segment and no dynamic segment. -/
theorem nsa_file_children_follow_offsets_witness :
    NSAFile.new 6 example_clip = .ok example_file
    ∧ ∃ sptr dptr rptr,
      get_u64 example_clip 160 = .ok sptr ∧ get_u64 example_clip 168 = .ok dptr
      ∧ get_u64 example_clip 176 = .ok rptr
      ∧ (example_file.m_static_segment.isSome ↔ sptr ≠ 0)
      ∧ (example_file.m_dynamic_segment.isSome ↔ dptr ≠ 0)
      ∧ (example_file.m_root_segment.isSome ↔ rptr ≠ 0)
      ∧ (∀ s, example_file.m_static_segment = some s →
          NSAStaticSegment.new (example_clip.drop sptr) = .ok s)
      ∧ (∀ s, example_file.m_dynamic_segment = some s →
          NSADynamicSegment.new 6 (example_clip.drop dptr) = .ok s)
      ∧ (∀ s, example_file.m_root_segment = some s →
          NSARootSegment.new (example_clip.drop rptr) = .ok s) :=
  ⟨by decide, nsa_file_children_follow_offsets 6 example_clip example_file (by decide)⟩

/-! ## Root segment: constant or sampled rotation (C6) -/

/-- Claim C6: on every root segment the constructor returns, the five accessors succeed,
`constant_rotation()` is present iff the rotation-data offset is zero,
`rotation_factors()` is present iff it is non-zero, so exactly one of the two is
present; `rotation_data()` is empty when the offset is zero and has `sample_count`
elements otherwise; and `translation_data()` is empty iff the translation-data offset is
zero or `sample_count` is zero. -/
theorem root_rotation_constant_or_sampled (buf : Bytes) (v : NSARootSegment)
    (h : NSARootSegment.new buf = .ok v) :
    ∃ n tp rp cr rf td rd,
      v.sample_count = .ok n ∧ v.translation_data_ptr = .ok tp ∧ v.rotation_data_ptr = .ok rp
      ∧ v.constant_rotation = .ok cr ∧ v.rotation_factors = .ok rf
      ∧ v.translation_data = .ok td ∧ v.rotation_data = .ok rd
      ∧ (cr.isSome ↔ rp = 0) ∧ (rf.isSome ↔ rp ≠ 0) ∧ (cr.isSome ↔ ¬ rf.isSome)
      ∧ (rp = 0 → rd.size = 0) ∧ (rp ≠ 0 → rd.size = n)
      ∧ (td.size = 0 ↔ tp = 0 ∨ n = 0) := by
  obtain ⟨n, tp, rp, hn, ht, hr, h96, hle, hv⟩ := root_new_ok h
  have rd : ∀ off w, off + w ≤ 96 → get_bytes v.buf_ off w = get_bytes buf off w := by
    intro off w hw
    rw [hv]
    exact get_bytes_take buf _ off w (by omega) hle
  have hn2 : v.sample_count = .ok n := by
    unfold NSARootSegment.sample_count get_u32; rw [rd 28 4 (by norm_num)]; exact hn
  have ht2 : v.translation_data_ptr = .ok tp := by
    unfold NSARootSegment.translation_data_ptr get_u64; rw [rd 80 8 (by norm_num)]; exact ht
  have hr2 : v.rotation_data_ptr = .ok rp := by
    unfold NSARootSegment.rotation_data_ptr get_u64; rw [rd 88 8 (by norm_num)]; exact hr
  have hq : get_bytes v.buf_ 56 sizeof_Quaternion
      = .ok ((v.buf_.drop 56).take sizeof_Quaternion) := by
    unfold get_bytes sizeof_Quaternion; rw [if_pos (by omega)]
  have hf : get_bytes v.buf_ 56 sizeof_DequantizationFactors
      = .ok ((v.buf_.drop 56).take sizeof_DequantizationFactors) := by
    unfold get_bytes sizeof_DequantizationFactors; rw [if_pos (by omega)]
  refine ⟨n, tp, rp,
    if rp ≠ 0 then none else some ((v.buf_.drop 56).take sizeof_Quaternion),
    if rp = 0 then none else some ((v.buf_.drop 56).take sizeof_DequantizationFactors),
    if tp = 0 then Span.empty sizeof_uint32 else ⟨tp, n, sizeof_uint32⟩,
    if rp = 0 then Span.empty sizeof_Vector3Short else ⟨rp, n, sizeof_Vector3Short⟩,
    hn2, ht2, hr2, ?_, ?_, ?_, ?_, ?_⟩
  · unfold NSARootSegment.constant_rotation
    simp only [hr2, hq, bind, Except.bind, pure, Except.pure]
    split <;> rfl
  · unfold NSARootSegment.rotation_factors
    simp only [hr2, hf, bind, Except.bind, pure, Except.pure]
    split <;> rfl
  · unfold NSARootSegment.translation_data
    simp only [ht2, hn2, bind, Except.bind, pure, Except.pure]
    split <;> rfl
  · unfold NSARootSegment.rotation_data
    simp only [hr2, hn2, bind, Except.bind, pure, Except.pure]
    split <;> rfl
  · by_cases h1 : rp = 0 <;> by_cases h2 : tp = 0 <;> simp [h1, h2, Span.empty]

set_option maxRecDepth 100000 in
/-- An instance of C6: three translation samples and a constant rotation. -/
theorem root_rotation_constant_or_sampled_witness :
    NSARootSegment.new (root_header 3 96 0 ++ List.replicate 40 0)
      = .ok ⟨root_header 3 96 0 ++ List.replicate 12 0⟩
    ∧ ∃ n tp rp cr rf td rd,
      NSARootSegment.sample_count ⟨root_header 3 96 0 ++ List.replicate 12 0⟩ = .ok n
      ∧ NSARootSegment.translation_data_ptr ⟨root_header 3 96 0 ++ List.replicate 12 0⟩ = .ok tp
      ∧ NSARootSegment.rotation_data_ptr ⟨root_header 3 96 0 ++ List.replicate 12 0⟩ = .ok rp
      ∧ NSARootSegment.constant_rotation ⟨root_header 3 96 0 ++ List.replicate 12 0⟩ = .ok cr
      ∧ NSARootSegment.rotation_factors ⟨root_header 3 96 0 ++ List.replicate 12 0⟩ = .ok rf
      ∧ NSARootSegment.translation_data ⟨root_header 3 96 0 ++ List.replicate 12 0⟩ = .ok td
      ∧ NSARootSegment.rotation_data ⟨root_header 3 96 0 ++ List.replicate 12 0⟩ = .ok rd
      ∧ (cr.isSome ↔ rp = 0) ∧ (rf.isSome ↔ rp ≠ 0) ∧ (cr.isSome ↔ ¬ rf.isSome)
      ∧ (rp = 0 → rd.size = 0) ∧ (rp ≠ 0 → rd.size = n)
      ∧ (td.size = 0 ↔ tp = 0 ∨ n = 0) :=
  ⟨by decide,
    root_rotation_constant_or_sampled (root_header 3 96 0 ++ List.replicate 40 0)
      ⟨root_header 3 96 0 ++ List.replicate 12 0⟩ (by decide)⟩

/-! ## Lemmas on `expand_vertex_stream`: no part of it calls `std::exit` after the stride check -/

theorem noExit_ok {α : Type} (a : α) : NoExit (Except.ok a : Except Failure α) := by
  intro c h; cases h

theorem noExit_pure {α : Type} (a : α) : NoExit (Pure.pure a : Except Failure α) := by
  intro c h; cases h

theorem noExit_bind {α β : Type} {x : Except Failure α} {f : α → Except Failure β}
    (hx : NoExit x) (hf : ∀ a, NoExit (f a)) : NoExit (x >>= f) := by
  intro c h
  cases x with
  | error e =>
    have h2 : (Except.error e : Except Failure β) = .error (.exit c) := h
    cases h2
    exact hx c rfl
  | ok a => exact hf a c h

theorem noExit_map {α β : Type} {x : Except Failure α} (f : α → β) (hx : NoExit x) :
    NoExit (x.map f) := by
  intro c h
  cases x with
  | error e =>
    have h2 : (Except.error e : Except Failure β) = .error (.exit c) := h
    cases h2
    exact hx c rfl
  | ok a => cases h

theorem noExit_ite {α : Type} {p : Prop} [Decidable p] {x y : Except Failure α}
    (hx : NoExit x) (hy : NoExit y) : NoExit (if p then x else y) := by
  split <;> assumption

theorem get_bytes_noExit (buf : Bytes) (off w : Nat) : NoExit (get_bytes buf off w) := by
  unfold get_bytes; split <;> intro c h <;> cases h

theorem get_u8_noExit (buf : Bytes) (off : Nat) : NoExit (get_u8 buf off) :=
  noExit_map _ (get_bytes_noExit _ _ _)

theorem get_u16_noExit (buf : Bytes) (off : Nat) : NoExit (get_u16 buf off) :=
  noExit_map _ (get_bytes_noExit _ _ _)

theorem subspan_n_noExit (buf : Bytes) (off n : Nat) : NoExit (subspan_n buf off n) := by
  unfold subspan_n; split <;> intro c h <;> cases h

theorem size_of_type_noExit (sizes : String → Option Nat) (t : String) :
    NoExit (size_of_type sizes t) := by
  unfold size_of_type; split <;> intro c h <;> cases h

theorem size_at_noExit (l : Layout) (s : Nat) : NoExit (l.size_at s) := by
  unfold Layout.size_at; split <;> intro c h <;> cases h

theorem grow_noExit (l : Layout) (s d : Nat) : NoExit (l.grow s d) :=
  noExit_bind (size_at_noExit _ _) fun _ => noExit_pure _

theorem type_at_noExit (l : Layout) (i : Int) : NoExit (type_at l i) := by
  unfold type_at
  split
  · split <;> intro c h <;> cases h
  · intro c h; cases h

theorem scan_usage_noExit (stream : Nat) (e : Entry) (i : Nat) (st : Scan) :
    NoExit (scan_usage stream e i st) := by
  unfold scan_usage
  refine noExit_bind (noExit_ite (noExit_bind (grow_noExit _ _ _) fun _ => noExit_pure _)
    (noExit_pure _)) fun st => ?_
  refine noExit_ite (noExit_bind (noExit_ite (noExit_bind (grow_noExit _ _ _)
    fun _ => noExit_pure _) (noExit_pure _)) fun _ => noExit_pure _) ?_
  refine noExit_ite (noExit_pure _) (noExit_ite (noExit_pure _) (noExit_ite (noExit_pure _) ?_))
  exact noExit_ite (noExit_bind (grow_noExit _ _ _) fun _ => noExit_pure _) (noExit_pure _)

theorem scan_entry_noExit (sizes : String → Option Nat) (stream bpv : Nat) (e : Entry)
    (i : Nat) (st : Scan) : NoExit (scan_entry sizes stream bpv e i st) := by
  unfold scan_entry
  refine noExit_ite (noExit_ok _) (noExit_ite ?_ ?_)
  · exact noExit_bind (size_of_type_noExit _ _) fun _ =>
      noExit_bind (size_at_noExit _ _) fun _ => noExit_pure _
  · exact noExit_bind (size_of_type_noExit _ _) fun _ => scan_usage_noExit _ _ _ _

theorem scan_loop_noExit (sizes : String → Option Nat) (stream bpv : Nat) (es : List Entry) :
    ∀ (i : Nat) (st : Scan), NoExit (scan_loop sizes stream bpv es i st) := by
  induction es with
  | nil => intro i st; exact noExit_ok _
  | cons e es ih =>
    intro i st
    unfold scan_loop
    exact noExit_bind (scan_entry_noExit _ _ _ _ _ _) fun st => ih _ st

theorem emit_entry_noExit (ext : Externals) (p : Plan) (pos index : Nat) (e : Nat × Bool)
    (v : Vertex) : NoExit (emit_entry ext p pos index e v) := by
  unfold emit_entry
  refine noExit_ite ?_ (noExit_ite ?_ ?_)
  · exact noExit_bind (get_u16_noExit _ _) fun _ =>
      noExit_bind (get_u16_noExit _ _) fun _ => noExit_pure _
  · exact noExit_bind (get_u8_noExit _ _) fun _ => noExit_bind (get_u8_noExit _ _) fun _ =>
      noExit_bind (get_u8_noExit _ _) fun _ => noExit_pure _
  · refine noExit_bind (subspan_n_noExit _ _ _) fun _ => ?_
    refine noExit_ite (noExit_ite (noExit_pure _) ?_) (noExit_pure _)
    intro c h; cases h

theorem load_entry_noExit (ext : Externals) (p : Plan) (vo pos index : Nat) (v : Vertex)
    (hext : ∀ t a b d w, NoExit (ext.load_vector t a b d w)) :
    NoExit (load_entry ext p vo pos index v) := by
  unfold load_entry
  refine noExit_bind (noExit_ite ?_ (noExit_pure _)) fun v => ?_
  · refine noExit_bind (noExit_ite (noExit_bind (hext _ _ _ _ _) fun _ => noExit_pure _)
      (noExit_pure _)) fun v => ?_
    exact noExit_ite (noExit_bind (get_u8_noExit _ _) fun _ => noExit_pure _) (noExit_pure _)
  · refine noExit_ite (noExit_bind (hext _ _ _ _ _) fun _ => ?_) (noExit_pure _)
    exact noExit_ite (noExit_bind (get_u8_noExit _ _) fun _ => noExit_pure _) (noExit_pure _)

theorem entry_loop_noExit (ext : Externals) (p : Plan) (vo : Nat)
    (hext : ∀ t a b d w, NoExit (ext.load_vector t a b d w)) (es : List (Nat × Bool)) :
    ∀ (index : Nat) (v : Vertex), NoExit (entry_loop ext p vo es index v) := by
  induction es with
  | nil => intro index v; exact noExit_ok _
  | cons e es ih =>
    intro index v
    unfold entry_loop
    exact noExit_bind (emit_entry_noExit _ _ _ _ _ _) fun _ =>
      noExit_bind (load_entry_noExit _ _ _ _ _ _ hext) fun _ => ih _ _

theorem expand_vertex_noExit (ext : Externals) (p : Plan) (vo : Nat) (out : List Cell)
    (data : Bytes) (hext : ∀ t a b d w, NoExit (ext.load_vector t a b d w)) :
    NoExit (expand_vertex ext p vo out data) := by
  unfold expand_vertex
  exact noExit_bind (entry_loop_noExit _ _ _ hext _ _ _) fun _ => noExit_pure _

theorem vertex_loop_noExit (ext : Externals) (p : Plan)
    (hext : ∀ t a b d w, NoExit (ext.load_vector t a b d w)) (fuel : Nat) :
    ∀ (vo : Nat) (out : List Cell) (data : Bytes),
      NoExit (vertex_loop ext p fuel vo out data) := by
  induction fuel with
  | zero =>
    intro vo out data
    unfold vertex_loop
    split <;> intro c h <;> cases h
  | succ n ih =>
    intro vo out data
    unfold vertex_loop
    exact noExit_ite (noExit_bind (expand_vertex_noExit _ _ _ _ _ hext) fun _ => ih _ _ _)
      (noExit_ok _)

theorem transcode_noExit (ext : Externals) (fuel : Nat) (layout : Layout) (data : Bytes)
    (stream : Nat) (is_rigid : Bool) (bpv stride : Nat)
    (hext : ∀ t a b d w, NoExit (ext.load_vector t a b d w)) :
    NoExit (transcode ext fuel layout data stream is_rigid bpv stride) := by
  unfold transcode
  refine noExit_bind (scan_loop_noExit _ _ _ _ _ _) fun st => ?_
  refine noExit_bind (type_at_noExit _ _) fun bt => ?_
  refine noExit_bind (type_at_noExit _ _) fun tt => ?_
  refine noExit_ite (noExit_pure _) ?_
  refine noExit_bind (noExit_ite (noExit_bind (grow_noExit _ _ _) fun _ => noExit_pure _)
    (noExit_pure _)) fun l => ?_
  refine noExit_bind (noExit_ite (noExit_bind (grow_noExit _ _ _) fun _ => noExit_pure _)
    (noExit_pure _)) fun l => ?_
  exact noExit_bind (vertex_loop_noExit _ _ hext _ _ _ _) fun _ => noExit_pure _

/-! ## The stride check (C7) -/

/-- Claim C7: for a layout that declares a stride for the stream, `expand_vertex_stream`
aborts (`std::exit(32)`, no output) iff the measured bytes-per-vertex exceeds the
declared stride; otherwise it runs the rest of the function with the stride
`min(declared, measured)`, which is what the per-vertex loop steps by.  Declared 32 and
measured 28 uses 28; declared 32 and measured 36 aborts.  The helper `utils::load_vector`
is not in the sources and is assumed not to call `std::exit` itself. -/
theorem stride_check_aborts_iff_measured_exceeds_declared (ext : Externals) (fuel : Nat)
    (layout : Layout) (data : Bytes) (stream : Nat) (is_rigid : Bool) (bpv declared : Nat)
    (hd : layout.size_at stream = .ok declared)
    (hext : ∀ t a b d w c, ext.load_vector t a b d w ≠ .error (.exit c)) :
    (expand_vertex_stream ext fuel layout data stream is_rigid bpv = .error (.exit 32)
        ↔ declared < bpv)
    ∧ (bpv ≤ declared →
        expand_vertex_stream ext fuel layout data stream is_rigid bpv
          = transcode ext fuel layout data stream is_rigid bpv (min declared bpv))
    ∧ effective_stride 32 28 = .ok 28
    ∧ effective_stride 32 36 = .error (.exit 32) := by
  have hstep : expand_vertex_stream ext fuel layout data stream is_rigid bpv
      = (effective_stride declared bpv).bind
          fun stride => transcode ext fuel layout data stream is_rigid bpv stride := by
    unfold expand_vertex_stream
    rw [hd]
    rfl
  refine ⟨?_, ?_, by decide, by decide⟩
  · rw [hstep]
    unfold effective_stride
    by_cases h : bpv > declared
    · rw [if_pos h]
      exact ⟨fun _ => h, fun _ => rfl⟩
    · rw [if_neg h]
      constructor
      · intro habs
        exfalso
        split at habs <;>
          exact transcode_noExit ext fuel layout data stream is_rigid bpv _
            (fun t a b d w c => hext t a b d w c) 32 habs
      · intro h2; exact absurd h2 h
  · intro hle
    rw [hstep]
    unfold effective_stride
    rw [if_neg (by omega)]
    by_cases h : bpv < declared
    · rw [if_pos h, min_eq_right (by omega)]; rfl
    · rw [if_neg h, min_eq_left (by omega)]; rfl

/-- An instance of C7: declared stride 32, measured stride 28. -/
theorem stride_check_aborts_iff_measured_exceeds_declared_witness :
    plain_layout.size_at 0 = .ok 32
    ∧ (∀ t a b d w c, example_externals.load_vector t a b d w ≠ .error (.exit c))
    ∧ (expand_vertex_stream example_externals 4 plain_layout (List.replicate 56 0) 0 false 28
          = .error (.exit 32) ↔ 32 < 28)
    ∧ (28 ≤ 32 →
        expand_vertex_stream example_externals 4 plain_layout (List.replicate 56 0) 0 false 28
          = transcode example_externals 4 plain_layout (List.replicate 56 0) 0 false 28
              (min 32 28))
    ∧ effective_stride 32 28 = .ok 28
    ∧ effective_stride 32 36 = .error (.exit 32) :=
  ⟨by decide, fun t a b d w c h => by simp [example_externals] at h,
    stride_check_aborts_iff_measured_exceeds_declared example_externals 4 plain_layout
      (List.replicate 56 0) 0 false 28 32 (by decide)
      (fun t a b d w c h => by simp [example_externals] at h)⟩

/-! ## The entries selected for decoding (C8) -/

theorem entry_offsets_append (ps : List (Nat × Bool)) :
    ∀ (eo : Nat) (p : Nat × Bool),
      entry_offsets eo (ps ++ [p]) = entry_offsets eo ps ++ [end_offset eo ps] := by
  induction ps with
  | nil => intro eo p; rfl
  | cons q qs ih =>
    intro eo p
    show eo :: entry_offsets (u32 (eo + q.1)) (qs ++ [p])
      = eo :: (entry_offsets (u32 (eo + q.1)) qs ++ [end_offset eo (q :: qs)])
    rw [ih]
    rfl

theorem end_offset_append (ps : List (Nat × Bool)) (eo : Nat) (p : Nat × Bool) :
    end_offset eo (ps ++ [p]) = u32 (end_offset eo ps + p.1) := by
  simp [end_offset, List.foldl_append]

theorem scan_usage_offsets {stream : Nat} {e : Entry} {i : Nat} {st st' : Scan}
    (h : scan_usage stream e i st = .ok st') :
    st'.offsets = st.offsets ∧ st'.byte_stride = st.byte_stride := by
  unfold scan_usage at h
  obtain ⟨s1, h1, h⟩ := (bind_ok_iff _ _ _).1 h
  have e1 : s1.offsets = st.offsets ∧ s1.byte_stride = st.byte_stride := by
    split at h1
    · obtain ⟨l, _, h1⟩ := (bind_ok_iff _ _ _).1 h1
      cases (pure_ok_iff _ _).1 h1; exact ⟨rfl, rfl⟩
    · cases (pure_ok_iff _ _).1 h1; exact ⟨rfl, rfl⟩
  rw [← e1.1, ← e1.2]
  split at h
  · obtain ⟨s2, h2, h⟩ := (bind_ok_iff _ _ _).1 h
    cases (pure_ok_iff _ _).1 h
    split at h2
    · obtain ⟨l, _, h2⟩ := (bind_ok_iff _ _ _).1 h2
      cases (pure_ok_iff _ _).1 h2; exact ⟨rfl, rfl⟩
    · cases (pure_ok_iff _ _).1 h2; exact ⟨rfl, rfl⟩
  · split at h
    · cases (pure_ok_iff _ _).1 h; exact ⟨rfl, rfl⟩
    · split at h
      · cases (pure_ok_iff _ _).1 h; exact ⟨rfl, rfl⟩
      · split at h
        · cases (pure_ok_iff _ _).1 h; exact ⟨rfl, rfl⟩
        · split at h
          · obtain ⟨l, _, h⟩ := (bind_ok_iff _ _ _).1 h
            cases (pure_ok_iff _ _).1 h; exact ⟨rfl, rfl⟩
          · cases (pure_ok_iff _ _).1 h; exact ⟨rfl, rfl⟩

/-- What the loop over the layout entries keeps true of `offsets` and `byte_stride`. -/
theorem scan_entry_starts_below {sizes : String → Option Nat} {stream bpv : Nat} {e : Entry}
    {i : Nat} {st st' : Scan} (h : scan_entry sizes stream bpv e i st = .ok st')
    (hb : st.byte_stride = end_offset 0 st.offsets)
    (hs : ∀ x ∈ entry_offsets 0 st.offsets, x < bpv) :
    st'.byte_stride = end_offset 0 st'.offsets
      ∧ ∀ x ∈ entry_offsets 0 st'.offsets, x < bpv := by
  unfold scan_entry at h
  split at h
  · cases h
    split <;> exact ⟨hb, hs⟩
  · split at h
    · obtain ⟨size, _, h⟩ := (bind_ok_iff _ _ _).1 h
      obtain ⟨cur, _, h⟩ := (bind_ok_iff _ _ _).1 h
      cases (pure_ok_iff _ _).1 h
      exact ⟨hb, hs⟩
    · rename_i hlt
      obtain ⟨size, _, h⟩ := (bind_ok_iff _ _ _).1 h
      obtain ⟨ho, hbs⟩ := scan_usage_offsets h
      rw [ho, hbs]
      simp only
      refine ⟨by rw [end_offset_append, hb], ?_⟩
      intro x hx
      rw [entry_offsets_append, List.mem_append, List.mem_singleton] at hx
      rcases hx with hx | hx
      · exact hs x hx
      · rw [hx, ← hb]; omega

theorem scan_loop_starts_below (sizes : String → Option Nat) (stream bpv : Nat)
    (es : List Entry) :
    ∀ (i : Nat) (st st' : Scan), scan_loop sizes stream bpv es i st = .ok st' →
      st.byte_stride = end_offset 0 st.offsets →
      (∀ x ∈ entry_offsets 0 st.offsets, x < bpv) →
      st'.byte_stride = end_offset 0 st'.offsets
        ∧ ∀ x ∈ entry_offsets 0 st'.offsets, x < bpv := by
  induction es with
  | nil =>
    intro i st st' h hb hs
    cases h
    exact ⟨hb, hs⟩
  | cons e es ih =>
    intro i st st' h hb hs
    unfold scan_loop at h
    obtain ⟨s1, h1, h⟩ := (bind_ok_iff _ _ _).1 h
    obtain ⟨hb1, hs1⟩ := scan_entry_starts_below h1 hb hs
    exact ih _ _ _ h hb1 hs1

theorem emit_entry_entry_offset {ext : Externals} {p : Plan} {pos index : Nat} {e : Nat × Bool}
    {v v' : Vertex} (h : emit_entry ext p pos index e v = .ok v') :
    v'.entry_offset = v.entry_offset := by
  unfold emit_entry at h
  split at h
  · obtain ⟨c0, _, h⟩ := (bind_ok_iff _ _ _).1 h
    obtain ⟨c1, _, h⟩ := (bind_ok_iff _ _ _).1 h
    cases (pure_ok_iff _ _).1 h; rfl
  · split at h
    · obtain ⟨b0, _, h⟩ := (bind_ok_iff _ _ _).1 h
      obtain ⟨b1, _, h⟩ := (bind_ok_iff _ _ _).1 h
      obtain ⟨b2, _, h⟩ := (bind_ok_iff _ _ _).1 h
      cases (pure_ok_iff _ _).1 h; rfl
    · obtain ⟨raw, _, h⟩ := (bind_ok_iff _ _ _).1 h
      dsimp only at h
      by_cases hw : (index : Int) = p.scan.blend_weights_index - p.scan.vert_index_offset
      · rw [if_pos hw] at h
        by_cases hr : (index : Int) = p.scan.blend_indices_index - p.scan.vert_index_offset
        · simp only [hr, decide_True, if_true] at h
          split at h
          · cases (pure_ok_iff _ _).1 h; rfl
          · cases h
        · simp only [hr, decide_False, Bool.false_eq_true, if_false] at h
          split at h
          · cases (pure_ok_iff _ _).1 h; rfl
          · cases h
      · rw [if_neg hw] at h
        cases (pure_ok_iff _ _).1 h; rfl

theorem load_entry_entry_offset {ext : Externals} {p : Plan} {vo pos index : Nat}
    {v v' : Vertex} (h : load_entry ext p vo pos index v = .ok v') :
    v'.entry_offset = v.entry_offset := by
  unfold load_entry at h
  obtain ⟨v1, h1, h⟩ := (bind_ok_iff _ _ _).1 h
  have e1 : v1.entry_offset = v.entry_offset := by
    split at h1
    · obtain ⟨v2, h2, h1⟩ := (bind_ok_iff _ _ _).1 h1
      have e2 : v2.entry_offset = v.entry_offset := by
        split at h2
        · obtain ⟨b, _, h2⟩ := (bind_ok_iff _ _ _).1 h2
          cases (pure_ok_iff _ _).1 h2; rfl
        · cases (pure_ok_iff _ _).1 h2; rfl
      rw [← e2]
      split at h1
      · obtain ⟨j, _, h1⟩ := (bind_ok_iff _ _ _).1 h1
        cases (pure_ok_iff _ _).1 h1; rfl
      · cases (pure_ok_iff _ _).1 h1; rfl
    · cases (pure_ok_iff _ _).1 h1; rfl
  rw [← e1]
  split at h
  · obtain ⟨t, _, h⟩ := (bind_ok_iff _ _ _).1 h
    split at h
    · obtain ⟨s, _, h⟩ := (bind_ok_iff _ _ _).1 h
      cases (pure_ok_iff _ _).1 h; rfl
    · cases (pure_ok_iff _ _).1 h; rfl
  · cases (pure_ok_iff _ _).1 h; rfl

/-- The value of `entry_offset` when the loop over `offsets` has gone through `es`. -/
theorem entry_loop_entry_offset (ext : Externals) (p : Plan) (vo : Nat) (es : List (Nat × Bool)) :
    ∀ (index : Nat) (v v1 : Vertex), entry_loop ext p vo es index v = .ok v1 →
      v1.entry_offset = end_offset v.entry_offset es := by
  induction es with
  | nil =>
    intro index v v1 h
    cases h
    rfl
  | cons e es ih =>
    intro index v v1 h
    unfold entry_loop at h
    obtain ⟨va, h1, h⟩ := (bind_ok_iff _ _ _).1 h
    obtain ⟨vb, h2, h⟩ := (bind_ok_iff _ _ _).1 h
    rw [ih _ _ _ h]
    have eo : vb.entry_offset = v.entry_offset := by
      rw [load_entry_entry_offset h2, emit_entry_entry_offset h1]
    simp only [end_offset, List.foldl_cons, eo]

theorem entry_loop_cons (ext : Externals) (p : Plan) (vo : Nat) (e : Nat × Bool)
    (es : List (Nat × Bool)) (index : Nat) (v : Vertex) :
    entry_loop ext p vo (e :: es) index v
      = (emit_entry ext p (u32 (vo + v.entry_offset)) index e v).bind fun va =>
          (load_entry ext p vo (u32 (vo + v.entry_offset)) index va).bind fun vb =>
            entry_loop ext p vo es (index + 1)
              { vb with entry_offset := u32 (vb.entry_offset + e.1) } := rfl

/-- The per-vertex loop over `offsets` reaches each element with `entry_offset` equal to
the running sum of the sizes before it: after a prefix `pre` (which leaves
`entry_offset = end_offset _ pre`) the loop continues on the rest. -/
theorem entry_loop_append (ext : Externals) (p : Plan) (vo : Nat) (pre post : List (Nat × Bool)) :
    ∀ (index : Nat) (v : Vertex),
      entry_loop ext p vo (pre ++ post) index v
        = (entry_loop ext p vo pre index v).bind
            (fun v1 => entry_loop ext p vo post (index + pre.length) v1) := by
  induction pre with
  | nil =>
    intro index v
    rfl
  | cons e es ih =>
    intro index v
    rw [List.cons_append, entry_loop_cons, entry_loop_cons]
    cases emit_entry ext p (u32 (vo + v.entry_offset)) index e v with
    | error err => rfl
    | ok va =>
      simp only [Except.bind]
      cases load_entry ext p vo (u32 (vo + v.entry_offset)) index va with
      | error err => rfl
      | ok vb =>
        simp only []
        rw [ih]
        have : index + 1 + es.length = index + (e :: es).length := by
          simp only [List.length_cons]; omega
        rw [this]
        rfl

/-- The values listed by `entry_offsets` are exactly the values `entry_offset` has after
the proper prefixes of the list. -/
theorem mem_entry_offsets (ps : List (Nat × Bool)) :
    ∀ (eo x : Nat), x ∈ entry_offsets eo ps
      ↔ ∃ pre e post, ps = pre ++ e :: post ∧ x = end_offset eo pre := by
  induction ps with
  | nil =>
    intro eo x
    simp [entry_offsets]
  | cons p ps ih =>
    intro eo x
    simp only [entry_offsets, List.mem_cons]
    constructor
    · rintro (rfl | h)
      · exact ⟨[], p, ps, rfl, rfl⟩
      · obtain ⟨pre, e, post, h1, h2⟩ := (ih _ _).1 h
        exact ⟨p :: pre, e, post, by rw [h1]; rfl, by rw [h2]; rfl⟩
    · rintro ⟨pre, e, post, h1, h2⟩
      cases pre with
      | nil => exact Or.inl h2
      | cons q pre =>
        simp only [List.cons_append, List.cons.injEq] at h1
        obtain ⟨rfl, h1⟩ := h1
        exact Or.inr ((ih _ _).2 ⟨pre, e, post, h1, h2⟩)

/-- When an entry boundary of the stream falls on the measured stride, the selected sizes
sum to exactly the measured stride. -/
theorem scan_loop_exact (sizes : String → Option Nat) (stream bpv : Nat) (hb : bpv < 2 ^ 32)
    (es : List Entry) :
    ∀ (i : Nat) (st st' : Scan), scan_loop sizes stream bpv es i st = .ok st' →
      (∃ k, st.byte_stride + ((stream_sizes sizes stream es).take k).sum = bpv) →
      (st'.offsets.map Prod.fst).sum
        = (st.offsets.map Prod.fst).sum + (bpv - st.byte_stride) := by
  induction es with
  | nil =>
    intro i st st' h hk
    cases h
    obtain ⟨k, hk⟩ := hk
    simp only [stream_sizes, List.filter_nil, List.map_nil, List.take_nil, List.sum_nil,
      Nat.add_zero] at hk
    omega
  | cons e es ih =>
    intro i st st' h hk
    unfold scan_loop at h
    obtain ⟨s1, h1, h⟩ := (bind_ok_iff _ _ _).1 h
    obtain ⟨k, hk⟩ := hk
    unfold scan_entry at h1
    by_cases hs : e.stream ≠ stream
    · rw [if_pos hs] at h1
      have hss : stream_sizes sizes stream (e :: es) = stream_sizes sizes stream es := by
        simp [stream_sizes, List.filter_cons, hs]
      rw [hss] at hk
      have e1 : s1.offsets = st.offsets ∧ s1.byte_stride = st.byte_stride := by
        cases h1; split <;> exact ⟨rfl, rfl⟩
      rw [ih _ _ _ h ⟨k, by rw [e1.2]; exact hk⟩, e1.1, e1.2]
    · rw [if_neg hs] at h1
      have hs' : e.stream = stream := by
        by_contra hne; exact hs hne
      by_cases hfull : st.byte_stride ≥ bpv
      · rw [if_pos hfull] at h1
        obtain ⟨size, _, h1⟩ := (bind_ok_iff _ _ _).1 h1
        obtain ⟨cur, _, h1⟩ := (bind_ok_iff _ _ _).1 h1
        cases (pure_ok_iff _ _).1 h1
        have hle : st.byte_stride ≤ bpv := by omega
        have heq : st.byte_stride = bpv := by omega
        have hih := ih _ _ _ h ⟨0, by simpa using heq⟩
        exact hih
      · rw [if_neg hfull] at h1
        obtain ⟨size, hsz, h1⟩ := (bind_ok_iff _ _ _).1 h1
        obtain ⟨ho, hbs⟩ := scan_usage_offsets h1
        have hsize : size = u32 ((sizes e.type).getD 0) := by
          unfold size_of_type at hsz
          cases ht : sizes e.type with
          | none => rw [ht] at hsz; cases hsz
          | some s => rw [ht] at hsz; cases hsz; rfl
        have hss : stream_sizes sizes stream (e :: es)
            = size :: stream_sizes sizes stream es := by
          simp [stream_sizes, List.filter_cons, hs', hsize]
        rw [hss] at hk
        cases k with
        | zero =>
          simp only [List.take_zero, List.sum_nil, Nat.add_zero] at hk
          omega
        | succ k =>
          simp only [List.take_succ_cons, List.sum_cons] at hk
          have hnew : s1.byte_stride = st.byte_stride + size := by
            rw [hbs]
            simp only [u32]
            exact Nat.mod_eq_of_lt (by omega)
          rw [ih _ _ _ h ⟨k, by rw [hnew]; omega⟩, ho, hnew]
          simp only [List.map_append, List.map_cons, List.map_nil, List.sum_append,
            List.sum_cons, List.sum_nil]
          omega

/-- Claim C8, amended.  For every size table, layout, stream and measured stride `m`:
(1) every entry that the loop over the layout entries selects for decoding starts below
`m`: the value `entry_offset` has in the per-vertex loop when it reaches the entry (the
sum of the sizes selected before it, in `uint32_t` arithmetic) is less than `m`, so every
per-vertex read starts below `vertex_offset + m`; and (2) when no entry straddles byte
`m`, that is, when the source sizes of some leading entries of the stream sum to exactly
`m`, the source sizes of the selected entries sum to `m`, so no read goes past `m` bytes
per vertex. -/
theorem selected_entries_start_below_measured_stride (sizes : String → Option Nat)
    (layout : Layout) (stream bpv : Nat) (st : Scan)
    (h : scan sizes layout stream bpv = .ok st) :
    (∀ eo ∈ entry_offsets 0 st.offsets, eo < bpv)
    ∧ (bpv < 2 ^ 32 →
        (∃ k, ((stream_sizes sizes stream layout.entries).take k).sum = bpv) →
        (st.offsets.map Prod.fst).sum = bpv) := by
  unfold scan at h
  refine ⟨(scan_loop_starts_below sizes stream bpv layout.entries 0 _ st h rfl
    (by intro x hx; cases hx)).2, ?_⟩
  intro hb hk
  obtain ⟨k, hk⟩ := hk
  have hsum := scan_loop_exact sizes stream bpv hb layout.entries 0 _ st h
    ⟨k, by simpa [Scan.init] using hk⟩
  simpa [Scan.init] using hsum

set_option maxRecDepth 100000 in
/-- An instance of the amended C8: declared stride 32, measured stride 24; the first three
entries of `plain_layout` are selected, they start at 0, 12 and 16 and their sizes sum
to 24. -/
theorem selected_entries_start_below_measured_stride_witness :
    scan d3d_sizes plain_layout 0 24 = .ok truncated_scan
    ∧ (∀ eo ∈ entry_offsets 0 truncated_scan.offsets, eo < 24)
    ∧ (truncated_scan.offsets.map Prod.fst).sum = 24 :=
  ⟨by decide,
    (selected_entries_start_below_measured_stride d3d_sizes plain_layout 0 24
      truncated_scan (by decide)).1,
    (selected_entries_start_below_measured_stride d3d_sizes plain_layout 0 24
      truncated_scan (by decide)).2 (by decide) ⟨3, by decide⟩⟩

set_option maxRecDepth 100000 in
/-- Claim C8 fails as stated: with declared stride 32 and measured stride 28, the layout
Position(Float3), BlendIndices(ubyte4), Texcoord(Float4) has all three entries selected,
because 12 + 4 = 16 is still below 28 when the third is reached; their sizes sum to 32,
more than 28.  On a buffer of two vertices (56 bytes) the transcoder then reads the
second vertex up to byte 60, past the end of the buffer. -/
theorem selected_sizes_can_exceed_measured_stride :
    straddling_layout.size_at 0 = .ok 32
    ∧ (scan d3d_sizes straddling_layout 0 28).map (fun st => st.offsets)
        = .ok [(12, false), (4, false), (16, false)]
    ∧ ¬ (12 + 4 + 16 ≤ 28)
    ∧ expand_vertex_stream example_externals 4 straddling_layout (List.replicate 56 0) 0 false 28
        = .error .undefined := by
  refine ⟨by decide, by decide, by decide, by decide⟩

/-! ## The verbatim path (C9) -/

/-- No conversion rule applies to the entry: the four tests of the loop over the layout
entries that rewrite an entry or ask for a conversion are all false. -/
theorem scan_usage_plain (stream : Nat) (e : Entry) (i : Nat) (st : Scan)
    (ha : needs_conversion e.type = false)
    (hb : ¬ (e.usage = "Normal" ∧ e.type = "ubyte4n"))
    (hc : e.usage ≠ "BlendIndices")
    (hd : ¬ (e.usage = "BlendWeight" ∧ e.type = "ubyte4n")) :
    ∃ st', scan_usage stream e i st = .ok st'
      ∧ st'.layout = st.layout ∧ st'.offsets = st.offsets ∧ st'.byte_stride = st.byte_stride
      ∧ st'.conversion_required = st.conversion_required
      ∧ st'.bone_remapping = st.bone_remapping
      ∧ st'.weight_conversion = st.weight_conversion
      ∧ st'.expand_normals = st.expand_normals
      ∧ st'.has_normals = (st.has_normals || decide (e.usage = "Normal"))
      ∧ st'.binormal_index = (if e.usage = "Binormal" then (i : Int) else st.binormal_index)
      ∧ st'.tangent_index = (if e.usage = "Tangent" then (i : Int) else st.tangent_index) := by
  unfold scan_usage
  simp only [ha, Bool.false_eq_true, if_false, bind, Except.bind, pure, Except.pure]
  by_cases h1 : e.usage = "Normal"
  · have h2 : e.type ≠ "ubyte4n" := fun h => hb ⟨h1, h⟩
    simp [h1, h2]
  · by_cases h3 : e.usage = "Binormal"
    · simp [h3]
    · by_cases h4 : e.usage = "Tangent"
      · simp [h4]
      · by_cases h5 : e.usage = "BlendWeight"
        · have h6 : e.type ≠ "ubyte4n" := fun h => hd ⟨h5, h⟩
          simp [h5, h6]
        · simp [h1, h3, h4, h5, hc]

theorem lookup_map_set (stream v s : Nat) (xs : List (Nat × Nat)) :
    ((xs.map fun p => if p.1 = stream then (p.1, v) else p).lookup s).isSome
      = (xs.lookup s).isSome := by
  induction xs with
  | nil => rfl
  | cons x xs ih =>
    obtain ⟨a, b⟩ := x
    have hx : (if (a, b).1 = stream then ((a, b).1, v) else (a, b))
        = (a, if a = stream then v else b) := by
      by_cases h : a = stream <;> simp [h]
    rw [List.map_cons, hx]
    by_cases h2 : s = a
    · have hb : (s == a) = true := by simpa using h2
      simp only [List.lookup, hb, Option.isSome_some]
    · have hb : (s == a) = false := by simpa using h2
      simp only [List.lookup, hb]
      exact ih

theorem size_at_ok_of_isSome (l : Layout) (s : Nat) (h : (l.sizes.lookup s).isSome) :
    ∃ v, l.size_at s = .ok v := by
  unfold Layout.size_at
  cases hl : l.sizes.lookup s with
  | none => rw [hl] at h; cases h
  | some v => exact ⟨_, rfl⟩

set_option maxHeartbeats 1000000 in
theorem scan_loop_plain (sizes : String → Option Nat) (stream bpv : Nat) (es : List Entry) :
    ∀ (i : Nat) (st : Scan), (st.layout.sizes.lookup stream).isSome →
      (∀ e ∈ es, e.stream = stream → (sizes e.type).isSome) →
      (∀ e ∈ decoded_entries sizes stream bpv st.byte_stride es, e.plain) →
      ∃ st', scan_loop sizes stream bpv es i st = .ok st'
        ∧ st'.layout.entries = st.layout.entries
        ∧ st'.conversion_required = st.conversion_required
        ∧ st'.bone_remapping = st.bone_remapping
        ∧ st'.weight_conversion = st.weight_conversion
        ∧ st'.expand_normals = st.expand_normals
        ∧ (st'.has_normals = true ↔ st.has_normals = true
            ∨ ∃ e ∈ decoded_entries sizes stream bpv st.byte_stride es, e.usage = "Normal")
        ∧ (st'.binormal_index = st.binormal_index
            ∨ ∃ k e, st'.binormal_index = ((i + k : Nat) : Int) ∧ es.get? k = some e
              ∧ e ∈ decoded_entries sizes stream bpv st.byte_stride es
              ∧ e.usage = "Binormal")
        ∧ (st'.tangent_index = st.tangent_index
            ∨ ∃ k e, st'.tangent_index = ((i + k : Nat) : Int) ∧ es.get? k = some e
              ∧ e ∈ decoded_entries sizes stream bpv st.byte_stride es
              ∧ e.usage = "Tangent") := by
  induction es with
  | nil =>
    intro i st _ _ _
    exact ⟨st, rfl, rfl, rfl, rfl, rfl, rfl, by simp [decoded_entries], Or.inl rfl, Or.inl rfl⟩
  | cons e es ih =>
    intro i st hk htypes hD
    have htypes' : ∀ x ∈ es, x.stream = stream → (sizes x.type).isSome :=
      fun x hx => htypes x (List.mem_cons_of_mem _ hx)
    unfold scan_loop
    by_cases hs : e.stream ≠ stream
    · -- an entry of another stream
      have hdec : decoded_entries sizes stream bpv st.byte_stride (e :: es)
          = decoded_entries sizes stream bpv st.byte_stride es := by
        simp only [decoded_entries, hs, if_true, ne_eq, not_false_eq_true]
      rw [hdec] at hD ⊢
      have hentry : ∃ s1, scan_entry sizes stream bpv e i st = .ok s1
          ∧ s1.layout = st.layout ∧ s1.byte_stride = st.byte_stride
          ∧ s1.conversion_required = st.conversion_required
          ∧ s1.bone_remapping = st.bone_remapping
          ∧ s1.weight_conversion = st.weight_conversion
          ∧ s1.expand_normals = st.expand_normals ∧ s1.has_normals = st.has_normals
          ∧ s1.binormal_index = st.binormal_index ∧ s1.tangent_index = st.tangent_index := by
        unfold scan_entry
        rw [if_pos hs]
        by_cases hlt : e.stream < stream
        · rw [if_pos hlt]; exact ⟨_, rfl, rfl, rfl, rfl, rfl, rfl, rfl, rfl, rfl, rfl⟩
        · rw [if_neg hlt]; exact ⟨_, rfl, rfl, rfl, rfl, rfl, rfl, rfl, rfl, rfl, rfl⟩
      obtain ⟨s1, he, e1, e2, e3, e4, e5, e6, e7, e8, e9⟩ := hentry
      simp only [he, bind, Except.bind]
      obtain ⟨st', h1, h2, h3, h4, h5, h6, h7, h8, h9⟩ :=
        ih (i + 1) s1 (by rw [e1]; exact hk) htypes' (by rw [e2]; exact hD)
      rw [e2] at h7 h8 h9
      refine ⟨st', h1, by rw [h2, e1], by rw [h3, e3], by rw [h4, e4], by rw [h5, e5],
        by rw [h6, e6], by rw [h7, e7], ?_, ?_⟩
      · rcases h8 with h8 | ⟨k, x, hx1, hx2, hx3, hx4⟩
        · exact Or.inl (by rw [h8, e8])
        · exact Or.inr ⟨k + 1, x, by rw [hx1]; congr 1; omega, by simpa using hx2, hx3, hx4⟩
      · rcases h9 with h9 | ⟨k, x, hx1, hx2, hx3, hx4⟩
        · exact Or.inl (by rw [h9, e9])
        · exact Or.inr ⟨k + 1, x, by rw [hx1]; congr 1; omega, by simpa using hx2, hx3, hx4⟩
    · have hs' : e.stream = stream := by
        by_contra hne; exact hs hne
      obtain ⟨sz, hsz⟩ := Option.isSome_iff_exists.1 (htypes e (List.mem_cons_self _ _) hs')
      have hsize : size_of_type sizes e.type = .ok (u32 sz) := by
        unfold size_of_type; rw [hsz]
      by_cases hfull : st.byte_stride ≥ bpv
      · -- the entry is skipped
        have hdec : decoded_entries sizes stream bpv st.byte_stride (e :: es)
            = decoded_entries sizes stream bpv st.byte_stride es := by
          simp only [decoded_entries, hs, hfull, if_true, if_false]
        rw [hdec] at hD ⊢
        obtain ⟨cur, hcur⟩ := size_at_ok_of_isSome st.layout stream hk
        have he : scan_entry sizes stream bpv e i st
            = .ok { st with layout := st.layout.set_size stream (sub32 cur (u32 sz)) } := by
          unfold scan_entry
          rw [if_neg hs, if_pos hfull, hsize, hcur]
          rfl
        simp only [he, bind, Except.bind]
        obtain ⟨st', h1, h2, h3, h4, h5, h6, h7, h8, h9⟩ :=
          ih (i + 1) { st with layout := st.layout.set_size stream (sub32 cur (u32 sz)) }
            (by simp only [Layout.set_size]; rw [lookup_map_set]; exact hk) htypes' hD
        refine ⟨st', h1, h2, h3, h4, h5, h6, h7, ?_, ?_⟩
        · rcases h8 with h8 | ⟨k, x, hx1, hx2, hx3, hx4⟩
          · exact Or.inl h8
          · exact Or.inr ⟨k + 1, x, by rw [hx1]; congr 1; omega, by simpa using hx2, hx3, hx4⟩
        · rcases h9 with h9 | ⟨k, x, hx1, hx2, hx3, hx4⟩
          · exact Or.inl h9
          · exact Or.inr ⟨k + 1, x, by rw [hx1]; congr 1; omega, by simpa using hx2, hx3, hx4⟩
      · -- the entry is decoded
        have hdec : decoded_entries sizes stream bpv st.byte_stride (e :: es)
            = e :: decoded_entries sizes stream bpv (u32 (st.byte_stride + u32 sz)) es := by
          simp only [decoded_entries, hs, hfull, if_false, hsz, Option.getD_some]
        rw [hdec] at hD ⊢
        obtain ⟨pa, pb, pc, pd⟩ := hD e (List.mem_cons_self _ _)
        obtain ⟨s1, hu, u1, u2, u3, u4, u5, u6, u7, u8, u9, u10⟩ :=
          scan_usage_plain stream e i
            { st with byte_stride := u32 (st.byte_stride + u32 sz),
                      offsets := st.offsets ++ [(u32 sz, needs_conversion e.type)] }
            pa pb pc pd
        have he : scan_entry sizes stream bpv e i st = .ok s1 := by
          unfold scan_entry
          rw [if_neg hs, if_neg hfull, hsize]
          exact hu
        simp only [he, bind, Except.bind]
        obtain ⟨st', h1, h2, h3, h4, h5, h6, h7, h8, h9⟩ :=
          ih (i + 1) s1 (by rw [u1]; exact hk) htypes'
            (by rw [u3]; exact fun x hx => hD x (List.mem_cons_of_mem _ hx))
        rw [u3] at h7 h8 h9
        refine ⟨st', h1, by rw [h2, u1], by rw [h3, u4], by rw [h4, u5], by rw [h5, u6],
          by rw [h6, u7], ?_, ?_, ?_⟩
        · rw [h7, u8]
          simp only [Bool.or_eq_true, decide_eq_true_eq]
          constructor
          · rintro ((h | h) | ⟨x, hx, hxn⟩)
            · exact Or.inl h
            · exact Or.inr ⟨e, List.mem_cons_self _ _, h⟩
            · exact Or.inr ⟨x, List.mem_cons_of_mem _ hx, hxn⟩
          · rintro (h | ⟨x, hx, hxn⟩)
            · exact Or.inl (Or.inl h)
            · rcases List.mem_cons.1 hx with rfl | hx
              · exact Or.inl (Or.inr hxn)
              · exact Or.inr ⟨x, hx, hxn⟩
        · rcases h8 with h8 | ⟨k, x, hx1, hx2, hx3, hx4⟩
          · rw [h8, u9]
            by_cases hbn : e.usage = "Binormal"
            · exact Or.inr ⟨0, e, by simp [hbn], rfl, List.mem_cons_self _ _, hbn⟩
            · exact Or.inl (by simp [hbn])
          · exact Or.inr ⟨k + 1, x, by rw [hx1]; congr 1; omega, by simpa using hx2,
              List.mem_cons_of_mem _ hx3, hx4⟩
        · rcases h9 with h9 | ⟨k, x, hx1, hx2, hx3, hx4⟩
          · rw [h9, u10]
            by_cases htn : e.usage = "Tangent"
            · exact Or.inr ⟨0, e, by simp [htn], rfl, List.mem_cons_self _ _, htn⟩
            · exact Or.inl (by simp [htn])
          · exact Or.inr ⟨k + 1, x, by rw [hx1]; congr 1; omega, by simpa using hx2,
              List.mem_cons_of_mem _ hx3, hx4⟩

theorem type_at_of_get (l : Layout) (k : Nat) (e : Entry) (h : l.entries.get? k = some e) :
    type_at l (k : Int) = .ok e.type := by
  unfold type_at
  have hk : ((k : Int) ≠ -1) := by omega
  rw [if_pos hk]
  simp only [Int.toNat_ofNat, h]

/-- Claim C9: let the layout declare a stride for the stream that is not below the measured
one and let the types of the stream's entries be in the size table, so that the function
gets to its decision.  If among the decoded entries none has type `Float16_2` or
`float16_2`, none is a `Normal` of type `ubyte4n`, none is a `BlendIndices` entry, none
is a `BlendWeight` of type `ubyte4n`, a normal need not be computed (a `Normal` entry
exists, or `Tangent` and `Binormal` are not both present), and it is not the case that
the mesh is rigid with a `Binormal` of type `ubyte4n`, then `expand_vertex_stream`
returns the bytes of the input vertex buffer, and leaves that buffer as it was. -/
theorem verbatim_when_no_rule_applies (ext : Externals) (fuel : Nat) (layout : Layout)
    (data : Bytes) (stream : Nat) (is_rigid : Bool) (bpv declared : Nat)
    (hd : layout.size_at stream = .ok declared) (hle : bpv ≤ declared)
    (htypes : ∀ e ∈ layout.entries, e.stream = stream → (ext.sizes e.type).isSome)
    (ha : ∀ e ∈ decoded_entries ext.sizes stream bpv 0 layout.entries,
      e.type ≠ "Float16_2" ∧ e.type ≠ "float16_2")
    (hb : ∀ e ∈ decoded_entries ext.sizes stream bpv 0 layout.entries,
      ¬ (e.usage = "Normal" ∧ e.type = "ubyte4n"))
    (hc : ∀ e ∈ decoded_entries ext.sizes stream bpv 0 layout.entries,
      e.usage ≠ "BlendIndices")
    (hw : ∀ e ∈ decoded_entries ext.sizes stream bpv 0 layout.entries,
      ¬ (e.usage = "BlendWeight" ∧ e.type = "ubyte4n"))
    (hn : (∃ e ∈ decoded_entries ext.sizes stream bpv 0 layout.entries, e.usage = "Normal")
      ∨ ¬ ((∃ e ∈ decoded_entries ext.sizes stream bpv 0 layout.entries, e.usage = "Tangent")
        ∧ ∃ e ∈ decoded_entries ext.sizes stream bpv 0 layout.entries, e.usage = "Binormal"))
    (hr : ¬ (is_rigid = true
      ∧ ∃ e ∈ decoded_entries ext.sizes stream bpv 0 layout.entries,
          e.usage = "Binormal" ∧ e.type = "ubyte4n")) :
    ∃ r, expand_vertex_stream ext fuel layout data stream is_rigid bpv = .ok r
      ∧ r.output = data.map (fun b => Cell.byte (b % 256)) ∧ r.data = data := by
  have hkey : (layout.sizes.lookup stream).isSome := by
    unfold Layout.size_at at hd
    cases hl : layout.sizes.lookup stream with
    | none => rw [hl] at hd; cases hd
    | some v => rfl
  have hplain : ∀ e ∈ decoded_entries ext.sizes stream bpv (Scan.init layout).byte_stride
      layout.entries, e.plain := by
    intro e he
    refine ⟨?_, hb e he, hc e he, hw e he⟩
    have := ha e he
    simp [needs_conversion, this.1, this.2]
  obtain ⟨st, hscan, s1, s2, s3, s4, s5, s6, s7, s8⟩ :=
    scan_loop_plain ext.sizes stream bpv layout.entries 0 (Scan.init layout) hkey htypes hplain
  have hbs : (Scan.init layout).byte_stride = 0 := rfl
  rw [hbs] at s6 s7 s8
  have hentries : st.layout.entries = layout.entries := s1
  -- the type of the binormal entry
  have hbt : ∃ bt, type_at st.layout st.binormal_index = .ok bt
      ∧ (st.binormal_index = -1 ∨ ∃ e ∈ decoded_entries ext.sizes stream bpv 0 layout.entries,
            e.usage = "Binormal")
      ∧ (is_rigid && decide (bt = "ubyte4n")) = false := by
    rcases s7 with h | ⟨k, e, hk, hget, hmem, hus⟩
    · have h1 : st.binormal_index = -1 := h
      refine ⟨"", by rw [h1]; rfl, Or.inl h1, ?_⟩
      simp
    · refine ⟨e.type, ?_, Or.inr ⟨e, hmem, hus⟩, ?_⟩
      · rw [hk, Nat.zero_add]
        exact type_at_of_get _ _ _ (by rw [hentries]; exact hget)
      · by_cases hrig : is_rigid = true
        · have : e.type ≠ "ubyte4n" := fun ht => hr ⟨hrig, e, hmem, hus, ht⟩
          simp [this]
        · simp [hrig]
  have htt : ∃ tt, type_at st.layout st.tangent_index = .ok tt
      ∧ (st.tangent_index = -1 ∨ ∃ e ∈ decoded_entries ext.sizes stream bpv 0 layout.entries,
            e.usage = "Tangent") := by
    rcases s8 with h | ⟨k, e, hk, hget, hmem, hus⟩
    · have h1 : st.tangent_index = -1 := h
      exact ⟨"", by rw [h1]; rfl, Or.inl h1⟩
    · refine ⟨e.type, ?_, Or.inr ⟨e, hmem, hus⟩⟩
      rw [hk, Nat.zero_add]
      exact type_at_of_get _ _ _ (by rw [hentries]; exact hget)
  obtain ⟨bt, hbt1, hbt2, hbt3⟩ := hbt
  obtain ⟨tt, htt1, htt2⟩ := htt
  have hcalc : (!st.has_normals && decide (st.binormal_index ≠ -1)
      && decide (st.tangent_index ≠ -1)) = false := by
    rcases hn with hn | hn
    · have : st.has_normals = true := s6.2 (Or.inr hn)
      simp [this]
    · rcases hbt2 with h | h
      · simp [h]
      · rcases htt2 with h2 | h2
        · simp [h2]
        · exact absurd ⟨h2, h⟩ hn
  have hflags : st.conversion_required = false ∧ st.bone_remapping = false
      ∧ st.weight_conversion = false ∧ st.expand_normals = false :=
    ⟨s2, s3, s4, s5⟩
  refine ⟨{ output := data.map fun b => .byte (b % 256), layout := st.layout, data := data },
    ?_, rfl, rfl⟩
  have hstride : effective_stride declared bpv = .ok (min declared bpv) := by
    unfold effective_stride
    rw [if_neg (by omega)]
    by_cases h : bpv < declared
    · rw [if_pos h, min_eq_right (by omega)]
    · rw [if_neg h, min_eq_left (by omega)]
  unfold expand_vertex_stream transcode scan
  simp only [hd, hstride, hscan, hbt1, htt1, bind, Except.bind, pure, Except.pure]
  rw [hcalc, hbt3, hflags.1, hflags.2.1, hflags.2.2.1, hflags.2.2.2]
  rfl

set_option maxRecDepth 100000 in
/-- An instance of C9: the four entries of `plain_layout`, a rigid mesh, 64 input bytes. -/
theorem verbatim_when_no_rule_applies_witness :
    plain_layout.size_at 0 = .ok 32
    ∧ decoded_entries example_externals.sizes 0 32 0 plain_layout.entries = plain_layout.entries
    ∧ ∃ r, expand_vertex_stream example_externals 0 plain_layout (List.range 64) 0 true 32 = .ok r
      ∧ r.output = (List.range 64).map (fun b => Cell.byte (b % 256))
      ∧ r.data = List.range 64 :=
  ⟨by decide, by decide,
    verbatim_when_no_rule_applies example_externals 0 plain_layout (List.range 64) 0 true 32 32
      (by decide) (by decide) (by decide) (by decide) (by decide) (by decide) (by decide)
      (by decide) (by decide)⟩

/-! ## The normal computed from tangent and binormal (C10) -/

theorem rat_normalize_unit (v : Vec3) (h : v.norm_sq = 1) : rat_normalize v = v := by
  have hs : rat_sqrt 1 = some 1 := by simp [rat_sqrt]
  unfold rat_normalize
  rw [h, hs]
  simp

/-- Claim C10, amended: for tangent `(1,0,0)`, binormal `(0,1,0)` and a positive
handedness sign (in particular `+1`) the normal computed by lines 866-878 is `(0,0,-1)`,
the cross product binormal × tangent times the sign of the handedness; `(0,0,1)` is what
the same vectors give for a negative sign.  This holds for every `utils::normalize` that
leaves a vector of length 1 as it is. -/
theorem normal_is_binormal_cross_tangent_times_sign (normalize : Vec3 → Vec3)
    (hunit : ∀ v : Vec3, v.norm_sq = 1 → normalize v = v) (sign : ℚ) :
    (0 < sign → calculate_normal normalize (0, 1, 0) (1, 0, 0) sign = (0, 0, -1))
    ∧ (sign < 0 → calculate_normal normalize (0, 1, 0) (1, 0, 0) sign = (0, 0, 1)) := by
  have e1 : normalize (0, 1, 0) = (0, 1, 0) := hunit _ (by norm_num [Vec3.norm_sq])
  have e2 : normalize (1, 0, 0) = (1, 0, 0) := hunit _ (by norm_num [Vec3.norm_sq])
  have e3 : normalize (0, 0, -1) = (0, 0, -1) := hunit _ (by norm_num [Vec3.norm_sq])
  unfold calculate_normal
  simp only [e1, e2]
  constructor
  · intro hs
    have h1 : sign / |sign| = 1 := by
      rw [abs_of_pos hs]; exact div_self (ne_of_gt hs)
    rw [h1]
    norm_num [e3]
  · intro hs
    have h1 : sign / |sign| = -1 := by
      rw [abs_of_neg hs, div_neg]; rw [div_self (ne_of_lt hs)]
    rw [h1]
    norm_num [e3]

/-- An instance of the amended C10, with the rational model of `utils::normalize` and the
handedness sign `+1`. -/
theorem normal_is_binormal_cross_tangent_times_sign_witness :
    (∀ v : Vec3, v.norm_sq = 1 → rat_normalize v = v)
    ∧ calculate_normal rat_normalize (0, 1, 0) (1, 0, 0) 1 = (0, 0, -1) :=
  ⟨rat_normalize_unit,
    (normal_is_binormal_cross_tangent_times_sign rat_normalize rat_normalize_unit 1).1
      (by norm_num)⟩

/-- Claim C10 fails as stated: for tangent `(1,0,0)`, binormal `(0,1,0)` and handedness
sign `+1` the computed normal is not `(0,0,1)`. -/
theorem normal_of_right_handed_frame_is_not_plus_z :
    calculate_normal rat_normalize (0, 1, 0) (1, 0, 0) 1 ≠ (0, 0, 1) := by
  have e1 : rat_normalize (0, 1, 0) = (0, 1, 0) := rat_normalize_unit _ (by norm_num [Vec3.norm_sq])
  have e2 : rat_normalize (1, 0, 0) = (1, 0, 0) := rat_normalize_unit _ (by norm_num [Vec3.norm_sq])
  have e3 : rat_normalize (0, 0, -1) = (0, 0, -1) :=
    rat_normalize_unit _ (by norm_num [Vec3.norm_sq])
  unfold calculate_normal
  simp only [e1, e2]
  norm_num [e3]

/-! ## Claim C19: the parameter view -/

/-- When `16 + length()` wraps to zero, the constructor keeps an empty view. -/
theorem parameter_new_wraps (buf : Bytes) (L : Nat) (h : get_u32 buf 12 = .ok L)
    (hu : u32 (16 + L) = 0) : Parameter.new buf = .ok ⟨[]⟩ := by
  unfold Parameter.new Parameter.length
  simp only [h, bind, Except.bind, hu]
  rw [(first_ok_iff _ _ _).2 ⟨Nat.zero_le _, rfl⟩]
  simp only [List.take_zero]
  rfl

/-- Claim C19, counterexample: the record `long_record 4294967280` has the length field
`L = 4294967280` and all its `16 + L` bytes are in the buffer, yet the view that the
constructor keeps is empty, because `16 + L` wraps to `0` in 32 bits. -/
theorem parameter_view_of_long_record_is_empty :
    get_u32 (long_record 4294967280) 12 = .ok 4294967280 ∧
      16 + 4294967280 ≤ (long_record 4294967280).length ∧
      Parameter.new (long_record 4294967280) = .ok ⟨[]⟩ ∧
      (Parameter.mk []).buf_.length ≠ 16 + 4294967280 := by
  have h : get_u32 (long_record 4294967280) 12 = .ok 4294967280 := by
    unfold long_record
    rw [get_u32_append _ _ _ (by decide)]
    decide
  refine ⟨h, ?_, parameter_new_wraps _ _ h (by norm_num [u32]), by decide⟩
  unfold long_record
  rw [List.length_append, List.length_replicate]
  decide

/-- Claim C19, amended: for every parameter record whose length field `L` (the `u32` at
byte offset 12) is below `2 ^ 32 - 16` and whose `16 + L` bytes lie in the given span, the
constructor returns a view of exactly the first `16 + L` bytes, `length()` of the view is
`L`, `data()` is exactly the `L` bytes at offsets `[16, 16 + L)` of the record, and
`data_offset()` is 16. -/
theorem parameter_view_spans_header_and_payload (subspan : Bytes) (L : Nat)
    (hL : get_u32 subspan 12 = .ok L) (hsmall : 16 + L < 2 ^ 32)
    (hfit : 16 + L ≤ subspan.length) :
    ∃ p, Parameter.new subspan = .ok p ∧ p.buf_ = subspan.take (16 + L) ∧
      p.buf_.length = 16 + L ∧ p.length = .ok L ∧
      p.data = .ok ((subspan.drop 16).take L) ∧ (p.data).map List.length = .ok L ∧
      p.data_offset = 16 := by
  have hu : u32 (16 + L) = 16 + L := Nat.mod_eq_of_lt hsmall
  have hlen : (subspan.take (16 + L)).length = 16 + L := by
    simp only [List.length_take]; omega
  have hl2 : Parameter.length ⟨subspan.take (16 + L)⟩ = .ok L := by
    unfold Parameter.length get_u32
    simp only
    rw [get_bytes_take subspan (16 + L) 12 4 (by omega) hfit]
    exact hL
  have hd : Parameter.data ⟨subspan.take (16 + L)⟩ = .ok ((subspan.drop 16).take L) := by
    unfold Parameter.data
    simp only [hl2, bind, Except.bind]
    unfold subspan_n
    rw [hlen, if_pos (le_refl _)]
    congr 1
    rw [List.drop_take, List.take_take]
    congr 1
    omega
  refine ⟨⟨subspan.take (16 + L)⟩, ?_, rfl, hlen, hl2, hd, ?_, rfl⟩
  · unfold Parameter.new Parameter.length
    simp only [hL, bind, Except.bind, hu]
    rw [(first_ok_iff _ _ _).2 ⟨hfit, rfl⟩]
    rfl
  · rw [hd]
    simp only [Except.map, List.length_take, List.length_drop]
    congr 1
    omega

theorem parameter_view_spans_header_and_payload_witness :
    ∃ p, Parameter.new short_record = .ok p ∧ p.buf_ = short_record.take (16 + 3) ∧
      p.buf_.length = 16 + 3 ∧ p.length = .ok 3 ∧
      p.data = .ok ((short_record.drop 16).take 3) ∧ (p.data).map List.length = .ok 3 ∧
      p.data_offset = 16 :=
  parameter_view_spans_header_and_payload short_record 3 (by decide) (by decide) (by decide)

/-! ## Claim C20: the label of an unknown semantic -/

/-- Claim C20, counterexample: for the value 0, which is none of the texture semantics
under `example_semantic_value`, and for the value -1, the label has a blank between
`Unknown` and the bracket, and the value is rendered as a signed number. -/
theorem unknown_label_has_a_blank :
    semantic_texture_type example_semantic_value 0 = "Unknown (0)" ∧
      semantic_texture_type example_semantic_value 0 ≠ "Unknown(" ++ toString (0 : Int) ++ ")" ∧
      semantic_texture_type example_semantic_value (-1) = "Unknown (-1)" := by
  decide

/-- Claim C20, amended: `semantic_texture_type` is total, and for every semantic value `v`
that is not the value of one of the enumerators named by its `case` labels it returns
the string `Unknown (` (with a blank before the bracket) followed by the signed decimal
rendering of `v` followed by `)`. -/
theorem unknown_semantic_gets_unknown_label (value : Semantic → Int) (v : Int)
    (h : ∀ c ∈ texture_type_cases, value c.1 ≠ v) :
    semantic_texture_type value v = "Unknown (" ++ toString v ++ ")" := by
  unfold semantic_texture_type
  have hf : (texture_type_cases.find? fun c => value c.1 = v) = none := by
    rw [List.find?_eq_none]
    intro c hc
    simpa using h c hc
  rw [hf]

theorem unknown_semantic_gets_unknown_label_witness :
    semantic_texture_type example_semantic_value 1000 = "Unknown (" ++ toString (1000 : Int) ++ ")" :=
  unknown_semantic_gets_unknown_label example_semantic_value 1000 (by decide)

/-! ## Claim C17: a parent chain that leaves the parent table -/

/-- Claim C17, the code at the failing input: the bone with the name hash 50 has the
parent 88, which is neither 0, nor a bone of the skeleton, nor a key of the parent table.
Whatever the bound on the walk, `add_skeleton_to_gltf` does not complete: the lookup
`utils::bone_hierarchy.at(88)` throws `std::out_of_range`. -/
theorem parent_walk_off_the_table_throws (fuel : Nat) :
    dme.example_hierarchy 50 = some 88 ∧ dme.example_hierarchy 88 = none ∧
      dme.add_skeleton_to_gltf dme.example_hierarchy id (fuel + 1) [10, 50] dme.example_model
        = .error .out_of_range ∧
      dme.add_skeleton_to_gltf dme.example_hierarchy List.reverse (fuel + 1) [10, 50]
        dme.example_model = .error .out_of_range :=
  ⟨rfl, rfl, rfl, rfl⟩

/-! ## Claim C18: the skeleton remap -/

/-- Claim C18, the code at the failing input: with the remap table that sends bone `A` to
index 1 and bone `B` to index 0, the remap step leaves two value-initialised bones,
whatever such a bone is: the bone at index 1 and the bone at index 0 are equal, so they
do not carry the names `A` and `B` of the source bones mapped to them.  Only the size of
the bone array is as claimed. -/
theorem remap_step_leaves_blank_bones (blank : mrn_converter.Bone) :
    mrn_converter.remap_step blank mrn_converter.example_bone_map mrn_converter.example_bones
        = [blank, blank] ∧
      ¬ (((mrn_converter.remap_step blank mrn_converter.example_bone_map
            mrn_converter.example_bones).map fun b => b.name) = ["B", "A"]) ∧
      (mrn_converter.remap_step blank mrn_converter.example_bone_map
          mrn_converter.example_bones).length = mrn_converter.example_bones.length := by
  have h : mrn_converter.remap_step blank mrn_converter.example_bone_map
      mrn_converter.example_bones = [blank, blank] := rfl
  rw [h]
  refine ⟨rfl, ?_, rfl⟩
  intro hn
  simp only [List.map_cons, List.map_nil, List.cons.injEq, and_true] at hn
  have : ("B" : String) = "A" := hn.1.symm.trans hn.2
  exact absurd this (by decide)

/-! ## The skeleton map and the parent walk -/

namespace dme

theorem lookup_append_none (m : List (Nat × Nat)) (k k2 v : Nat) (h : m.lookup k = none)
    (hk : k ≠ k2) : (m ++ [(k2, v)]).lookup k = none := by
  induction m with
  | nil =>
    simp only [List.nil_append, List.lookup]
    have : (k == k2) = false := by simpa using hk
    rw [this]
  | cons p m ih =>
    obtain ⟨a, b⟩ := p
    simp only [List.cons_append, List.lookup] at h ⊢
    cases hka : (k == a)
    · rw [hka] at h
      exact ih h
    · rw [hka] at h
      cases h

theorem add_bone_nodes_eq (hs : List Nat) :
    ∀ (m : List (Nat × Nat)) (nodes : List (List Nat)), hs.Nodup →
      (∀ h ∈ hs, m.lookup h = none) →
      add_bone_nodes hs (m, nodes)
        = (m ++ bone_entries hs nodes.length, nodes ++ List.replicate hs.length []) := by
  induction hs with
  | nil => intro m nodes _ _; simp [add_bone_nodes, bone_entries]
  | cons h hs ih =>
    intro m nodes hnd hm
    have hnd2 := List.nodup_cons.1 hnd
    have hmh : m.lookup h = none := hm h (List.mem_cons_self _ _)
    have hassign : map_assign m h nodes.length = m ++ [(h, nodes.length)] := by
      unfold map_assign
      rw [hmh]
      simp
    unfold add_bone_nodes
    rw [hassign, ih _ _ hnd2.2]
    · simp [bone_entries, List.replicate_succ]
    · intro k hk
      apply lookup_append_none
      · exact hm k (List.mem_cons_of_mem _ hk)
      · rintro rfl
        exact hnd2.1 hk

theorem skeleton_map_eq (hs : List Nat) (base : Nat) (hnd : hs.Nodup) :
    skeleton_map hs base = bone_entries hs base := by
  unfold skeleton_map
  rw [add_bone_nodes_eq hs [] _ hnd (fun _ _ => rfl)]
  simp

theorem bone_entries_lookup_none (hs : List Nat) :
    ∀ (base a : Nat), a ∉ hs → (bone_entries hs base).lookup a = none := by
  induction hs with
  | nil => intro base a _; rfl
  | cons h hs ih =>
    intro base a ha
    simp only [List.mem_cons, not_or] at ha
    simp only [bone_entries, List.lookup]
    have : (a == h) = false := by simpa using ha.1
    rw [this]
    exact ih _ _ ha.2

theorem bone_entries_lookup_some (hs : List Nat) :
    ∀ (base a j : Nat), hs.Nodup → hs[j]? = some a →
      (bone_entries hs base).lookup a = some (base + j) := by
  induction hs with
  | nil => intro base a j _ h; simp at h
  | cons h hs ih =>
    intro base a j hnd hj
    have hnd2 := List.nodup_cons.1 hnd
    simp only [bone_entries, List.lookup]
    cases j with
    | zero =>
      simp only [List.getElem?_cons_zero, Option.some.injEq] at hj
      subst hj
      simp
    | succ j =>
      simp only [List.getElem?_cons_succ] at hj
      have hmem : a ∈ hs := List.mem_iff_getElem?.2 ⟨j, hj⟩
      have hne : (a == h) = false := by
        have : a ≠ h := by rintro rfl; exact hnd2.1 hmem
        simpa using this
      rw [hne, ih _ _ _ hnd2.2 hj]
      simp only [Option.some.injEq]
      omega

theorem bone_entries_mem (hs : List Nat) :
    ∀ (base : Nat) (p : Nat × Nat), p ∈ bone_entries hs base →
      ∃ j, hs[j]? = some p.1 ∧ p.2 = base + j := by
  induction hs with
  | nil => intro base p hp; simp [bone_entries] at hp
  | cons h hs ih =>
    intro base p hp
    simp only [bone_entries, List.mem_cons] at hp
    rcases hp with rfl | hp
    · exact ⟨0, by simp, by simp⟩
    · obtain ⟨j, hj, hp2⟩ := ih _ _ hp
      exact ⟨j + 1, by simpa using hj, by omega⟩

end dme

namespace dme

theorem parent_walk_zero (hierarchy : Nat → Option Nat) (m : List (Nat × Nat)) (fuel : Nat) :
    parent_walk hierarchy m fuel 0 = .ok none := by
  cases fuel <;> simp [parent_walk]

theorem parent_walk_found (hierarchy : Nat → Option Nat) (m : List (Nat × Nat))
    (fuel p x : Nat) (hp : p ≠ 0) (hx : m.lookup p = some x) :
    parent_walk hierarchy m fuel p = .ok (some x) := by
  cases fuel <;> simp [parent_walk, hp, hx]

theorem parent_walk_step (hierarchy : Nat → Option Nat) (m : List (Nat × Nat))
    (fuel p q : Nat) (hp : p ≠ 0) (hx : m.lookup p = none) (hq : hierarchy p = some q) :
    parent_walk hierarchy m (fuel + 1) p = parent_walk hierarchy m fuel q := by
  simp [parent_walk, hp, hx, hq]

/-- The walk follows the chain: when the chain from `p` passes `n` non-zero hashes that
are not in the map and then reaches `a`, which is zero or in the map, a walk of at least
`n` steps ends there. -/
theorem parent_walk_chain (hierarchy : Nat → Option Nat) (m : List (Nat × Nat)) (a : Nat)
    (r : Option Nat) (hr : (a = 0 ∧ r = none) ∨ (a ≠ 0 ∧ ∃ x, m.lookup a = some x ∧ r = some x)) :
    ∀ (n fuel p : Nat), n ≤ fuel →
      (∀ k < n, ∃ c ∈ ancestor hierarchy p k, c ≠ 0 ∧ m.lookup c = none) →
      ancestor hierarchy p n = some a →
      parent_walk hierarchy m fuel p = .ok r := by
  intro n
  induction n with
  | zero =>
    intro fuel p _ _ ha
    simp only [ancestor, Option.some.injEq] at ha
    subst ha
    rcases hr with ⟨h0, rfl⟩ | ⟨h0, x, hx, rfl⟩
    · rw [h0]; exact parent_walk_zero _ _ _
    · exact parent_walk_found _ _ _ _ _ h0 hx
  | succ n ih =>
    intro fuel p hf hskip ha
    obtain ⟨c, hc, hc0, hcl⟩ := hskip 0 (Nat.succ_pos _)
    simp only [ancestor, Option.mem_def, Option.some.injEq] at hc
    subst hc
    cases fuel with
    | zero => omega
    | succ fuel =>
      simp only [ancestor] at ha
      cases hq : hierarchy p with
      | none => rw [hq] at ha; simp at ha
      | some q =>
        rw [hq] at ha
        simp only [Option.some_bind] at ha
        rw [parent_walk_step _ _ _ _ _ hc0 hcl hq]
        apply ih fuel q (by omega) _ ha
        intro k hk
        obtain ⟨c2, hc2, h2⟩ := hskip (k + 1) (by omega)
        simp only [ancestor, hq, Option.some_bind] at hc2
        exact ⟨c2, hc2, h2⟩

/-- The first hash of the chain that is zero or a bone's is unique. -/
theorem first_reaches_unique (hierarchy : Nat → Option Nat) (hs : List Nat)
    (b n a n2 a2 : Nat) (h1 : first_reaches hierarchy hs b n a)
    (h2 : first_reaches hierarchy hs b n2 a2) : n = n2 ∧ a = a2 := by
  have key : ∀ (n a n2 a2 : Nat), first_reaches hierarchy hs b n a →
      first_reaches hierarchy hs b n2 a2 → ¬ n < n2 := by
    intro n a n2 a2 h1 h2 hlt
    obtain ⟨c, hc, hc0, hcn⟩ := h2.2.2 n hlt
    rw [h1.1] at hc
    simp only [Option.mem_def, Option.some.injEq] at hc
    subst hc
    rcases h1.2.1 with h | h
    · exact hc0 h
    · exact hcn h
  have hn : n = n2 := by
    have := key n a n2 a2 h1 h2
    have := key n2 a2 n a h2 h1
    omega
  subst hn
  refine ⟨rfl, ?_⟩
  have := h1.1.symm.trans h2.1
  simpa using this

/-- The parent walk of a bone whose chain first reaches `a`. -/
theorem found_parent_of_first_reaches (hierarchy : Nat → Option Nat) (hs : List Nat)
    (base fuel b n a : Nat) (hnd : hs.Nodup) (h : first_reaches hierarchy hs b n a)
    (hn : n ≤ fuel) (r : Option Nat)
    (hr : (a = 0 ∧ r = none) ∨ (a ≠ 0 ∧ ∃ j, hs[j]? = some a ∧ r = some (base + j))) :
    found_parent hierarchy (bone_entries hs base) fuel b = .ok r := by
  obtain ⟨ha, _, hskip⟩ := h
  simp only [ancestor] at ha
  cases hq : hierarchy b with
  | none => rw [hq] at ha; simp at ha
  | some q =>
    rw [hq] at ha
    simp only [Option.some_bind] at ha
    unfold found_parent
    rw [hq]
    simp only [Option.getD_some]
    apply parent_walk_chain hierarchy _ a r _ n fuel q hn _ ha
    · rcases hr with h0 | ⟨h0, j, hj, rfl⟩
      · exact Or.inl h0
      · exact Or.inr ⟨h0, _, bone_entries_lookup_some hs base a j hnd hj, rfl⟩
    · intro k hk
      obtain ⟨c, hc, hc0, hcn⟩ := hskip k hk
      simp only [ancestor, hq, Option.some_bind] at hc
      exact ⟨c, hc, hc0, bone_entries_lookup_none hs base c hcn⟩

theorem found_parent_of_no_entry (hierarchy : Nat → Option Nat) (m : List (Nat × Nat))
    (fuel b : Nat) (h : hierarchy b = none) : found_parent hierarchy m fuel b = .ok none := by
  unfold found_parent
  rw [h]
  exact parent_walk_zero _ _ _

/-- The parent walk of a root bone. -/
theorem found_parent_of_is_root (hierarchy : Nat → Option Nat) (hs : List Nat)
    (base fuel b : Nat) (hnd : hs.Nodup) (hroot : is_root hierarchy hs b)
    (hres : hierarchy b = none ∨ ∃ n a, n ≤ fuel ∧ first_reaches hierarchy hs b n a) :
    found_parent hierarchy (bone_entries hs base) fuel b = .ok none := by
  rcases hres with h | ⟨n, a, hn, h⟩
  · exact found_parent_of_no_entry _ _ _ _ h
  · rcases hroot with h0 | ⟨n2, h2⟩
    · exact found_parent_of_no_entry _ _ _ _ h0
    · obtain ⟨rfl, rfl⟩ := first_reaches_unique _ _ _ _ _ _ _ h h2
      exact found_parent_of_first_reaches _ _ _ _ _ _ _ hnd h hn none (Or.inl ⟨rfl, rfl⟩)

end dme

namespace dme

theorem getLast?_getD_cons (a : Int) (l : List Int) (d : Int) :
    ((a :: l).getLast?).getD d = (l.getLast?).getD a := by
  cases l with
  | nil => rfl
  | cons b l => rw [List.getLast?_cons_cons]; simp [List.getLast?_cons]

theorem children_of_set (g : SkinModel) (x y : Nat) (v : List Nat) (hx : x < g.children.length) :
    ({ g with children := g.children.set x v } : SkinModel).children_of y
      = if y = x then v else g.children_of y := by
  unfold SkinModel.children_of
  by_cases h : y = x
  · subst h
    rw [if_pos rfl]
    simp [List.getD_eq_getElem?_getD, hx]
  · rw [if_neg h]
    simp only [List.getD_eq_getElem?_getD]
    rw [List.getElem?_set_ne (Ne.symm h)]

/-- The loop of lines 302-323 as a function of the outcomes of the parent walks. -/
theorem link_bones_eq (hierarchy : Nat → Option Nat) (m : List (Nat × Nat)) (fuel : Nat)
    (es : List (Nat × Nat)) :
    ∀ (g : SkinModel) (nodes : List Nat), g.scene = some nodes →
      (∀ p ∈ es, ∃ r, found_parent hierarchy m fuel p.1 = .ok r ∧
        ∀ x, r = some x → x < g.children.length) →
      ∃ g2, link_bones hierarchy m fuel es g = .ok g2 ∧
        g2.children.length = g.children.length ∧
        (∀ y, g2.children_of y = g.children_of y ++
          (es.filter fun p => found_parent hierarchy m fuel p.1 = .ok (some y)).map Prod.snd) ∧
        g2.scene = some (nodes ++
          (es.filter fun p => found_parent hierarchy m fuel p.1 = .ok none).map Prod.snd) ∧
        g2.skeleton = (((es.filter fun p => found_parent hierarchy m fuel p.1 = .ok none).map
          fun p => (p.2 : Int)).getLast?).getD g.skeleton := by
  induction es with
  | nil =>
    intro g nodes hs _
    exact ⟨g, rfl, rfl, by simp, by simp [hs], by simp⟩
  | cons e es ih =>
    intro g nodes hs hall
    obtain ⟨r, hr, hrx⟩ := hall e (List.mem_cons_self _ _)
    have hr2 : parent_walk hierarchy m fuel ((hierarchy e.1).getD 0) = .ok r := hr
    cases r with
    | none =>
      have h1 : link_bone hierarchy m fuel g e
          = .ok { g with skeleton := (e.2 : Int), scene := some (nodes ++ [e.2]) } := by
        unfold link_bone
        simp only [hr2, bind, Except.bind, hs]
        rfl
      obtain ⟨g2, hg2, hlen, hch, hsc, hsk⟩ := ih
        { g with skeleton := (e.2 : Int), scene := some (nodes ++ [e.2]) } (nodes ++ [e.2]) rfl
        (fun p hp => hall p (List.mem_cons_of_mem _ hp))
      refine ⟨g2, ?_, hlen, ?_, ?_, ?_⟩
      · unfold link_bones
        simp only [h1, bind, Except.bind]
        exact hg2
      · intro y
        rw [hch y]
        have : ¬ (found_parent hierarchy m fuel e.1 = .ok (some y)) := by rw [hr]; simp
        simp only [List.filter_cons, this, decide_False]
        rfl
      · rw [hsc]
        simp only [List.filter_cons, hr, decide_True, if_true, List.map_cons,
          List.append_assoc, List.singleton_append]
      · rw [hsk]
        simp only [List.filter_cons, hr, decide_True, if_true, List.map_cons]
        rw [getLast?_getD_cons]
    | some x =>
      have hx : x < g.children.length := hrx x rfl
      have h1 : link_bone hierarchy m fuel g e
          = .ok { g with children := g.children.set x (g.children_of x ++ [e.2]) } := by
        unfold link_bone
        simp only [hr2, bind, Except.bind, hx, if_true]
        rfl
      obtain ⟨g2, hg2, hlen, hch, hsc, hsk⟩ := ih
        { g with children := g.children.set x (g.children_of x ++ [e.2]) } nodes hs
        (fun p hp => by
          obtain ⟨r, h1, h2⟩ := hall p (List.mem_cons_of_mem _ hp)
          exact ⟨r, h1, fun x hx => by simpa using h2 x hx⟩)
      refine ⟨g2, ?_, ?_, ?_, ?_, ?_⟩
      · unfold link_bones
        simp only [h1, bind, Except.bind]
        exact hg2
      · rw [hlen]; simp
      · intro y
        rw [hch y, children_of_set g x y _ hx]
        by_cases hy : y = x
        · subst hy
          simp only [if_true, List.filter_cons, hr, decide_True, List.map_cons,
            List.append_assoc, List.singleton_append]
        · have : ¬ (found_parent hierarchy m fuel e.1 = .ok (some y)) := by
            rw [hr]; simp; exact fun h => hy h.symm
          simp only [if_neg hy, List.filter_cons, this, decide_False]
          rfl
      · rw [hsc]
        have : ¬ (found_parent hierarchy m fuel e.1 = .ok none) := by rw [hr]; simp
        simp only [List.filter_cons, this, decide_False]
        rfl
      · rw [hsk]
        have : ¬ (found_parent hierarchy m fuel e.1 = .ok none) := by rw [hr]; simp
        simp only [List.filter_cons, this, decide_False]
        rfl

end dme

namespace dme

theorem count_bone_entries_lt (P : Nat × Nat → Bool) (hs : List Nat) :
    ∀ (base idx : Nat), idx < base →
      (((bone_entries hs base).filter P).map Prod.snd).count idx = 0 := by
  induction hs with
  | nil => intro base idx _; simp [bone_entries]
  | cons h hs ih =>
    intro base idx hlt
    simp only [bone_entries, List.filter_cons]
    split
    · rw [List.map_cons, List.count_cons, ih _ _ (by omega)]
      simp; omega
    · exact ih _ _ (by omega)

theorem count_bone_entries (P : Nat × Nat → Bool) (hs : List Nat) :
    ∀ (base i b : Nat), hs[i]? = some b →
      (((bone_entries hs base).filter P).map Prod.snd).count (base + i)
        = if P (b, base + i) then 1 else 0 := by
  induction hs with
  | nil => intro base i b h; simp at h
  | cons h hs ih =>
    intro base i b hi
    cases i with
    | zero =>
      simp only [List.getElem?_cons_zero, Option.some.injEq] at hi
      subst hi
      simp only [bone_entries, List.filter_cons, Nat.add_zero]
      split
      · rw [List.map_cons, List.count_cons, count_bone_entries_lt P hs _ _ (by omega)]
        simp
      · exact count_bone_entries_lt P hs _ _ (by omega)
    | succ i =>
      simp only [List.getElem?_cons_succ] at hi
      have e : base + (i + 1) = base + 1 + i := by omega
      rw [e]
      simp only [bone_entries, List.filter_cons]
      split
      · rw [List.map_cons, List.count_cons, ih _ _ _ hi]
        have : ¬ (base = base + 1 + i) := by omega
        simp [this]
      · exact ih _ _ _ hi

theorem count_of_perm (P : Nat × Nat → Bool) (l m : List (Nat × Nat)) (h : l.Perm m)
    (idx : Nat) :
    ((l.filter P).map Prod.snd).count idx = ((m.filter P).map Prod.snd).count idx :=
  ((h.filter P).map Prod.snd).count_eq idx

end dme

namespace dme

theorem not_root_of_first_reaches (hierarchy : Nat → Option Nat) (hs : List Nat)
    (b n a : Nat) (h : first_reaches hierarchy hs b n a) (ha : a ≠ 0) :
    ¬ is_root hierarchy hs b := by
  rintro (h0 | ⟨n2, h2⟩)
  · have := h.1
    simp [ancestor, h0] at this
  · exact ha (first_reaches_unique _ _ _ _ _ _ _ h h2).2

/-- Every bone whose chain ends within the bound is a root, found as such, or has its
first ancestor among the bones, found at that bone's node. -/
theorem found_parent_cases (hierarchy : Nat → Option Nat) (hs : List Nat)
    (base fuel b : Nat) (hnd : hs.Nodup)
    (hres : hierarchy b = none ∨ ∃ n a, n ≤ fuel ∧ first_reaches hierarchy hs b n a) :
    (is_root hierarchy hs b ∧ found_parent hierarchy (bone_entries hs base) fuel b = .ok none) ∨
      (¬ is_root hierarchy hs b ∧ ∃ n a j, first_reaches hierarchy hs b n a ∧ a ≠ 0 ∧
        hs[j]? = some a ∧
        found_parent hierarchy (bone_entries hs base) fuel b = .ok (some (base + j))) := by
  rcases hres with h | ⟨n, a, hn, h⟩
  · exact Or.inl ⟨Or.inl h, found_parent_of_no_entry _ _ _ _ h⟩
  · by_cases ha : a = 0
    · subst ha
      exact Or.inl ⟨Or.inr ⟨n, h⟩,
        found_parent_of_first_reaches _ _ _ _ _ _ _ hnd h hn none (Or.inl ⟨rfl, rfl⟩)⟩
    · have hmem : a ∈ hs := by
        rcases h.2.1 with h0 | h0
        · exact absurd h0 ha
        · exact h0
      obtain ⟨j, hj⟩ := List.mem_iff_getElem?.1 hmem
      exact Or.inr ⟨not_root_of_first_reaches _ _ _ _ _ h ha, n, a, j, h, ha, hj,
        found_parent_of_first_reaches _ _ _ _ _ _ _ hnd h hn _ (Or.inr ⟨ha, j, hj, rfl⟩)⟩

theorem children_of_append_replicate (g : SkinModel) (n y : Nat) :
    ({ g with children := g.children ++ List.replicate n [] } : SkinModel).children_of y
      = g.children_of y := by
  unfold SkinModel.children_of
  simp only [List.getD_eq_getElem?_getD]
  by_cases h : y < g.children.length
  · rw [List.getElem?_append_left h]
  · have hg : g.children[y]? = none := List.getElem?_eq_none (by omega)
    rw [List.getElem?_append_right (by omega), hg]
    simp only [Option.getD_none]
    cases h2 : (List.replicate n ([] : List Nat))[y - g.children.length]? with
    | none => rfl
    | some v =>
      have := List.mem_iff_getElem?.2 ⟨_, h2⟩
      rw [List.mem_replicate] at this
      simp [this.2]

end dme

/-! ## Claim C16: the parent of every bone -/

/-- Claim C16, counterexample: two bones without an entry in the parent table are both
hierarchy roots and both become scene nodes, but `skin.skeleton` holds one index: the
bone visited first is not the skin's skeleton after the loop, in either order of
visit. -/
theorem first_visited_root_is_not_the_skin_skeleton :
    dme.is_root (fun _ => none) [1, 2] 1 ∧ dme.is_root (fun _ => none) [1, 2] 2 ∧
      dme.add_skeleton_to_gltf (fun _ => none) id 5 [1, 2] dme.example_model
        = .ok { children := [[], [], []], skeleton := 2, scene := some [1, 2] } ∧
      dme.add_skeleton_to_gltf (fun _ => none) List.reverse 5 [1, 2] dme.example_model
        = .ok { children := [[], [], []], skeleton := 1, scene := some [2, 1] } :=
  ⟨Or.inl rfl, Or.inl rfl, by decide, by decide⟩

/-- Claim C16, amended: for a skeleton whose bones have distinct name hashes, a default
scene, and parent chains that all end (at zero or at a bone) within the bound of the walk,
`add_skeleton_to_gltf` returns, and for every bone `b` with node index `base + i`:
if the first hash `a` on its parent chain that is zero or a bone's is the non-zero hash of
bone `j`, the index of `b` is added once to the children of the node of bone `j`, to the
children of no other node, and not to the scene; if `b` has no entry in the parent table or
its chain reaches zero first, its index is added to no children list and once to the
scene, and it is the skin's skeleton after the loop provided no root is visited after
it. -/
theorem bone_joins_first_ancestor_in_skeleton
    (hierarchy : Nat → Option Nat) (order : List (Nat × Nat) → List (Nat × Nat)) (fuel : Nat)
    (hashes : List Nat) (g : dme.SkinModel) (nodes : List Nat)
    (hnodup : hashes.Nodup)
    (horder : (order (dme.skeleton_map hashes g.children.length)).Perm
      (dme.skeleton_map hashes g.children.length))
    (hscene : g.scene = some nodes)
    (hres : ∀ b ∈ hashes, hierarchy b = none ∨
      ∃ n a, n ≤ fuel ∧ dme.first_reaches hierarchy hashes b n a) :
    ∃ g2 nodes2, dme.add_skeleton_to_gltf hierarchy order fuel hashes g = .ok g2 ∧
      g2.scene = some nodes2 ∧
      ∀ i b, hashes[i]? = some b →
        (∀ n a j, dme.first_reaches hierarchy hashes b n a → a ≠ 0 → hashes[j]? = some a →
          (∀ y, (g2.children_of y).count (g.children.length + i)
            = (g.children_of y).count (g.children.length + i)
              + if y = g.children.length + j then 1 else 0) ∧
          nodes2.count (g.children.length + i) = nodes.count (g.children.length + i)) ∧
        (dme.is_root hierarchy hashes b →
          (∀ y, (g2.children_of y).count (g.children.length + i)
            = (g.children_of y).count (g.children.length + i)) ∧
          nodes2.count (g.children.length + i) = nodes.count (g.children.length + i) + 1 ∧
          ∀ l1 l2, order (dme.skeleton_map hashes g.children.length)
              = l1 ++ (b, g.children.length + i) :: l2 →
            (∀ p ∈ l2, ¬ dme.is_root hierarchy hashes p.1) →
            g2.skeleton = ((g.children.length + i : Nat) : Int)) := by
  rw [dme.skeleton_map_eq hashes _ hnodup] at horder ⊢
  have hbuilt := dme.add_bone_nodes_eq hashes [] g.children hnodup (fun _ _ => rfl)
  rw [List.nil_append] at hbuilt
  have hmem : ∀ p ∈ order (dme.bone_entries hashes g.children.length),
      ∃ j, hashes[j]? = some p.1 ∧ p.2 = g.children.length + j :=
    fun p hp => dme.bone_entries_mem hashes _ p (horder.subset hp)
  have hcases : ∀ p ∈ order (dme.bone_entries hashes g.children.length),
      _ := fun p hp =>
    dme.found_parent_cases hierarchy hashes g.children.length fuel p.1 hnodup
      (hres p.1 (by
        obtain ⟨j, hj, _⟩ := hmem p hp
        exact List.mem_iff_getElem?.2 ⟨j, hj⟩))
  obtain ⟨g2, hg2, -, hch, hsc, hsk⟩ := dme.link_bones_eq hierarchy
    (dme.bone_entries hashes g.children.length) fuel
    (order (dme.bone_entries hashes g.children.length))
    { g with children := g.children ++ List.replicate hashes.length [] } nodes hscene
    (fun p hp => by
      rcases hcases p hp with ⟨_, h⟩ | ⟨_, n, a, j, _, _, hj, h⟩
      · exact ⟨none, h, fun x hx => by cases hx⟩
      · refine ⟨_, h, fun x hx => ?_⟩
        cases hx
        have : j < hashes.length := by
          by_contra hc
          rw [List.getElem?_eq_none (by omega)] at hj
          cases hj
        simp only [List.length_append, List.length_replicate]
        omega)
  refine ⟨g2, _, ?_, hsc, ?_⟩
  · unfold dme.add_skeleton_to_gltf
    simp only [hbuilt]
    exact hg2
  intro i b hib
  have hbm : b ∈ hashes := List.mem_iff_getElem?.2 ⟨i, hib⟩
  have hcount : ∀ (P : Nat × Nat → Bool),
      (((order (dme.bone_entries hashes g.children.length)).filter P).map Prod.snd).count
        (g.children.length + i) = if P (b, g.children.length + i) then 1 else 0 := fun P => by
    rw [dme.count_of_perm P _ _ horder, dme.count_bone_entries P hashes _ i b hib]
  have hchild : ∀ y, (g2.children_of y).count (g.children.length + i)
      = (g.children_of y).count (g.children.length + i)
        + if dme.found_parent hierarchy (dme.bone_entries hashes g.children.length) fuel b
            = .ok (some y) then 1 else 0 := by
    intro y
    rw [hch y, List.count_append, hcount, dme.children_of_append_replicate]
    simp only [decide_eq_true_eq]
  have hnodes : (nodes ++ ((order (dme.bone_entries hashes g.children.length)).filter
        fun p => dme.found_parent hierarchy (dme.bone_entries hashes g.children.length) fuel p.1
          = .ok none).map Prod.snd).count (g.children.length + i)
      = nodes.count (g.children.length + i)
        + if dme.found_parent hierarchy (dme.bone_entries hashes g.children.length) fuel b
            = .ok none then 1 else 0 := by
    rw [List.count_append, hcount]
    simp only [decide_eq_true_eq]
  rcases dme.found_parent_cases hierarchy hashes g.children.length fuel b hnodup (hres b hbm)
    with ⟨hroot, hf⟩ | ⟨hnroot, n, a, j, hfr, ha, hj, hf⟩
  · constructor
    · intro n a j hfr ha _
      exact absurd hroot (dme.not_root_of_first_reaches _ _ _ _ _ hfr ha)
    · intro _
      refine ⟨fun y => ?_, ?_, ?_⟩
      · rw [hchild y, hf]; simp
      · rw [hnodes, hf]; simp
      · intro l1 l2 hl hl2
        rw [hsk, hl]
        have hl2f : (l2.filter fun p => dme.found_parent hierarchy
            (dme.bone_entries hashes g.children.length) fuel p.1 = .ok none) = [] := by
          rw [List.filter_eq_nil_iff]
          intro p hp
          have hpo : p ∈ order (dme.bone_entries hashes g.children.length) := by
            rw [hl]; simp [hp]
          rcases hcases p hpo with ⟨hr, _⟩ | ⟨_, _, _, _, _, _, _, h⟩
          · exact absurd hr (hl2 p hp)
          · rw [h]; simp
        simp only [List.filter_append, List.filter_cons, hf, decide_True, if_true, hl2f,
          List.map_append, List.map_cons, List.map_nil]
        simp
  · constructor
    · intro n2 a2 j2 hfr2 _ hj2
      obtain ⟨-, rfl⟩ := dme.first_reaches_unique _ _ _ _ _ _ _ hfr hfr2
      have hjj : j = j2 := by
        have h1 := List.getElem?_eq_some_iff.1 hj
        have h2 := List.getElem?_eq_some_iff.1 hj2
        obtain ⟨h1a, h1b⟩ := h1
        obtain ⟨h2a, h2b⟩ := h2
        exact (List.Nodup.getElem_inj_iff hnodup).1 (h1b.trans h2b.symm)
      subst hjj
      constructor
      · intro y
        rw [hchild y, hf]
        congr 1
        by_cases hy : y = g.children.length + j
        · subst hy; simp
        · have : ¬ (g.children.length + j = y) := fun h => hy h.symm
          simp [hy, this]
      · rw [hnodes, hf]; simp
    · intro hroot
      exact absurd hroot hnroot

theorem bone_joins_first_ancestor_in_skeleton_witness :
    ∃ g2 nodes2, dme.add_skeleton_to_gltf dme.example_hierarchy id 5 [10, 20, 30, 40]
        dme.example_model = .ok g2 ∧
      g2.scene = some nodes2 ∧
      ∀ i b, [10, 20, 30, 40][i]? = some b →
        (∀ n a j, dme.first_reaches dme.example_hierarchy [10, 20, 30, 40] b n a → a ≠ 0 →
            [10, 20, 30, 40][j]? = some a →
          (∀ y, (g2.children_of y).count (dme.example_model.children.length + i)
            = (dme.example_model.children_of y).count (dme.example_model.children.length + i)
              + if y = dme.example_model.children.length + j then 1 else 0) ∧
          nodes2.count (dme.example_model.children.length + i)
            = ([] : List Nat).count (dme.example_model.children.length + i)) ∧
        (dme.is_root dme.example_hierarchy [10, 20, 30, 40] b →
          (∀ y, (g2.children_of y).count (dme.example_model.children.length + i)
            = (dme.example_model.children_of y).count (dme.example_model.children.length + i)) ∧
          nodes2.count (dme.example_model.children.length + i)
            = ([] : List Nat).count (dme.example_model.children.length + i) + 1 ∧
          ∀ l1 l2, id (dme.skeleton_map [10, 20, 30, 40] dme.example_model.children.length)
              = l1 ++ (b, dme.example_model.children.length + i) :: l2 →
            (∀ p ∈ l2, ¬ dme.is_root dme.example_hierarchy [10, 20, 30, 40] p.1) →
            g2.skeleton = ((dme.example_model.children.length + i : Nat) : Int)) :=
  bone_joins_first_ancestor_in_skeleton dme.example_hierarchy id 5 [10, 20, 30, 40]
    dme.example_model [] (by decide) (List.Perm.refl _) rfl
    (fun b hb => by
      simp only [List.mem_cons, List.mem_singleton, List.not_mem_nil, or_false] at hb
      rcases hb with rfl | rfl | rfl | rfl
      · exact Or.inr ⟨0, 0, by decide, by decide⟩
      · exact Or.inr ⟨0, 10, by decide, by decide⟩
      · exact Or.inr ⟨0, 10, by decide, by decide⟩
      · exact Or.inr ⟨1, 20, by decide, by decide⟩)

/-! ## C21: slot label and semantic bucket -/

theorem find_value_eq {α : Type} (value : Semantic → Int) (hinj : Function.Injective value)
    (c : Semantic) (cases : List (Semantic × α)) :
    (cases.find? fun p => value p.1 = value c) = cases.find? fun p => p.1 = c := by
  congr 1
  funext p
  by_cases h : p.1 = c
  · simp [h]
  · have : value p.1 ≠ value c := fun hv => h (hinj hv)
    simp [h, this]

theorem find_value_none {α : Type} (value : Semantic → Int) (s : Int)
    (h : ∀ c, value c ≠ s) (cases : List (Semantic × α)) :
    (cases.find? fun p => value p.1 = s) = none := by
  rw [List.find?_eq_none]
  intro p _
  simpa using h p.1

theorem known_label_ne_unknown (s : Int) :
    ∀ c ∈ texture_type_cases, c.2 ≠ unknown_label s := by
  intro c hc heq
  have hd := congrArg String.data heq
  have h0 : (c.2.data.head?) = some 'U' := by
    rw [hd]; simp [unknown_label, String.data_append]

  simp only [texture_type_cases, List.mem_cons, List.mem_singleton, List.not_mem_nil, or_false] at hc
  rcases hc with h | h | h | h | h | h | h | h | h | h | h | h | h | h | h | h | h | h | h | h | h | h | h | h <;>
    (subst h; revert h0; decide)

/-- C21, counterexample: the enumerator `Color` is in the bucket `DIFFUSE`, not `UNKNOWN`,
and its label is the unknown label; `Diffuse` is in the same bucket and has the label
"Diffuse". -/
theorem color_bucket_has_no_label :
    texture_common_semantic example_semantic_value (example_semantic_value .Color) = .DIFFUSE ∧
    semantic_texture_type example_semantic_value (example_semantic_value .Color) = "Unknown (25)" ∧
    semantic_texture_type example_semantic_value (example_semantic_value .Color)
      = unknown_label (example_semantic_value .Color) ∧
    texture_common_semantic example_semantic_value (example_semantic_value .Diffuse) = .DIFFUSE ∧
    semantic_texture_type example_semantic_value (example_semantic_value .Diffuse) = "Diffuse" := by
  decide

theorem bucket_of_enumerator (value : Semantic → Int) (hinj : Function.Injective value)
    (c : Semantic) :
    texture_common_semantic value (value c) ≠ .UNKNOWN ∧
    (c ∈ color_semantics → texture_common_semantic value (value c) = .DIFFUSE ∧
      semantic_texture_type value (value c) = unknown_label (value c)) ∧
    (c ∉ color_semantics → semantic_texture_type value (value c)
      = label_of_bucket (texture_common_semantic value (value c)) ∧
      (semantic_texture_type value (value c), c) ∈ texture_type_cases.map Prod.swap) := by
  unfold texture_common_semantic semantic_texture_type
  rw [find_value_eq value hinj, find_value_eq value hinj]
  cases c <;> simp [common_semantic_cases, texture_type_cases, color_semantics, label_of_bucket, unknown_label]

theorem bucket_of_other (value : Semantic → Int) (s : Int) (h : ∀ c, value c ≠ s) :
    texture_common_semantic value s = .UNKNOWN ∧
    semantic_texture_type value s = unknown_label s := by
  unfold texture_common_semantic semantic_texture_type
  rw [find_value_none value s h, find_value_none value s h]
  exact ⟨rfl, rfl⟩

/-- C21 (amended): for semantic values `s` and `t` other than `Color`, `Color1` and
`Color2` (the enumerator values being distinct), `texture_common_semantic s` is `UNKNOWN`
iff `semantic_texture_type s` is the unknown label of `s`, and if `s` and `t` receive the
same bucket other than `UNKNOWN` they receive the same label; `Color`, `Color1` and `Color2`
receive the bucket `DIFFUSE` and the unknown label. -/
theorem bucket_and_label_agree_off_color (value : Semantic → Int)
    (hinj : Function.Injective value) (s t : Int)
    (hs : ∀ c ∈ color_semantics, value c ≠ s) (ht : ∀ c ∈ color_semantics, value c ≠ t) :
    (texture_common_semantic value s = .UNKNOWN ↔
      semantic_texture_type value s = unknown_label s) ∧
    (texture_common_semantic value s = texture_common_semantic value t →
      texture_common_semantic value s ≠ .UNKNOWN →
      semantic_texture_type value s = semantic_texture_type value t) ∧
    ∀ c ∈ color_semantics, texture_common_semantic value (value c) = .DIFFUSE ∧
      semantic_texture_type value (value c) = unknown_label (value c) := by
  refine ⟨?_, ?_, fun c hc => ((bucket_of_enumerator value hinj c).2.1 hc)⟩
  · by_cases h : ∃ c, value c = s
    · obtain ⟨c, rfl⟩ := h
      have hc : c ∉ color_semantics := fun hc => hs c hc rfl
      obtain ⟨h1, -, h3⟩ := bucket_of_enumerator value hinj c
      constructor
      · intro h; exact absurd h h1
      · intro h
        obtain ⟨-, hmem⟩ := h3 hc
        rw [List.mem_map] at hmem
        obtain ⟨p, hp, hpe⟩ := hmem
        have : p.2 = semantic_texture_type value (value c) := by
          have := congrArg Prod.fst hpe; simpa using this
        exact absurd (this.trans h) (known_label_ne_unknown _ p hp)
    · have h' : ∀ c, value c ≠ s := fun c hc => h ⟨c, hc⟩
      simp [bucket_of_other value s h']
  · intro heq hne
    by_cases h : ∃ c, value c = s
    · obtain ⟨c, rfl⟩ := h
      have hc : c ∉ color_semantics := fun hc => hs c hc rfl
      by_cases h2 : ∃ d, value d = t
      · obtain ⟨d, rfl⟩ := h2
        have hd : d ∉ color_semantics := fun hd => ht d hd rfl
        rw [((bucket_of_enumerator value hinj c).2.2 hc).1,
          ((bucket_of_enumerator value hinj d).2.2 hd).1, heq]
      · have h' : ∀ d, value d ≠ t := fun d hd => h2 ⟨d, hd⟩
        rw [(bucket_of_other value t h').1] at heq
        exact absurd heq hne
    · have h' : ∀ c, value c ≠ s := fun c hc => h ⟨c, hc⟩
      exact absurd (bucket_of_other value s h').1 hne

theorem example_semantic_value_injective : Function.Injective example_semantic_value := by
  intro a b h
  cases a <;> cases b <;> first | rfl | (exfalso; revert h; decide)

/-- C21, witness: the values 1 (`Diffuse`) and 2 (`BaseDiffuse`) of the example
numbering. -/
theorem bucket_and_label_agree_off_color_witness :
    Function.Injective example_semantic_value ∧
    (∀ c ∈ color_semantics, example_semantic_value c ≠ 1) ∧
    (∀ c ∈ color_semantics, example_semantic_value c ≠ 2) ∧
    ((texture_common_semantic example_semantic_value 1 = .UNKNOWN ↔
      semantic_texture_type example_semantic_value 1 = unknown_label 1) ∧
    (texture_common_semantic example_semantic_value 1 = texture_common_semantic example_semantic_value 2 →
      texture_common_semantic example_semantic_value 1 ≠ .UNKNOWN →
      semantic_texture_type example_semantic_value 1 = semantic_texture_type example_semantic_value 2) ∧
    ∀ c ∈ color_semantics, texture_common_semantic example_semantic_value (example_semantic_value c) = .DIFFUSE ∧
      semantic_texture_type example_semantic_value (example_semantic_value c)
        = unknown_label (example_semantic_value c)) :=
  ⟨example_semantic_value_injective, by decide, by decide,
    bucket_and_label_agree_off_color example_semantic_value example_semantic_value_injective 1 2
      (by decide) (by decide)⟩

/-! ## C22: `next_multiple_of_4` -/

theorem float_ulp_small (k v : Nat) (h : v < 2 ^ 24) : float_ulp k v = 1 := by
  cases k
  · simp [float_ulp]
  · simpa [float_ulp] using h

theorem float_of_u32_small (v : Nat) (h : v ≤ 2 ^ 24) : float_of_u32 v = v := by
  rcases Nat.lt_or_eq_of_le h with h | h
  · simp [float_of_u32, float_ulp_small 32 v h, Nat.mod_one]
  · subst h; decide

/-- Up to `2 ^ 24` the conversion to `float` is exact and `next_multiple_of_4` is the first
multiple of 4 that is greater than or equal to its argument. -/
theorem next_multiple_of_4_exact_below (v : Nat) (h : v ≤ 2 ^ 24) :
    next_multiple_of_4 v % 4 = 0 ∧ v ≤ next_multiple_of_4 v ∧ next_multiple_of_4 v < v + 4 := by
  unfold next_multiple_of_4 u32
  rw [float_of_u32_small v h]
  have h24 : (2:Nat) ^ 24 = 16777216 := by norm_num
  have h32 : (2:Nat) ^ 32 = 4294967296 := by norm_num
  rw [h24] at h
  rw [h32]
  omega

/-- C22, at the failing input: for the bone count 16777217 (`2 ^ 24 + 1`), which the
conversion to `float` rounds to 16777216, `next_multiple_of_4` returns 16777216, a value
below the bone count; for 4294967295 the product wraps and it returns 0.  At 16777216
the result is still exact. -/
theorem next_multiple_of_4_rounds_large_counts_down :
    next_multiple_of_4 16777217 = 16777216 ∧ next_multiple_of_4 16777217 < 16777217 ∧
    float_of_u32 16777217 = 16777216 ∧
    next_multiple_of_4 4294967295 = 0 ∧ next_multiple_of_4 16777216 = 16777216 := by
  decide

/-! ## C25: the sample padding of the dynamic segment -/

theorem sub64_of_le (a b : Nat) (hab : b ≤ a) (ha : a < 2 ^ 64) : sub64 a b = a - b := by
  unfold sub64
  have h64 : (2:Nat) ^ 64 = 18446744073709551616 := by norm_num
  rw [h64] at ha ⊢
  omega

/-- C25: the initialiser of `sample_padding` (line 275).  With rotation bone count `R = 0`
the padding is 0 and the quotient is not evaluated.  With `R > 0` the padding is
`((rotation_info_offset - rotation_data_offset) mod M) / S` with `M = (S * R * 2) mod 2^32`
(the difference being a `uint64_t` difference, the plain difference when the info offset
is not below the data offset); it is defined iff `M ≠ 0`, and is a division by zero for
`S = 0`.  The constructor fails in the same way on a header with `S = 0` and `R > 0`. -/
theorem sample_padding_guarded_only_for_zero_rotation_bones (S R rinfo rdata : Nat) :
    (R = 0 → NSADynamicSegment.sample_padding S R rinfo rdata = .ok 0) ∧
    (0 < R → u32 (S * R * 2) ≠ 0 → NSADynamicSegment.sample_padding S R rinfo rdata
        = .ok (sub64 rinfo rdata % u32 (S * R * 2) / S)) ∧
    (0 < R → rdata ≤ rinfo → rinfo < 2 ^ 64 → u32 (S * R * 2) ≠ 0 →
      NSADynamicSegment.sample_padding S R rinfo rdata
        = .ok ((rinfo - rdata) % u32 (S * R * 2) / S)) ∧
    (0 < R → ((∃ p, NSADynamicSegment.sample_padding S R rinfo rdata = .ok p)
        ↔ u32 (S * R * 2) ≠ 0)) ∧
    (0 < R → u32 (S * R * 2) = 0 →
      NSADynamicSegment.sample_padding S R rinfo rdata = .error .undefined) ∧
    (0 < R → S = 0 →
      NSADynamicSegment.sample_padding S R rinfo rdata = .error .undefined) ∧
    (∀ (sizeofDI : Nat) (buf : Bytes), get_u32 buf 0 = .ok S → get_u32 buf 8 = .ok R →
      get_u64 buf 32 = .ok rdata → get_u64 buf 40 = .ok rinfo → 0 < R → S = 0 →
      NSADynamicSegment.new sizeofDI buf = .error .undefined) := by
  have hS0 : S = 0 → u32 (S * R * 2) = 0 := by intro h; subst h; simp [u32]
  have hmain : 0 < R → u32 (S * R * 2) ≠ 0 → NSADynamicSegment.sample_padding S R rinfo rdata
        = .ok (sub64 rinfo rdata % u32 (S * R * 2) / S) := by
    intro hR hM
    have hS : S ≠ 0 := fun h => hM (hS0 h)
    unfold NSADynamicSegment.sample_padding
    rw [if_pos hR, if_neg hM, if_neg hS]
    congr 1
    have hlt : sub64 rinfo rdata % u32 (S * R * 2) < 2 ^ 32 :=
      lt_of_lt_of_le (Nat.mod_lt _ (Nat.pos_of_ne_zero hM))
        (le_of_lt (by unfold u32; exact Nat.mod_lt _ (by norm_num)))
    unfold u32 at hlt ⊢
    exact Nat.mod_eq_of_lt (lt_of_le_of_lt (Nat.div_le_self _ _) hlt)
  have hzero : 0 < R → u32 (S * R * 2) = 0 →
      NSADynamicSegment.sample_padding S R rinfo rdata = .error .undefined := by
    intro hR hM
    unfold NSADynamicSegment.sample_padding
    rw [if_pos hR, if_pos hM]
  refine ⟨?_, hmain, ?_, ?_, hzero, fun hR h => hzero hR (hS0 h), ?_⟩
  · intro h; subst h; simp [NSADynamicSegment.sample_padding]
  · intro hR hle hlt hM
    rw [hmain hR hM, sub64_of_le _ _ hle hlt]
  · intro hR
    constructor
    · rintro ⟨p, hp⟩ hM
      rw [hzero hR hM] at hp
      cases hp
    · intro hM
      exact ⟨_, hmain hR hM⟩
  · intro sizeofDI buf hS hR hrd hri hpos h0
    unfold NSADynamicSegment.new NSADynamicSegment.sample_count
      NSADynamicSegment.rotation_bone_count NSADynamicSegment.rotation_data_ptr
      NSADynamicSegment.rotation_dequantization_info_ptr
    simp only [hS, hR, hrd, hri, bind, Except.bind, pure, Except.pure, gt_iff_lt, hpos, if_true,
      hzero hpos (hS0 h0)]

/-! ## C28: the dequantization-info arrays of the dynamic segment -/

/-- The three dequantization-info accessors in terms of the header fields: the span has
`next_multiple_of_4 (bone count)` records and starts `ptr * sizeofDI` bytes into the
view. -/
theorem dequantization_info_eq (sizeofDI : Nat) (s : NSADynamicSegment) :
    (∀ c p, NSADynamicSegment.translation_bone_count s.buf_ = .ok c →
      NSADynamicSegment.translation_dequantization_info_ptr s.buf_ = .ok p →
      s.translation_dequantization_info sizeofDI
        = .ok ⟨p * sizeofDI, next_multiple_of_4 c, sizeofDI⟩) ∧
    (∀ c p, NSADynamicSegment.rotation_bone_count s.buf_ = .ok c →
      NSADynamicSegment.rotation_dequantization_info_ptr s.buf_ = .ok p →
      s.rotation_dequantization_info sizeofDI
        = .ok ⟨p * sizeofDI, next_multiple_of_4 c, sizeofDI⟩) ∧
    (∀ c p, NSADynamicSegment.scale_bone_count s.buf_ = .ok c →
      NSADynamicSegment.scale_dequantization_info_ptr s.buf_ = .ok p →
      s.scale_dequantization_info sizeofDI
        = .ok ⟨p * sizeofDI, next_multiple_of_4 c, sizeofDI⟩) := by
  refine ⟨?_, ?_, ?_⟩ <;> intro c p hc hp
  · simp only [NSADynamicSegment.translation_dequantization_info, hc, hp, bind, Except.bind,
      pure, Except.pure]
  · simp only [NSADynamicSegment.rotation_dequantization_info, hc, hp, bind, Except.bind,
      pure, Except.pure]
  · simp only [NSADynamicSegment.scale_dequantization_info, hc, hp, bind, Except.bind,
      pure, Except.pure]

set_option maxRecDepth 100000 in
/-- C28, at the failing input: a dynamic segment with one sample and 16 translation bones,
sample data at offset 64 and dequantization info at offset 128, for a record of 6 bytes.
The view has 240 bytes and the sample span starts at byte 64, the value of its offset
field.  The dequantization-info span has `next_multiple_of_4 16 = 16` records, but starts
at byte `128 * 6 = 768`, not at byte 128, and so lies outside the view. -/
theorem dequantization_info_starts_at_scaled_offset :
    NSADynamicSegment.new 6 example_dynamic_segment = .ok example_dynamic ∧
      example_dynamic.buf_.length = 240 ∧
      NSADynamicSegment.translation_data_ptr example_dynamic.buf_ = .ok 64 ∧
      example_dynamic.m_translation_data = [⟨64, 16, 4⟩] ∧
      NSADynamicSegment.translation_dequantization_info_ptr example_dynamic.buf_ = .ok 128 ∧
      example_dynamic.translation_dequantization_info 6 = .ok ⟨768, 16, 6⟩ ∧
      next_multiple_of_4 16 = 16 ∧
      ¬ (⟨768, 16, 6⟩ : Span).inside example_dynamic.buf_.length ∧
      (⟨128, 16, 6⟩ : Span).inside example_dynamic.buf_.length := by
  decide

/-! ## C23: animation export without root motion -/

set_option maxRecDepth 100000 in
/-- C23, at the failing inputs.  For the clip `clip_without_root`, whose root-segment offset
is zero, the constructor leaves the root segment absent and `add_animation_to_gltf` runs
into undefined behaviour at line 159, which dereferences the null `root_segment()`.  For
the clip `clip_with_empty_root`, whose root segment has the sample count zero,
`sample_times` stays empty and the function fails whatever `dequantize` does: with a
`dequantize` that returns, `sample_times[0]` of line 179 indexes an empty vector. -/
theorem add_animation_fails_without_root_samples
    (sizeofDI : Nat) (dequantize : NSAFile → Except Failure Unit) (sample_rate : ℚ) :
    (∃ f, NSAFile.new sizeofDI mrn_converter.clip_without_root = .ok f ∧
      NSAFile.root_segment_ptr mrn_converter.clip_without_root = .ok 0 ∧
      f.m_root_segment = none ∧
      mrn_converter.add_animation_to_gltf dequantize sample_rate f = .error .undefined) ∧
    (∃ f root, NSAFile.new sizeofDI mrn_converter.clip_with_empty_root = .ok f ∧
      f.m_root_segment = some root ∧ root.sample_count = .ok 0 ∧
      (∃ e, mrn_converter.add_animation_to_gltf dequantize sample_rate f = .error e) ∧
      (dequantize f = .ok () →
        mrn_converter.add_animation_to_gltf dequantize sample_rate f = .error .undefined)) := by
  constructor
  · refine ⟨⟨mrn_converter.clip_without_root, none, none, none⟩, rfl, by decide, rfl, rfl⟩
  · refine ⟨⟨mrn_converter.clip_with_empty_root, none, none, some ⟨root_header 0 0 0⟩⟩,
      ⟨root_header 0 0 0⟩, rfl, rfl, by decide, ?_, ?_⟩
    · have h : mrn_converter.root_sample_count
          (⟨mrn_converter.clip_with_empty_root, none, none, some ⟨root_header 0 0 0⟩⟩ : NSAFile)
          = .ok 0 := by decide
      unfold mrn_converter.add_animation_to_gltf
      simp only [h, bind, Except.bind]
      cases dequantize _ with
      | error e => exact ⟨e, rfl⟩
      | ok u => exact ⟨.undefined, rfl⟩
    · intro hd
      have h : mrn_converter.root_sample_count
          (⟨mrn_converter.clip_with_empty_root, none, none, some ⟨root_header 0 0 0⟩⟩ : NSAFile)
          = .ok 0 := by decide
      unfold mrn_converter.add_animation_to_gltf
      simp only [h, hd, bind, Except.bind]
      rfl

/-! ## C24: texture requests are not enqueued twice -/

namespace dmat

theorem lookup_isSome_iff (m : List (Nat × Nat)) (k : Nat) :
    (m.lookup k).isSome ↔ ∃ p ∈ m, p.1 = k := by
  induction m with
  | nil => simp [List.lookup]
  | cons p m ih =>
    obtain ⟨a, b⟩ := p
    simp only [List.lookup, List.mem_cons, exists_eq_or_imp]
    cases hka : (k == a)
    · have hne : ¬ a = k := fun h => by subst h; simp at hka
      simp only [ih, hne, false_or]
    · have : a = k := by simpa using (beq_iff_eq.1 hka).symm
      simp [this]

theorem map_assign_isSome_self (m : List (Nat × Nat)) (k v : Nat) :
    ((dme.map_assign m k v).lookup k).isSome := by
  rw [lookup_isSome_iff]
  unfold dme.map_assign
  split
  · rename_i h
    obtain ⟨p, hp, hpk⟩ := (lookup_isSome_iff m k).1 h
    exact ⟨(k, v), List.mem_map.2 ⟨p, hp, by simp [hpk]⟩, rfl⟩
  · exact ⟨(k, v), by simp, rfl⟩

theorem map_assign_isSome_of (m : List (Nat × Nat)) (k v k2 : Nat)
    (h : (m.lookup k2).isSome) : ((dme.map_assign m k v).lookup k2).isSome := by
  rw [lookup_isSome_iff] at h ⊢
  obtain ⟨p, hp, hpk⟩ := h
  unfold dme.map_assign
  split
  · by_cases hk : p.1 = k
    · exact ⟨(k, v), List.mem_map.2 ⟨p, hp, by simp [hk]⟩, by rw [← hpk, hk]⟩
    · exact ⟨p, List.mem_map.2 ⟨p, hp, by simp [hk]⟩, hpk⟩
  · exact ⟨p, by simp [hp], hpk⟩

/-- What one call does to the queue and the table. -/
theorem run_call_enqueues_new_name (E : TextureExternals) (value : Semantic → Int)
    (st : TextureState) (c : TextureCall) :
    ((run_call E value st c).image_queue = st.image_queue ∨
      ∃ name semantic, c.texture_name = some name ∧
        st.texture_indices.lookup (E.oaat name) = none ∧
        (run_call E value st c).image_queue = st.image_queue ++ [(name, semantic)]) ∧
    (∀ name, c.texture_name = some name →
      ((run_call E value st c).texture_indices.lookup (E.oaat name)).isSome) ∧
    (∀ k, (st.texture_indices.lookup k).isSome →
      ((run_call E value st c).texture_indices.lookup k).isSome) := by
  cases c with
  | texture_info n s =>
    cases n with
    | none => simp [run_call, load_texture_info, TextureCall.texture_name]
    | some name =>
      simp only [run_call, load_texture_info, TextureCall.texture_name, Option.some.injEq]
      cases h : st.texture_indices.lookup (E.oaat name) with
      | none =>
        refine ⟨Or.inr ⟨name, s, rfl, h, rfl⟩, ?_, ?_⟩
        · rintro _ rfl; exact map_assign_isSome_self _ _ _
        · intro k hk; exact map_assign_isSome_of _ _ _ _ hk
      | some index =>
        refine ⟨Or.inl rfl, ?_, fun k hk => hk⟩
        rintro _ rfl; simp [h]
  | specular_info n s =>
    cases n with
    | none => simp [run_call, load_specular_info, TextureCall.texture_name]
    | some name =>
      simp only [run_call, load_specular_info, TextureCall.texture_name, Option.some.injEq]
      cases h : st.texture_indices.lookup (E.oaat name) with
      | none =>
        refine ⟨Or.inr ⟨name, s, rfl, h, rfl⟩, ?_, ?_⟩
        · rintro _ rfl
          exact map_assign_isSome_of _ _ _ _ (map_assign_isSome_self _ _ _)
        · intro k hk
          exact map_assign_isSome_of _ _ _ _ (map_assign_isSome_of _ _ _ _ hk)
      | some index =>
        refine ⟨Or.inl rfl, ?_, fun k hk => hk⟩
        rintro _ rfl; simp [h]
  | default_branch n s =>
    cases n with
    | none => simp [run_call, build_material_default, TextureCall.texture_name]
    | some name =>
      simp only [run_call, build_material_default, TextureCall.texture_name, Option.some.injEq]
      cases h : st.texture_indices.lookup (E.oaat name) with
      | none =>
        simp only [h, Option.isSome_none, Bool.false_eq_true, if_false]
        split
        · refine ⟨Or.inr ⟨name, s, rfl, h, rfl⟩, ?_, ?_⟩
          · rintro _ rfl; exact map_assign_isSome_self _ _ _
          · intro k hk; exact map_assign_isSome_of _ _ _ _ hk
        · refine ⟨Or.inr ⟨name, s, rfl, h, rfl⟩, ?_, ?_⟩
          · rintro _ rfl; exact map_assign_isSome_self _ _ _
          · intro k hk; exact map_assign_isSome_of _ _ _ _ hk
      | some index =>
        simp only [h, Option.isSome_some, if_true]
        refine ⟨Or.inl (by simp), ?_, fun k hk => hk⟩
        rintro _ rfl; simp [h]

theorem run_call_invariant (E : TextureExternals) (value : Semantic → Int)
    (st : TextureState) (c : TextureCall) (h : queue_invariant E st) :
    queue_invariant E (run_call E value st c) := by
  obtain ⟨hq, -, hkeep⟩ := run_call_enqueues_new_name E value st c
  obtain ⟨h1, h2⟩ := h
  rcases hq with hq | ⟨name, semantic, hname, hnone, hq⟩
  · rw [queue_invariant, hq]
    exact ⟨fun p hp => hkeep _ (h1 p hp), h2⟩
  · have hself := (run_call_enqueues_new_name E value st c).2.1 name hname
    rw [queue_invariant, hq]
    constructor
    · intro p hp
      rcases List.mem_append.1 hp with hp | hp
      · exact hkeep _ (h1 p hp)
      · simp only [List.mem_singleton] at hp
        subst hp
        exact hself
    · rw [List.map_append, List.nodup_append]
      refine ⟨h2, by simp, ?_⟩
      intro a ha hb
      simp only [List.map_cons, List.map_nil, List.mem_singleton] at hb
      subst hb
      obtain ⟨p, hp, hpa⟩ := List.mem_map.1 ha
      have := h1 p hp
      rw [hpa, hnone] at this
      cases this

theorem run_calls_invariant (E : TextureExternals) (value : Semantic → Int)
    (calls : List TextureCall) :
    ∀ st, queue_invariant E st → queue_invariant E (run_calls E value calls st) := by
  induction calls with
  | nil => intro st h; exact h
  | cons c rest ih => intro st h; exact ih _ (run_call_invariant E value st c h)

end dmat

/-- C24: starting from an empty `texture_indices` table and an empty queue, after any
sequence of calls of `load_texture_info`, `load_specular_info` and the default branch of
`build_material` no two enqueued requests have the same texture name and the table holds
the hash of every enqueued name; and every single call, in any state, enqueues nothing or
exactly the request for its texture name, the latter only when the hash of the name is not
in the table before the call, and the hash of its texture name is in the table after the
call. -/
theorem textures_are_enqueued_once (E : dmat.TextureExternals) (value : Semantic → Int)
    (calls : List dmat.TextureCall) (textures : Nat) :
    ((dmat.run_calls E value calls (dmat.initial_state textures)).image_queue.map
        Prod.fst).Nodup ∧
    (∀ p ∈ (dmat.run_calls E value calls (dmat.initial_state textures)).image_queue,
      ((dmat.run_calls E value calls (dmat.initial_state textures)).texture_indices.lookup
        (E.oaat p.1)).isSome) ∧
    ∀ (st : dmat.TextureState) (c : dmat.TextureCall),
      ((dmat.run_call E value st c).image_queue = st.image_queue ∨
        ∃ name semantic, c.texture_name = some name ∧
          st.texture_indices.lookup (E.oaat name) = none ∧
          (dmat.run_call E value st c).image_queue = st.image_queue ++ [(name, semantic)]) ∧
      (∀ name, c.texture_name = some name →
        ((dmat.run_call E value st c).texture_indices.lookup (E.oaat name)).isSome) := by
  have hinv := dmat.run_calls_invariant E value calls (dmat.initial_state textures)
    ⟨by simp [dmat.initial_state], by simp [dmat.initial_state]⟩
  refine ⟨hinv.2, hinv.1, fun st c => ?_⟩
  obtain ⟨h1, h2, -⟩ := dmat.run_call_enqueues_new_name E value st c
  exact ⟨h1, h2⟩

/-! ## Parent chains that reach zero -/

namespace dme

theorem ancestor_add (hierarchy : Nat → Option Nat) :
    ∀ (m k x : Nat), ancestor hierarchy x (m + k)
      = (ancestor hierarchy x m).bind fun c => ancestor hierarchy c k := by
  intro m
  induction m with
  | zero => intro k x; simp [ancestor]
  | succ m ih =>
    intro k x
    rw [show m + 1 + k = (m + k) + 1 by omega]
    simp only [ancestor]
    cases hierarchy x with
    | none => rfl
    | some p => simp only [Option.some_bind]; exact ih k p

theorem ancestor_defined_of_le (hierarchy : Nat → Option Nat) (x n t m : Nat)
    (h : ancestor hierarchy x n = some t) (hm : m ≤ n) :
    ∃ c, ancestor hierarchy x m = some c := by
  obtain ⟨k, rfl⟩ := Nat.exists_eq_add_of_le hm
  rw [ancestor_add] at h
  cases hc : ancestor hierarchy x m with
  | none => rw [hc] at h; cases h
  | some c => exact ⟨c, rfl⟩

/-- A chain that reaches zero has a first hash that is zero or a bone's. -/
theorem first_reaches_of_reaches_zero (hierarchy : Nat → Option Nat) (hs : List Nat)
    (b n : Nat) (h : ancestor hierarchy b (n + 1) = some 0) :
    ∃ m a, m ≤ n ∧ first_reaches hierarchy hs b m a := by
  classical
  have hex : ∃ m, ∃ t, ancestor hierarchy b (m + 1) = some t ∧ (t = 0 ∨ t ∈ hs) :=
    ⟨n, 0, h, Or.inl rfl⟩
  obtain ⟨t, ht, htz⟩ := Nat.find_spec hex
  refine ⟨Nat.find hex, t, Nat.find_min' hex ⟨0, h, Or.inl rfl⟩, ht, htz, ?_⟩
  intro k hk
  have hle : Nat.find hex ≤ n := Nat.find_min' hex ⟨0, h, Or.inl rfl⟩
  obtain ⟨c, hc⟩ := ancestor_defined_of_le hierarchy b (n + 1) 0 (k + 1) h (by omega)
  refine ⟨c, hc, ?_, ?_⟩
  · intro h0
    exact Nat.find_min hex hk ⟨c, hc, Or.inl h0⟩
  · intro hmem
    exact Nat.find_min hex hk ⟨c, hc, Or.inr hmem⟩

/-- One bound serves all bones. -/
theorem chains_end_within_bound (hierarchy : Nat → Option Nat) (hs all : List Nat)
    (h : ∀ b ∈ hs, hierarchy b = none ∨ ∃ n, ancestor hierarchy b (n + 1) = some 0) :
    ∃ F, ∀ b ∈ hs, hierarchy b = none ∨
      ∃ n a, n ≤ F ∧ first_reaches hierarchy all b n a := by
  induction hs with
  | nil => exact ⟨0, fun b hb => by cases hb⟩
  | cons x hs ih =>
    obtain ⟨F, hF⟩ := ih (fun b hb => h b (List.mem_cons_of_mem _ hb))
    rcases h x (List.mem_cons_self _ _) with hx | ⟨n, hn⟩
    · refine ⟨F, fun b hb => ?_⟩
      rcases List.mem_cons.1 hb with rfl | hb
      · exact Or.inl hx
      · exact hF b hb
    · obtain ⟨m, a, hm, hfr⟩ := first_reaches_of_reaches_zero hierarchy all x n hn
      refine ⟨max F m, fun b hb => ?_⟩
      rcases List.mem_cons.1 hb with rfl | hb
      · exact Or.inr ⟨m, a, le_max_right _ _, hfr⟩
      · rcases hF b hb with h0 | ⟨n2, a2, hn2, h2⟩
        · exact Or.inl h0
        · exact Or.inr ⟨n2, a2, le_trans hn2 (le_max_left _ _), h2⟩

/-- The model that `add_skeleton_to_gltf` returns, in terms of the outcomes of the
parent walks. -/
theorem add_skeleton_result (hierarchy : Nat → Option Nat)
    (order : List (Nat × Nat) → List (Nat × Nat)) (fuel : Nat)
    (hashes : List Nat) (g : SkinModel) (nodes : List Nat)
    (hnodup : hashes.Nodup)
    (horder : (order (skeleton_map hashes g.children.length)).Perm
      (skeleton_map hashes g.children.length))
    (hscene : g.scene = some nodes)
    (hres : ∀ b ∈ hashes, hierarchy b = none ∨
      ∃ n a, n ≤ fuel ∧ first_reaches hierarchy hashes b n a) :
    ∃ g2, add_skeleton_to_gltf hierarchy order fuel hashes g = .ok g2 ∧
      g2.children.length = g.children.length + hashes.length ∧
      (∀ y, g2.children_of y = g.children_of y ++
        ((order (bone_entries hashes g.children.length)).filter fun p =>
          found_parent hierarchy (bone_entries hashes g.children.length) fuel p.1
            = .ok (some y)).map Prod.snd) ∧
      g2.scene = some (nodes ++
        ((order (bone_entries hashes g.children.length)).filter fun p =>
          found_parent hierarchy (bone_entries hashes g.children.length) fuel p.1
            = .ok none).map Prod.snd) ∧
      (order (bone_entries hashes g.children.length)).Perm
        (bone_entries hashes g.children.length) := by
  rw [skeleton_map_eq hashes _ hnodup] at horder
  have hbuilt := add_bone_nodes_eq hashes [] g.children hnodup (fun _ _ => rfl)
  rw [List.nil_append] at hbuilt
  have hmem : ∀ p ∈ order (bone_entries hashes g.children.length),
      ∃ j, hashes[j]? = some p.1 ∧ p.2 = g.children.length + j :=
    fun p hp => bone_entries_mem hashes _ p (horder.subset hp)
  have hcases : ∀ p ∈ order (bone_entries hashes g.children.length),
      _ := fun p hp =>
    found_parent_cases hierarchy hashes g.children.length fuel p.1 hnodup
      (hres p.1 (by
        obtain ⟨j, hj, _⟩ := hmem p hp
        exact List.mem_iff_getElem?.2 ⟨j, hj⟩))
  obtain ⟨g2, hg2, hlen, hch, hsc, -⟩ := link_bones_eq hierarchy
    (bone_entries hashes g.children.length) fuel
    (order (bone_entries hashes g.children.length))
    { g with children := g.children ++ List.replicate hashes.length [] } nodes hscene
    (fun p hp => by
      rcases hcases p hp with ⟨_, h⟩ | ⟨_, n, a, j, _, _, hj, h⟩
      · exact ⟨none, h, fun x hx => by cases hx⟩
      · refine ⟨_, h, fun x hx => ?_⟩
        cases hx
        have : j < hashes.length := by
          by_contra hc
          rw [List.getElem?_eq_none (by omega)] at hj
          cases hj
        simp only [List.length_append, List.length_replicate]
        omega)
  refine ⟨g2, ?_, ?_, ?_, hsc, horder⟩
  · unfold add_skeleton_to_gltf
    simp only [hbuilt]
    exact hg2
  · rw [hlen]; simp
  · intro y
    rw [hch y, children_of_append_replicate]

end dme
namespace dme

/-- The first bone on the chain of `b` reaches zero in fewer steps than `b` does. -/
theorem parent_reaches_zero_sooner (hierarchy : Nat → Option Nat) (hs : List Nat)
    (b n a K : Nat) (h : first_reaches hierarchy hs b n a) (ha : a ≠ 0)
    (hK : ancestor hierarchy b (K + 1) = some 0) :
    ∃ k, k < K ∧ ancestor hierarchy a (k + 1) = some 0 := by
  obtain ⟨h1, -, h3⟩ := h
  have hKn : n < K := by
    by_contra hc
    rcases Nat.lt_or_eq_of_le (Nat.le_of_not_lt hc) with hlt | heq
    · obtain ⟨c, hc1, hc0, -⟩ := h3 K hlt
      rw [hK] at hc1
      exact hc0 (by simpa using hc1.symm)
    · subst heq
      rw [hK] at h1
      exact ha (by simpa using h1.symm)
  refine ⟨K - n - 1, by omega, ?_⟩
  have e : K + 1 = (n + 1) + (K - n - 1 + 1) := by omega
  rw [e, ancestor_add, h1] at hK
  simpa using hK

theorem children_of_beyond (g : SkinModel) (y : Nat) (h : g.children.length ≤ y) :
    g.children_of y = [] := by
  unfold SkinModel.children_of
  rw [List.getD_eq_getElem?_getD, List.getElem?_eq_none h]
  rfl

end dme

/-! ## C29: the skeleton is a forest -/

/-- C29: if the bones' name hashes are distinct and the parent chain of every bone reaches
zero after finitely many steps (or the bone has no entry in the parent table), then with a
default scene in the model there is a bound from which on the parent walks all end and
`add_skeleton_to_gltf` returns; in the returned model the nodes that existed before keep
their children, every bone's node index is either added once to the scene (a root) and
occurs in no bone's children list, or occurs exactly once in the children list of exactly
one bone node and is not added to the scene; every child of a bone node and every added
scene node is a bone node of this skeleton; and no bone node is its own ancestor. -/
theorem skeleton_is_a_forest
    (hierarchy : Nat → Option Nat) (order : List (Nat × Nat) → List (Nat × Nat))
    (hashes : List Nat) (g : dme.SkinModel) (nodes : List Nat)
    (hnodup : hashes.Nodup)
    (horder : (order (dme.skeleton_map hashes g.children.length)).Perm
      (dme.skeleton_map hashes g.children.length))
    (hscene : g.scene = some nodes)
    (hchain : ∀ b ∈ hashes, hierarchy b = none ∨
      ∃ n, dme.ancestor hierarchy b (n + 1) = some 0) :
    ∃ fuel0, ∀ fuel, fuel0 ≤ fuel →
      ∃ g2 roots, dme.add_skeleton_to_gltf hierarchy order fuel hashes g = .ok g2 ∧
        g2.scene = some (nodes ++ roots) ∧
        g2.children.length = g.children.length + hashes.length ∧
        (∀ y, y < g.children.length → g2.children_of y = g.children_of y) ∧
        (∀ i, i < hashes.length →
          (roots.count (g.children.length + i) = 1 ∧
            ∀ j, (g2.children_of (g.children.length + j)).count (g.children.length + i) = 0) ∨
          (roots.count (g.children.length + i) = 0 ∧ ∃ j, j < hashes.length ∧
            ∀ y, (g2.children_of (g.children.length + y)).count (g.children.length + i)
              = if y = j then 1 else 0)) ∧
        (∀ j c, c ∈ g2.children_of (g.children.length + j) →
          ∃ i, i < hashes.length ∧ c = g.children.length + i) ∧
        (∀ r ∈ roots, ∃ i, i < hashes.length ∧ r = g.children.length + i) ∧
        ∀ i, ¬ Relation.TransGen (fun p c => c ∈ g2.children_of p)
          (g.children.length + i) (g.children.length + i) := by
  obtain ⟨F, hF⟩ := dme.chains_end_within_bound hierarchy hashes hashes hchain
  refine ⟨F, fun fuel hfuel => ?_⟩
  have hres : ∀ b ∈ hashes, hierarchy b = none ∨
      ∃ n a, n ≤ fuel ∧ dme.first_reaches hierarchy hashes b n a := by
    intro b hb
    rcases hF b hb with h | ⟨n, a, hn, h⟩
    · exact Or.inl h
    · exact Or.inr ⟨n, a, le_trans hn hfuel, h⟩
  obtain ⟨g2, hrun, hlen, hch, hsc, hperm⟩ :=
    dme.add_skeleton_result hierarchy order fuel hashes g nodes hnodup horder hscene hres
  have hlt : ∀ i b, hashes[i]? = some b → i < hashes.length := by
    intro i b hib
    by_contra hc
    rw [List.getElem?_eq_none (by omega)] at hib
    cases hib
  have hcount : ∀ (P : Nat × Nat → Bool) i b, hashes[i]? = some b →
      (((order (dme.bone_entries hashes g.children.length)).filter P).map Prod.snd).count
        (g.children.length + i) = if P (b, g.children.length + i) then 1 else 0 :=
    fun P i b hib => by
      rw [dme.count_of_perm P _ _ hperm, dme.count_bone_entries P hashes _ i b hib]
  have hchild : ∀ i b j, hashes[i]? = some b →
      (g2.children_of (g.children.length + j)).count (g.children.length + i)
        = if dme.found_parent hierarchy (dme.bone_entries hashes g.children.length) fuel b
            = .ok (some (g.children.length + j)) then 1 else 0 := by
    intro i b j hib
    rw [hch, dme.children_of_beyond g _ (by omega), List.nil_append, hcount _ i b hib]
    simp only [decide_eq_true_eq]
  -- every edge of the result goes from the first bone on the chain of the child
  have hedge : ∀ j c, c ∈ g2.children_of (g.children.length + j) →
      ∃ i b a n, c = g.children.length + i ∧ hashes[i]? = some b ∧ hashes[j]? = some a ∧
        a ≠ 0 ∧ dme.first_reaches hierarchy hashes b n a := by
    intro j c hc
    rw [hch, dme.children_of_beyond g _ (by omega), List.nil_append, List.mem_map] at hc
    obtain ⟨p, hp, rfl⟩ := hc
    rw [List.mem_filter] at hp
    obtain ⟨hp1, hp2⟩ := hp
    obtain ⟨i, hi, hpi⟩ := dme.bone_entries_mem hashes _ p (hperm.subset hp1)
    have hp3 : dme.found_parent hierarchy (dme.bone_entries hashes g.children.length) fuel p.1
        = .ok (some (g.children.length + j)) := by simpa using hp2
    rcases dme.found_parent_cases hierarchy hashes g.children.length fuel p.1 hnodup
      (hres p.1 (List.mem_iff_getElem?.2 ⟨i, hi⟩)) with ⟨-, hf⟩ | ⟨-, n, a, j2, hfr, ha, hj2, hf⟩
    · rw [hf] at hp3; cases hp3
    · rw [hf] at hp3
      have hjj : j2 = j := by
        have := Except.ok.inj hp3
        simp only [Option.some.injEq] at this
        omega
      subst hjj
      exact ⟨i, p.1, a, n, hpi, hi, hj2, ha, hfr⟩
  refine ⟨g2, _, hrun, hsc, hlen, ?_, ?_, ?_, ?_, ?_⟩
  · intro y hy
    rw [hch]
    have : ((order (dme.bone_entries hashes g.children.length)).filter fun p =>
        dme.found_parent hierarchy (dme.bone_entries hashes g.children.length) fuel p.1
          = .ok (some y)) = [] := by
      rw [List.filter_eq_nil_iff]
      intro p hp
      obtain ⟨i, hi, hpi⟩ := dme.bone_entries_mem hashes _ p (hperm.subset hp)
      rcases dme.found_parent_cases hierarchy hashes g.children.length fuel p.1 hnodup
        (hres p.1 (List.mem_iff_getElem?.2 ⟨i, hi⟩)) with ⟨-, hf⟩ | ⟨-, n, a, j2, -, -, -, hf⟩
      · rw [hf]; simp
      · rw [hf]
        simp only [decide_eq_true_eq, Except.ok.injEq, Option.some.injEq]
        omega
    rw [this]
    simp
  · intro i hi
    obtain ⟨b, hib⟩ : ∃ b, hashes[i]? = some b := ⟨hashes[i], List.getElem?_eq_getElem hi⟩
    have hroots := hcount (fun p => dme.found_parent hierarchy
      (dme.bone_entries hashes g.children.length) fuel p.1 = .ok none) i b hib
    simp only [decide_eq_true_eq] at hroots
    rcases dme.found_parent_cases hierarchy hashes g.children.length fuel b hnodup
      (hres b (List.mem_iff_getElem?.2 ⟨i, hib⟩)) with ⟨-, hf⟩ | ⟨-, n, a, j, -, -, hj, hf⟩
    · left
      refine ⟨by rw [hroots, hf]; simp, fun j => ?_⟩
      rw [hchild i b j hib, hf]
      simp
    · right
      refine ⟨by rw [hroots, hf]; simp, j, hlt j a hj, fun y => ?_⟩
      rw [hchild i b y hib, hf]
      by_cases hy : y = j
      · subst hy; simp
      · have : ¬ (j = y) := fun h => hy h.symm
        simp [hy, this]
  · intro j c hc
    obtain ⟨i, b, a, n, hci, hib, -, -, -⟩ := hedge j c hc
    exact ⟨i, hlt i b hib, hci⟩
  · intro r hr
    rw [List.mem_map] at hr
    obtain ⟨p, hp, rfl⟩ := hr
    obtain ⟨i, hi, hpi⟩ := dme.bone_entries_mem hashes _ p
      (hperm.subset (List.mem_filter.1 hp).1)
    exact ⟨i, hlt i _ hi, hpi⟩
  · -- along every path the hash of the start reaches zero sooner than the hash of the end
    have hpath : ∀ x z, Relation.TransGen (fun p c => c ∈ g2.children_of p) x z →
        ∀ j a, x = g.children.length + j → hashes[j]? = some a →
          ∃ i b, z = g.children.length + i ∧ hashes[i]? = some b ∧
            (∃ K, dme.ancestor hierarchy b (K + 1) = some 0) ∧
            ∀ K, dme.ancestor hierarchy b (K + 1) = some 0 →
              ∃ k, k < K ∧ dme.ancestor hierarchy a (k + 1) = some 0 := by
      intro x z hxz
      induction hxz with
      | single hxy =>
        rename_i y
        intro j a hx hja
        subst hx
        obtain ⟨i, b, a2, n, hci, hib, hja2, ha2, hfr⟩ := hedge j y hxy
        rw [hja] at hja2
        cases hja2
        refine ⟨i, b, hci, hib, ?_, fun K hK =>
          dme.parent_reaches_zero_sooner hierarchy hashes b n a K hfr ha2 hK⟩
        rcases hchain b (List.mem_iff_getElem?.2 ⟨i, hib⟩) with h0 | h0
        · have := hfr.1
          simp [dme.ancestor, h0] at this
        · exact h0
      | tail hxy hyz ih =>
        rename_i y z
        intro j a hx hja
        obtain ⟨i, b, hyi, hib, -, hsooner⟩ := ih j a hx hja
        subst hyi
        obtain ⟨i2, b2, a2, n, hci, hib2, hja2, ha2, hfr⟩ := hedge i z hyz
        rw [hib] at hja2
        cases hja2
        refine ⟨i2, b2, hci, hib2, ?_, fun K hK => ?_⟩
        · rcases hchain b2 (List.mem_iff_getElem?.2 ⟨i2, hib2⟩) with h0 | h0
          · have := hfr.1
            simp [dme.ancestor, h0] at this
          · exact h0
        · obtain ⟨k, hk, hk0⟩ :=
            dme.parent_reaches_zero_sooner hierarchy hashes b2 n b K hfr ha2 hK
          obtain ⟨k2, hk2, hk20⟩ := hsooner k hk0
          exact ⟨k2, by omega, hk20⟩
    intro i hcyc
    -- the start of a cycle is a child, hence a bone
    have hbone : ∃ a, hashes[i]? = some a := by
      rcases Relation.TransGen.tail'_iff.1 hcyc with ⟨y, -, hy⟩
      by_cases hi : i < hashes.length
      · exact ⟨hashes[i], List.getElem?_eq_getElem hi⟩
      · exfalso
        rcases Relation.TransGen.head'_iff.1 hcyc with ⟨w, hw, -⟩
        obtain ⟨_, _, a, _, _, _, hja, _, _⟩ := hedge i w hw
        exact hi (hlt i a hja)
    obtain ⟨a, hia⟩ := hbone
    obtain ⟨i2, b, hz, hib, ⟨K, hK⟩, hsooner⟩ := hpath _ _ hcyc i a rfl hia
    have hii : i2 = i := by omega
    subst hii
    rw [hia] at hib
    cases hib
    have hnever : ∀ K, ¬ dme.ancestor hierarchy a (K + 1) = some 0 := by
      intro K
      induction K using Nat.strong_induction_on with
      | _ K ih =>
        intro hK
        obtain ⟨k, hk, hk0⟩ := hsooner K hK
        exact ih k hk hk0
    exact hnever K hK

/-- C29, witness: the bones 10, 20, 30 and 40 of the example table, whose chains reach
zero after 1, 2, 2 and 4 steps. -/
theorem skeleton_is_a_forest_witness :
    ∃ fuel0, ∀ fuel, fuel0 ≤ fuel →
      ∃ g2 roots, dme.add_skeleton_to_gltf dme.example_hierarchy id fuel [10, 20, 30, 40]
          dme.example_model = .ok g2 ∧
        g2.scene = some ([] ++ roots) ∧
        g2.children.length = dme.example_model.children.length + [10, 20, 30, 40].length ∧
        (∀ y, y < dme.example_model.children.length →
          g2.children_of y = dme.example_model.children_of y) ∧
        (∀ i, i < [10, 20, 30, 40].length →
          (roots.count (dme.example_model.children.length + i) = 1 ∧
            ∀ j, (g2.children_of (dme.example_model.children.length + j)).count
              (dme.example_model.children.length + i) = 0) ∨
          (roots.count (dme.example_model.children.length + i) = 0 ∧
            ∃ j, j < [10, 20, 30, 40].length ∧
            ∀ y, (g2.children_of (dme.example_model.children.length + y)).count
                (dme.example_model.children.length + i)
              = if y = j then 1 else 0)) ∧
        (∀ j c, c ∈ g2.children_of (dme.example_model.children.length + j) →
          ∃ i, i < [10, 20, 30, 40].length ∧ c = dme.example_model.children.length + i) ∧
        (∀ r ∈ roots, ∃ i, i < [10, 20, 30, 40].length ∧
          r = dme.example_model.children.length + i) ∧
        ∀ i, ¬ Relation.TransGen (fun p c => c ∈ g2.children_of p)
          (dme.example_model.children.length + i) (dme.example_model.children.length + i) :=
  skeleton_is_a_forest dme.example_hierarchy id [10, 20, 30, 40] dme.example_model []
    (by decide) (List.Perm.refl _) rfl
    (fun b hb => by
      simp only [List.mem_cons, List.mem_singleton, List.not_mem_nil, or_false] at hb
      rcases hb with rfl | rfl | rfl | rfl
      · exact Or.inr ⟨0, rfl⟩
      · exact Or.inr ⟨1, rfl⟩
      · exact Or.inr ⟨1, rfl⟩
      · exact Or.inr ⟨3, rfl⟩)

/-! ## C27: the accessors of the kept entries -/

set_option maxRecDepth 100000 in
/-- C27, at the failing input: the layout Position(Float3), Normal(ubyte4n),
BlendIndices(ubyte4), BlendWeight(ubyte4n) with measured stride 24, one vertex, the skeleton
included.  After the transcoding the entries have the types Float3, Float3, ubyte4 and
Float4 and the stream has 44 bytes per vertex, so the four accessors belong at the offsets
0, 12, 24 and 28.  `add_mesh_to_gltf` creates two: when the running offset reaches 24, the
measured stride of the source, the test of line 139 takes the stream for full and skips the
entries BlendIndices and BlendWeight. -/
theorem full_stream_test_drops_skin_accessors :
    dme.add_mesh_to_gltf example_externals dme.example_tables 5 false true (fun _ => 24)
        dme.skinned_layout [dme.skinned_vertex]
      = .ok ({ sizes := [(0, 44)]
               entries := [⟨0, "Float3", "Position", 0⟩, ⟨0, "Float3", "Normal", 0⟩,
                 ⟨0, "ubyte4", "BlendIndices", 0⟩, ⟨0, "Float4", "BlendWeight", 0⟩] },
             { offsets := [24], texcoord := 0, attributes := ["POSITION", "NORMAL"]
               views := [⟨"POSITION", 0, 0, 44, 44⟩, ⟨"NORMAL", 0, 12, 44, 32⟩] }) ∧
    (dme.add_mesh_to_gltf example_externals dme.example_tables 5 false true (fun _ => 24)
        dme.skinned_layout [dme.skinned_vertex]).map
        (fun r => r.2.views.map fun v => v.byteOffset) ≠ .ok [0, 12, 24, 28] := by
  decide

/-! ## C30: the per-vertex loop -/

theorem inFuel_ok {α : Type} (a : α) : InFuel (Except.ok a : Except Failure α) := by
  intro h; cases h

theorem inFuel_pure {α : Type} (a : α) : InFuel (Pure.pure a : Except Failure α) := by
  intro h; cases h

theorem inFuel_bind {α β : Type} {x : Except Failure α} {f : α → Except Failure β}
    (hx : InFuel x) (hf : ∀ a, InFuel (f a)) : InFuel (x >>= f) := by
  intro h
  cases x with
  | error e =>
    have h2 : (Except.error e : Except Failure β) = .error .out_of_fuel := h
    cases h2
    exact hx rfl
  | ok a => exact hf a h

theorem inFuel_map {α β : Type} {x : Except Failure α} (f : α → β) (hx : InFuel x) :
    InFuel (x.map f) := by
  intro h
  cases x with
  | error e =>
    have h2 : (Except.error e : Except Failure β) = .error .out_of_fuel := h
    cases h2
    exact hx rfl
  | ok a => cases h

theorem inFuel_ite {α : Type} {p : Prop} [Decidable p] {x y : Except Failure α}
    (hx : InFuel x) (hy : InFuel y) : InFuel (if p then x else y) := by
  split <;> assumption

theorem get_bytes_inFuel (buf : Bytes) (off w : Nat) : InFuel (get_bytes buf off w) := by
  unfold get_bytes; split <;> intro h <;> cases h

theorem get_u8_inFuel (buf : Bytes) (off : Nat) : InFuel (get_u8 buf off) :=
  inFuel_map _ (get_bytes_inFuel _ _ _)

theorem get_u16_inFuel (buf : Bytes) (off : Nat) : InFuel (get_u16 buf off) :=
  inFuel_map _ (get_bytes_inFuel _ _ _)

theorem subspan_n_inFuel (buf : Bytes) (off n : Nat) : InFuel (subspan_n buf off n) := by
  unfold subspan_n; split <;> intro h <;> cases h

theorem size_at_inFuel (l : Layout) (s : Nat) : InFuel (l.size_at s) := by
  unfold Layout.size_at; split <;> intro h <;> cases h

theorem grow_inFuel (l : Layout) (s d : Nat) : InFuel (l.grow s d) :=
  inFuel_bind (size_at_inFuel _ _) fun _ => inFuel_pure _

theorem emit_entry_inFuel (ext : Externals) (p : Plan) (pos index : Nat) (e : Nat × Bool)
    (v : Vertex) : InFuel (emit_entry ext p pos index e v) := by
  unfold emit_entry
  refine inFuel_ite ?_ (inFuel_ite ?_ ?_)
  · exact inFuel_bind (get_u16_inFuel _ _) fun _ =>
      inFuel_bind (get_u16_inFuel _ _) fun _ => inFuel_pure _
  · exact inFuel_bind (get_u8_inFuel _ _) fun _ => inFuel_bind (get_u8_inFuel _ _) fun _ =>
      inFuel_bind (get_u8_inFuel _ _) fun _ => inFuel_pure _
  · refine inFuel_bind (subspan_n_inFuel _ _ _) fun raw => ?_
    dsimp only
    refine inFuel_ite (inFuel_ite (inFuel_pure _) ?_) (inFuel_pure _)
    intro h; cases h

theorem load_entry_inFuel (ext : Externals) (p : Plan) (vo pos index : Nat) (v : Vertex)
    (hext : ∀ t a b d w, InFuel (ext.load_vector t a b d w)) :
    InFuel (load_entry ext p vo pos index v) := by
  unfold load_entry
  refine inFuel_bind (inFuel_ite ?_ (inFuel_pure _)) fun v => ?_
  · refine inFuel_bind (inFuel_ite (inFuel_bind (hext _ _ _ _ _) fun _ => inFuel_pure _)
      (inFuel_pure _)) fun v => ?_
    exact inFuel_ite (inFuel_bind (get_u8_inFuel _ _) fun _ => inFuel_pure _) (inFuel_pure _)
  · refine inFuel_ite (inFuel_bind (hext _ _ _ _ _) fun _ => ?_) (inFuel_pure _)
    exact inFuel_ite (inFuel_bind (get_u8_inFuel _ _) fun _ => inFuel_pure _) (inFuel_pure _)

theorem entry_loop_inFuel (ext : Externals) (p : Plan) (vo : Nat)
    (hext : ∀ t a b d w, InFuel (ext.load_vector t a b d w)) (es : List (Nat × Bool)) :
    ∀ (index : Nat) (v : Vertex), InFuel (entry_loop ext p vo es index v) := by
  induction es with
  | nil => intro index v; exact inFuel_ok _
  | cons e es ih =>
    intro index v
    unfold entry_loop
    exact inFuel_bind (emit_entry_inFuel _ _ _ _ _ _) fun _ =>
      inFuel_bind (load_entry_inFuel _ _ _ _ _ _ hext) fun _ => ih _ _

theorem expand_vertex_inFuel (ext : Externals) (p : Plan) (vo : Nat) (out : List Cell)
    (data : Bytes) (hext : ∀ t a b d w, InFuel (ext.load_vector t a b d w)) :
    InFuel (expand_vertex ext p vo out data) := by
  unfold expand_vertex
  exact inFuel_bind (entry_loop_inFuel _ _ _ hext _ _ _) fun _ => inFuel_pure _
theorem subspan_n_ok_iff (buf : Bytes) (off n : Nat) (r : Bytes) :
    subspan_n buf off n = .ok r ↔ off + n ≤ buf.length ∧ r = (buf.drop off).take n := by
  unfold subspan_n
  split
  · constructor
    · intro h; cases h; exact ⟨by assumption, rfl⟩
    · rintro ⟨_, rfl⟩; rfl
  · constructor
    · intro h; cases h
    · rintro ⟨h, _⟩; contradiction

theorem write_bytes_length (buf : Bytes) (off : Nat) (bs : Bytes)
    (h : off + bs.length ≤ buf.length) : (write_bytes buf off bs).length = buf.length := by
  unfold write_bytes
  simp only [List.length_append, List.length_take, List.length_drop]
  omega

theorem emit_entry_data_length {ext : Externals} {p : Plan} {pos index : Nat} {e : Nat × Bool}
    {v v' : Vertex} (h : emit_entry ext p pos index e v = .ok v') :
    v'.data.length = v.data.length := by
  unfold emit_entry at h
  split at h
  · obtain ⟨c0, _, h⟩ := (bind_ok_iff _ _ _).1 h
    obtain ⟨c1, _, h⟩ := (bind_ok_iff _ _ _).1 h
    cases (pure_ok_iff _ _).1 h; rfl
  · split at h
    · obtain ⟨b0, _, h⟩ := (bind_ok_iff _ _ _).1 h
      obtain ⟨b1, _, h⟩ := (bind_ok_iff _ _ _).1 h
      obtain ⟨b2, _, h⟩ := (bind_ok_iff _ _ _).1 h
      cases (pure_ok_iff _ _).1 h; rfl
    · obtain ⟨raw, hraw, h⟩ := (bind_ok_iff _ _ _).1 h
      obtain ⟨hle, rfl⟩ := (subspan_n_ok_iff _ _ _ _).1 hraw
      dsimp only at h
      have hlen : ((v.data.drop pos).take e.1).length = e.1 := by
        rw [List.length_take, List.length_drop]; omega
      have hw4 : (write_bytes v.data pos
          (List.map (fun b => ext.map_bone (b % 256) % 256) ((v.data.drop pos).take e.1))).length
          = v.data.length := by
        rw [write_bytes_length]
        rw [List.length_map, hlen]; exact hle
      by_cases hw : (index : Int) = p.scan.blend_weights_index - p.scan.vert_index_offset
      · rw [if_pos hw] at h
        by_cases hr : (index : Int) = p.scan.blend_indices_index - p.scan.vert_index_offset
        · simp only [hr, decide_True, if_true] at h
          split at h
          · cases (pure_ok_iff _ _).1 h; exact hw4
          · cases h
        · simp only [hr, decide_False, Bool.false_eq_true, if_false] at h
          split at h
          · cases (pure_ok_iff _ _).1 h; rfl
          · cases h
      · rw [if_neg hw] at h
        by_cases hr : (index : Int) = p.scan.blend_indices_index - p.scan.vert_index_offset
        · simp only [hr, decide_True, if_true] at h
          cases (pure_ok_iff _ _).1 h; exact hw4
        · simp only [hr, decide_False, Bool.false_eq_true, if_false] at h
          cases (pure_ok_iff _ _).1 h; rfl

theorem load_entry_data {ext : Externals} {p : Plan} {vo pos index : Nat}
    {v v' : Vertex} (h : load_entry ext p vo pos index v = .ok v') :
    v'.data = v.data ∧ v'.output = v.output := by
  unfold load_entry at h
  obtain ⟨v1, h1, h⟩ := (bind_ok_iff _ _ _).1 h
  have e1 : v1.data = v.data ∧ v1.output = v.output := by
    split at h1
    · obtain ⟨v2, h2, h1⟩ := (bind_ok_iff _ _ _).1 h1
      have e2 : v2.data = v.data ∧ v2.output = v.output := by
        split at h2
        · obtain ⟨b, _, h2⟩ := (bind_ok_iff _ _ _).1 h2
          cases (pure_ok_iff _ _).1 h2; exact ⟨rfl, rfl⟩
        · cases (pure_ok_iff _ _).1 h2; exact ⟨rfl, rfl⟩
      rw [← e2.1, ← e2.2]
      split at h1
      · obtain ⟨j, _, h1⟩ := (bind_ok_iff _ _ _).1 h1
        cases (pure_ok_iff _ _).1 h1; exact ⟨rfl, rfl⟩
      · cases (pure_ok_iff _ _).1 h1; exact ⟨rfl, rfl⟩
    · cases (pure_ok_iff _ _).1 h1; exact ⟨rfl, rfl⟩
  rw [← e1.1, ← e1.2]
  split at h
  · obtain ⟨t, _, h⟩ := (bind_ok_iff _ _ _).1 h
    dsimp only at h
    split at h
    · obtain ⟨s, _, h⟩ := (bind_ok_iff _ _ _).1 h
      cases (pure_ok_iff _ _).1 h; exact ⟨rfl, rfl⟩
    · cases (pure_ok_iff _ _).1 h; exact ⟨rfl, rfl⟩
  · cases (pure_ok_iff _ _).1 h; exact ⟨rfl, rfl⟩

theorem entry_loop_data_length (ext : Externals) (p : Plan) (vo : Nat) (es : List (Nat × Bool)) :
    ∀ (index : Nat) (v v1 : Vertex), entry_loop ext p vo es index v = .ok v1 →
      v1.data.length = v.data.length := by
  induction es with
  | nil => intro index v v1 h; cases h; rfl
  | cons e es ih =>
    intro index v v1 h
    unfold entry_loop at h
    obtain ⟨va, h1, h⟩ := (bind_ok_iff _ _ _).1 h
    obtain ⟨vb, h2, h⟩ := (bind_ok_iff _ _ _).1 h
    rw [ih _ _ _ h]
    show vb.data.length = v.data.length
    rw [(load_entry_data h2).1, emit_entry_data_length h1]

theorem expand_vertex_data_length {ext : Externals} {p : Plan} {vo : Nat} {out : List Cell}
    {data : Bytes} {r : List Cell × Bytes} (h : expand_vertex ext p vo out data = .ok r) :
    r.2.length = data.length := by
  unfold expand_vertex at h
  obtain ⟨v, hv, h⟩ := (bind_ok_iff _ _ _).1 h
  cases (pure_ok_iff _ _).1 h
  exact entry_loop_data_length ext p vo _ _ _ _ hv

/-- With enough iterations allowed the per-vertex loop does not run out of them, provided
the vertex offset cannot wrap. -/
theorem vertex_loop_inFuel (ext : Externals) (p : Plan)
    (hext : ∀ t a b d w, InFuel (ext.load_vector t a b d w)) (fuel : Nat) :
    ∀ (vo : Nat) (out : List Cell) (data : Bytes), data.length + p.stride ≤ 2 ^ 32 →
      data.length ≤ vo + fuel * p.stride →
      InFuel (vertex_loop ext p fuel vo out data) := by
  induction fuel with
  | zero =>
    intro vo out data _ hf
    unfold vertex_loop
    rw [if_neg (by omega)]
    exact inFuel_ok _
  | succ fuel ih =>
    intro vo out data hlen hf
    unfold vertex_loop
    split
    · rename_i hvo
      cases hr : expand_vertex ext p vo out data with
      | error e =>
        intro h
        have h2 : (Except.error e : Except Failure (List Cell × Bytes)) = .error .out_of_fuel := h
        cases h2
        exact expand_vertex_inFuel ext p vo out data hext hr
      | ok r =>
        have hl := expand_vertex_data_length hr
        have hu : u32 (vo + p.stride) = vo + p.stride := by
          unfold u32; exact Nat.mod_eq_of_lt (by omega)
        show InFuel (vertex_loop ext p fuel (u32 (vo + p.stride)) r.1 r.2)
        rw [hu]
        apply ih
        · rw [hl]; exact hlen
        · rw [hl]
          have : (fuel + 1) * p.stride = fuel * p.stride + p.stride := by ring
          omega
    · exact inFuel_ok _

/-- A run of the per-vertex loop that returns has made at least as many iterations as the
buffer has vertices. -/
theorem vertex_loop_iterations (ext : Externals) (p : Plan) (fuel : Nat) :
    ∀ (vo : Nat) (out : List Cell) (data : Bytes) (r : List Cell × Bytes),
      data.length + p.stride ≤ 2 ^ 32 →
      vertex_loop ext p fuel vo out data = .ok r → data.length ≤ vo + fuel * p.stride := by
  induction fuel with
  | zero =>
    intro vo out data r _ h
    unfold vertex_loop at h
    split at h
    · cases h
    · omega
  | succ fuel ih =>
    intro vo out data r hlen h
    unfold vertex_loop at h
    split at h
    · rename_i hvo
      obtain ⟨r1, hr1, h⟩ := (bind_ok_iff _ _ _).1 h
      have hl := expand_vertex_data_length hr1
      have hu : u32 (vo + p.stride) = vo + p.stride := by
        unfold u32; exact Nat.mod_eq_of_lt (by omega)
      rw [hu] at h
      have := ih _ _ _ _ (by rw [hl]; exact hlen) h
      rw [hl] at this
      have e : (fuel + 1) * p.stride = fuel * p.stride + p.stride := by ring
      omega
    · omega
/-- With a measured stride of zero every entry of the stream is skipped: the loop over the
layout entries leaves the flags and the recorded indices as they are. -/
theorem scan_loop_zero_stride (sizes : String → Option Nat) (stream : Nat) (es : List Entry) :
    ∀ (i : Nat) (st st' : Scan), scan_loop sizes stream 0 es i st = .ok st' →
      st'.conversion_required = st.conversion_required ∧
      st'.has_normals = st.has_normals ∧ st'.binormal_index = st.binormal_index ∧
      st'.tangent_index = st.tangent_index ∧ st'.bone_remapping = st.bone_remapping ∧
      st'.weight_conversion = st.weight_conversion ∧
      st'.expand_normals = st.expand_normals := by
  induction es with
  | nil => intro i st st' h; cases h; exact ⟨rfl, rfl, rfl, rfl, rfl, rfl, rfl⟩
  | cons e es ih =>
    intro i st st' h
    unfold scan_loop at h
    obtain ⟨s1, h1, h⟩ := (bind_ok_iff _ _ _).1 h
    have e1 : s1.conversion_required = st.conversion_required ∧
        s1.has_normals = st.has_normals ∧ s1.binormal_index = st.binormal_index ∧
        s1.tangent_index = st.tangent_index ∧ s1.bone_remapping = st.bone_remapping ∧
        s1.weight_conversion = st.weight_conversion ∧
        s1.expand_normals = st.expand_normals := by
      unfold scan_entry at h1
      split at h1
      · cases h1
        split <;> exact ⟨rfl, rfl, rfl, rfl, rfl, rfl, rfl⟩
      · rw [if_pos (Nat.zero_le _)] at h1
        obtain ⟨size, _, h1⟩ := (bind_ok_iff _ _ _).1 h1
        obtain ⟨cur, _, h1⟩ := (bind_ok_iff _ _ _).1 h1
        cases (pure_ok_iff _ _).1 h1
        exact ⟨rfl, rfl, rfl, rfl, rfl, rfl, rfl⟩
    obtain ⟨a1, a2, a3, a4, a5, a6, a7⟩ := ih _ _ _ h
    obtain ⟨b1, b2, b3, b4, b5, b6, b7⟩ := e1
    exact ⟨a1.trans b1, a2.trans b2, a3.trans b3, a4.trans b4, a5.trans b5, a6.trans b6,
      a7.trans b7⟩

/-- A measured stride of zero never reaches the conversion path. -/
theorem zero_stride_is_verbatim (sizes : String → Option Nat) (layout : Layout) (stream : Nat)
    (is_rigid : Bool) : takes_conversion_path sizes layout stream is_rigid 0 = false := by
  unfold takes_conversion_path
  cases hs : scan sizes layout stream 0 with
  | error e => rfl
  | ok st =>
    obtain ⟨a1, a2, a3, a4, a5, a6, a7⟩ :=
      scan_loop_zero_stride sizes stream layout.entries 0 (Scan.init layout) st hs
    have hb : st.binormal_index = -1 := a3
    have hcr : st.conversion_required = false := a1
    have hbr : st.bone_remapping = false := a5
    have hwc : st.weight_conversion = false := a6
    have hen : st.expand_normals = false := a7
    have hty : type_at st.layout st.binormal_index = .ok "" := by
      unfold type_at; rw [hb]; simp
    simp only [hty]
    cases type_at st.layout st.tangent_index with
    | error e => rfl
    | ok tt =>
      simp only [hb, hcr, hbr, hwc, hen]
      cases is_rigid <;> simp

theorem ceil_le_iff (len s f : Nat) (hs : 0 < s) : (len + s - 1) / s ≤ f ↔ len ≤ f * s := by
  rw [Nat.div_le_iff_le_mul_add_pred hs]
  have : s * f = f * s := Nat.mul_comm _ _
  omega

/-- The conversion path in terms of the locals: what `takes_conversion_path` says. -/
theorem conversion_path_iff (sizes : String → Option Nat) (layout : Layout) (stream : Nat)
    (is_rigid : Bool) (bpv : Nat) :
    takes_conversion_path sizes layout stream is_rigid bpv = true ↔
      ∃ st bt tt, scan sizes layout stream bpv = .ok st ∧
        type_at st.layout st.binormal_index = .ok bt ∧
        type_at st.layout st.tangent_index = .ok tt ∧
        (!st.conversion_required
          && !(!st.has_normals && decide (st.binormal_index ≠ -1)
            && decide (st.tangent_index ≠ -1))
          && !(is_rigid && decide (bt = "ubyte4n"))
          && !st.bone_remapping && !st.weight_conversion && !st.expand_normals) = false := by
  unfold takes_conversion_path
  constructor
  · intro h
    cases hs : scan sizes layout stream bpv with
    | error e => rw [hs] at h; cases h
    | ok st =>
      rw [hs] at h
      cases hb : type_at st.layout st.binormal_index with
      | error e => simp only [hb] at h; cases h
      | ok bt =>
        cases ht : type_at st.layout st.tangent_index with
        | error e => simp only [hb, ht] at h; cases h
        | ok tt =>
          simp only [hb, ht] at h
          exact ⟨st, bt, tt, rfl, hb, ht, by rw [Bool.not_eq_true'] at h; exact h⟩
  · rintro ⟨st, bt, tt, hs, hb, ht, h⟩
    simp only [hs, hb, ht, h]
    rfl

/-- On the conversion path the function is the per-vertex loop, run on the layout with the
entries of lines 791-802 appended. -/
theorem transcode_conversion (ext : Externals) (fuel : Nat) (layout : Layout) (data : Bytes)
    (stream : Nat) (is_rigid : Bool) (bpv stride : Nat) (st : Scan) (bt tt : String)
    (hs : scan ext.sizes layout stream bpv = .ok st)
    (hb : type_at st.layout st.binormal_index = .ok bt)
    (ht : type_at st.layout st.tangent_index = .ok tt)
    (hc : (!st.conversion_required
          && !(!st.has_normals && decide (st.binormal_index ≠ -1)
            && decide (st.tangent_index ≠ -1))
          && !(is_rigid && decide (bt = "ubyte4n"))
          && !st.bone_remapping && !st.weight_conversion && !st.expand_normals) = false) :
    ∃ grown : Except Failure Layout, InFuel grown ∧
      transcode ext fuel layout data stream is_rigid bpv stride
        = grown.bind fun l =>
          (vertex_loop ext
            { scan := st, binormal_type := bt, tangent_type := tt,
              calculate_normals := !st.has_normals && decide (st.binormal_index ≠ -1)
                && decide (st.tangent_index ≠ -1),
              add_rigid_bones := is_rigid && decide (bt = "ubyte4n"),
              is_rigid := is_rigid, stride := stride } fuel 0 [] data).bind fun r =>
            .ok { output := r.1, layout := l, data := r.2 } := by
  refine ⟨(do
      let l ← (if (!st.has_normals && decide (st.binormal_index ≠ -1)
            && decide (st.tangent_index ≠ -1)) = true then do
          let l ← st.layout.grow stream 12
          pure { l with entries := l.entries ++ [appended_entry stream "Float3" "Normal"] }
        else pure st.layout)
      (if (is_rigid && decide (bt = "ubyte4n")) = true then do
          let l ← l.grow stream 20
          pure { l with entries := l.entries ++ [appended_entry stream "D3dcolor" "BlendIndices",
            appended_entry stream "Float4" "BlendWeight"] }
        else pure l)), ?_, ?_⟩
  · refine inFuel_bind (inFuel_ite (inFuel_bind (grow_inFuel _ _ _) fun _ => inFuel_pure _)
      (inFuel_pure _)) fun l => ?_
    exact inFuel_ite (inFuel_bind (grow_inFuel _ _ _) fun _ => inFuel_pure _) (inFuel_pure _)
  · unfold transcode
    simp only [hs, hb, ht, bind, Except.bind, hc, Bool.false_eq_true, if_false]
    by_cases h1 : (!st.has_normals && decide (st.binormal_index ≠ -1)
        && decide (st.tangent_index ≠ -1)) = true
    · simp only [h1, if_true]
      cases st.layout.grow stream 12 with
      | error e => rfl
      | ok l1 => simp only [pure, Except.pure]
    · simp only [h1, Bool.false_eq_true, if_false, pure, Except.pure]

/-- C30 (amended): for every layout, measured stride and vertex buffer whose length plus
the stride is at most `2 ^ 32`, so that the 32-bit vertex offset cannot wrap: whenever the
conversion path is reached the effective stride is the measured stride and is strictly
positive (a measured stride of zero never reaches the conversion path), the per-vertex
loop ends within `ceil(length / stride)` iterations, and no run that returns makes fewer.
`load_vector`, which is not in the sources, is assumed not to consume the iteration bound
of the model. -/
theorem vertex_loop_runs_ceil_iterations (ext : Externals) (layout : Layout) (data : Bytes)
    (stream : Nat) (is_rigid : Bool) (bpv declared : Nat)
    (hext : ∀ t a b d w, InFuel (ext.load_vector t a b d w))
    (hd : layout.size_at stream = .ok declared) (hle : bpv ≤ declared)
    (hconv : takes_conversion_path ext.sizes layout stream is_rigid bpv = true)
    (hlen : data.length + bpv ≤ 2 ^ 32) :
    0 < bpv ∧ effective_stride declared bpv = .ok bpv ∧
    takes_conversion_path ext.sizes layout stream is_rigid 0 = false ∧
    (∀ fuel, (data.length + bpv - 1) / bpv ≤ fuel →
      InFuel (expand_vertex_stream ext fuel layout data stream is_rigid bpv)) ∧
    (∀ fuel, fuel < (data.length + bpv - 1) / bpv →
      ∀ r, expand_vertex_stream ext fuel layout data stream is_rigid bpv ≠ .ok r) := by
  have hpos : 0 < bpv := by
    by_contra h0
    have : bpv = 0 := by omega
    subst this
    rw [zero_stride_is_verbatim] at hconv
    cases hconv
  have heff : effective_stride declared bpv = .ok bpv := by
    unfold effective_stride
    rw [if_neg (by omega)]
    split
    · rfl
    · have : declared = bpv := by omega
      rw [this]
  obtain ⟨st, bt, tt, hs, hb, ht, hc⟩ := (conversion_path_iff _ _ _ _ _).1 hconv
  have hrun : ∀ fuel, expand_vertex_stream ext fuel layout data stream is_rigid bpv
      = transcode ext fuel layout data stream is_rigid bpv bpv := by
    intro fuel
    unfold expand_vertex_stream
    simp only [hd, heff, bind, Except.bind]
  refine ⟨hpos, heff, zero_stride_is_verbatim _ _ _ _, ?_, ?_⟩
  · intro fuel hfuel
    obtain ⟨grown, hg, heq⟩ := transcode_conversion ext fuel layout data stream is_rigid bpv bpv
      st bt tt hs hb ht hc
    rw [hrun, heq]
    refine inFuel_bind hg fun l => inFuel_bind ?_ fun r => inFuel_ok _
    apply vertex_loop_inFuel ext _ hext fuel 0 [] data hlen
    have := (ceil_le_iff data.length bpv fuel hpos).1 hfuel
    show data.length ≤ 0 + fuel * bpv
    omega
  · intro fuel hfuel r hr
    obtain ⟨grown, hg, heq⟩ := transcode_conversion ext fuel layout data stream is_rigid bpv bpv
      st bt tt hs hb ht hc
    rw [hrun, heq] at hr
    cases grown with
    | error e => cases hr
    | ok l =>
      have hr' : (vertex_loop ext
            { scan := st, binormal_type := bt, tangent_type := tt,
              calculate_normals := !st.has_normals && decide (st.binormal_index ≠ -1)
                && decide (st.tangent_index ≠ -1),
              add_rigid_bones := is_rigid && decide (bt = "ubyte4n"),
              is_rigid := is_rigid, stride := bpv } fuel 0 [] data).bind (fun r =>
            (.ok { output := r.1, layout := l, data := r.2 } : Except Failure Expanded))
          = .ok r := hr
      obtain ⟨r1, hr1, -⟩ := (bind_ok_iff _ _ _).1 hr'
      have := vertex_loop_iterations ext _ fuel 0 [] data r1 hlen hr1
      have h2 : data.length ≤ fuel * bpv := by
        have e : (0 : Nat) + fuel * bpv = fuel * bpv := by omega
        rw [← e]; exact this
      have := (ceil_le_iff data.length bpv fuel hpos).2 h2
      omega

set_option maxRecDepth 100000 in
/-- C30, witness: one vertex of `skinned_layout`. -/
theorem vertex_loop_runs_ceil_iterations_witness :
    0 < 24 ∧ effective_stride 24 24 = .ok 24 ∧
    takes_conversion_path example_externals.sizes dme.skinned_layout 0 false 0 = false ∧
    (∀ fuel, (dme.skinned_vertex.length + 24 - 1) / 24 ≤ fuel →
      InFuel (expand_vertex_stream example_externals fuel dme.skinned_layout dme.skinned_vertex
        0 false 24)) ∧
    (∀ fuel, fuel < (dme.skinned_vertex.length + 24 - 1) / 24 →
      ∀ r, expand_vertex_stream example_externals fuel dme.skinned_layout dme.skinned_vertex
        0 false 24 ≠ .ok r) :=
  vertex_loop_runs_ceil_iterations example_externals dme.skinned_layout dme.skinned_vertex 0
    false 24 24 (fun _ _ _ _ _ h => by cases h) (by decide) (by decide) (by decide) (by decide)

theorem get_u16_ok (buf : Bytes) (off : Nat) (h : off + 2 ≤ buf.length) :
    ∃ c, get_u16 buf off = .ok c := by
  unfold get_u16 get_bytes
  rw [if_pos h]
  exact ⟨_, rfl⟩

theorem expand_vertex_wide (data : Bytes) (hlen : data.length = 2147483652) (vo : Nat)
    (hvo : vo ≤ 2147483648) (out : List Cell) :
    ∃ out', expand_vertex example_externals wide_plan vo out data = .ok (out', data) := by
  have hu : u32 (vo + 0) = vo := by unfold u32; apply Nat.mod_eq_of_lt; omega
  have hu2 : u32 (vo + 2) = vo + 2 := by unfold u32; apply Nat.mod_eq_of_lt; omega
  obtain ⟨c0, hc0⟩ := get_u16_ok data vo (by omega)
  obtain ⟨c1, hc1⟩ := get_u16_ok data (vo + 2) (by omega)
  refine ⟨out ++ [.f32 (half_value c0), .f32 (half_value c1)], ?_⟩
  simp only [expand_vertex, wide_plan, wide_scan, entry_loop, Vertex.init, emit_entry, hu, hu2,
    hc0, hc1, load_entry, bind, Except.bind, pure, Except.pure, if_true]
  rfl

theorem vertex_loop_wide (data : Bytes) (hlen : data.length = 2147483652) (fuel : Nat) :
    ∀ out, vertex_loop example_externals wide_plan fuel 0 out data = .error .out_of_fuel ∧
      vertex_loop example_externals wide_plan fuel 2147483648 out data
        = .error .out_of_fuel := by
  induction fuel with
  | zero =>
    intro out
    unfold vertex_loop
    rw [if_pos (by omega), if_pos (by omega)]
    exact ⟨rfl, rfl⟩
  | succ fuel ih =>
    intro out
    have h1 : u32 (0 + wide_plan.stride) = 2147483648 := by decide
    have h2 : u32 (2147483648 + wide_plan.stride) = 0 := by decide
    constructor
    · obtain ⟨out', ho⟩ := expand_vertex_wide data hlen 0 (by omega) out
      unfold vertex_loop
      rw [if_pos (by omega)]
      simp only [ho, bind, Except.bind, h1]
      exact (ih out').2
    · obtain ⟨out', ho⟩ := expand_vertex_wide data hlen 2147483648 (by omega) out
      unfold vertex_loop
      rw [if_pos (by omega)]
      simp only [ho, bind, Except.bind, h2]
      exact (ih out').1

theorem expand_wide_out_of_fuel (data : Bytes) (hlen : data.length = 2147483652) (fuel : Nat) :
    expand_vertex_stream example_externals fuel wide_layout data 0 false 2147483648
      = .error .out_of_fuel := by
  have hs : scan example_externals.sizes wide_layout 0 2147483648 = .ok wide_scan := by decide
  have hd : wide_layout.size_at 0 = .ok 2147483648 := by decide
  have he : effective_stride 2147483648 2147483648 = .ok 2147483648 := by decide
  have hb : type_at wide_scan.layout wide_scan.binormal_index = .ok "" := by decide
  have ht : type_at wide_scan.layout wide_scan.tangent_index = .ok "" := by decide
  unfold expand_vertex_stream transcode
  simp only [hd, he, hs, hb, ht, bind, Except.bind]
  have hc1 : (!wide_scan.conversion_required
      && !(!wide_scan.has_normals && decide (wide_scan.binormal_index ≠ -1)
        && decide (wide_scan.tangent_index ≠ -1))
      && !(false && decide ("" = "ubyte4n"))
      && !wide_scan.bone_remapping && !wide_scan.weight_conversion
      && !wide_scan.expand_normals) = false := by decide
  have hcn : (!wide_scan.has_normals && decide (wide_scan.binormal_index ≠ -1)
      && decide (wide_scan.tangent_index ≠ -1)) = false := by decide
  have har : (false && decide ("" = "ubyte4n")) = false := by decide
  simp only [hc1, hcn, har, Bool.false_eq_true, if_false, pure, Except.pure]
  have hw := (vertex_loop_wide data hlen fuel []).1
  unfold wide_plan at hw
  rw [hw]
  have hc2 : (!wide_scan.conversion_required && !false && !false && !wide_scan.bone_remapping
      && !wide_scan.weight_conversion && !wide_scan.expand_normals) = false := by decide
  rw [hc2]
  rfl

/-- C30, counterexample: a buffer of `2 ^ 31 + 4` bytes, which is shorter than `2 ^ 32`, with
the stride `2 ^ 31`.  The conversion path is reached and the buffer has two vertices, but
after the vertex at offset `2 ^ 31` the 32-bit offset wraps to 0, so that the loop has not
ended after any number of iterations. -/
theorem vertex_offset_wraps_at_half_range :
    (List.replicate 2147483652 0).length < 2 ^ 32 ∧
    takes_conversion_path example_externals.sizes wide_layout 0 false 2147483648 = true ∧
    ((List.replicate 2147483652 0).length + 2147483648 - 1) / 2147483648 = 2 ∧
    ∀ fuel, expand_vertex_stream example_externals fuel wide_layout
      (List.replicate 2147483652 0) 0 false 2147483648 = .error .out_of_fuel :=
  ⟨by rw [List.length_replicate]; norm_num, by decide, by rw [List.length_replicate],
    fun fuel => expand_wide_out_of_fuel _ (List.length_replicate _ _) fuel⟩

/-! ## The loop over the layout entries of a layout ordered by stream -/

theorem size_at_lt {l : Layout} {s cur : Nat} (h : l.size_at s = .ok cur) : cur < 2 ^ 32 := by
  unfold Layout.size_at at h
  split at h
  · cases h; unfold u32; exact Nat.mod_lt _ (by norm_num)
  · cases h

theorem lookup_map_set_self (stream v : Nat) (xs : List (Nat × Nat))
    (h : (xs.lookup stream).isSome) :
    (xs.map fun p => if p.1 = stream then (p.1, v) else p).lookup stream = some v := by
  induction xs with
  | nil => cases h
  | cons x xs ih =>
    obtain ⟨a, b⟩ := x
    have hx : (if (a, b).1 = stream then ((a, b).1, v) else (a, b))
        = (a, if a = stream then v else b) := by
      by_cases h : a = stream <;> simp [h]
    rw [List.map_cons, hx]
    by_cases ha : stream = a
    · subst ha
      simp [List.lookup]
    · have hb : (stream == a) = false := by simpa using ha
      simp only [List.lookup, hb] at h ⊢
      exact ih h

theorem size_at_set_size (l : Layout) (s v cur : Nat) (h : l.size_at s = .ok cur) :
    (l.set_size s v).size_at s = .ok (u32 v) := by
  unfold Layout.size_at at h ⊢
  have hs : (l.sizes.lookup s).isSome := by
    cases hl : l.sizes.lookup s with
    | none => rw [hl] at h; cases h
    | some x => rfl
  show (match ((l.sizes.map fun p => if p.1 = s then (p.1, v) else p).lookup s) with
    | some v => Except.ok (u32 v)
    | none => Except.error Failure.out_of_range) = _
  rw [lookup_map_set_self s v l.sizes hs]

theorem grow_eq (l : Layout) (s d cur : Nat) (h : l.size_at s = .ok cur) :
    l.grow s d = .ok (l.set_size s (u32 (cur + d))) := by
  unfold Layout.grow
  simp only [h, bind, Except.bind, pure, Except.pure]

theorem set_entry_type_append (pre : List Entry) (e : Entry) (post : List Entry) (t : String) :
    set_entry_type (pre ++ e :: post) pre.length t = pre ++ { e with type := t } :: post := by
  induction pre with
  | nil => rfl
  | cons p pre ih =>
    show p :: set_entry_type (pre ++ e :: post) pre.length t = _
    rw [ih]
    rfl

theorem u32_of_lt {n : Nat} (h : n < 2 ^ 32) : u32 n = n := by
  unfold u32; exact Nat.mod_eq_of_lt h

theorem size_of_type_eq (sizes : String → Option Nat) (e : Entry) (h : (sizes e.type).isSome) :
    size_of_type sizes e.type = .ok (e.size sizes) := by
  unfold size_of_type Entry.size
  cases hs : sizes e.type with
  | none => rw [hs] at h; cases h
  | some v => rfl

theorem scan_loop_append (sizes : String → Option Nat) (stream bpv : Nat) (a b : List Entry) :
    ∀ (i : Nat) (st : Scan), scan_loop sizes stream bpv (a ++ b) i st
      = (scan_loop sizes stream bpv a i st).bind
          fun st1 => scan_loop sizes stream bpv b (i + a.length) st1 := by
  induction a with
  | nil => intro i st; rfl
  | cons e a ih =>
    intro i st
    show (scan_entry sizes stream bpv e i st >>= fun s => scan_loop sizes stream bpv (a ++ b) (i + 1) s)
      = ((scan_entry sizes stream bpv e i st >>= fun s => scan_loop sizes stream bpv a (i + 1) s)).bind _
    cases scan_entry sizes stream bpv e i st with
    | error err => rfl
    | ok s =>
      show scan_loop sizes stream bpv (a ++ b) (i + 1) s = _
      rw [ih]
      have : i + 1 + a.length = i + (e :: a).length := by simp; omega
      rw [this]
      rfl

/-- The entries of lower streams are counted, nothing else. -/
theorem scan_loop_lower (sizes : String → Option Nat) (stream bpv : Nat) (lower : List Entry) :
    ∀ (i : Nat) (st : Scan), (∀ e ∈ lower, e.stream < stream) →
      scan_loop sizes stream bpv lower i st
        = .ok { st with vert_index_offset := st.vert_index_offset + lower.length } := by
  induction lower with
  | nil => intro i st _; simp [scan_loop]
  | cons e es ih =>
    intro i st h
    have he := h e (List.mem_cons_self _ _)
    have h1 : scan_entry sizes stream bpv e i st
        = .ok { st with vert_index_offset := st.vert_index_offset + 1 } := by
      unfold scan_entry
      rw [if_pos (by omega), if_pos he]
    unfold scan_loop
    simp only [h1, bind, Except.bind]
    rw [ih _ _ (fun x hx => h x (List.mem_cons_of_mem _ hx))]
    simp only [List.length_cons, Nat.cast_add, Nat.cast_one]
    congr 2
    ring

/-- The entries of higher streams change nothing. -/
theorem scan_loop_higher (sizes : String → Option Nat) (stream bpv : Nat) (higher : List Entry) :
    ∀ (i : Nat) (st : Scan), (∀ e ∈ higher, stream < e.stream) →
      scan_loop sizes stream bpv higher i st = .ok st := by
  induction higher with
  | nil => intro i st _; rfl
  | cons e es ih =>
    intro i st h
    have he := h e (List.mem_cons_self _ _)
    have h1 : scan_entry sizes stream bpv e i st = .ok st := by
      unfold scan_entry
      rw [if_pos (by omega), if_neg (by omega)]
    unfold scan_loop
    simp only [h1, bind, Except.bind]
    exact ih _ _ (fun x hx => h x (List.mem_cons_of_mem _ hx))

/-- The entries behind the measured stride are taken off the size of the stream. -/
theorem scan_loop_skipped (sizes : String → Option Nat) (stream bpv : Nat)
    (skipped : List Entry) :
    ∀ (i : Nat) (st : Scan) (cur : Nat), (∀ e ∈ skipped, e.stream = stream) →
      (∀ e ∈ skipped, (sizes e.type).isSome) → bpv ≤ st.byte_stride →
      st.layout.size_at stream = .ok cur → entries_size sizes skipped ≤ cur →
      ∃ l, scan_loop sizes stream bpv skipped i st = .ok { st with layout := l } ∧
        l.size_at stream = .ok (cur - entries_size sizes skipped) ∧
        l.entries = st.layout.entries := by
  induction skipped with
  | nil =>
    intro i st cur _ _ _ hc _
    exact ⟨st.layout, rfl, by simpa [entries_size] using hc, rfl⟩
  | cons e es ih =>
    intro i st cur hs hk hb hc hle
    have hes : entries_size sizes (e :: es) = e.size sizes + entries_size sizes es := by
      simp [entries_size]
    have hcl := size_at_lt hc
    have hel : e.size sizes < 2 ^ 32 := by
      unfold Entry.size u32; exact Nat.mod_lt _ (by norm_num)
    have h1 : scan_entry sizes stream bpv e i st
        = .ok { st with layout := st.layout.set_size stream (sub32 cur (e.size sizes)) } := by
      unfold scan_entry
      rw [if_neg (by simp [hs e (List.mem_cons_self _ _)]), if_pos hb]
      simp only [size_of_type_eq sizes e (hk e (List.mem_cons_self _ _)), hc, bind, Except.bind,
        pure, Except.pure]
    have hsub : sub32 cur (e.size sizes) = cur - e.size sizes := by
      unfold sub32
      have h32 : (2:Nat) ^ 32 = 4294967296 := by norm_num
      rw [h32] at hcl hel ⊢
      omega
    obtain ⟨l, hl, hsz, hent⟩ := ih (i + 1)
      { st with layout := st.layout.set_size stream (sub32 cur (e.size sizes)) }
      (cur - e.size sizes)
      (fun x hx => hs x (List.mem_cons_of_mem _ hx))
      (fun x hx => hk x (List.mem_cons_of_mem _ hx)) hb
      (by
        show (st.layout.set_size stream (sub32 cur (e.size sizes))).size_at stream = _
        rw [size_at_set_size _ _ _ _ hc, hsub, u32_of_lt (by omega)])
      (by omega)
    refine ⟨l, ?_, ?_, ?_⟩
    · unfold scan_loop
      simp only [h1, bind, Except.bind]
      exact hl
    · rw [hsz, hes]
      congr 1
      omega
    · rw [hent]
      rfl
theorem last_index_singleton (P : Entry → Bool) (e : Entry) :
    last_index P [e] = if P e then some 0 else none := rfl

theorem needs_conversion_ne_packed (e : Entry) (h : needs_conversion e.type = true) :
    e.type ≠ "ubyte4n" := by
  intro ht
  rw [ht] at h
  revert h
  decide

theorem needs_conversion_ubyte4n : needs_conversion "ubyte4n" = false := by decide

/-- One decoded entry. -/
theorem scan_entry_decoded (sizes : String → Option Nat) (stream bpv : Nat) (e : Entry)
    (i : Nat) (st : Scan) (cur : Nat) (pre post : List Entry)
    (hs : e.stream = stream) (hk : (sizes e.type).isSome) (hb : st.byte_stride < bpv)
    (hw : st.byte_stride + e.size sizes < 2 ^ 32)
    (hc : st.layout.size_at stream = .ok cur) (hadj : cur + size_adjustment e < 2 ^ 32)
    (hent : st.layout.entries = pre ++ e :: post) (hi : i = pre.length) :
    ∃ l, scan_entry sizes stream bpv e i st = .ok (Scan.decoded sizes [e] i st l) ∧
      l.size_at stream = .ok (cur + size_adjustment e) ∧
      l.entries = pre ++ e.rewritten :: post := by
  subst hi
  have hst : ∀ t, (st.layout.set_type pre.length t).entries
      = pre ++ { e with type := t } :: post := by
    intro t
    show set_entry_type st.layout.entries pre.length t = _
    rw [hent, set_entry_type_append]
  have hgrow : ∀ (l : Layout) (d : Nat), l.size_at stream = .ok cur → cur + d < 2 ^ 32 →
      l.grow stream d = .ok (l.set_size stream (cur + d)) ∧
      (l.set_size stream (cur + d)).size_at stream = .ok (cur + d) := by
    intro l d hl hd
    rw [grow_eq l stream d cur hl, u32_of_lt hd, size_at_set_size _ _ _ _ hl, u32_of_lt hd]
    exact ⟨rfl, rfl⟩
  have hsz : size_of_type sizes e.type = .ok (e.size sizes) := size_of_type_eq sizes e hk
  have hbs : u32 (st.byte_stride + e.size sizes) = st.byte_stride + e.size sizes := u32_of_lt hw
  have hes : entries_size sizes [e] = e.size sizes := by simp [entries_size]
  unfold scan_entry
  rw [if_neg (by simp [hs]), if_neg (by omega)]
  simp only [hsz, bind, Except.bind, hbs]
  unfold size_adjustment at hadj
  by_cases hconv : needs_conversion e.type = true
  · have hne := needs_conversion_ne_packed e hconv
    have hadj4 : cur + 4 < 2 ^ 32 := by
      simp only [hconv, if_true] at hadj
      omega
    have hg := hgrow (st.layout.set_type pre.length "Float2") 4 hc hadj4
    refine ⟨(st.layout.set_type pre.length "Float2").set_size stream (cur + 4), ?_, ?_, ?_⟩
    · unfold scan_usage
      simp only [hconv, if_true, hg.1, bind, Except.bind, pure, Except.pure, hne, if_false]
      by_cases h1 : e.usage = "Normal"
      · simp [Scan.decoded, last_index_singleton, has_usage, is_packed, recorded, h1, hconv,
          hes, hne]
      · by_cases h2 : e.usage = "Binormal"
        · simp [Scan.decoded, last_index_singleton, has_usage, is_packed, recorded, h2, hconv,
            hes, hne]
        · by_cases h3 : e.usage = "Tangent"
          · simp [Scan.decoded, last_index_singleton, has_usage, is_packed, recorded, h3, hconv,
              hes, hne]
          · by_cases h4 : e.usage = "BlendIndices"
            · simp [Scan.decoded, last_index_singleton, has_usage, is_packed, recorded, h4,
                hconv, hes, hne]
            · simp [Scan.decoded, last_index_singleton, has_usage, is_packed, recorded, h1, h2,
                h3, h4, hconv, hes, hne]
    · rw [hg.2]
      simp [size_adjustment, hconv, hne]
    · show (st.layout.set_type pre.length "Float2").entries = _
      rw [hst]
      simp [Entry.rewritten, rewritten_type, hconv]
  · have hconv' : needs_conversion e.type = false := by simpa using hconv
    have hsame : rewritten_type e = e.type → e.rewritten = e := by
      intro h
      unfold Entry.rewritten
      rw [h]
    unfold scan_usage
    simp only [hconv', Bool.false_eq_true, if_false, bind, Except.bind, pure, Except.pure]
    by_cases h1 : e.usage = "Normal"
    · by_cases ht : e.type = "ubyte4n"
      · have hadj8 : cur + 8 < 2 ^ 32 := by
          simp only [hconv', h1, ht, and_self, if_true, Bool.false_eq_true, if_false] at hadj
          omega
        have hg := hgrow (st.layout.set_type pre.length "Float3") 8 hc hadj8
        refine ⟨(st.layout.set_type pre.length "Float3").set_size stream (cur + 8), ?_, ?_, ?_⟩
        · simp only [h1, ht, if_true, hg.1]
          simp [Scan.decoded, last_index_singleton, has_usage, is_packed, recorded, h1, ht,
            hconv', hes, needs_conversion_ubyte4n]
        · rw [hg.2]
          simp [size_adjustment, hconv', h1, ht, needs_conversion_ubyte4n]
        · show (st.layout.set_type pre.length "Float3").entries = _
          rw [hst]
          simp [Entry.rewritten, rewritten_type, hconv', h1, ht, needs_conversion_ubyte4n]
      · refine ⟨st.layout, ?_, ?_, ?_⟩
        · simp only [h1, ht, if_true, if_false]
          simp [Scan.decoded, last_index_singleton, has_usage, is_packed, recorded, h1, ht,
            hconv', hes, needs_conversion_ubyte4n]
        · rw [hc]
          simp [size_adjustment, hconv', h1, ht, needs_conversion_ubyte4n]
        · rw [hent, hsame (by simp [rewritten_type, hconv', ht])]
    · by_cases hw4 : e.usage = "BlendWeight" ∧ e.type = "ubyte4n"
      · have hadj12 : cur + 12 < 2 ^ 32 := by
          simp only [hconv', h1, hw4, and_self, if_true, Bool.false_eq_true, if_false,
            false_and] at hadj
          omega
        have hg := hgrow (st.layout.set_type pre.length "Float4") 12 hc hadj12
        refine ⟨(st.layout.set_type pre.length "Float4").set_size stream (cur + 12), ?_, ?_, ?_⟩
        · simp only [hw4.1, hw4.2, hg.1]
          simp [Scan.decoded, last_index_singleton, has_usage, is_packed, recorded, hw4.1,
            hw4.2, hconv', hes, needs_conversion_ubyte4n]
        · rw [hg.2]
          simp [size_adjustment, hconv', hw4.1, hw4.2, needs_conversion_ubyte4n]
        · show (st.layout.set_type pre.length "Float4").entries = _
          rw [hst]
          simp [Entry.rewritten, rewritten_type, hconv', hw4.1, hw4.2, needs_conversion_ubyte4n]
      · refine ⟨st.layout, ?_, ?_, ?_⟩
        · by_cases h2 : e.usage = "Binormal"
          · simp [Scan.decoded, last_index_singleton, has_usage, is_packed, recorded, h2,
              hconv', hes, needs_conversion_ubyte4n]
          · by_cases h3 : e.usage = "Tangent"
            · simp [Scan.decoded, last_index_singleton, has_usage, is_packed, recorded, h3,
                hconv', hes, needs_conversion_ubyte4n]
            · by_cases h4 : e.usage = "BlendIndices"
              · simp [Scan.decoded, last_index_singleton, has_usage, is_packed, recorded, h4,
                  hconv', hes, needs_conversion_ubyte4n]
              · simp [Scan.decoded, last_index_singleton, has_usage, is_packed, recorded, h1,
                  h2, h3, h4, hw4, hconv', hes, needs_conversion_ubyte4n]
        · rw [hc]
          simp [size_adjustment, hconv', h1, hw4]
        · rw [hent, hsame (by simp [rewritten_type, hconv', h1, hw4])]
theorem recorded_cons (P : Entry → Bool) (e : Entry) (es : List Entry) (i : Nat) (old : Int) :
    recorded (i + 1) (recorded i old (last_index P [e])) (last_index P es)
      = recorded i old (last_index P (e :: es)) := by
  show _ = recorded i old (match last_index P es with
    | some k => some (k + 1)
    | none => if P e then some 0 else none)
  cases last_index P es with
  | some k =>
    simp only [recorded]
    congr 1
    omega
  | none => rfl

theorem entries_size_cons (sizes : String → Option Nat) (e : Entry) (es : List Entry) :
    entries_size sizes (e :: es) = e.size sizes + entries_size sizes es := by
  simp [entries_size]

theorem entries_adjustment_cons (e : Entry) (es : List Entry) :
    entries_adjustment (e :: es) = size_adjustment e + entries_adjustment es := by
  simp [entries_adjustment]

theorem entries_size_append (sizes : String → Option Nat) (a b : List Entry) :
    entries_size sizes (a ++ b) = entries_size sizes a + entries_size sizes b := by
  simp [entries_size]

theorem scan_decoded_nil (sizes : String → Option Nat) (i : Nat) (st : Scan) :
    Scan.decoded sizes [] i st st.layout = st := by
  cases st
  simp [Scan.decoded, last_index, recorded, entries_size]

theorem scan_decoded_cons (sizes : String → Option Nat) (e : Entry) (es : List Entry) (i : Nat)
    (st : Scan) (l1 l : Layout) :
    Scan.decoded sizes es (i + 1) (Scan.decoded sizes [e] i st l1) l
      = Scan.decoded sizes (e :: es) i st l := by
  unfold Scan.decoded
  simp only [recorded_cons, entries_size_cons, List.map_cons, List.map_nil, List.any_cons,
    List.any_nil, Bool.or_false, List.append_assoc, List.singleton_append, Bool.or_assoc,
    Scan.mk.injEq, true_and, and_true]
  simp [entries_size]
  omega

/-- The decoded entries of the stream: what the loop over the layout entries leaves. -/
theorem scan_loop_decoded (sizes : String → Option Nat) (stream bpv : Nat) (dec : List Entry) :
    ∀ (i : Nat) (st : Scan) (cur : Nat) (pre post : List Entry),
      (∀ e ∈ dec, e.stream = stream) → (∀ e ∈ dec, (sizes e.type).isSome) →
      (∀ k, k < dec.length → st.byte_stride + entries_size sizes (dec.take k) < bpv) →
      st.byte_stride + entries_size sizes dec < 2 ^ 32 →
      st.layout.size_at stream = .ok cur → cur + entries_adjustment dec < 2 ^ 32 →
      st.layout.entries = pre ++ dec ++ post → i = pre.length →
      ∃ l, scan_loop sizes stream bpv dec i st = .ok (Scan.decoded sizes dec i st l) ∧
        l.size_at stream = .ok (cur + entries_adjustment dec) ∧
        l.entries = pre ++ dec.map Entry.rewritten ++ post := by
  induction dec with
  | nil =>
    intro i st cur pre post _ _ _ _ hc _ hent _
    refine ⟨st.layout, ?_, ?_, ?_⟩
    · rw [scan_decoded_nil]; rfl
    · simpa [entries_adjustment] using hc
    · simpa using hent
  | cons e es ih =>
    intro i st cur pre post hs hk hb hw hc hadj hent hi
    rw [entries_size_cons] at hw
    rw [entries_adjustment_cons] at hadj
    have hb0 := hb 0 (by simp)
    simp only [List.take_zero, entries_size, List.map_nil, List.sum_nil, Nat.add_zero] at hb0
    obtain ⟨l1, h1, hsz1, hent1⟩ := scan_entry_decoded sizes stream bpv e i st cur pre
      (es ++ post) (hs e (List.mem_cons_self _ _)) (hk e (List.mem_cons_self _ _)) hb0
      (by omega) hc (by omega) (by simpa using hent) hi
    obtain ⟨l, h2, hsz, hentl⟩ := ih (i + 1) (Scan.decoded sizes [e] i st l1)
      (cur + size_adjustment e) (pre ++ [e.rewritten]) post
      (fun x hx => hs x (List.mem_cons_of_mem _ hx))
      (fun x hx => hk x (List.mem_cons_of_mem _ hx))
      (by
        intro k hk2
        have := hb (k + 1) (by simp; omega)
        simp only [List.take_succ_cons, entries_size_cons] at this
        show st.byte_stride + entries_size sizes [e] + _ < bpv
        rw [entries_size_cons]
        simp only [entries_size, List.map_nil, List.sum_nil, Nat.add_zero] at this ⊢
        omega)
      (by
        show st.byte_stride + entries_size sizes [e] + _ < 2 ^ 32
        rw [entries_size_cons]
        simp only [entries_size, List.map_nil, List.sum_nil, Nat.add_zero] at hw ⊢
        omega)
      hsz1 (by omega)
      (by
        show l1.entries = _
        rw [hent1]; simp)
      (by simp [hi])
    refine ⟨l, ?_, ?_, ?_⟩
    · unfold scan_loop
      simp only [h1, bind, Except.bind]
      rw [h2, scan_decoded_cons]
    · rw [hsz, entries_adjustment_cons, Nat.add_assoc]
    · rw [hentl]; simp
/-- The loop over the layout entries of a layout ordered by stream. -/
theorem scan_ordered (sizes : String → Option Nat) (layout : Layout) (stream bpv declared : Nat)
    (lower dec skipped higher : List Entry)
    (hord : Ordered sizes layout stream bpv lower dec skipped higher)
    (hd : layout.size_at stream = .ok declared)
    (hadj : declared + entries_adjustment dec < 2 ^ 32)
    (hsk : entries_size sizes skipped ≤ declared + entries_adjustment dec) :
    ∃ l, scan sizes layout stream bpv = .ok (scan_result sizes layout dec lower.length l) ∧
      l.size_at stream
        = .ok (declared + entries_adjustment dec - entries_size sizes skipped) ∧
      l.entries = lower ++ dec.map Entry.rewritten ++ skipped ++ higher := by
  obtain ⟨l1, h1, hsz1, hent1⟩ := scan_loop_decoded sizes stream bpv dec lower.length
    { Scan.init layout with vert_index_offset := (lower.length : Int) } declared lower
    (skipped ++ higher) hord.dec_eq hord.dec_known
    (fun k hk => by
      show 0 + _ < bpv
      have := hord.starts_below k hk
      omega)
    (by
      show 0 + _ < 2 ^ 32
      have := hord.no_wrap
      omega)
    hd hadj
    (by
      show layout.entries = _
      rw [hord.entries]; simp)
    rfl
  have hskip : ∃ l, scan_loop sizes stream bpv skipped (0 + lower.length + dec.length)
        (scan_result sizes layout dec lower.length l1)
        = .ok (scan_result sizes layout dec lower.length l) ∧
      l.size_at stream
        = .ok (declared + entries_adjustment dec - entries_size sizes skipped) ∧
      l.entries = l1.entries := by
    rcases hord.filled with hnil | hfill
    · subst hnil
      refine ⟨l1, rfl, ?_, rfl⟩
      rw [hsz1]
      simp [entries_size]
    · exact scan_loop_skipped sizes stream bpv skipped _
        (scan_result sizes layout dec lower.length l1) _ hord.skipped_eq hord.skipped_known
        (by
          show bpv ≤ 0 + entries_size sizes dec
          omega)
        hsz1 hsk
  obtain ⟨l, h2, hsz, hent⟩ := hskip
  refine ⟨l, ?_, hsz, ?_⟩
  · unfold scan
    rw [hord.entries, scan_loop_append, scan_loop_append, scan_loop_append,
      scan_loop_lower sizes stream bpv lower 0 _ hord.lower_lt]
    have e0 : ({ Scan.init layout with
        vert_index_offset := (Scan.init layout).vert_index_offset + (lower.length : Int) } : Scan)
        = { Scan.init layout with vert_index_offset := (lower.length : Int) } := by
      simp [Scan.init]
    simp only [Except.bind, e0]
    have h1' : scan_loop sizes stream bpv dec (0 + lower.length)
        { Scan.init layout with vert_index_offset := (lower.length : Int) }
        = .ok (scan_result sizes layout dec lower.length l1) := by
      rw [Nat.zero_add]; exact h1
    simp only [h1', List.length_append]
    have h2' : scan_loop sizes stream bpv skipped (0 + (lower.length + dec.length))
        (scan_result sizes layout dec lower.length l1)
        = .ok (scan_result sizes layout dec lower.length l) := by
      rw [← Nat.add_assoc]; exact h2
    simp only [h2']
    exact scan_loop_higher sizes stream bpv higher _ _ hord.higher_gt
  · rw [hent, hent1]; simp

/-! ## The per-vertex loop on a layout ordered by stream -/

theorem recorded_test (k base : Nat) (o : Option Nat) :
    ((k : Nat) : Int) = recorded base (-1) o - (base : Int) ↔ o = some k := by
  cases o with
  | none =>
    simp only [recorded]
    constructor
    · intro h; omega
    · intro h; cases h
  | some j =>
    simp only [recorded, Option.some.injEq]
    constructor
    · intro h; push_cast at h; omega
    · intro h; subst h; push_cast; omega

theorem recorded_ne (base : Nat) (o : Option Nat) :
    decide (recorded base (-1) o ≠ -1) = o.isSome := by
  cases o with
  | none => simp [recorded]
  | some j =>
    simp only [recorded, Option.isSome_some, decide_eq_true_eq]
    omega

theorem last_index_some (P : Entry → Bool) (l : List Entry) :
    ∀ k, last_index P l = some k → ∃ e, l.get? k = some e ∧ P e = true := by
  induction l with
  | nil => intro k h; cases h
  | cons x xs ih =>
    intro k h
    unfold last_index at h
    cases hl : last_index P xs with
    | some j =>
      rw [hl] at h
      cases h
      obtain ⟨e, he, hp⟩ := ih j hl
      exact ⟨e, by simpa using he, hp⟩
    | none =>
      rw [hl] at h
      by_cases hx : P x = true
      · simp only [hx, if_true, Option.some.injEq] at h
        subst h
        exact ⟨x, rfl, hx⟩
      · simp [hx] at h

theorem window (d : Bytes) (pos n a w : Nat) (h : a + w ≤ n) :
    (((d.drop pos).take n).drop a).take w = (d.drop (pos + a)).take w := by
  rw [List.drop_take, List.take_take, List.drop_drop]
  congr 1
  omega

theorem get_bytes_eq (d : Bytes) (off w : Nat) (h : off + w ≤ d.length) :
    get_bytes d off w = .ok ((d.drop off).take w) := by
  unfold get_bytes
  rw [if_pos h]

theorem get_u8_eq (d : Bytes) (off : Nat) (h : off + 1 ≤ d.length) :
    get_u8 d off = .ok (le_value ((d.drop off).take 1)) := by
  unfold get_u8
  rw [get_bytes_eq d off 1 h]
  rfl

theorem get_u16_eq (d : Bytes) (off : Nat) (h : off + 2 ≤ d.length) :
    get_u16 d off = .ok (le_value ((d.drop off).take 2)) := by
  unfold get_u16
  rw [get_bytes_eq d off 2 h]
  rfl

theorem subspan_n_eq (d : Bytes) (off n : Nat) (h : off + n ≤ d.length) :
    subspan_n d off n = .ok ((d.drop off).take n) := by
  unfold subspan_n
  rw [if_pos h]

/-- What the per-vertex loop appends for one decoded entry, and what it leaves in the
buffer. -/
theorem emit_entry_spec (ext : Externals) (layout : Layout) (dec : List Entry) (base : Nat)
    (l : Layout) (is_rigid : Bool) (stride : Nat) (k : Nat) (e : Entry) (pos : Nat)
    (v : Vertex)
    (hpos : pos + e.size ext.sizes ≤ v.data.length) (hlt : v.data.length < 2 ^ 32)
    (hmin : 4 ≤ e.size ext.sizes)
    (hconv4 : needs_conversion e.type = true → e.size ext.sizes = 4)
    (hw4 : last_index (is_packed "BlendWeight") dec = some k → e.size ext.sizes = 4) :
    ∃ nrm, emit_entry ext (plan_of ext.sizes layout dec base l is_rigid stride) pos k
        (e.size ext.sizes, needs_conversion e.type) v
      = .ok { v with
          output := v.output
            ++ entry_cells ext dec k e ((v.data.drop pos).take (e.size ext.sizes)),
          normal := nrm,
          data := remap_from ext dec k [e] pos v.data } := by
  have hen : (plan_of ext.sizes layout dec base l is_rigid stride).scan.expand_normals
      = dec.any (is_packed "Normal") := by
    simp [plan_of, scan_result, Scan.decoded, Scan.init]
  have hni : (plan_of ext.sizes layout dec base l is_rigid stride).scan.normal_index
      = recorded base (-1) (last_index (has_usage "Normal") dec) := rfl
  have hbi : (plan_of ext.sizes layout dec base l is_rigid stride).scan.blend_indices_index
      = recorded base (-1) (last_index (has_usage "BlendIndices") dec) := rfl
  have hbw : (plan_of ext.sizes layout dec base l is_rigid stride).scan.blend_weights_index
      = recorded base (-1) (last_index (is_packed "BlendWeight") dec) := rfl
  have hvo : (plan_of ext.sizes layout dec base l is_rigid stride).scan.vert_index_offset
      = (base : Int) := rfl
  have h32 : (2 : Nat) ^ 32 = 4294967296 := by norm_num
  rw [h32] at hlt
  have hu : ∀ a, a ≤ 3 → u32 (pos + a) = pos + a := by
    intro a ha
    apply u32_of_lt
    rw [h32]; omega
  unfold emit_entry
  simp only [hen, hni, hbi, hbw, hvo, recorded_test]
  by_cases hconv : needs_conversion e.type = true
  · have h4 := hconv4 hconv
    refine ⟨v.normal, ?_⟩
    simp only [hconv, if_true, hu 2 (by omega), get_u16_eq v.data pos (by omega),
      get_u16_eq v.data (pos + 2) (by omega), bind, Except.bind, pure, Except.pure,
      entry_cells, remap_from, Bool.true_eq_false, false_and, if_false]
    have e1 : ((v.data.drop pos).take (e.size ext.sizes)).take 2 = (v.data.drop pos).take 2 := by
      have := window v.data pos (e.size ext.sizes) 0 2 (by omega)
      simpa using this
    have e2 : (((v.data.drop pos).take (e.size ext.sizes)).drop 2).take 2
        = (v.data.drop (pos + 2)).take 2 := window v.data pos _ 2 2 (by omega)
    rw [e1, e2]
  · have hconv' : needs_conversion e.type = false := by simpa using hconv
    simp only [hconv', Bool.false_eq_true, if_false]
    by_cases hn : dec.any (is_packed "Normal") = true
        ∧ last_index (has_usage "Normal") dec = some k
    · refine ⟨((le_value ((v.data.drop pos).take 1) : ℚ) / 128 - 1,
        (le_value ((v.data.drop (pos + 1)).take 1) : ℚ) / 128 - 1,
        (le_value ((v.data.drop (pos + 2)).take 1) : ℚ) / 128 - 1), ?_⟩
      simp only [hn, and_self, if_true, hu 1 (by omega), hu 2 (by omega),
        get_u8_eq v.data pos (by omega), get_u8_eq v.data (pos + 1) (by omega),
        get_u8_eq v.data (pos + 2) (by omega), bind, Except.bind, pure, Except.pure,
        entry_cells, remap_from, hconv', Bool.false_eq_true, if_false, not_true_eq_false,
        false_and, and_false, Vec3.cells]
      have e0 : ((v.data.drop pos).take (e.size ext.sizes)).take 1 = (v.data.drop pos).take 1 := by
        have := window v.data pos (e.size ext.sizes) 0 1 (by omega)
        simpa using this
      have e1 : (((v.data.drop pos).take (e.size ext.sizes)).drop 1).take 1
          = (v.data.drop (pos + 1)).take 1 := window v.data pos _ 1 1 (by omega)
      have e2 : (((v.data.drop pos).take (e.size ext.sizes)).drop 2).take 1
          = (v.data.drop (pos + 2)).take 1 := window v.data pos _ 2 1 (by omega)
      rw [e0, e1, e2]
    · refine ⟨v.normal, ?_⟩
      rw [if_neg hn]
      simp only [subspan_n_eq v.data pos _ hpos, bind, Except.bind, pure, Except.pure,
        entry_cells, remap_from, hconv', Bool.false_eq_true, if_false, hn, not_false_eq_true,
        true_and, decide_eq_true_eq]
      have hlen : ((v.data.drop pos).take (e.size ext.sizes)).length = e.size ext.sizes := by
        rw [List.length_take, List.length_drop]; omega
      by_cases hb : last_index (has_usage "BlendIndices") dec = some k
      · by_cases hw : last_index (is_packed "BlendWeight") dec = some k
        · have h4 := hw4 hw
          rw [h4] at hlen
          simp only [hb, hw, if_true, List.length_map, h4, hlen]
        · simp only [hb, hw, if_true, if_false]
      · by_cases hw : last_index (is_packed "BlendWeight") dec = some k
        · have h4 := hw4 hw
          rw [h4] at hlen
          simp only [hb, hw, if_true, if_false, h4, hlen]
        · simp only [hb, hw, if_false]
/-- What the binormal and the tangent entry leave in the locals of a vertex. -/
theorem load_entry_spec (ext : Externals) (layout : Layout) (dec : List Entry) (base : Nat)
    (l : Layout) (is_rigid : Bool) (stride : Nat)
    (hext : ∀ t a b d w, ∃ r, ext.load_vector t a b d w = .ok r)
    (vo pos k : Nat) (v : Vertex)
    (hpos : pos + 4 ≤ v.data.length) (hlt : v.data.length < 2 ^ 32) :
    ∃ b t s, load_entry ext (plan_of ext.sizes layout dec base l is_rigid stride) vo pos k v
      = .ok { v with
          binormal := b, tangent := t, sign := s,
          rigid_joint_index :=
            if last_index (has_usage "Binormal") dec = some k
                ∧ adds_rigid_bones dec is_rigid = true then
              ext.map_bone (le_value ((v.data.drop (pos + 3)).take 1)) % 2 ^ 16
            else v.rigid_joint_index } := by
  have hbn : (plan_of ext.sizes layout dec base l is_rigid stride).scan.binormal_index
      = recorded base (-1) (last_index (has_usage "Binormal") dec) := rfl
  have htn : (plan_of ext.sizes layout dec base l is_rigid stride).scan.tangent_index
      = recorded base (-1) (last_index (has_usage "Tangent") dec) := rfl
  have hvo : (plan_of ext.sizes layout dec base l is_rigid stride).scan.vert_index_offset
      = (base : Int) := rfl
  have hcn : (plan_of ext.sizes layout dec base l is_rigid stride).calculate_normals
      = calculates_normals dec := rfl
  have hir : (plan_of ext.sizes layout dec base l is_rigid stride).is_rigid = is_rigid := rfl
  have hbt : (plan_of ext.sizes layout dec base l is_rigid stride).binormal_type
      = binormal_type_of dec := rfl
  have htt : (plan_of ext.sizes layout dec base l is_rigid stride).tangent_type
      = tangent_type_of dec := rfl
  have hrig : (is_rigid = true ∧ binormal_type_of dec = "ubyte4n")
      ↔ adds_rigid_bones dec is_rigid = true := by
    simp [adds_rigid_bones]
  have h32 : (2 : Nat) ^ 32 = 4294967296 := by norm_num
  rw [h32] at hlt
  have hu : u32 (pos + 3) = pos + 3 := by
    apply u32_of_lt; rw [h32]; omega
  have hg : get_u8 v.data (pos + 3) = .ok (le_value ((v.data.drop (pos + 3)).take 1)) :=
    get_u8_eq v.data (pos + 3) (by omega)
  -- the binormal part
  have part1 : ∃ b, (if ((k : Nat) : Int)
        = (plan_of ext.sizes layout dec base l is_rigid stride).scan.binormal_index
          - (plan_of ext.sizes layout dec base l is_rigid stride).scan.vert_index_offset then do
        let v ← (if (plan_of ext.sizes layout dec base l is_rigid stride).calculate_normals then do
            let b ← ext.load_vector
              (plan_of ext.sizes layout dec base l is_rigid stride).binormal_type vo
              v.entry_offset v.data v.binormal
            pure { v with binormal := b }
          else pure v)
        if (plan_of ext.sizes layout dec base l is_rigid stride).is_rigid
            ∧ (plan_of ext.sizes layout dec base l is_rigid stride).binormal_type = "ubyte4n" then do
          let j ← get_u8 v.data (u32 (pos + 3))
          pure { v with rigid_joint_index := ext.map_bone j % 2 ^ 16 }
        else pure v
      else pure v : Except Failure Vertex)
      = .ok { v with
          binormal := b,
          rigid_joint_index :=
            if last_index (has_usage "Binormal") dec = some k
                ∧ adds_rigid_bones dec is_rigid = true then
              ext.map_bone (le_value ((v.data.drop (pos + 3)).take 1)) % 2 ^ 16
            else v.rigid_joint_index } := by
    simp only [hbn, hvo, hcn, hir, hbt, recorded_test, hrig, hu]
    by_cases hB : last_index (has_usage "Binormal") dec = some k
    · obtain ⟨b, hb⟩ := hext (binormal_type_of dec) vo v.entry_offset v.data v.binormal
      by_cases hc : calculates_normals dec = true
      · by_cases hr : adds_rigid_bones dec is_rigid = true
        · exact ⟨b, by simp [hB, hc, hr, hb, hg, bind, Except.bind, pure, Except.pure]⟩
        · exact ⟨b, by simp [hB, hc, hr, hb, bind, Except.bind, pure, Except.pure]⟩
      · by_cases hr : adds_rigid_bones dec is_rigid = true
        · exact ⟨v.binormal, by simp [hB, hc, hr, hg, bind, Except.bind, pure, Except.pure]⟩
        · exact ⟨v.binormal, by simp [hB, hc, hr, bind, Except.bind, pure, Except.pure]⟩
    · exact ⟨v.binormal, by simp [hB, pure, Except.pure]⟩
  obtain ⟨b, hb⟩ := part1
  unfold load_entry
  rw [hb]
  simp only [bind, Except.bind, htn, hvo, hcn, htt, recorded_test]
  by_cases hT : calculates_normals dec = true ∧ last_index (has_usage "Tangent") dec = some k
  · obtain ⟨t, ht⟩ := hext (tangent_type_of dec) vo v.entry_offset v.data v.tangent
    by_cases h4 : tangent_type_of dec = "ubyte4n"
    · refine ⟨b, t, (le_value ((v.data.drop (pos + 3)).take 1) : ℚ) / 255 * 2 - 1, ?_⟩
      rw [h4] at ht
      simp only [hT, and_self, if_true, ht, h4, hu, hg, pure, Except.pure]
    · refine ⟨b, t, -1, ?_⟩
      simp only [hT, and_self, if_true, ht, h4, if_false, pure, Except.pure]
  · exact ⟨b, v.tangent, v.sign, by simp only [hT, if_false, pure, Except.pure]⟩
theorem write_bytes_drop (d : Bytes) (pos : Nat) (bs : Bytes) (m : Nat)
    (h : pos + bs.length ≤ d.length) (hm : pos + bs.length ≤ m) :
    (write_bytes d pos bs).drop m = d.drop m := by
  unfold write_bytes
  have h1 : (d.take pos ++ bs).length = pos + bs.length := by
    simp only [List.length_append, List.length_take]; omega
  obtain ⟨c, rfl⟩ : ∃ c, m = (pos + bs.length) + c := ⟨m - (pos + bs.length), by omega⟩
  rw [← h1, List.drop_append, List.drop_drop, h1]

theorem remap_from_length (ext : Externals) (dec : List Entry) :
    ∀ (rest : List Entry) (k pos : Nat) (d : Bytes),
      pos + entries_size ext.sizes rest ≤ d.length →
      (remap_from ext dec k rest pos d).length = d.length := by
  intro rest
  induction rest with
  | nil => intro k pos d _; rfl
  | cons e es ih =>
    intro k pos d h
    rw [entries_size_cons] at h
    unfold remap_from
    simp only
    have hl : (((d.drop pos).take (e.size ext.sizes)).map
        fun b => ext.map_bone (b % 256) % 256).length = e.size ext.sizes := by
      rw [List.length_map, List.length_take, List.length_drop]; omega
    split
    · have hw := write_bytes_length d pos _ (by rw [hl]; omega)
      rw [ih _ _ _ (by rw [hw]; omega), hw]
    · rw [ih _ _ _ (by omega)]

theorem remap_from_drop (ext : Externals) (dec : List Entry) :
    ∀ (rest : List Entry) (k pos : Nat) (d : Bytes) (m : Nat),
      pos + entries_size ext.sizes rest ≤ d.length → pos + entries_size ext.sizes rest ≤ m →
      (remap_from ext dec k rest pos d).drop m = d.drop m := by
  intro rest
  induction rest with
  | nil => intro k pos d m _ _; rfl
  | cons e es ih =>
    intro k pos d m h hm
    rw [entries_size_cons] at h hm
    unfold remap_from
    simp only
    have hl : (((d.drop pos).take (e.size ext.sizes)).map
        fun b => ext.map_bone (b % 256) % 256).length = e.size ext.sizes := by
      rw [List.length_map, List.length_take, List.length_drop]; omega
    split
    · have hw := write_bytes_length d pos _ (by rw [hl]; omega)
      rw [ih _ _ _ m (by rw [hw]; omega) (by omega)]
      exact write_bytes_drop d pos _ m (by rw [hl]; omega) (by rw [hl]; omega)
    · rw [ih _ _ _ m (by omega) (by omega)]

theorem remap_from_cons (ext : Externals) (dec : List Entry) (k : Nat) (e : Entry)
    (es : List Entry) (pos : Nat) (d : Bytes) :
    remap_from ext dec k (e :: es) pos d
      = remap_from ext dec (k + 1) es (pos + e.size ext.sizes) (remap_from ext dec k [e] pos d) := by
  simp only [remap_from]

theorem last_index_usage_ne (dec : List Entry) (k : Nat) (u w : String) (huw : u ≠ w)
    (h : last_index (has_usage u) dec = some k) : last_index (has_usage w) dec ≠ some k := by
  intro h2
  obtain ⟨e, he, hp⟩ := last_index_some _ _ _ h
  obtain ⟨e2, he2, hp2⟩ := last_index_some _ _ _ h2
  rw [he] at he2
  cases he2
  simp only [has_usage, decide_eq_true_eq] at hp hp2
  exact huw (hp.symm.trans hp2)

theorem entries_size_single (sizes : String → Option Nat) (e : Entry) :
    entries_size sizes [e] = e.size sizes := by
  simp [entries_size]

theorem remap_from_single_ne (ext : Externals) (dec : List Entry) (k : Nat) (e : Entry)
    (pos : Nat) (d : Bytes) (h : last_index (has_usage "BlendIndices") dec ≠ some k) :
    remap_from ext dec k [e] pos d = d := by
  simp only [remap_from, h, and_false, if_false]

theorem entry_loop_spec (ext : Externals) (layout : Layout) (dec : List Entry) (base : Nat)
    (l : Layout) (is_rigid : Bool) (stride : Nat)
    (hext : ∀ t a b d w, ∃ r, ext.load_vector t a b d w = .ok r)
    (hmin : ∀ e ∈ dec, 4 ≤ e.size ext.sizes)
    (hconv4 : ∀ e ∈ dec, needs_conversion e.type = true → e.size ext.sizes = 4)
    (hw4 : ∀ e ∈ dec, is_packed "BlendWeight" e = true → e.size ext.sizes = 4)
    (vo : Nat) :
    ∀ (rest done : List Entry) (v : Vertex), dec = done ++ rest →
      v.entry_offset = entries_size ext.sizes done →
      vo + entries_size ext.sizes dec ≤ v.data.length → v.data.length < 2 ^ 32 →
      ∃ b t s nrm, entry_loop ext (plan_of ext.sizes layout dec base l is_rigid stride) vo
          (rest.map fun e => (e.size ext.sizes, needs_conversion e.type)) done.length v
        = .ok { entry_offset := entries_size ext.sizes dec, binormal := b, tangent := t,
                sign := s, normal := nrm,
                rigid_joint_index := rigid_from ext dec is_rigid done.length rest
                  (v.data.drop (vo + entries_size ext.sizes done)) v.rigid_joint_index,
                output := v.output ++ cells_from ext dec done.length rest
                  (v.data.drop (vo + entries_size ext.sizes done)),
                data := remap_from ext dec done.length rest
                  (vo + entries_size ext.sizes done) v.data } := by
  intro rest
  induction rest with
  | nil =>
    intro done v hdec heo _ _
    rw [List.append_nil] at hdec
    subst hdec
    refine ⟨v.binormal, v.tangent, v.sign, v.normal, ?_⟩
    simp only [List.map_nil, entry_loop, rigid_from, cells_from, remap_from, List.append_nil,
      ← heo]
  | cons e es ih =>
    intro done v hdec heo hfit hlt
    have h32 : (2 : Nat) ^ 32 = 4294967296 := by norm_num
    have hmem : e ∈ dec := by rw [hdec]; simp
    have hsz : entries_size ext.sizes dec
        = entries_size ext.sizes done + (e.size ext.sizes + entries_size ext.sizes es) := by
      rw [hdec, entries_size_append, entries_size_cons]
    have hget : dec.get? done.length = some e := by
      rw [hdec, List.get?_eq_getElem?, List.getElem?_append_right (le_refl _)]
      simp
    have hpos : u32 (vo + v.entry_offset) = vo + entries_size ext.sizes done := by
      rw [heo]; apply u32_of_lt; omega
    have hk4 : last_index (is_packed "BlendWeight") dec = some done.length
        → e.size ext.sizes = 4 := by
      intro h
      obtain ⟨e2, he2, hp⟩ := last_index_some _ _ _ h
      rw [hget] at he2
      cases he2
      exact hw4 e hmem hp
    obtain ⟨nrm1, h1⟩ := emit_entry_spec ext layout dec base l is_rigid stride done.length e
      (vo + entries_size ext.sizes done) v (by omega) hlt (hmin e hmem) (hconv4 e hmem) hk4
    have hlen1 : (remap_from ext dec done.length [e] (vo + entries_size ext.sizes done)
        v.data).length = v.data.length :=
      remap_from_length ext dec [e] _ _ _ (by rw [entries_size_single]; omega)
    have hm := hmin e hmem
    obtain ⟨b2, t2, s2, h2⟩ := load_entry_spec ext layout dec base l is_rigid stride hext vo
      (vo + entries_size ext.sizes done) done.length
      { v with
        output := v.output ++ entry_cells ext dec done.length e
          ((v.data.drop (vo + entries_size ext.sizes done)).take (e.size ext.sizes)),
        normal := nrm1,
        data := remap_from ext dec done.length [e] (vo + entries_size ext.sizes done) v.data }
      (by simp only [hlen1]; omega) (by simp only [hlen1]; exact hlt)
    have hdec2 : dec = (done ++ [e]) ++ es := by rw [hdec]; simp
    obtain ⟨b, t, s, nrm, h3⟩ := ih (done ++ [e])
      { entry_offset := entries_size ext.sizes (done ++ [e]), binormal := b2, tangent := t2,
        sign := s2, normal := nrm1,
        rigid_joint_index :=
          if last_index (has_usage "Binormal") dec = some done.length
              ∧ adds_rigid_bones dec is_rigid = true then
            ext.map_bone (le_value (((remap_from ext dec done.length [e]
              (vo + entries_size ext.sizes done) v.data).drop
                (vo + entries_size ext.sizes done + 3)).take 1)) % 2 ^ 16
          else v.rigid_joint_index,
        output := v.output ++ entry_cells ext dec done.length e
          ((v.data.drop (vo + entries_size ext.sizes done)).take (e.size ext.sizes)),
        data := remap_from ext dec done.length [e] (vo + entries_size ext.sizes done) v.data }
      hdec2 rfl (by simp only [hlen1]; exact hfit) (by simp only [hlen1]; exact hlt)
    refine ⟨b, t, s, nrm, ?_⟩
    have hu2 : u32 (v.entry_offset + e.size ext.sizes) = entries_size ext.sizes (done ++ [e]) := by
      rw [heo, entries_size_append, entries_size_single]
      apply u32_of_lt; omega
    have hsz2 : entries_size ext.sizes (done ++ [e])
        = entries_size ext.sizes done + e.size ext.sizes := by
      rw [entries_size_append, entries_size_single]
    have hdrop : (remap_from ext dec done.length [e] (vo + entries_size ext.sizes done)
        v.data).drop (vo + entries_size ext.sizes (done ++ [e]))
        = (v.data.drop (vo + entries_size ext.sizes done)).drop (e.size ext.sizes) := by
      rw [remap_from_drop ext dec [e] _ _ _ _
        (by rw [entries_size_single]; omega)
        (by rw [entries_size_single, hsz2]; omega),
        List.drop_drop, hsz2]
      congr 1
      omega
    have hrig : (if last_index (has_usage "Binormal") dec = some done.length
              ∧ adds_rigid_bones dec is_rigid = true then
            ext.map_bone (le_value (((remap_from ext dec done.length [e]
              (vo + entries_size ext.sizes done) v.data).drop
                (vo + entries_size ext.sizes done + 3)).take 1)) % 2 ^ 16
          else v.rigid_joint_index)
        = (if last_index (has_usage "Binormal") dec = some done.length
              ∧ adds_rigid_bones dec is_rigid = true then
            ext.map_bone (le_value (((v.data.drop (vo + entries_size ext.sizes done)).drop
                3).take 1)) % 2 ^ 16
          else v.rigid_joint_index) := by
      by_cases hB : last_index (has_usage "Binormal") dec = some done.length
          ∧ adds_rigid_bones dec is_rigid = true
      · rw [if_pos hB, if_pos hB,
          remap_from_single_ne ext dec _ e _ _
            (last_index_usage_ne dec _ "Binormal" "BlendIndices" (by decide) hB.1),
          List.drop_drop]
      · rw [if_neg hB, if_neg hB]
    simp only [List.map_cons, entry_loop, hpos, h1, bind, Except.bind, h2, hu2]
    simp only [List.length_append, List.length_singleton] at h3
    rw [h3, hdrop, hrig]
    simp only [rigid_from, cells_from, remap_from, List.append_assoc, hsz2, Nat.add_assoc]
theorem last_index_lt (P : Entry → Bool) (l : List Entry) (k : Nat)
    (h : last_index P l = some k) : k < l.length := by
  obtain ⟨e, he, _⟩ := last_index_some P l k h
  rw [List.get?_eq_getElem?] at he
  exact (List.getElem?_eq_some.1 he).1

theorem rigid_from_eq (ext : Externals) (dec : List Entry) (is_rigid : Bool) (B : Bytes) :
    ∀ (rest done : List Entry) (j : Nat), dec = done ++ rest →
      rigid_from ext dec is_rigid done.length rest (B.drop (entries_size ext.sizes done)) j
        = match last_index (has_usage "Binormal") dec with
          | some i =>
            if done.length ≤ i ∧ adds_rigid_bones dec is_rigid = true then
              ext.map_bone
                (le_value ((B.drop (entries_size ext.sizes (dec.take i) + 3)).take 1)) % 2 ^ 16
            else j
          | none => j := by
  intro rest
  induction rest with
  | nil =>
    intro done j hdec
    rw [List.append_nil] at hdec
    subst hdec
    simp only [rigid_from]
    cases hl : last_index (has_usage "Binormal") dec with
    | none => rfl
    | some i =>
      have := last_index_lt _ _ _ hl
      simp only
      rw [if_neg (by omega)]
  | cons e es ih =>
    intro done j hdec
    have hdec2 : dec = (done ++ [e]) ++ es := by rw [hdec]; simp
    have hsz2 : entries_size ext.sizes (done ++ [e])
        = entries_size ext.sizes done + e.size ext.sizes := by
      rw [entries_size_append, entries_size_single]
    have htake : dec.take done.length = done := by
      rw [hdec]; simp
    have h := ih (done ++ [e])
      (if last_index (has_usage "Binormal") dec = some done.length
          ∧ adds_rigid_bones dec is_rigid = true then
        ext.map_bone (le_value ((B.drop (entries_size ext.sizes done + 3)).take 1)) % 2 ^ 16
      else j) hdec2
    simp only [List.length_append, List.length_singleton, hsz2] at h
    simp only [rigid_from, List.drop_drop]
    rw [h]
    cases hl : last_index (has_usage "Binormal") dec with
    | none => simp
    | some i =>
      simp only [Option.some.injEq]
      by_cases ha : adds_rigid_bones dec is_rigid = true
      · by_cases h1 : done.length + 1 ≤ i
        · rw [if_pos ⟨h1, ha⟩, if_pos ⟨by omega, ha⟩]
        · by_cases h2 : i = done.length
          · subst h2
            rw [if_neg (by omega), if_pos ⟨rfl, ha⟩, if_pos ⟨le_refl _, ha⟩, htake]
          · rw [if_neg (by omega), if_neg (by omega), if_neg (by omega)]
      · simp only [ha, and_false, if_false]
        all_goals simp

theorem rigid_from_joint (ext : Externals) (dec : List Entry) (is_rigid : Bool) (B : Bytes) :
    rigid_from ext dec is_rigid 0 dec B 0 = rigid_joint ext dec is_rigid B := by
  have h := rigid_from_eq ext dec is_rigid B dec [] 0 rfl
  simp only [List.length_nil, entries_size, List.map_nil, List.sum_nil, List.drop_zero,
    Nat.zero_le, true_and] at h
  rw [h]
  rfl

theorem expand_vertex_spec (ext : Externals) (layout : Layout) (dec : List Entry) (base : Nat)
    (l : Layout) (is_rigid : Bool) (stride : Nat)
    (hext : ∀ t a b d w, ∃ r, ext.load_vector t a b d w = .ok r)
    (hmin : ∀ e ∈ dec, 4 ≤ e.size ext.sizes)
    (hconv4 : ∀ e ∈ dec, needs_conversion e.type = true → e.size ext.sizes = 4)
    (hw4 : ∀ e ∈ dec, is_packed "BlendWeight" e = true → e.size ext.sizes = 4)
    (vo : Nat) (out : List Cell) (data : Bytes)
    (hfit : vo + entries_size ext.sizes dec ≤ data.length) (hlt : data.length < 2 ^ 32) :
    ∃ nrm, expand_vertex ext (plan_of ext.sizes layout dec base l is_rigid stride) vo out data
      = .ok (out ++ vertex_cells ext dec is_rigid nrm (data.drop vo),
          remap_from ext dec 0 dec vo data) := by
  obtain ⟨b, t, s, nrm, h⟩ := entry_loop_spec ext layout dec base l is_rigid stride hext hmin
    hconv4 hw4 vo dec [] (Vertex.init out data) rfl rfl hfit hlt
  have hoff : (plan_of ext.sizes layout dec base l is_rigid stride).scan.offsets
      = dec.map fun e => (e.size ext.sizes, needs_conversion e.type) := rfl
  have hes : entries_size ext.sizes [] = 0 := rfl
  simp only [List.length_nil, hes, Nat.add_zero] at h
  refine ⟨calculate_normal ext.normalize b t s, ?_⟩
  unfold expand_vertex
  rw [hoff, h]
  simp only [bind, Except.bind, pure, Except.pure, Vertex.init, rigid_from_joint]
  have hcn : (plan_of ext.sizes layout dec base l is_rigid stride).calculate_normals
      = calculates_normals dec := rfl
  have har : (plan_of ext.sizes layout dec base l is_rigid stride).add_rigid_bones
      = adds_rigid_bones dec is_rigid := rfl
  rw [hcn, har]
  unfold vertex_cells rigid_cells
  by_cases h1 : calculates_normals dec = true <;>
    by_cases h2 : adds_rigid_bones dec is_rigid = true <;>
    simp [h1, h2]
theorem vertex_loop_spec (ext : Externals) (layout : Layout) (dec : List Entry) (base : Nat)
    (l : Layout) (is_rigid : Bool) (bpv : Nat)
    (hext : ∀ t a b d w, ∃ r, ext.load_vector t a b d w = .ok r)
    (hmin : ∀ e ∈ dec, 4 ≤ e.size ext.sizes)
    (hconv4 : ∀ e ∈ dec, needs_conversion e.type = true → e.size ext.sizes = 4)
    (hw4 : ∀ e ∈ dec, is_packed "BlendWeight" e = true → e.size ext.sizes = 4)
    (hfit : entries_size ext.sizes dec ≤ bpv) (hbpv : 0 < bpv) :
    ∀ (m fuel i : Nat) (out : List Cell) (d : Bytes), m ≤ fuel → d.length = (i + m) * bpv →
      d.length + bpv ≤ 2 ^ 32 →
      ∃ normals : List Vec3, normals.length = m ∧
        vertex_loop ext (plan_of ext.sizes layout dec base l is_rigid bpv) fuel (i * bpv) out d
          = .ok (out ++ stream_cells ext dec is_rigid bpv normals (d.drop (i * bpv)),
              remap_stream ext dec bpv m (i * bpv) d) := by
  intro m
  induction m with
  | zero =>
    intro fuel i out d _ hd _
    refine ⟨[], rfl, ?_⟩
    have hn : ¬ (i * bpv < d.length) := by rw [hd]; simp
    cases fuel <;> simp [vertex_loop, hn, stream_cells, remap_stream]
  | succ m ih =>
    intro fuel i out d hf hd hlen
    obtain ⟨f, rfl⟩ : ∃ f, fuel = f + 1 := ⟨fuel - 1, by omega⟩
    have h32 : (2 : Nat) ^ 32 = 4294967296 := by norm_num
    have hexp : (i + (m + 1)) * bpv = i * bpv + bpv + m * bpv := by ring
    have hlt : i * bpv < d.length := by rw [hd, hexp]; omega
    have hvfit : i * bpv + entries_size ext.sizes dec ≤ d.length := by rw [hd, hexp]; omega
    obtain ⟨nrm, hv⟩ := expand_vertex_spec ext layout dec base l is_rigid bpv hext hmin hconv4
      hw4 (i * bpv) out d hvfit (by omega)
    have hlen1 : (remap_from ext dec 0 dec (i * bpv) d).length = d.length :=
      remap_from_length ext dec dec 0 _ d hvfit
    have hnext : (i + 1) * bpv = i * bpv + bpv := by ring
    obtain ⟨normals, hnl, hrec⟩ := ih f (i + 1)
      (out ++ vertex_cells ext dec is_rigid nrm (d.drop (i * bpv)))
      (remap_from ext dec 0 dec (i * bpv) d) (by omega)
      (by rw [hlen1, hd]; ring) (by rw [hlen1]; exact hlen)
    refine ⟨nrm :: normals, by simp [hnl], ?_⟩
    have hstr : (plan_of ext.sizes layout dec base l is_rigid bpv).stride = bpv := rfl
    have hu : u32 (i * bpv + bpv) = (i + 1) * bpv := by
      rw [hnext]; apply u32_of_lt; omega
    have hdrop : (remap_from ext dec 0 dec (i * bpv) d).drop ((i + 1) * bpv)
        = (d.drop (i * bpv)).drop bpv := by
      rw [remap_from_drop ext dec dec 0 _ d _ hvfit (by rw [hnext]; omega), List.drop_drop,
        hnext]
    rw [hnext] at hrec hdrop hu
    simp only [vertex_loop, hlt, if_true, hv, bind, Except.bind, hstr, hu, hrec, hdrop,
      stream_cells, remap_stream, List.append_assoc]
theorem type_at_recorded (l : Layout) (lower dec rest : List Entry) (P : Entry → Bool)
    (hent : l.entries = lower ++ dec.map Entry.rewritten ++ rest) :
    type_at l (recorded lower.length (-1) (last_index P dec))
      = .ok (match last_index P dec with
        | some k => ((dec.get? k).map rewritten_type).getD ""
        | none => "") := by
  cases hl : last_index P dec with
  | none => simp [type_at, recorded]
  | some k =>
    obtain ⟨e, he, _⟩ := last_index_some P dec k hl
    have hk := last_index_lt P dec k hl
    have hne : ((lower.length + k : Nat) : Int) ≠ -1 := by omega
    have hget : l.entries.get? (lower.length + k) = some e.rewritten := by
      rw [hent, List.append_assoc, List.get?_eq_getElem?,
        List.getElem?_append_right (Nat.le_add_right _ _), Nat.add_sub_cancel_left,
        List.getElem?_append_left (by simpa using hk), List.getElem?_map,
        ← List.get?_eq_getElem?, he]
      rfl
    simp only [type_at, recorded, hne, ne_eq, not_false_eq_true, if_true, Int.toNat_ofNat,
      hget, he, Option.map_some', Option.getD_some]
    rfl

theorem converts_nonempty (dec : List Entry) (is_rigid : Bool)
    (h : converts dec is_rigid = true) : dec ≠ [] := by
  intro hnil
  subst hnil
  revert h
  cases is_rigid <;> decide

theorem expand_ordered (ext : Externals) (layout : Layout) (data : Bytes) (stream : Nat)
    (is_rigid : Bool) (bpv declared n : Nat) (lower dec skipped higher : List Entry)
    (hext : ∀ t a b d w, ∃ r, ext.load_vector t a b d w = .ok r)
    (hord : Ordered ext.sizes layout stream bpv lower dec skipped higher)
    (hd : layout.size_at stream = .ok declared) (hle : bpv ≤ declared)
    (hadj : declared + entries_adjustment dec + 32 < 2 ^ 32)
    (hsk : entries_size ext.sizes skipped ≤ declared + entries_adjustment dec)
    (hmin : ∀ e ∈ dec, 4 ≤ e.size ext.sizes)
    (hconv4 : ∀ e ∈ dec, needs_conversion e.type = true → e.size ext.sizes = 4)
    (hw4 : ∀ e ∈ dec, is_packed "BlendWeight" e = true → e.size ext.sizes = 4)
    (hfit : entries_size ext.sizes dec ≤ bpv)
    (hconv : converts dec is_rigid = true)
    (hn : data.length = n * bpv) (hlen : data.length + bpv ≤ 2 ^ 32)
    (fuel : Nat) (hfuel : n ≤ fuel) :
    ∃ (l : Layout) (normals : List Vec3), normals.length = n ∧
      expand_vertex_stream ext fuel layout data stream is_rigid bpv
        = .ok { output := stream_cells ext dec is_rigid bpv normals data, layout := l,
                data := remap_stream ext dec bpv n 0 data } ∧
      l.size_at stream
        = .ok (declared + entries_adjustment dec - entries_size ext.sizes skipped
            + appended_size dec is_rigid) ∧
      l.entries = lower ++ dec.map Entry.rewritten ++ skipped ++ higher
        ++ appended_entries dec stream is_rigid := by
  have h32 : (2 : Nat) ^ 32 = 4294967296 := by norm_num
  have hbpv : 0 < bpv := by
    have hne := converts_nonempty dec is_rigid hconv
    have := hord.starts_below 0 (List.length_pos.2 hne)
    omega
  obtain ⟨l, hs, hsz, hent⟩ := scan_ordered ext.sizes layout stream bpv declared lower dec
    skipped higher hord hd (by omega) hsk
  obtain ⟨normals, hnl, hloop⟩ := vertex_loop_spec ext layout dec lower.length l is_rigid bpv
    hext hmin hconv4 hw4 hfit hbpv n fuel 0 [] data hfuel (by rw [hn]; ring) hlen
  simp only [Nat.zero_mul, List.drop_zero, List.nil_append] at hloop
  have hstride : effective_stride declared bpv = .ok bpv := by
    unfold effective_stride
    rw [if_neg (by omega)]
    by_cases h : bpv < declared
    · rw [if_pos h]
    · rw [if_neg h]
      congr 1
      omega
  have hb : type_at l
      (scan_result ext.sizes layout dec lower.length l).binormal_index
      = .ok (binormal_type_of dec) :=
    type_at_recorded l lower dec (skipped ++ higher) (has_usage "Binormal")
      (by rw [hent]; simp)
  have ht : type_at l
      (scan_result ext.sizes layout dec lower.length l).tangent_index
      = .ok (tangent_type_of dec) :=
    type_at_recorded l lower dec (skipped ++ higher) (has_usage "Tangent")
      (by rw [hent]; simp)
  have hcalc : (!(scan_result ext.sizes layout dec lower.length l).has_normals
      && decide ((scan_result ext.sizes layout dec lower.length l).binormal_index ≠ -1)
      && decide ((scan_result ext.sizes layout dec lower.length l).tangent_index ≠ -1))
      = calculates_normals dec := by
    have e1 : (scan_result ext.sizes layout dec lower.length l).has_normals
        = dec.any (has_usage "Normal") := by
      simp [scan_result, Scan.decoded, Scan.init]
    have e2 : (scan_result ext.sizes layout dec lower.length l).binormal_index
        = recorded lower.length (-1) (last_index (has_usage "Binormal") dec) := rfl
    have e3 : (scan_result ext.sizes layout dec lower.length l).tangent_index
        = recorded lower.length (-1) (last_index (has_usage "Tangent") dec) := rfl
    rw [e1, e2, e3, recorded_ne, recorded_ne]
    rfl
  have hcond : (!(scan_result ext.sizes layout dec lower.length l).conversion_required
      && !calculates_normals dec
      && !adds_rigid_bones dec is_rigid
      && !(scan_result ext.sizes layout dec lower.length l).bone_remapping
      && !(scan_result ext.sizes layout dec lower.length l).weight_conversion
      && !(scan_result ext.sizes layout dec lower.length l).expand_normals) = false := by
    have e : (!(scan_result ext.sizes layout dec lower.length l).conversion_required
      && !calculates_normals dec
      && !adds_rigid_bones dec is_rigid
      && !(scan_result ext.sizes layout dec lower.length l).bone_remapping
      && !(scan_result ext.sizes layout dec lower.length l).weight_conversion
      && !(scan_result ext.sizes layout dec lower.length l).expand_normals)
        = !converts dec is_rigid := by
      simp [scan_result, Scan.decoded, Scan.init, converts, adds_rigid_bones]
    rw [e, hconv]
    rfl
  have hlay : (scan_result ext.sizes layout dec lower.length l).layout = l := rfl
  have hplan : Plan.mk (scan_result ext.sizes layout dec lower.length l)
      (binormal_type_of dec) (tangent_type_of dec) (calculates_normals dec)
      (adds_rigid_bones dec is_rigid) is_rigid bpv
      = plan_of ext.sizes layout dec lower.length l is_rigid bpv := rfl
  have hadds : (is_rigid && decide (binormal_type_of dec = "ubyte4n"))
      = adds_rigid_bones dec is_rigid := rfl
  unfold expand_vertex_stream
  simp only [hd, hstride, bind, Except.bind]
  unfold transcode
  simp only [hs, hb, ht, bind, Except.bind, hcalc, hcond, Bool.false_eq_true, if_false, hlay,
    hplan, hloop, hadds]
  have hcur : declared + entries_adjustment dec - entries_size ext.sizes skipped + 32
      < 2 ^ 32 := by omega
  by_cases h1 : calculates_normals dec = true
  · have g1 := grow_eq l stream 12 _ hsz
    have s1 := size_at_set_size l stream
      (u32 (declared + entries_adjustment dec - entries_size ext.sizes skipped + 12)) _ hsz
    rw [u32_of_lt (by omega), u32_of_lt (by omega)] at s1
    rw [u32_of_lt (by omega)] at g1
    by_cases h2 : adds_rigid_bones dec is_rigid = true
    · have s1' : ({ (l.set_size stream
          (declared + entries_adjustment dec - entries_size ext.sizes skipped + 12)) with
          entries := (l.set_size stream
            (declared + entries_adjustment dec - entries_size ext.sizes skipped + 12)).entries
              ++ [appended_entry stream "Float3" "Normal"] } : Layout).size_at stream
          = .ok (declared + entries_adjustment dec - entries_size ext.sizes skipped + 12) := s1
      have g2 := grow_eq _ stream 20 _ s1'
      have s2 := size_at_set_size _ stream
        (u32 (declared + entries_adjustment dec - entries_size ext.sizes skipped + 12 + 20)) _ s1'
      rw [u32_of_lt (by omega), u32_of_lt (by omega)] at s2
      rw [u32_of_lt (by omega)] at g2
      simp only [h1, h2, if_true, g1, g2, pure, Except.pure]
      refine ⟨_, normals, hnl, rfl, ?_, ?_⟩
      · simp only [appended_size, h1, h2, if_true]
        exact s2
      · simp only [appended_entries, h1, h2, if_true]
        show (l.entries ++ _) ++ _ = _
        rw [hent]
        simp
    · simp only [h1, h2, if_true, if_false, Bool.false_eq_true, g1, pure, Except.pure]
      refine ⟨_, normals, hnl, rfl, ?_, ?_⟩
      · simp only [appended_size, h1, h2, if_true, if_false, Bool.false_eq_true]
        exact s1
      · simp only [appended_entries, h1, h2, if_true, if_false, Bool.false_eq_true]
        show l.entries ++ _ = _
        rw [hent]
        simp
  · by_cases h2 : adds_rigid_bones dec is_rigid = true
    · have g2 := grow_eq l stream 20 _ hsz
      have s2 := size_at_set_size l stream
        (u32 (declared + entries_adjustment dec - entries_size ext.sizes skipped + 20)) _ hsz
      rw [u32_of_lt (by omega), u32_of_lt (by omega)] at s2
      rw [u32_of_lt (by omega)] at g2
      simp only [h1, h2, if_true, if_false, Bool.false_eq_true, g2, pure, Except.pure]
      refine ⟨_, normals, hnl, rfl, ?_, ?_⟩
      · simp only [appended_size, h1, h2, if_true, if_false, Bool.false_eq_true]
        simpa using s2
      · simp only [appended_entries, h1, h2, if_true, if_false, Bool.false_eq_true]
        show l.entries ++ _ = _
        rw [hent]
        simp
    · simp only [h1, h2, if_false, Bool.false_eq_true, pure, Except.pure]
      refine ⟨l, normals, hnl, rfl, ?_, ?_⟩
      · simp only [appended_size, h1, h2, if_false, Bool.false_eq_true]
        simpa using hsz
      · simp only [appended_entries, h1, h2, if_false, Bool.false_eq_true]
        rw [hent]
        simp
/-- The conversion path of `expand_vertex_stream` on a layout ordered by stream: with
enough iterations the call returns the cells of every vertex, the buffer with the remapped
bone indices, and the layout with the rewritten entries and the adjusted size. -/
theorem expand_transcodes {ext : Externals} {layout : Layout} {data : Bytes} {stream : Nat}
    {is_rigid : Bool} {bpv declared n : Nat} {lower dec skipped higher : List Entry}
    (h : Transcodes ext layout data stream is_rigid bpv declared n lower dec skipped higher)
    (fuel : Nat) (hfuel : n ≤ fuel) :
    ∃ (l : Layout) (normals : List Vec3), normals.length = n ∧
      expand_vertex_stream ext fuel layout data stream is_rigid bpv
        = .ok { output := stream_cells ext dec is_rigid bpv normals data, layout := l,
                data := remap_stream ext dec bpv n 0 data } ∧
      l.size_at stream
        = .ok (declared + entries_adjustment dec - entries_size ext.sizes skipped
            + appended_size dec is_rigid) ∧
      l.entries = lower ++ dec.map Entry.rewritten ++ skipped ++ higher
        ++ appended_entries dec stream is_rigid :=
  expand_ordered ext layout data stream is_rigid bpv declared n lower dec skipped higher
    h.load_ok h.ordered h.declared_size h.stride_le h.size_fits h.skipped_le h.min_size
    h.half_size
    (fun e he hp => h.packed_size e he (by
      simp only [is_packed, decide_eq_true_eq] at hp
      exact hp.2))
    h.within_stride h.conversion h.vertices h.no_wrap fuel hfuel

theorem cells_from_append (ext : Externals) (dec : List Entry) :
    ∀ (a b : List Entry) (k : Nat) (bytes : Bytes),
      cells_from ext dec k (a ++ b) bytes
        = cells_from ext dec k a bytes
          ++ cells_from ext dec (k + a.length) b (bytes.drop (entries_size ext.sizes a)) := by
  intro a
  induction a with
  | nil => intro b k bytes; simp [cells_from, entries_size]
  | cons e es ih =>
    intro b k bytes
    have hcons : cells_from ext dec k (e :: (es ++ b)) bytes
        = entry_cells ext dec k e (bytes.take (e.size ext.sizes))
          ++ cells_from ext dec (k + 1) (es ++ b) (bytes.drop (e.size ext.sizes)) := rfl
    have h1 : k + (es.length + 1) = k + 1 + es.length := by omega
    rw [List.cons_append, hcons, ih]
    simp only [cells_from, List.append_assoc, List.length_cons, entries_size_cons,
      List.drop_drop, h1]

theorem take_append_get_drop (l : List Entry) (k : Nat) (e : Entry) (h : l.get? k = some e) :
    l = l.take k ++ e :: l.drop (k + 1) := by
  induction l generalizing k with
  | nil => cases h
  | cons x xs ih =>
    cases k with
    | zero =>
      simp only [List.get?_cons_zero, Option.some.injEq] at h
      subst h
      simp
    | succ k =>
      simp only [List.get?_cons_succ] at h
      simp only [List.take_succ_cons, List.drop_succ_cons, List.cons_append, List.cons.injEq,
        true_and]
      exact ih k h

/-- The cells of a vertex, split at the decoded entry number `k`. -/
theorem cells_from_split (ext : Externals) (dec : List Entry) (k : Nat) (e : Entry)
    (h : dec.get? k = some e) (bytes : Bytes) :
    cells_from ext dec 0 dec bytes
      = cells_from ext dec 0 (dec.take k) bytes
        ++ entry_cells ext dec k e
            ((bytes.drop (entries_size ext.sizes (dec.take k))).take (e.size ext.sizes))
        ++ cells_from ext dec (k + 1) (dec.drop (k + 1))
            (bytes.drop (entries_size ext.sizes (dec.take k) + e.size ext.sizes)) := by
  have hk : k < dec.length := by
    rw [List.get?_eq_getElem?] at h
    exact (List.getElem?_eq_some.1 h).1
  have hlen : (dec.take k).length = k := by
    rw [List.length_take]; omega
  have hsplit := take_append_get_drop dec k e h
  have h1 := cells_from_append ext dec (dec.take k) (e :: dec.drop (k + 1)) 0 bytes
  rw [← hsplit] at h1
  rw [h1, hlen, Nat.zero_add]
  simp only [cells_from, List.append_assoc, List.drop_drop]

theorem last_index_none_iff (P : Entry → Bool) (l : List Entry) :
    last_index P l = none ↔ l.any P = false := by
  induction l with
  | nil => simp [last_index]
  | cons x xs ih =>
    unfold last_index
    cases hl : last_index P xs with
    | some k =>
      have : ¬ (xs.any P = false) := fun hc => by
        rw [ih.2 hc] at hl; cases hl
      simp only [List.any_cons, Bool.or_eq_false_iff]
      constructor
      · intro hh; cases hh
      · intro hh; exact absurd hh.2 this
    | none =>
      have hx := ih.1 hl
      simp only [List.any_cons, hx, Bool.or_false]
      by_cases hp : P x = true
      · simp [hp]
      · simp [hp]
theorem output_size_append (a b : List Cell) :
    output_size (a ++ b) = output_size a + output_size b := by
  simp [output_size]

theorem output_size_bytes (l : List Nat) (f : Nat → Nat) :
    output_size (l.map fun b => Cell.byte (f b)) = l.length := by
  induction l with
  | nil => rfl
  | cons x xs ih =>
    simp only [List.map_cons, List.length_cons]
    rw [← ih]
    simp [output_size, Cell.width]
    omega

theorem output_size_floats (l : List Nat) (f : Nat → ℚ) :
    output_size (l.map fun b => Cell.f32 (f b)) = 4 * l.length := by
  induction l with
  | nil => rfl
  | cons x xs ih =>
    simp only [List.map_cons, List.length_cons]
    have : output_size (Cell.f32 (f x) :: xs.map fun b => Cell.f32 (f b))
        = 4 + output_size (xs.map fun b => Cell.f32 (f b)) := by
      simp [output_size, Cell.width]
    rw [this, ih]
    omega

theorem last_index_unique (P : Entry → Bool) :
    ∀ (l : List Entry) (k : Nat) (e : Entry), l.get? k = some e → P e = true →
      (l.filter P).length ≤ 1 → last_index P l = some k := by
  intro l
  induction l with
  | nil => intro k e h; cases h
  | cons x xs ih =>
    intro k e h hp hone
    cases k with
    | zero =>
      simp only [List.get?_cons_zero, Option.some.injEq] at h
      subst h
      have hnil : xs.any P = false := by
        rw [List.filter_cons_of_pos hp, List.length_cons] at hone
        have h0 : (xs.filter P).length = 0 := by omega
        have h1 : xs.filter P = [] := List.length_eq_zero.1 h0
        rw [List.filter_eq_nil_iff] at h1
        rw [List.any_eq_false]
        exact h1
      unfold last_index
      rw [(last_index_none_iff P xs).2 hnil]
      simp [hp]
    | succ k =>
      simp only [List.get?_cons_succ] at h
      have hle : (xs.filter P).length ≤ 1 := by
        by_cases hx : P x = true
        · rw [List.filter_cons_of_pos hx, List.length_cons] at hone
          omega
        · rw [List.filter_cons_of_neg hx] at hone
          exact hone
      unfold last_index
      rw [ih k e h hp hle]

theorem entry_cells_size (ext : Externals) (dec : List Entry) (k : Nat) (e : Entry)
    (bytes : Bytes) (hget : dec.get? k = some e) (hlen : bytes.length = e.size ext.sizes)
    (hconv4 : needs_conversion e.type = true → e.size ext.sizes = 4)
    (hp4 : e.type = "ubyte4n" → e.size ext.sizes = 4)
    (hN : (dec.filter (has_usage "Normal")).length ≤ 1)
    (hW : (dec.filter (is_packed "BlendWeight")).length ≤ 1) :
    output_size (entry_cells ext dec k e bytes) = e.size ext.sizes + size_adjustment e := by
  unfold entry_cells size_adjustment
  by_cases hc : needs_conversion e.type = true
  · have hty : e.type ≠ "ubyte4n" := by
      intro h
      rw [h] at hc
      revert hc
      decide
    have h4 := hconv4 hc
    simp only [hc, if_true, hty, and_false, if_false, h4]
    rfl
  · have hc' : needs_conversion e.type = false := by simpa using hc
    simp only [hc', Bool.false_eq_true, if_false, Nat.zero_add]
    by_cases hn : dec.any (is_packed "Normal") = true
        ∧ last_index (has_usage "Normal") dec = some k
    · rw [if_pos hn]
      obtain ⟨e2, he2, hu2⟩ := last_index_some _ _ _ hn.2
      rw [hget] at he2
      cases he2
      obtain ⟨p, hpm, hpp⟩ := List.any_eq_true.1 hn.1
      obtain ⟨kp, hkp⟩ := List.mem_iff_get?.1 hpm
      have hpu : has_usage "Normal" p = true := by
        simp only [is_packed, has_usage, decide_eq_true_eq] at hpp ⊢
        exact hpp.1
      have hlast := last_index_unique (has_usage "Normal") dec kp p hkp hpu hN
      rw [hn.2] at hlast
      cases hlast
      rw [hget] at hkp
      cases hkp
      simp only [is_packed, decide_eq_true_eq] at hpp
      have h4 := hp4 hpp.2
      have hnb : ¬ (e.usage = "BlendWeight" ∧ e.type = "ubyte4n") := by
        rw [hpp.1]; intro h; exact absurd h.1 (by decide)
      simp only [hpp, and_self, if_true, hnb, if_false, h4]
      rfl
    · rw [if_neg hn]
      have hnn : ¬ (e.usage = "Normal" ∧ e.type = "ubyte4n") := by
        intro h
        apply hn
        have hpu : has_usage "Normal" e = true := by
          simp only [has_usage, decide_eq_true_eq]; exact h.1
        refine ⟨List.any_eq_true.2 ⟨e, List.mem_iff_get?.2 ⟨k, hget⟩, ?_⟩,
          last_index_unique (has_usage "Normal") dec k e hget hpu hN⟩
        simp only [is_packed, decide_eq_true_eq]
        exact h
      simp only [hnn, if_false, Nat.zero_add]
      by_cases hw : last_index (is_packed "BlendWeight") dec = some k
      · obtain ⟨e2, he2, hu2⟩ := last_index_some _ _ _ hw
        rw [hget] at he2
        cases he2
        simp only [is_packed, decide_eq_true_eq] at hu2
        have h4 := hp4 hu2.2
        simp only [hw, if_true, hu2, and_self, h4]
        by_cases hb : last_index (has_usage "BlendIndices") dec = some k
        · simp only [hb, if_true]
          rw [output_size_floats, List.length_map, hlen, h4]
        · simp only [hb, if_false]
          rw [output_size_floats, hlen, h4]
      · have hnw : ¬ (e.usage = "BlendWeight" ∧ e.type = "ubyte4n") := by
          intro h
          apply hw
          exact last_index_unique (is_packed "BlendWeight") dec k e hget
            (by simp only [is_packed, decide_eq_true_eq]; exact h) hW
        simp only [hw, if_false, hnw, Nat.add_zero]
        by_cases hb : last_index (has_usage "BlendIndices") dec = some k
        · simp only [hb, if_true]
          rw [output_size_bytes, List.length_map, hlen]
        · simp only [hb, if_false]
          rw [output_size_bytes, hlen]
theorem cells_from_size (ext : Externals) (dec : List Entry)
    (hconv4 : ∀ e ∈ dec, needs_conversion e.type = true → e.size ext.sizes = 4)
    (hp4 : ∀ e ∈ dec, e.type = "ubyte4n" → e.size ext.sizes = 4)
    (hN : (dec.filter (has_usage "Normal")).length ≤ 1)
    (hW : (dec.filter (is_packed "BlendWeight")).length ≤ 1) :
    ∀ (rest done : List Entry) (bytes : Bytes), dec = done ++ rest →
      entries_size ext.sizes rest ≤ bytes.length →
      output_size (cells_from ext dec done.length rest bytes)
        = entries_size ext.sizes rest + entries_adjustment rest := by
  intro rest
  induction rest with
  | nil => intro done bytes _ _; rfl
  | cons e es ih =>
    intro done bytes hdec hlen
    rw [entries_size_cons] at hlen
    have hmem : e ∈ dec := by rw [hdec]; simp
    have hget : dec.get? done.length = some e := by
      rw [hdec, List.get?_eq_getElem?, List.getElem?_append_right (le_refl _)]
      simp
    have h1 := entry_cells_size ext dec done.length e (bytes.take (e.size ext.sizes)) hget
      (by rw [List.length_take]; omega) (hconv4 e hmem) (hp4 e hmem) hN hW
    have h2 := ih (done ++ [e]) (bytes.drop (e.size ext.sizes)) (by rw [hdec]; simp)
      (by rw [List.length_drop]; omega)
    simp only [List.length_append, List.length_singleton] at h2
    simp only [cells_from, output_size_append, h1, h2, entries_size_cons,
      entries_adjustment_cons]
    omega

theorem vertex_cells_size (ext : Externals) (dec : List Entry) (is_rigid : Bool)
    (hconv4 : ∀ e ∈ dec, needs_conversion e.type = true → e.size ext.sizes = 4)
    (hp4 : ∀ e ∈ dec, e.type = "ubyte4n" → e.size ext.sizes = 4)
    (hN : (dec.filter (has_usage "Normal")).length ≤ 1)
    (hW : (dec.filter (is_packed "BlendWeight")).length ≤ 1)
    (nrm : Vec3) (bytes : Bytes) (hlen : entries_size ext.sizes dec ≤ bytes.length) :
    output_size (vertex_cells ext dec is_rigid nrm bytes)
      = entries_size ext.sizes dec + entries_adjustment dec + appended_size dec is_rigid := by
  have h := cells_from_size ext dec hconv4 hp4 hN hW dec [] bytes rfl hlen
  simp only [List.length_nil] at h
  unfold vertex_cells appended_size
  rw [output_size_append, output_size_append, h]
  by_cases h1 : calculates_normals dec = true <;>
    by_cases h2 : adds_rigid_bones dec is_rigid = true <;>
    simp [h1, h2, output_size, Cell.width, Vec3.cells, rigid_cells]

theorem stream_cells_size (ext : Externals) (dec : List Entry) (is_rigid : Bool) (bpv : Nat)
    (hconv4 : ∀ e ∈ dec, needs_conversion e.type = true → e.size ext.sizes = 4)
    (hp4 : ∀ e ∈ dec, e.type = "ubyte4n" → e.size ext.sizes = 4)
    (hN : (dec.filter (has_usage "Normal")).length ≤ 1)
    (hW : (dec.filter (is_packed "BlendWeight")).length ≤ 1)
    (hfit : entries_size ext.sizes dec ≤ bpv) :
    ∀ (normals : List Vec3) (bytes : Bytes), bytes.length = normals.length * bpv →
      output_size (stream_cells ext dec is_rigid bpv normals bytes)
        = normals.length
          * (entries_size ext.sizes dec + entries_adjustment dec + appended_size dec is_rigid) := by
  intro normals
  induction normals with
  | nil => intro bytes _; simp [stream_cells, output_size]
  | cons nrm rest ih =>
    intro bytes hlen
    rw [List.length_cons] at hlen
    have hexp : (rest.length + 1) * bpv = rest.length * bpv + bpv := by ring
    have h1 := vertex_cells_size ext dec is_rigid hconv4 hp4 hN hW nrm bytes
      (by rw [hlen, hexp]; omega)
    have h2 := ih (bytes.drop bpv) (by rw [List.length_drop, hlen, hexp]; omega)
    simp only [stream_cells, output_size_append, h1, h2, List.length_cons]
    ring
theorem last_index_holds (P : Entry → Bool) (dec : List Entry) (k : Nat) (e : Entry)
    (hk : last_index P dec = some k) (he : dec.get? k = some e) : P e = true := by
  obtain ⟨e2, he2, hp⟩ := last_index_some P dec k hk
  rw [he] at he2
  cases he2
  exact hp

/-- An entry that is not a half-float entry, not a `Normal` entry, not the last
`BlendIndices` entry and not a `BlendWeight` entry is copied byte by byte. -/
theorem entry_cells_copy (ext : Externals) (dec : List Entry) (k : Nat) (e : Entry)
    (bytes : Bytes) (he : dec.get? k = some e) (hty : needs_conversion e.type = false)
    (hn : e.usage ≠ "Normal") (hb : last_index (has_usage "BlendIndices") dec ≠ some k)
    (hw : e.usage ≠ "BlendWeight") :
    entry_cells ext dec k e bytes = bytes.map fun b => Cell.byte (b % 256) := by
  have h1 : last_index (has_usage "Normal") dec ≠ some k := by
    intro h
    have := last_index_holds _ dec k e h he
    simp only [has_usage, decide_eq_true_eq] at this
    exact hn this
  have h2 : last_index (is_packed "BlendWeight") dec ≠ some k := by
    intro h
    have := last_index_holds _ dec k e h he
    simp only [is_packed, decide_eq_true_eq] at this
    exact hw this.1
  simp only [entry_cells, hty, Bool.false_eq_true, if_false, h1, and_false, hb, h2]

/-- The bytes of the last `BlendWeight` entry of type `ubyte4n` are emitted as the floats
`b / 255.0f`. -/
theorem entry_cells_weights (ext : Externals) (dec : List Entry) (k : Nat) (e : Entry)
    (bytes : Bytes) (hk : last_index (is_packed "BlendWeight") dec = some k)
    (he : dec.get? k = some e) :
    entry_cells ext dec k e bytes = bytes.map fun b => Cell.f32 (f32_div (b % 256) 255) := by
  have hu := last_index_holds _ dec k e hk he
  simp only [is_packed, decide_eq_true_eq] at hu
  have hty : needs_conversion e.type = false := by
    rw [hu.2]; decide
  have h1 : last_index (has_usage "Normal") dec ≠ some k := by
    intro h
    have := last_index_holds _ dec k e h he
    simp only [has_usage, decide_eq_true_eq] at this
    rw [hu.1] at this
    exact absurd this (by decide)
  have h2 : last_index (has_usage "BlendIndices") dec ≠ some k := by
    intro h
    have := last_index_holds _ dec k e h he
    simp only [has_usage, decide_eq_true_eq] at this
    rw [hu.1] at this
    exact absurd this (by decide)
  simp only [entry_cells, hty, Bool.false_eq_true, if_false, h1, and_false, h2, hk, if_true]

/-- The cells of a vertex around the decoded entry number `k`. -/
theorem vertex_cells_split (ext : Externals) (dec : List Entry) (is_rigid : Bool) (k : Nat)
    (e : Entry) (he : dec.get? k = some e) (nrm : Vec3) (bytes : Bytes) :
    ∃ post, vertex_cells ext dec is_rigid nrm bytes
      = cells_from ext dec 0 (dec.take k) bytes
        ++ entry_cells ext dec k e
            ((bytes.drop (entries_size ext.sizes (dec.take k))).take (e.size ext.sizes))
        ++ post := by
  unfold vertex_cells
  rw [cells_from_split ext dec k e he bytes]
  refine ⟨cells_from ext dec (k + 1) (dec.drop (k + 1))
      (bytes.drop (entries_size ext.sizes (dec.take k) + e.size ext.sizes))
    ++ (if calculates_normals dec then nrm.cells else [])
    ++ (if adds_rigid_bones dec is_rigid then rigid_cells (rigid_joint ext dec is_rigid bytes)
        else []), ?_⟩
  simp only [List.append_assoc]
/-- C12 (amended): rigid-mesh bone synthesis.  For a rigid mesh and a layout ordered by
stream, when the last `Binormal` entry decoded on the stream is the decoded entry number
`k` and has the type `ubyte4n`, `expand_vertex_stream` returns, the cells of every vertex
end with the four bytes `(j, 0, 0, 0)` and the four floats `(1, 0, 0, 0)`, where `j` is
`map_bone` of the fourth byte of the binormal of that vertex, modulo 256, and the layout
ends with the two entries appended for them. -/
theorem rigid_vertex_ends_with_synthesized_bones {ext : Externals} {layout : Layout}
    {data : Bytes} {stream : Nat} {bpv declared n : Nat}
    {lower dec skipped higher : List Entry}
    (h : Transcodes ext layout data stream true bpv declared n lower dec skipped higher)
    (k : Nat) (e : Entry)
    (hk : last_index (has_usage "Binormal") dec = some k) (he : dec.get? k = some e)
    (hty : e.type = "ubyte4n") (fuel : Nat) (hfuel : n ≤ fuel) :
    ∃ (r : Expanded) (normals : List Vec3),
      expand_vertex_stream ext fuel layout data stream true bpv = .ok r ∧
      normals.length = n ∧
      r.output = stream_cells ext dec true bpv normals data ∧
      (∀ nrm bytes, ∃ pre, vertex_cells ext dec true nrm bytes
        = pre ++ [.byte (ext.map_bone
              (le_value ((bytes.drop (entries_size ext.sizes (dec.take k) + 3)).take 1)) % 256),
            .byte 0, .byte 0, .byte 0, .f32 1, .f32 0, .f32 0, .f32 0]) ∧
      (∃ pre, r.layout.entries
        = pre ++ [appended_entry stream "D3dcolor" "BlendIndices",
            appended_entry stream "Float4" "BlendWeight"]) := by
  obtain ⟨l, normals, hnl, hrun, _, hent⟩ := expand_transcodes h fuel hfuel
  have hu := last_index_holds _ dec k e hk he
  simp only [has_usage, decide_eq_true_eq] at hu
  have hrt : rewritten_type e = "ubyte4n" := by
    unfold rewritten_type
    rw [hty, hu]
    decide
  have hbt : binormal_type_of dec = "ubyte4n" := by
    unfold binormal_type_of
    rw [hk]
    simp only [he, Option.map_some', Option.getD_some, hrt]
  have hadds : adds_rigid_bones dec true = true := by
    unfold adds_rigid_bones
    rw [hbt]
    decide
  refine ⟨_, normals, hrun, hnl, rfl, ?_, ?_⟩
  · intro nrm bytes
    refine ⟨cells_from ext dec 0 dec bytes
      ++ (if calculates_normals dec then nrm.cells else []), ?_⟩
    have hj : rigid_joint ext dec true bytes
        = ext.map_bone
          (le_value ((bytes.drop (entries_size ext.sizes (dec.take k) + 3)).take 1))
            % 2 ^ 16 := by
      unfold rigid_joint
      rw [hk]
      simp only [hadds, if_true]
    unfold vertex_cells
    simp only [hadds, if_true, rigid_cells, hj]
    rw [Nat.mod_mod_of_dvd _ (by norm_num : 256 ∣ 2 ^ 16)]
  · refine ⟨lower ++ dec.map Entry.rewritten ++ skipped ++ higher
      ++ (if calculates_normals dec then [appended_entry stream "Float3" "Normal"] else []),
      ?_⟩
    show l.entries = _
    rw [hent]
    unfold appended_entries
    simp only [hadds, if_true, List.append_assoc]

set_option maxRecDepth 100000 in
/-- C12, witness: a rigid mesh with Position(Float3), Tangent(ubyte4n),
Binormal(ubyte4n), one vertex; the binormal is the decoded entry number 2. -/
theorem rigid_vertex_ends_with_synthesized_bones_witness :
    ∃ (r : Expanded) (normals : List Vec3),
      expand_vertex_stream example_externals 1 rigid_layout twin_vertex 0 true 20 = .ok r ∧
      normals.length = 1 ∧
      r.output = stream_cells example_externals rigid_layout.entries true 20 normals
        twin_vertex ∧
      (∀ nrm bytes, ∃ pre, vertex_cells example_externals rigid_layout.entries true nrm bytes
        = pre ++ [.byte (example_externals.map_bone
              (le_value ((bytes.drop (entries_size example_externals.sizes
                (rigid_layout.entries.take 2) + 3)).take 1)) % 256),
            .byte 0, .byte 0, .byte 0, .f32 1, .f32 0, .f32 0, .f32 0]) ∧
      (∃ pre, r.layout.entries
        = pre ++ [appended_entry 0 "D3dcolor" "BlendIndices",
            appended_entry 0 "Float4" "BlendWeight"]) :=
  rigid_vertex_ends_with_synthesized_bones
    (⟨fun _ _ _ _ w => ⟨w, rfl⟩,
      ⟨by decide, by decide, by decide, by decide, by decide, by decide, by decide, by decide,
        by decide, by decide⟩,
      by decide, by decide, by decide, by decide, by decide, by decide, by decide, by decide,
      by decide, by decide, by decide⟩ :
      Transcodes example_externals rigid_layout twin_vertex 0 true 20 20 1 []
        rigid_layout.entries [] [])
    2 ⟨0, "ubyte4n", "Binormal", 0⟩ (by decide) (by decide) (by decide) 1 (by decide)

set_option maxRecDepth 100000 in
/-- Claim C12 fails as stated; the bone map of the evaluation adds one to the index.
(1) In a layout that is not ordered by stream, with the binormal bytes 1, 2, 3, 4, the
synthesised index bytes are (0, 0, 0, 0), not (5, 0, 0, 0).  (2) When the measured stride
of 12 bytes ends before the `Binormal` entry of a layout with the declared stride 16, the
entry is skipped and the 12 bytes of the vertex are returned as they are, without
synthesised bytes. -/
theorem rigid_joint_missing_without_decoded_binormal :
    (expand_vertex_stream example_externals 1 unordered_rigid_layout short_vertex 0 true
        16).map (fun r => (r.output.drop 12).take 8)
      = .ok [.byte 1, .byte 2, .byte 3, .byte 4, .byte 0, .byte 0, .byte 0, .byte 0]
    ∧ (expand_vertex_stream example_externals 1 short_rigid_layout position_vertex 0 true
        12).map (fun r => r.output)
      = .ok (position_vertex.map Cell.byte) := by
  refine ⟨by decide, by decide⟩
set_option maxRecDepth 1000000 in
theorem f32_weight_parts : ∀ c, c < 256 →
    (f32_div_parts c 255).1 ≤ 2 ^ (f32_div_parts c 255).2
    ∧ 255 * (f32_div_parts c 255).1 * 2 ^ 25
        ≤ c * 2 ^ (f32_div_parts c 255).2 * 2 ^ 25 + 255 * 2 ^ (f32_div_parts c 255).2
    ∧ c * 2 ^ (f32_div_parts c 255).2 * 2 ^ 25
        ≤ 255 * (f32_div_parts c 255).1 * 2 ^ 25 + 255 * 2 ^ (f32_div_parts c 255).2 := by
  decide

/-- A weight byte divided by `255.0f`: the result lies in `[0, 1]` and within `2 ^ -25` of
the exact quotient. -/
theorem f32_weight_bounds (c : Nat) (hc : c < 256) :
    0 ≤ f32_div c 255 ∧ f32_div c 255 ≤ 1
      ∧ |f32_div c 255 - (c : ℚ) / 255| ≤ 1 / 2 ^ 25 := by
  obtain ⟨h1, h2, h3⟩ := f32_weight_parts c hc
  unfold f32_div
  generalize (f32_div_parts c 255).1 = m at h1 h2 h3 ⊢
  generalize (f32_div_parts c 255).2 = k at h1 h2 h3 ⊢
  have hp : (0 : ℚ) < 2 ^ k := by positivity
  have h1q : (m : ℚ) ≤ 2 ^ k := by exact_mod_cast h1
  have h2q : (255 : ℚ) * m * 2 ^ 25 ≤ c * 2 ^ k * 2 ^ 25 + 255 * 2 ^ k := by exact_mod_cast h2
  have h3q : (c : ℚ) * 2 ^ k * 2 ^ 25 ≤ 255 * m * 2 ^ 25 + 255 * 2 ^ k := by exact_mod_cast h3
  refine ⟨by positivity, (div_le_one hp).2 h1q, ?_⟩
  have hD : (0 : ℚ) < 255 * 2 ^ k * 2 ^ 25 := by positivity
  have e1 : (c : ℚ) / 255 = (c * 2 ^ k * 2 ^ 25) / (255 * 2 ^ k * 2 ^ 25) := by
    field_simp
    ring
  have e2 : (m : ℚ) / 2 ^ k = (255 * m * 2 ^ 25) / (255 * 2 ^ k * 2 ^ 25) := by
    field_simp
    ring
  have e3 : (1 : ℚ) / 2 ^ 25 = (255 * 2 ^ k) / (255 * 2 ^ k * 2 ^ 25) := by
    field_simp
  have g1 : (c : ℚ) / 255 ≤ (m : ℚ) / 2 ^ k + 1 / 2 ^ 25 := by
    rw [e1, e2, e3, ← add_div]
    exact div_le_div_of_nonneg_right h3q hD.le
  have g2 : (m : ℚ) / 2 ^ k ≤ (c : ℚ) / 255 + 1 / 2 ^ 25 := by
    rw [e1, e2, e3, ← add_div]
    exact div_le_div_of_nonneg_right h2q hD.le
  rw [abs_le]
  constructor <;> linarith

theorem f32_weight_zero : f32_div 0 255 = 0 := by
  have h : f32_div_parts 0 255 = (0, 0) := by decide
  simp [f32_div, h]

theorem f32_weight_one : f32_div 255 255 = 1 := by
  have h : f32_div_parts 255 255 = (8388608, 23) := by decide
  rw [f32_div, h]
  norm_num

theorem f32_weight_of_one : f32_div 1 255 = 8421505 / 2 ^ 31 := by
  have h : f32_div_parts 1 255 = (8421505, 31) := by decide
  rw [f32_div, h]
  norm_num

theorem f32_weight_of_254 : f32_div 254 255 = 16711423 / 2 ^ 24 := by
  have h : f32_div_parts 254 255 = (16711423, 24) := by decide
  rw [f32_div, h]
  norm_num

/-- C13 (amended): weight conversion.  For a layout ordered by stream, when the last
`BlendWeight` entry of type `ubyte4n` decoded on the stream is the decoded entry number
`k`, `expand_vertex_stream` returns, the entry is four bytes long, and in the cells of
every vertex the cells of the entries before it are followed, for every input byte `b` of
that entry, by the single-precision quotient `b / 255.0f`.  Every such weight lies in
`[0, 1]` and within `2 ^ -25` of `b / 255`, four of them sum to within `2 ^ -23` of the
sum of the bytes over 255, and the bytes (255, 0, 0, 0) give exactly the weights
(1, 0, 0, 0). -/
theorem last_packed_weights_are_float_quotients {ext : Externals} {layout : Layout}
    {data : Bytes} {stream : Nat} {is_rigid : Bool} {bpv declared n : Nat}
    {lower dec skipped higher : List Entry}
    (h : Transcodes ext layout data stream is_rigid bpv declared n lower dec skipped higher)
    (k : Nat) (e : Entry)
    (hk : last_index (is_packed "BlendWeight") dec = some k) (he : dec.get? k = some e)
    (fuel : Nat) (hfuel : n ≤ fuel) :
    ∃ (r : Expanded) (normals : List Vec3),
      expand_vertex_stream ext fuel layout data stream is_rigid bpv = .ok r ∧
      normals.length = n ∧
      r.output = stream_cells ext dec is_rigid bpv normals data ∧
      e.size ext.sizes = 4 ∧
      (∀ nrm bytes, ∃ post, vertex_cells ext dec is_rigid nrm bytes
        = cells_from ext dec 0 (dec.take k) bytes
          ++ ((bytes.drop (entries_size ext.sizes (dec.take k))).take 4).map
              (fun b => Cell.f32 (f32_div (b % 256) 255))
          ++ post) ∧
      (∀ b : Nat, 0 ≤ f32_div (b % 256) 255 ∧ f32_div (b % 256) 255 ≤ 1
        ∧ |f32_div (b % 256) 255 - ((b % 256 : Nat) : ℚ) / 255| ≤ 1 / 2 ^ 25) ∧
      (∀ b0 b1 b2 b3 : Nat,
        |f32_div (b0 % 256) 255 + f32_div (b1 % 256) 255 + f32_div (b2 % 256) 255
            + f32_div (b3 % 256) 255
          - ((b0 % 256 + b1 % 256 + b2 % 256 + b3 % 256 : Nat) : ℚ) / 255| ≤ 1 / 2 ^ 23) ∧
      entry_cells ext dec k e [255, 0, 0, 0] = [.f32 1, .f32 0, .f32 0, .f32 0] := by
  obtain ⟨l, normals, hnl, hrun, _, _⟩ := expand_transcodes h fuel hfuel
  have hu := last_index_holds _ dec k e hk he
  simp only [is_packed, decide_eq_true_eq] at hu
  have hmem : e ∈ dec := List.mem_iff_get?.2 ⟨k, he⟩
  have h4 : e.size ext.sizes = 4 := h.packed_size e hmem hu.2
  refine ⟨_, normals, hrun, hnl, rfl, h4, ?_, ?_, ?_, ?_⟩
  · intro nrm bytes
    obtain ⟨post, hp⟩ := vertex_cells_split ext dec is_rigid k e he nrm bytes
    rw [entry_cells_weights ext dec k e _ hk he, h4] at hp
    exact ⟨post, hp⟩
  · intro b
    exact f32_weight_bounds (b % 256) (Nat.mod_lt _ (by norm_num))
  · intro b0 b1 b2 b3
    obtain ⟨_, _, g0⟩ := f32_weight_bounds (b0 % 256) (Nat.mod_lt _ (by norm_num))
    obtain ⟨_, _, g1⟩ := f32_weight_bounds (b1 % 256) (Nat.mod_lt _ (by norm_num))
    obtain ⟨_, _, g2⟩ := f32_weight_bounds (b2 % 256) (Nat.mod_lt _ (by norm_num))
    obtain ⟨_, _, g3⟩ := f32_weight_bounds (b3 % 256) (Nat.mod_lt _ (by norm_num))
    rw [abs_le] at g0 g1 g2 g3 ⊢
    push_cast
    constructor <;> linarith [g0.1, g0.2, g1.1, g1.2, g2.1, g2.2, g3.1, g3.2]
  · rw [entry_cells_weights ext dec k e _ hk he]
    have e255 : (255 : Nat) % 256 = 255 := by norm_num
    have e0 : (0 : Nat) % 256 = 0 := by norm_num
    simp only [List.map_cons, List.map_nil, e255, e0, f32_weight_one, f32_weight_zero]

set_option maxRecDepth 100000 in
/-- C13, witness: Position(Float3), Normal(ubyte4n), BlendIndices(ubyte4),
BlendWeight(ubyte4n), one vertex with the weights (255, 0, 0, 0); the weights are the
decoded entry number 3. -/
theorem last_packed_weights_are_float_quotients_witness :
    ∃ (r : Expanded) (normals : List Vec3),
      expand_vertex_stream example_externals 1 dme.skinned_layout dme.skinned_vertex 0 false 24
        = .ok r ∧
      normals.length = 1 ∧
      r.output = stream_cells example_externals dme.skinned_layout.entries false 24 normals
        dme.skinned_vertex ∧
      Entry.size example_externals.sizes ⟨0, "ubyte4n", "BlendWeight", 0⟩ = 4 ∧
      (∀ nrm bytes, ∃ post,
        vertex_cells example_externals dme.skinned_layout.entries false nrm bytes
        = cells_from example_externals dme.skinned_layout.entries 0
            (dme.skinned_layout.entries.take 3) bytes
          ++ ((bytes.drop (entries_size example_externals.sizes
                (dme.skinned_layout.entries.take 3))).take 4).map
              (fun b => Cell.f32 (f32_div (b % 256) 255))
          ++ post) ∧
      (∀ b : Nat, 0 ≤ f32_div (b % 256) 255 ∧ f32_div (b % 256) 255 ≤ 1
        ∧ |f32_div (b % 256) 255 - ((b % 256 : Nat) : ℚ) / 255| ≤ 1 / 2 ^ 25) ∧
      (∀ b0 b1 b2 b3 : Nat,
        |f32_div (b0 % 256) 255 + f32_div (b1 % 256) 255 + f32_div (b2 % 256) 255
            + f32_div (b3 % 256) 255
          - ((b0 % 256 + b1 % 256 + b2 % 256 + b3 % 256 : Nat) : ℚ) / 255| ≤ 1 / 2 ^ 23) ∧
      entry_cells example_externals dme.skinned_layout.entries 3
          ⟨0, "ubyte4n", "BlendWeight", 0⟩ [255, 0, 0, 0]
        = [.f32 1, .f32 0, .f32 0, .f32 0] :=
  last_packed_weights_are_float_quotients
    (⟨fun _ _ _ _ w => ⟨w, rfl⟩,
      ⟨by decide, by decide, by decide, by decide, by decide, by decide, by decide, by decide,
        by decide, by decide⟩,
      by decide, by decide, by decide, by decide, by decide, by decide, by decide, by decide,
      by decide, by decide, by decide⟩ :
      Transcodes example_externals dme.skinned_layout dme.skinned_vertex 0 false 24 24 1 []
        dme.skinned_layout.entries [] [])
    3 ⟨0, "ubyte4n", "BlendWeight", 0⟩ (by decide) (by decide) 1 (by decide)

set_option maxRecDepth 1000000 in
/-- Claim C13 fails as stated.  (1) Of two `BlendWeight` entries of type `ubyte4n` only
the last is converted: the bytes (255, 0, 0, 0) of the first are written as four bytes,
those of the second as four floats.  (2) In a layout that is not ordered by stream the
bytes (255, 0, 0, 0) of the only such entry are written as four bytes.  (3) The weights
are single-precision quotients: for the bytes (1, 254, 0, 0), which sum to 255, the call
writes `8421505 / 2 ^ 31` and `16711423 / 2 ^ 24`, which are not `1 / 255` and
`254 / 255`, and the four weights do not sum to 1. -/
theorem packed_weights_written_as_bytes_or_rounded :
    (expand_vertex_stream example_externals 1 twin_weights_layout twin_weights_vertex 0 false
        20).map (fun r => ((r.output.drop 12).take 4, (r.output.drop 12).map Cell.width))
      = .ok ([.byte 255, .byte 0, .byte 0, .byte 0], [1, 1, 1, 1, 4, 4, 4, 4])
    ∧ (expand_vertex_stream example_externals 1 unordered_weights_layout weights_vertex 0
        false 16).map (fun r => r.output.drop 12)
      = .ok [.byte 255, .byte 0, .byte 0, .byte 0]
    ∧ (expand_vertex_stream example_externals 1 dme.skinned_layout uneven_weights_vertex 0
        false 24).map (fun r => r.output.drop 19)
      = .ok [.f32 (f32_div 1 255), .f32 (f32_div 254 255), .f32 (f32_div 0 255),
          .f32 (f32_div 0 255)]
    ∧ f32_div 1 255 = 8421505 / 2 ^ 31 ∧ f32_div 1 255 ≠ 1 / 255
    ∧ f32_div 254 255 = 16711423 / 2 ^ 24 ∧ f32_div 254 255 ≠ 254 / 255
    ∧ f32_div 1 255 + f32_div 254 255 + f32_div 0 255 + f32_div 0 255 ≠ 1 := by
  refine ⟨by decide, by decide, by rfl, f32_weight_of_one, ?_, f32_weight_of_254, ?_, ?_⟩
  · rw [f32_weight_of_one]; norm_num
  · rw [f32_weight_of_254]; norm_num
  · rw [f32_weight_of_one, f32_weight_of_254, f32_weight_zero]; norm_num
theorem entry_cells_half (ext : Externals) (dec : List Entry) (k : Nat) (e : Entry)
    (bytes : Bytes) (hty : needs_conversion e.type = true) :
    entry_cells ext dec k e bytes
      = [.f32 (half_value (le_value (bytes.take 2))),
         .f32 (half_value (le_value ((bytes.drop 2).take 2)))] := by
  simp only [entry_cells, hty, if_true]

theorem advance_views {sizes : String → Option Nat} {st st2 : dme.MeshState} {stream : Nat}
    {type : String} (h : dme.advance sizes st stream type = .ok st2) :
    st2.views = st.views ∧ st2.attributes = st.attributes := by
  unfold dme.advance at h
  obtain ⟨off, _, h⟩ := (bind_ok_iff _ _ _).1 h
  obtain ⟨size, _, h⟩ := (bind_ok_iff _ _ _).1 h
  cases h
  exact ⟨rfl, rfl⟩

/-- C14 (amended): the bytes of a `Binormal` entry are emitted, but no vertex attribute is
created for it.  For a layout ordered by stream and a decoded entry number `k` with the
usage `Binormal`, `expand_vertex_stream` returns, and in the cells of every vertex the
cells of the entries before it are followed by the bytes of the entry, copied unchanged
(by two floats when the entry has a half-float type); the entry stays in the layout.  In
`add_mesh_to_gltf` the iteration for an entry with the usage `Binormal` leaves the
accessors and the attributes as they are, and when the stream is not yet full it only
advances the offset of the stream by the size of the entry. -/
theorem binormal_bytes_are_emitted_without_attribute {ext : Externals} {layout : Layout}
    {data : Bytes} {stream : Nat} {is_rigid : Bool} {bpv declared n : Nat}
    {lower dec skipped higher : List Entry}
    (h : Transcodes ext layout data stream is_rigid bpv declared n lower dec skipped higher)
    (k : Nat) (e : Entry) (he : dec.get? k = some e) (hu : e.usage = "Binormal")
    (fuel : Nat) (hfuel : n ≤ fuel) :
    ∃ (r : Expanded) (normals : List Vec3),
      expand_vertex_stream ext fuel layout data stream is_rigid bpv = .ok r ∧
      normals.length = n ∧
      r.output = stream_cells ext dec is_rigid bpv normals data ∧
      (∀ nrm bytes, ∃ post, vertex_cells ext dec is_rigid nrm bytes
        = cells_from ext dec 0 (dec.take k) bytes
          ++ (if needs_conversion e.type then
              [.f32 (half_value (le_value
                  ((bytes.drop (entries_size ext.sizes (dec.take k))).take 2))),
                .f32 (half_value (le_value
                  ((bytes.drop (entries_size ext.sizes (dec.take k) + 2)).take 2)))]
            else ((bytes.drop (entries_size ext.sizes (dec.take k))).take
              (e.size ext.sizes)).map fun b => Cell.byte (b % 256))
          ++ post) ∧
      e.rewritten ∈ r.layout.entries ∧ e.rewritten.usage = "Binormal" ∧
      (∀ (T : dme.MeshTables) (skel : Bool) (bytes_per_vertex : Nat → Nat) (lay : Layout)
          (buffer_sizes : List Nat) (st st2 : dme.MeshState) (b : Entry),
        b.usage = "Binormal" →
        dme.add_accessor ext.sizes T skel bytes_per_vertex lay buffer_sizes st b = .ok st2 →
        st2.views = st.views ∧ st2.attributes = st.attributes) ∧
      (∀ (T : dme.MeshTables) (skel : Bool) (bytes_per_vertex : Nat → Nat) (lay : Layout)
          (buffer_sizes : List Nat) (st : dme.MeshState) (b : Entry) (off size : Nat),
        b.usage = "Binormal" → dme.vector_at st.offsets b.stream = .ok off →
        bytes_per_vertex b.stream ≠ off → ext.sizes b.type = some size →
        dme.add_accessor ext.sizes T skel bytes_per_vertex lay buffer_sizes st b
          = .ok { st with offsets := st.offsets.set b.stream (u32 (off + u32 size)) }) := by
  obtain ⟨l, normals, hnl, hrun, _, hent⟩ := expand_transcodes h fuel hfuel
  have hmem : e ∈ dec := List.mem_iff_get?.2 ⟨k, he⟩
  refine ⟨_, normals, hrun, hnl, rfl, ?_, ?_, hu, ?_, ?_⟩
  · intro nrm bytes
    obtain ⟨post, hp⟩ := vertex_cells_split ext dec is_rigid k e he nrm bytes
    refine ⟨post, ?_⟩
    rw [hp]
    by_cases hty : needs_conversion e.type = true
    · have h4 := h.half_size e hmem hty
      rw [entry_cells_half ext dec k e _ hty, if_pos hty, h4]
      have e1 : (((bytes.drop (entries_size ext.sizes (dec.take k))).take 4).take 2)
          = (bytes.drop (entries_size ext.sizes (dec.take k))).take 2 := by
        rw [List.take_take]; rfl
      have e2 : ((((bytes.drop (entries_size ext.sizes (dec.take k))).take 4).drop 2).take 2)
          = (bytes.drop (entries_size ext.sizes (dec.take k) + 2)).take 2 :=
        window bytes _ 4 2 2 (by omega)
      rw [e1, e2]
    · have hty' : needs_conversion e.type = false := by simpa using hty
      have hb : last_index (has_usage "BlendIndices") dec ≠ some k := by
        intro hc
        have := last_index_holds _ dec k e hc he
        simp only [has_usage, decide_eq_true_eq] at this
        rw [hu] at this
        exact absurd this (by decide)
      rw [entry_cells_copy ext dec k e _ he hty' (by rw [hu]; decide) hb (by rw [hu]; decide),
        if_neg hty]
  · show e.rewritten ∈ l.entries
    rw [hent]
    simp only [List.mem_append, List.mem_map]
    exact Or.inl (Or.inl (Or.inl (Or.inr ⟨e, hmem, rfl⟩)))
  · intro T skel bytes_per_vertex lay buffer_sizes st st2 b hb hrun2
    unfold dme.add_accessor at hrun2
    obtain ⟨off, _, hrun2⟩ := (bind_ok_iff _ _ _).1 hrun2
    by_cases hfull : bytes_per_vertex b.stream = off
    · rw [if_pos hfull] at hrun2
      cases hrun2
      exact ⟨rfl, rfl⟩
    · rw [if_neg hfull, if_pos hb] at hrun2
      exact advance_views hrun2
  · intro T skel bytes_per_vertex lay buffer_sizes st b off size hb hoff hfull hsize
    unfold dme.add_accessor
    simp only [hoff, bind, Except.bind, hfull, if_false, hb, if_true, dme.advance,
      size_of_type, hsize, pure, Except.pure]

set_option maxRecDepth 100000 in
/-- C14, witness: Position(Float3), Tangent(ubyte4n), Binormal(ubyte4n), one vertex; the
binormal is the decoded entry number 2. -/
theorem binormal_bytes_are_emitted_without_attribute_witness :
    ∃ (r : Expanded) (normals : List Vec3),
      expand_vertex_stream example_externals 1 rigid_layout twin_vertex 0 false 20 = .ok r ∧
      normals.length = 1 ∧
      r.output = stream_cells example_externals rigid_layout.entries false 20 normals
        twin_vertex ∧
      (∀ nrm bytes, ∃ post, vertex_cells example_externals rigid_layout.entries false nrm bytes
        = cells_from example_externals rigid_layout.entries 0 (rigid_layout.entries.take 2)
            bytes
          ++ (if needs_conversion (Entry.mk 0 "ubyte4n" "Binormal" 0).type then
              [.f32 (half_value (le_value
                  ((bytes.drop (entries_size example_externals.sizes
                    (rigid_layout.entries.take 2))).take 2))),
                .f32 (half_value (le_value
                  ((bytes.drop (entries_size example_externals.sizes
                    (rigid_layout.entries.take 2) + 2)).take 2)))]
            else ((bytes.drop (entries_size example_externals.sizes
                (rigid_layout.entries.take 2))).take
              (Entry.size example_externals.sizes ⟨0, "ubyte4n", "Binormal", 0⟩)).map
                fun b => Cell.byte (b % 256))
          ++ post) ∧
      (Entry.mk 0 "ubyte4n" "Binormal" 0).rewritten ∈ r.layout.entries ∧
      (Entry.mk 0 "ubyte4n" "Binormal" 0).rewritten.usage = "Binormal" ∧
      (∀ (T : dme.MeshTables) (skel : Bool) (bytes_per_vertex : Nat → Nat) (lay : Layout)
          (buffer_sizes : List Nat) (st st2 : dme.MeshState) (b : Entry),
        b.usage = "Binormal" →
        dme.add_accessor example_externals.sizes T skel bytes_per_vertex lay buffer_sizes st b
          = .ok st2 →
        st2.views = st.views ∧ st2.attributes = st.attributes) ∧
      (∀ (T : dme.MeshTables) (skel : Bool) (bytes_per_vertex : Nat → Nat) (lay : Layout)
          (buffer_sizes : List Nat) (st : dme.MeshState) (b : Entry) (off size : Nat),
        b.usage = "Binormal" → dme.vector_at st.offsets b.stream = .ok off →
        bytes_per_vertex b.stream ≠ off → example_externals.sizes b.type = some size →
        dme.add_accessor example_externals.sizes T skel bytes_per_vertex lay buffer_sizes st b
          = .ok { st with offsets := st.offsets.set b.stream (u32 (off + u32 size)) }) :=
  binormal_bytes_are_emitted_without_attribute
    (⟨fun _ _ _ _ w => ⟨w, rfl⟩,
      ⟨by decide, by decide, by decide, by decide, by decide, by decide, by decide, by decide,
        by decide, by decide⟩,
      by decide, by decide, by decide, by decide, by decide, by decide, by decide, by decide,
      by decide, by decide, by decide⟩ :
      Transcodes example_externals rigid_layout twin_vertex 0 false 20 20 1 []
        rigid_layout.entries [] [])
    2 ⟨0, "ubyte4n", "Binormal", 0⟩ (by decide) (by decide) 1 (by decide)

set_option maxRecDepth 100000 in
/-- Claim C14 fails as stated: for Position(Float3), Tangent(ubyte4n), Binormal(ubyte4n)
and a vertex whose binormal bytes are 5, 6, 7, 8, the conversion path is taken (a normal
is calculated) and the bytes 16 to 19 of the 32 bytes emitted for the vertex are the
binormal bytes 5, 6, 7, 8; the size 32 recorded in the layout counts them. -/
theorem binormal_bytes_are_in_the_output :
    takes_conversion_path example_externals.sizes rigid_layout 0 false 20 = true
    ∧ (expand_vertex_stream example_externals 1 rigid_layout twin_vertex 0 false 20).map
        (fun r => ((r.output.drop 16).take 4, output_size r.output, r.layout.sizes))
      = .ok ([.byte 5, .byte 6, .byte 7, .byte 8], 32, [(0, 32)]) := by
  refine ⟨by decide, by decide⟩
/-- C26: the size adjustment recorded in the layout matches the bytes emitted.  For a
stream whose declared size is the sum of the sizes of its entries, in a layout ordered by
stream, with at most one `Normal` and at most one `ubyte4n` `BlendWeight` entry on the
stream: when `expand_vertex_stream` takes the conversion path it returns, the size `size`
that it leaves in the layout for the stream is the number of bytes that it emits for every
vertex, and for `n` vertices the output holds `n * size` bytes. -/
theorem layout_size_matches_emitted_bytes {ext : Externals} {layout : Layout} {data : Bytes}
    {stream : Nat} {is_rigid : Bool} {bpv declared n : Nat}
    {lower dec skipped higher : List Entry}
    (h : Transcodes ext layout data stream is_rigid bpv declared n lower dec skipped higher)
    (hsum : declared = entries_size ext.sizes (dec ++ skipped))
    (hN : ((dec ++ skipped).filter (has_usage "Normal")).length ≤ 1)
    (hW : ((dec ++ skipped).filter (is_packed "BlendWeight")).length ≤ 1)
    (fuel : Nat) (hfuel : n ≤ fuel) :
    ∃ (r : Expanded) (normals : List Vec3) (size : Nat),
      expand_vertex_stream ext fuel layout data stream is_rigid bpv = .ok r ∧
      r.layout.size_at stream = .ok size ∧
      normals.length = n ∧
      r.output = stream_cells ext dec is_rigid bpv normals data ∧
      (∀ nrm bytes, entries_size ext.sizes dec ≤ bytes.length →
        output_size (vertex_cells ext dec is_rigid nrm bytes) = size) ∧
      output_size r.output = n * size := by
  obtain ⟨l, normals, hnl, hrun, hsz, _⟩ := expand_transcodes h fuel hfuel
  have hN' : (dec.filter (has_usage "Normal")).length ≤ 1 := by
    rw [List.filter_append, List.length_append] at hN; omega
  have hW' : (dec.filter (is_packed "BlendWeight")).length ≤ 1 := by
    rw [List.filter_append, List.length_append] at hW; omega
  have hsize : declared + entries_adjustment dec - entries_size ext.sizes skipped
      + appended_size dec is_rigid
      = entries_size ext.sizes dec + entries_adjustment dec + appended_size dec is_rigid := by
    rw [hsum, entries_size_append]; omega
  rw [hsize] at hsz
  refine ⟨_, normals, _, hrun, hsz, hnl, rfl,
    fun nrm bytes hb => vertex_cells_size ext dec is_rigid h.half_size h.packed_size hN' hW'
      nrm bytes hb, ?_⟩
  have hs := stream_cells_size ext dec is_rigid bpv h.half_size h.packed_size hN' hW'
    h.within_stride normals data (by rw [hnl]; exact h.vertices)
  rw [hnl] at hs
  exact hs

set_option maxRecDepth 100000 in
/-- C26, witness: Position(Float3), Normal(ubyte4n), BlendIndices(ubyte4),
BlendWeight(ubyte4n) with the stride 24, one vertex: the call returns, the updated size of
the stream is 44 and the output holds 44 bytes. -/
theorem layout_size_matches_emitted_bytes_witness :
    (∃ (r : Expanded) (normals : List Vec3) (size : Nat),
      expand_vertex_stream example_externals 1 dme.skinned_layout dme.skinned_vertex 0 false 24
        = .ok r ∧
      r.layout.size_at 0 = .ok size ∧
      normals.length = 1 ∧
      r.output = stream_cells example_externals dme.skinned_layout.entries false 24 normals
        dme.skinned_vertex ∧
      (∀ nrm bytes, entries_size example_externals.sizes dme.skinned_layout.entries
          ≤ bytes.length →
        output_size (vertex_cells example_externals dme.skinned_layout.entries false nrm bytes)
          = size) ∧
      output_size r.output = 1 * size) ∧
    (expand_vertex_stream example_externals 1 dme.skinned_layout dme.skinned_vertex 0 false
        24).map (fun r => (r.layout.sizes, output_size r.output)) = .ok ([(0, 44)], 44) :=
  ⟨layout_size_matches_emitted_bytes
    (⟨fun _ _ _ _ w => ⟨w, rfl⟩,
      ⟨by decide, by decide, by decide, by decide, by decide, by decide, by decide, by decide,
        by decide, by decide⟩,
      by decide, by decide, by decide, by decide, by decide, by decide, by decide, by decide,
      by decide, by decide, by decide⟩ :
      Transcodes example_externals dme.skinned_layout dme.skinned_vertex 0 false 24 24 1 []
        dme.skinned_layout.entries [] [])
    (by decide) (by decide) (by decide) 1 (by decide),
    by decide⟩

end warpgate
